import Mathlib

/-!
# Verification development for the arithmetic orchestrator

A shallow embedding of `pkg/stack`, `pkg/parser`, `internal/models`, the
scheduling part of `internal/orchestrator` and the computation of a worker of
`internal/agent`, followed by theorems about them.

Conventions of the embedding:

* Go strings are Lean `String`s, a `range` over a string is a traversal of the
  list of its characters.
* Pointers to nodes are indices into an arena (`List Node`) in allocation
  order; pointers to expressions are indices into the orchestrator's list of
  allocated expressions.
* Go maps are association lists with unique keys; a `range` over a map takes
  the iteration order as an explicit argument, since Go leaves it unspecified.
* `float64` values are modelled by the rational numbers they denote (the two
  zeros are identified; infinities and NaN never reach the orchestrator, whose
  floats come from decimal literals and from JSON numbers).
-/

namespace Calc

/-! ## Library functions used by the sources -/

/-- Ranges of the Unicode category Nd (decimal digits), the table behind Go's
`unicode.IsDigit` (Unicode 15.0.0). -/
def digitRanges : List (Nat × Nat) :=
  [(0x30, 0x39), (0x660, 0x669), (0x6F0, 0x6F9), (0x7C0, 0x7C9), (0x966, 0x96F), (0x9E6, 0x9EF),
   (0xA66, 0xA6F), (0xAE6, 0xAEF), (0xB66, 0xB6F), (0xBE6, 0xBEF), (0xC66, 0xC6F), (0xCE6, 0xCEF),
   (0xD66, 0xD6F), (0xDE6, 0xDEF), (0xE50, 0xE59), (0xED0, 0xED9), (0xF20, 0xF29), (0x1040, 0x1049),
   (0x1090, 0x1099), (0x17E0, 0x17E9), (0x1810, 0x1819), (0x1946, 0x194F), (0x19D0, 0x19D9),
   (0x1A80, 0x1A89), (0x1A90, 0x1A99), (0x1B50, 0x1B59), (0x1BB0, 0x1BB9), (0x1C40, 0x1C49),
   (0x1C50, 0x1C59), (0xA620, 0xA629), (0xA8D0, 0xA8D9), (0xA900, 0xA909), (0xA9D0, 0xA9D9),
   (0xA9F0, 0xA9F9), (0xAA50, 0xAA59), (0xABF0, 0xABF9), (0xFF10, 0xFF19), (0x104A0, 0x104A9),
   (0x10D30, 0x10D39), (0x11066, 0x1106F), (0x110F0, 0x110F9), (0x11136, 0x1113F),
   (0x111D0, 0x111D9), (0x112F0, 0x112F9), (0x11450, 0x11459), (0x114D0, 0x114D9),
   (0x11650, 0x11659), (0x116C0, 0x116C9), (0x11730, 0x11739), (0x118E0, 0x118E9),
   (0x11950, 0x11959), (0x11C50, 0x11C59), (0x11D50, 0x11D59), (0x11DA0, 0x11DA9),
   (0x11F50, 0x11F59), (0x16A60, 0x16A69), (0x16AC0, 0x16AC9), (0x16B50, 0x16B59),
   (0x1D7CE, 0x1D7FF), (0x1E140, 0x1E149), (0x1E2F0, 0x1E2F9), (0x1E4F0, 0x1E4F9),
   (0x1E950, 0x1E959), (0x1FBF0, 0x1FBF9)]

/-- Go's `unicode.IsDigit`. -/
def unicodeIsDigit (c : Char) : Bool :=
  digitRanges.any (fun r => decide (r.1 ≤ c.toNat) && decide (c.toNat ≤ r.2))

/-- An ASCII decimal digit, the only digits `strconv.ParseFloat` reads. -/
def asciiDigit (c : Char) : Bool :=
  decide ('0'.toNat ≤ c.toNat) && decide (c.toNat ≤ '9'.toNat)

/-- State of the scan of a decimal literal: the digits read so far as a
number, how many of them follow the point, whether a point and whether a digit
were seen. -/
structure DecScan where
  mant : Nat
  scale : Nat
  sawdot : Bool
  sawdigits : Bool
deriving DecidableEq, Repr

/-- The digit loop of `strconv`'s `readFloat` on a decimal literal without
exponent: digits and at most one point; anything else is a syntax error. -/
def scanDecimal : List Char → DecScan → Option DecScan
  | [], st => some st
  | c :: cs, st =>
    if asciiDigit c then
      scanDecimal cs
        { st with mant := st.mant * 10 + (c.toNat - '0'.toNat)
                  scale := if st.sawdot then st.scale + 1 else st.scale
                  sawdigits := true }
    else if c = '.' then
      if st.sawdot then none else scanDecimal cs { st with sawdot := true }
    else none

/-- Syntax of a decimal literal: optional sign, digits with at most one point,
at least one digit. Returns the sign, the digits as a number and the number of
digits after the point. -/
def parseDecimal (cs : List Char) : Option (Bool × Nat × Nat) :=
  let body (neg : Bool) (rest : List Char) : Option (Bool × Nat × Nat) :=
    match scanDecimal rest ⟨0, 0, false, false⟩ with
    | some st => if st.sawdigits then some (neg, st.mant, st.scale) else none
    | none => none
  match cs with
  | '+' :: rest => body false rest
  | '-' :: rest => body true rest
  | _ => body false cs

/-- Rounding of a rational to the nearest integer, ties to the even one. -/
def roundHalfEven (x : ℚ) : ℤ :=
  let f := ⌊x⌋
  if x - f < 1 / 2 then f
  else if 1 / 2 < x - f then f + 1
  else if f % 2 = 0 then f else f + 1

/-- Rounding of a rational to the nearest binary64 value (53-bit significand,
least exponent -1022, ties to even), without the overflow check. -/
def round64 (x : ℚ) : ℚ :=
  if x = 0 then 0
  else
    let e : ℤ := max (Int.log 2 |x|) (-1022)
    let u : ℤ := e - 52
    (if x < 0 then -1 else 1) * (roundHalfEven (|x| / (2 : ℚ) ^ u) : ℚ) * (2 : ℚ) ^ u

/-- Decimal values at or above this bound round to a binary64 beyond the
largest finite one: the largest finite value plus half a unit in the last
place, `2^1024 - 2^970`. -/
def overflowBound : Nat := 2 ^ 256 * 2 ^ 256 * 2 ^ 256 * 2 ^ 256 - 2 ^ 256 * 2 ^ 256 * 2 ^ 256 * 2 ^ 202

/-- Go's `strconv.ParseFloat(s, 64)` on decimal literals without exponent:
`none` is a non-nil error (a syntax error, or a range error for a literal that
rounds beyond the largest finite float64). The hexadecimal, exponent, `inf` and
`nan` forms are not modelled: they need a letter, and no string the parser or
the orchestrator passes to `ParseFloat` holds one (tokens are made of digits,
commas and operator characters, node values are tokens or `%.5f` renderings of
finite floats). -/
def ParseFloat (s : String) : Option ℚ :=
  match parseDecimal s.data with
  | none => none
  | some (neg, m, sc) =>
    if overflowBound * 10 ^ sc ≤ m then none
    else some (round64 ((if neg then -1 else 1) * (m : ℚ) / (10 : ℚ) ^ sc))

/-- The decimal digits of a number below ten. -/
def digitChar (d : Nat) : Char := Char.ofNat ('0'.toNat + d)

/-- The decimal digits of `n`, most significant first, at most `fuel` of them
when `n` has more. -/
def natDigitsAux : Nat → Nat → List Char → List Char
  | 0, _, acc => acc
  | fuel + 1, n, acc =>
    if n < 10 then digitChar n :: acc
    else natDigitsAux fuel (n / 10) (digitChar (n % 10) :: acc)

/-- The decimal rendering of a natural number. -/
def natDigits (n : Nat) : List Char := natDigitsAux (n + 1) n []

/-- The five digits after the point. -/
def fracDigits (f : Nat) : List Char :=
  [digitChar (f / 10000 % 10), digitChar (f / 1000 % 10), digitChar (f / 100 % 10),
   digitChar (f / 10 % 10), digitChar (f % 10)]

/-- Go's `fmt.Sprintf("%.5f", x)` on a finite float64: the value rounded to
five decimals (ties to even, on the exact binary value), a minus sign for a
negative value. -/
def sprintf5 (x : ℚ) : String :=
  let n := (roundHalfEven (|x| * 100000)).toNat
  String.mk ((if x < 0 then ['-'] else []) ++ natDigits (n / 100000) ++ '.' :: fracDigits (n % 100000))

/-- The finite values of a float64: `m * 2^u` with a significand below `2^53`
and an exponent in the binary64 range. -/
def isFloat64 (x : ℚ) : Prop :=
  ∃ (m : ℤ) (u : ℤ), |m| < 2 ^ 53 ∧ -1074 ≤ u ∧ u ≤ 971 ∧ x = (m : ℚ) * (2 : ℚ) ^ u

/-! ## Go maps and pointers -/

/-- A map assignment `m[k] = v`. -/
def mapSet {κ ν : Type} [DecidableEq κ] : List (κ × ν) → κ → ν → List (κ × ν)
  | [], k, v => [(k, v)]
  | kv :: m, k, v => if kv.1 = k then (k, v) :: m else kv :: mapSet m k v

/-- A map read `m[k]`, `none` for a missing key. -/
def mapGet {κ ν : Type} [DecidableEq κ] : List (κ × ν) → κ → Option ν
  | [], _ => none
  | kv :: m, k => if kv.1 = k then some kv.2 else mapGet m k

/-- The keys of a map. -/
def mapKeys {κ ν : Type} (m : List (κ × ν)) : List κ := m.map Prod.fst

/-- An assignment through a pointer: the object at index `p` replaced by its
image under `f`. -/
def update {α : Type} (xs : List α) (p : Nat) (f : α → α) : List α :=
  match xs[p]? with
  | some x => xs.set p (f x)
  | none => xs

/-! ## `pkg/stack` -/

/-- The generic stack of `pkg/stack`, its `elements` slice listed from the top
(the last element of the slice) downwards. -/
abbrev Stack (α : Type) := List α

/-- Go's `NewStack`. -/
def NewStack {α : Type} : Stack α := []

/-- Go's `Stack.Push`. -/
def Stack.Push {α : Type} (s : Stack α) (x : α) : Stack α := x :: s

/-- Go's `Stack.Pop`: the top and the rest, `none` for the `false` flag. -/
def Stack.Pop {α : Type} : Stack α → Option (α × Stack α)
  | [] => none
  | x :: s => some (x, s)

/-- Go's `Stack.Peek`; on an empty stack the source indexes out of range, `none`. -/
def Stack.Peek {α : Type} : Stack α → Option α
  | [] => none
  | x :: _ => some x

/-- Go's `Stack.Len`. -/
def Stack.Len {α : Type} (s : Stack α) : Nat := s.length

/-- Go's `Stack.IsEmpty`. -/
def Stack.IsEmpty {α : Type} (s : Stack α) : Bool := s.isEmpty

/-! ## `internal/models` -/

/-- Go's `models.NodeType`. -/
inductive NodeType where
  | Number
  | Operator
deriving DecidableEq, Repr

/-- Go's `models.NodeStatus`. -/
inductive NodeStatus where
  | StatusCreated
  | StatusInQueue
  | StatusAtWorker
  | StatusDone
deriving DecidableEq, Repr

/-- The struct `models.Node`; `Dependencies` holds arena indices in place of
pointers and `Typ` is the field `Type`. The field `ExpressionID` is never
written by the sources and is left out. -/
structure Node where
  Typ : NodeType
  Value : String
  Dependencies : List Nat
  Level : Nat
  Status : NodeStatus
deriving DecidableEq, Repr

/-! ## `pkg/parser` -/

/-- The map `operatorPriority`; `none` for a rune that is not a key. -/
def operatorPriority (c : Char) : Option Nat :=
  if c = '(' then some 0
  else if c = ')' then some 0
  else if c = '+' then some 1
  else if c = '-' then some 1
  else if c = '*' then some 2
  else if c = '/' then some 2
  else none

/-- Local state of `toPostfix`. -/
structure Scan where
  output : List String
  operatorStack : Stack Char
  curNum : List Char
  openBrackets : Int
deriving DecidableEq, Repr

/-- The flush of a pending number into the output (parser.go:47-50, 85-87). -/
def flushNum (st : Scan) : Scan :=
  if st.curNum ≠ [] then { st with output := st.output ++ [String.mk st.curNum], curNum := [] }
  else st

/-- The loop on a closing bracket (parser.go:61-67): pop to the output until an
opening bracket was popped or the stack is empty. -/
def popToOpen : Stack Char → List String → Stack Char × List String
  | [], out => ([], out)
  | op :: rest, out =>
    if op = '(' then (rest, out) else popToOpen rest (out ++ [String.singleton op])

/-- The loop on an operator (parser.go:71-79): pop to the output while the top
is not a bracket and its priority is at least the incoming one. -/
def popHigher (priority : Nat) : Stack Char → List String → Stack Char × List String
  | [], out => ([], out)
  | topOp :: rest, out =>
    if topOp ≠ '(' ∧ priority ≤ (operatorPriority topOp).getD 0 then
      popHigher priority rest (out ++ [String.singleton topOp])
    else (topOp :: rest, out)

/-- One iteration of the scanning loop of `toPostfix` (parser.go:37-83). -/
def scanRune (st : Scan) (n : Char) : Scan :=
  if unicodeIsDigit n || (decide (st.curNum ≠ []) && (decide (n = '.') || decide (n = ','))) then
    { st with curNum := st.curNum ++ [if n = '.' then ',' else n] }
  else
    let st := flushNum st
    match operatorPriority n with
    | none => st
    | some priority =>
      if n = '(' then
        { st with openBrackets := st.openBrackets + 1, operatorStack := st.operatorStack.Push n }
      else if n = ')' then
        let r := popToOpen st.operatorStack st.output
        { st with openBrackets := st.openBrackets - 1, operatorStack := r.1, output := r.2 }
      else
        let r := popHigher priority st.operatorStack st.output
        { st with operatorStack := Stack.Push r.1 n, output := r.2 }

/-- The final loop of `toPostfix` (parser.go:93-99). -/
def drain : Stack Char → List String → Except String (List String)
  | [], out => .ok out
  | op :: rest, out =>
    if op = '(' then .error "mismatched brackets" else drain rest (out ++ [String.singleton op])

/-- Go's `toPostfix`: infix text to a postfix token list. -/
def toPostfix (expression : String) : Except String (List String) :=
  let st := flushNum (expression.data.foldl scanRune ⟨[], NewStack, [], 0⟩)
  if st.openBrackets ≠ 0 then .error "brackets aren't balanced"
  else drain st.operatorStack st.output

/-- A read `levelMap[level]` of the Go `map[int][]*Node`: the slice under the
key, the nil slice for a missing key. -/
def levelNodes (m : List (Nat × List Nat)) (level : Nat) : List Nat :=
  (mapGet m level).getD []

/-- The statement `levelMap[level] = append(levelMap[level], node)`. -/
def levelAppend (m : List (Nat × List Nat)) (level : Nat) (node : Nat) : List (Nat × List Nat) :=
  mapSet m level (levelNodes m level ++ [node])

/-- What `createDAG` builds: the nodes it allocated, in allocation order (a
node pointer is an index into `nodes`), the level map and the maximum level. -/
structure DAG where
  nodes : List Node
  levelMap : List (Nat × List Nat)
  maxLevel : Nat
deriving DecidableEq, Repr

/-- Local state of `createDAG`. -/
structure Build where
  nodes : List Node
  dagStack : Stack Nat
  levelMap : List (Nat × List Nat)
  maxLevel : Nat
deriving DecidableEq, Repr

/-- The level of the node behind a pointer. -/
def levelOf (nodes : List Node) (p : Nat) : Nat :=
  match nodes[p]? with
  | some n => n.Level
  | none => 0

/-- One iteration of the loop of `createDAG` (parser.go:110-141). -/
def buildToken (st : Build) (n : String) : Except String Build :=
  if (ParseFloat n).isSome then
    let p := st.nodes.length
    .ok { nodes := st.nodes ++ [⟨NodeType.Number, n, [], 0, NodeStatus.StatusCreated⟩]
          dagStack := st.dagStack.Push p
          levelMap := levelAppend st.levelMap 0 p
          maxLevel := st.maxLevel }
  else
    match st.dagStack.Pop with
    | none => .error "stack.pop not ok"
    | some (rightOperand, s1) =>
      match Stack.Pop s1 with
      | none => .error "stack.pop not ok"
      | some (leftOperand, s2) =>
        let level := max (levelOf st.nodes rightOperand) (levelOf st.nodes leftOperand) + 1
        let p := st.nodes.length
        .ok { nodes := st.nodes ++
                [⟨NodeType.Operator, n, [leftOperand, rightOperand], level, NodeStatus.StatusCreated⟩]
              dagStack := Stack.Push s2 p
              levelMap := levelAppend st.levelMap level p
              maxLevel := if st.maxLevel < level then level else st.maxLevel }

/-- The loop of `createDAG` over the token list. -/
def buildTokens : List String → Build → Except String Build
  | [], st => .ok st
  | n :: rest, st =>
    match buildToken st n with
    | .error e => .error e
    | .ok st1 => buildTokens rest st1

/-- Go's `createDAG`: postfix tokens to a levelled dependency graph. -/
def createDAG (poland : List String) : Except String DAG :=
  match buildTokens poland ⟨[], NewStack, [], 0⟩ with
  | .error e => .error e
  | .ok st =>
    if st.dagStack.Len ≠ 1 then
      .error ("invalid expression: expected 1 root node, got " ++ String.mk (natDigits st.dagStack.Len))
    else .ok ⟨st.nodes, st.levelMap, st.maxLevel⟩

/-- Go's `ParseExpression`. -/
def ParseExpression (expression : String) : Except String DAG :=
  match toPostfix expression with
  | .error e => .error e
  | .ok poland => createDAG poland

/-! ## `internal/orchestrator` -/

/-- Go's `orchestrator.ExpressionStatus`. -/
inductive ExpressionStatus where
  | StatusCreated
  | StatusInQueue
  | StatusInProgress
  | StatusDone
  | StatusError
deriving DecidableEq, Repr

/-- The struct `orchestrator.Expression`. `nodes` is the arena of the nodes
the expression owns, `IdMap` maps a local id to a pointer into it, `Err` is
`none` for a nil error and the error's message otherwise. -/
structure Expression where
  ID : Int
  nodes : List Node
  IdMap : List (Int × Nat)
  Status : ExpressionStatus
  Err : Option String
  Result : ℚ
deriving DecidableEq, Repr

/-- The struct `config.OrchestratorConfig`. -/
structure OrchestratorConfig where
  Port : Int
  TimeAdditionMS : Int
  TimeSubtractionMS : Int
  TimeMultiplicationsMS : Int
  TimeDivisionsMS : Int
deriving DecidableEq, Repr

/-- The struct `orchestrator.Orchestrator`. `exprs` lists the expressions
allocated so far, an expression pointer is an index into it; `Queue` holds
pointers, `DataBase` is the map `DataBase.ExpressionList` from ids to
pointers. -/
structure Orchestrator where
  exprs : List Expression
  Queue : List Nat
  PrevExpressionID : Int
  DataBase : List (Int × Nat)
  Config : OrchestratorConfig
deriving DecidableEq, Repr

/-- The value of a Go `int32` after an arithmetic operation whose exact result
is `x`. -/
def wrapInt32 (x : Int) : Int := (x + 2147483648) % 4294967296 - 2147483648

/-- The value of a Go `int64` after an arithmetic operation whose exact result
is `x`. -/
def wrapInt64 (x : Int) : Int :=
  (x + 9223372036854775808) % 18446744073709551616 - 9223372036854775808

/-- The constant `time.Millisecond`, in nanoseconds. -/
def Millisecond : Int := 1000000

/-- The expression `time.Duration(ms) * time.Millisecond`, in nanoseconds. -/
def durationOfMS (ms : Int) : Int := wrapInt64 (ms * Millisecond)

/-- Go's `NewOrchestrator`. -/
def NewOrchestrator (cfg : OrchestratorConfig) : Orchestrator :=
  { exprs := [], Queue := [], PrevExpressionID := 0, DataBase := [], Config := cfg }

/-- Go's `Orchestrator.NewExpression`, without the node arena, which
`prepareInput` hands over. -/
def NewExpression (o : Orchestrator) : Orchestrator × Expression :=
  let id := wrapInt32 (o.PrevExpressionID + 1)
  ({ o with PrevExpressionID := wrapInt32 (o.PrevExpressionID + 1) },
   { ID := id, nodes := [], IdMap := [], Status := ExpressionStatus.StatusCreated,
     Err := none, Result := 0 })

/-- The pointers of the level map in the order `prepareInput` visits them:
levels `0..maxLevel` ascending (here from `level` for `k` levels), each
level's slice in its order. -/
def levelOrder (levelMap : List (Nat × List Nat)) : Nat → Nat → List Nat
  | _, 0 => []
  | level, k + 1 => levelNodes levelMap level ++ levelOrder levelMap (level + 1) k

/-- The status `prepareInput` gives a node (orchestrator.go:171-181): a number
is done, an operation waits in the queue. -/
def markNode (n : Node) : Node :=
  if n.Typ = NodeType.Number then { n with Status := NodeStatus.StatusDone }
  else { n with Status := NodeStatus.StatusInQueue }

/-- The inner loop body of `prepareInput` over the visited nodes
(orchestrator.go:162-185); `prevID` is the last id handed out. -/
def assignIds : List Nat → Expression → Int → Except String Expression
  | [], expr, _ => .ok expr
  | node :: rest, expr, prevID =>
    let curID := prevID + 1
    if (mapGet expr.IdMap curID).isSome then .error "почему уже есть?"
    else
      let nodes := update expr.nodes node markNode
      assignIds rest { expr with nodes := nodes, IdMap := mapSet expr.IdMap curID node } (prevID + 1)

/-- Go's `Orchestrator.prepareInput`: the orchestrator afterwards and, on
success, the pointer to the new expression. -/
def prepareInput (o : Orchestrator) (input : String) : Orchestrator × Except String Nat :=
  match ParseExpression input with
  | .error e => (o, .error e)
  | .ok dag =>
    let (o1, expr0) := NewExpression o
    match assignIds (levelOrder dag.levelMap 0 (dag.maxLevel + 1))
        { expr0 with nodes := dag.nodes } 0 with
    | .error e => (o1, .error e)
    | .ok expr =>
      let p := o1.exprs.length
      ({ o1 with exprs := o1.exprs ++ [expr], DataBase := mapSet o1.DataBase expr.ID p }, .ok p)

/-- The task a worker receives (handlers.go:202-214); `OperationTime` in
nanoseconds, as `time.Duration` is encoded. -/
structure Task where
  ID : Int
  Arg1 : ℚ
  Arg2 : ℚ
  Operation : String
  OperationTime : Int
deriving DecidableEq, Repr

/-- What a handler answers: one constructor per success body, `error` for
`http.Error` with its status code and message, `panic` for a run-time panic of
the handler. -/
inductive Response where
  | calculated (id : Int) (status : ExpressionStatus)
  | task (t : Task)
  | ok
  | error (code : Nat) (msg : String)
  | panic
deriving DecidableEq, Repr

/-- Go's `Orchestrator.CalculateHandler` on a decoded request body
(handlers.go:52-97). -/
def CalculateHandler (o : Orchestrator) (expression : String) : Orchestrator × Response :=
  match prepareInput o expression with
  | (o1, .error _) => (o1, Response.error 422 "Invalid expression")
  | (o1, .ok p) =>
    match o1.exprs[p]? with
    | none => (o1, Response.error 500 "Internal error")
    | some expr =>
      let exprs := update o1.exprs p (fun e => { e with Status := ExpressionStatus.StatusInQueue })
      ({ o1 with exprs := exprs, Queue := o1.Queue ++ [p], DataBase := mapSet o1.DataBase expr.ID p },
       Response.calculated expr.ID ExpressionStatus.StatusInQueue)

/-- The switch on the operator symbol (handlers.go:187-196). -/
def operationTime (cfg : OrchestratorConfig) (op : String) : Int :=
  if op = "+" then durationOfMS cfg.TimeAdditionMS
  else if op = "-" then durationOfMS cfg.TimeSubtractionMS
  else if op = "*" then durationOfMS cfg.TimeMultiplicationsMS
  else if op = "/" then durationOfMS cfg.TimeDivisionsMS
  else 0

/-- The statement `task.Status = models.StatusAtWorker` (handlers.go:155). -/
def claimNode (n : Node) : Node := { n with Status := NodeStatus.StatusAtWorker }

/-- The three assignments to the completed node (handlers.go:296-298). -/
def reportNode (stringResult : String) (n : Node) : Node :=
  { n with Value := stringResult, Status := NodeStatus.StatusDone, Typ := NodeType.Number }

/-- The loop of `GetTaskHandler` over the node map (handlers.go:132-219), the
ids visited in the given order: the arena afterwards and the task sent, if
any. An id or pointer without a node behind it is skipped. -/
def claimLoop (cfg : OrchestratorConfig) (idMap : List (Int × Nat)) :
    List Int → List Node → List Node × Option Task
  | [], nodes => (nodes, none)
  | id :: rest, nodes =>
    match (mapGet idMap id).bind (fun p => (nodes[p]?).map (fun n => (p, n))) with
    | none => claimLoop cfg idMap rest nodes
    | some (p, task) =>
      if task.Typ ≠ NodeType.Operator ∨ task.Status ≠ NodeStatus.StatusInQueue then
        claimLoop cfg idMap rest nodes
      else
        match task.Dependencies with
        | d1 :: d2 :: _ =>
          match nodes[d1]?, nodes[d2]? with
          | some dep1, some dep2 =>
            if dep1.Typ ≠ NodeType.Number ∨ dep2.Typ ≠ NodeType.Number then
              claimLoop cfg idMap rest nodes
            else
              let nodes1 := update nodes p claimNode
              match ParseFloat dep1.Value with
              | none => claimLoop cfg idMap rest nodes1
              | some arg1 =>
                match ParseFloat dep2.Value with
                | none => claimLoop cfg idMap rest nodes1
                | some arg2 =>
                  (nodes1, some { ID := id, Arg1 := arg1, Arg2 := arg2, Operation := task.Value,
                                  OperationTime := operationTime cfg task.Value })
          | _, _ => claimLoop cfg idMap rest nodes
        | _ => claimLoop cfg idMap rest nodes

/-- Go's `Orchestrator.GetTaskHandler` on a GET request; `order` is the order
in which the `range` visits the keys of the head expression's node map. -/
def GetTaskHandler (o : Orchestrator) (order : List Int) : Orchestrator × Response :=
  match o.Queue with
  | [] => (o, Response.error 404 "No tasks available now (no expressions in queue)")
  | p :: _ =>
    match o.exprs[p]? with
    | none => (o, Response.panic)
    | some expr =>
      let r := claimLoop o.Config expr.IdMap order expr.nodes
      let expr1 := { expr with Status := ExpressionStatus.StatusInProgress, nodes := r.1 }
      ({ o with exprs := o.exprs.set p expr1 },
       match r.2 with
       | some t => Response.task t
       | none => Response.error 404 "No tasks to do")

/-- The part of a format after a `%`: flags, width and precision are skipped up
to the verb. -/
def skipFormatSpec : List Char → List Char
  | [] => []
  | c :: cs =>
    if c = '#' ∨ c = '0' ∨ c = '+' ∨ c = '-' ∨ c = ' ' ∨ c = '.' ∨ asciiDigit c then skipFormatSpec cs
    else c :: cs

/-- Go's `fmt.Sprintf(format)` without operands, which `fmt.Errorf(format)`
uses for the message: text is copied, `%%` gives a percent sign, another verb
gives `%!v(MISSING)` and a `%` without verb `%!(NOVERB)`. Formats with a `*`
width or precision or an argument index `[n]` are outside this model. -/
def sprintfNoArgs : Nat → List Char → List Char
  | 0, _ => []
  | _ + 1, [] => []
  | fuel + 1, c :: cs =>
    if c = '%' then
      match skipFormatSpec cs with
      | [] => "%!(NOVERB)".data
      | v :: rest =>
        if v = '%' then '%' :: sprintfNoArgs fuel rest
        else "%!".data ++ v :: "(MISSING)".data ++ sprintfNoArgs fuel rest
    else c :: sprintfNoArgs fuel cs

/-- The message of the error `fmt.Errorf(format)`. -/
def Errorf (format : String) : String := String.mk (sprintfNoArgs (format.data.length + 1) format.data)

/-- The statement `o.DataBase.ExpressionList[id].Status = status`; `none` when
the map has no such key, where the source dereferences a nil pointer. -/
def setRegistryStatus (o : Orchestrator) (id : Int) (status : ExpressionStatus) :
    Option Orchestrator :=
  match mapGet o.DataBase id with
  | none => none
  | some q =>
    if q < o.exprs.length then
      some { o with exprs := update o.exprs q (fun e => { e with Status := status }) }
    else none

/-- The nodes of an expression's node map, in the order of the map's entries. -/
def mapNodes (expr : Expression) : List Node :=
  expr.IdMap.filterMap (fun kv => expr.nodes[kv.2]?)

/-- The first loop of the completion check (handlers.go:334-339). -/
def maxLevelOf (ns : List Node) : Nat :=
  ns.foldl (fun m n => if m < n.Level then n.Level else m) 0

/-- The second loop of the completion check (handlers.go:345-354). -/
def allMaxLevelDone (ns : List Node) (maxLevel : Nat) : Bool :=
  ns.all (fun n => !(decide (n.Level = maxLevel) && decide (n.Status ≠ NodeStatus.StatusDone)))

/-- The third loop (handlers.go:360-397) up to its `break`: the first node at
the maximum level in the visiting order. -/
def firstAtLevel (expr : Expression) (maxLevel : Nat) : List Int → Option Node
  | [] => none
  | id :: rest =>
    match (mapGet expr.IdMap id).bind (fun p => expr.nodes[p]?) with
    | some n => if n.Level = maxLevel then some n else firstAtLevel expr maxLevel rest
    | none => firstAtLevel expr maxLevel rest

/-- Go's `Orchestrator.PostTaskHandler` on a decoded request body
`{id, result, error}` (handlers.go:267-415); `order` is the order in which the
last `range` visits the keys of the head expression's node map (the two loops
before it compute a maximum and a conjunction, which do not depend on the
order). -/
def PostTaskHandler (o : Orchestrator) (ID : Int) (Result : ℚ) (Error : String)
    (order : List Int) : Orchestrator × Response :=
  match o.Queue with
  | [] => (o, Response.error 404 "No expressions in queue")
  | p :: queueTail =>
    match o.exprs[p]? with
    | none => (o, Response.panic)
    | some expr =>
      let stringResult := sprintf5 Result
      match (mapGet expr.IdMap ID).bind
          (fun q => if q < expr.nodes.length then some q else none) with
      | none => (o, Response.error 404 "Node not found")
      | some q =>
        let nodes := update expr.nodes q (reportNode stringResult)
        let expr1 := { expr with nodes := nodes }
        if Error ≠ "" then
          let expr2 := { expr1 with Status := ExpressionStatus.StatusError, Err := some (Errorf Error) }
          let o1 := { o with exprs := o.exprs.set p expr2, Queue := queueTail }
          match setRegistryStatus o1 expr.ID ExpressionStatus.StatusError with
          | none => (o1, Response.panic)
          | some o2 => (o2, Response.ok)
        else
          let maxLevel := maxLevelOf (mapNodes expr1)
          if allMaxLevelDone (mapNodes expr1) maxLevel then
            match firstAtLevel expr1 maxLevel order with
            | none => ({ o with exprs := o.exprs.set p expr1 }, Response.ok)
            | some node =>
              match ParseFloat node.Value with
              | none => ({ o with exprs := o.exprs.set p expr1 }, Response.ok)
              | some result =>
                let expr2 := { expr1 with Result := result, Status := ExpressionStatus.StatusDone }
                let o1 := { o with exprs := o.exprs.set p expr2 }
                match setRegistryStatus o1 expr.ID ExpressionStatus.StatusDone with
                | none => (o1, Response.panic)
                | some o2 => ({ o2 with Queue := queueTail }, Response.ok)
          else
            let expr2 := { expr1 with Status := ExpressionStatus.StatusInQueue }
            let o1 := { o with exprs := o.exprs.set p expr2 }
            match setRegistryStatus o1 expr.ID ExpressionStatus.StatusInQueue with
            | none => (o1, Response.panic)
            | some o2 => (o2, Response.ok)

/-- A call of the orchestrator's interface: Submit is `POST /api/v1/calculate`,
Claim is `GET /internal/task`, Report is `POST /internal/task`. A Claim and a
Report carry the order in which the handler's `range` visits the node map. -/
inductive Call where
  | Submit (expression : String)
  | Claim (order : List Int)
  | Report (id : Int) (result : ℚ) (error : String) (order : List Int)
deriving DecidableEq, Repr

/-- The handler behind a call. -/
def step (o : Orchestrator) : Call → Orchestrator × Response
  | Call.Submit expression => CalculateHandler o expression
  | Call.Claim order => GetTaskHandler o order
  | Call.Report id result error order => PostTaskHandler o id result error order

/-- A sequence of calls, handled one after the other: the orchestrator
afterwards and the responses in order. -/
def run : Orchestrator → List Call → Orchestrator × List Response
  | o, [] => (o, [])
  | o, c :: cs =>
    let r := step o c
    let rs := run r.1 cs
    (rs.1, r.2 :: rs.2)

/-- The head of the queue, if any. -/
def headExpr (o : Orchestrator) : Option Expression :=
  match o.Queue with
  | [] => none
  | p :: _ => o.exprs[p]?

/-- A call the orchestrator can receive in state `o`: the visiting order of a
`range` is a permutation of the keys of the head expression's node map, and a
reported result is a finite float64. -/
def Call.valid (o : Orchestrator) : Call → Prop
  | Call.Submit _ => True
  | Call.Claim order => ∀ e, headExpr o = some e → order.Perm (mapKeys e.IdMap)
  | Call.Report _ result _ order =>
    isFloat64 result ∧ ∀ e, headExpr o = some e → order.Perm (mapKeys e.IdMap)

/-- A sequence of calls, each valid in the state it is received in. -/
def validRun : Orchestrator → List Call → Prop
  | _, [] => True
  | o, c :: cs => c.valid o ∧ validRun (step o c).1 cs

/-! ## Specification-side definitions -/

/-- Proper nesting of the parentheses of a text, read left to right with the
number `d` of opening brackets not yet closed: a closing bracket needs an
earlier unmatched opening one, and none may stay open at the end. -/
def nestingOk : List Char → Nat → Bool
  | [], d => d == 0
  | c :: cs, d =>
    if c = '(' then nestingOk cs (d + 1)
    else if c = ')' then
      match d with
      | 0 => false
      | d + 1 => nestingOk cs d
    else nestingOk cs d

/-- The parentheses of the input are properly balanced. -/
def properlyNested (s : String) : Bool := nestingOk s.data 0

/-- The operand count of a postfix token list, read left to right from a stack
of `d` operands: a number token adds an operand, an operator token needs two
and leaves one; `none` when some operator finds fewer than two. -/
def arityScan : List String → Nat → Option Nat
  | [], d => some d
  | t :: ts, d =>
    if (ParseFloat t).isSome then arityScan ts (d + 1)
    else if d < 2 then none
    else arityScan ts (d - 1)

/-- Every operator of the token list finds two operands and exactly one
operand is left at the end. -/
def arityOk (poland : List String) : Bool := arityScan poland 0 == some 1

/-- A digit literal: a non-empty run of ASCII digits. -/
def isDigits (a : List Char) : Prop := a ≠ [] ∧ ∀ c ∈ a, asciiDigit c = true

/-- What `createDAG` has established of the node behind pointer `p`: a number
leaf, or an operation over two earlier nodes, one level above the higher. -/
def NodeBuilt (nodes : List Node) (p : Nat) (n : Node) : Prop :=
  n.Status = NodeStatus.StatusCreated ∧
  ((n.Typ = NodeType.Number ∧ n.Dependencies = [] ∧ n.Level = 0 ∧ (ParseFloat n.Value).isSome = true) ∨
   (n.Typ = NodeType.Operator ∧ ParseFloat n.Value = none ∧
     ∃ l r, n.Dependencies = [l, r] ∧ l < p ∧ r < p ∧
       n.Level = max (levelOf nodes r) (levelOf nodes l) + 1))

/-- The invariant of the loop of `createDAG`. -/
structure BuildInv (st : Build) : Prop where
  stack_lt : ∀ p ∈ st.dagStack, p < st.nodes.length
  node_ok : ∀ p n, st.nodes[p]? = some n → NodeBuilt st.nodes p n
  covered : ∀ p, p < st.nodes.length →
    p ∈ st.dagStack ∨ ∃ r ∈ st.dagStack, levelOf st.nodes p < levelOf st.nodes r
  parent : ∀ p, p < st.nodes.length →
    p ∈ st.dagStack ∨ ∃ (q : Nat) (n : Node), st.nodes[q]? = some n ∧ p ∈ n.Dependencies
  level_map : ∀ L, levelNodes st.levelMap L =
    (List.range st.nodes.length).filter (fun p => decide (levelOf st.nodes p = L))
  max_level : st.maxLevel = maxLevelOf st.nodes

/-- The node map `prepareInput` builds from the visited pointers: ids counted
up from `prevID + 1`. -/
def idsFrom : Int → List Nat → List (Int × Nat)
  | _, [] => []
  | prevID, p :: ps => (prevID + 1, p) :: idsFrom (prevID + 1) ps

/-- A node is dispatchable: an operation that waits in the queue and whose two
dependencies are both resolved, that is, of kind number. -/
def ready (nodes : List Node) (n : Node) : Bool :=
  decide (n.Typ = NodeType.Operator) && decide (n.Status = NodeStatus.StatusInQueue) &&
  match n.Dependencies with
  | d1 :: d2 :: _ =>
    match nodes[d1]?, nodes[d2]? with
    | some dep1, some dep2 =>
      decide (dep1.Typ = NodeType.Number) && decide (dep2.Typ = NodeType.Number)
    | _, _ => false
  | _ => false

/-- The node with local id `id` is dispatchable. -/
def readyId (idMap : List (Int × Nat)) (nodes : List Node) (id : Int) : Bool :=
  match (mapGet idMap id).bind (fun p => nodes[p]?) with
  | some n => ready nodes n
  | none => false

/-- What holds of every expression the orchestrator has allocated. The first
three fields never change after `prepareInput`; the others relate the kind,
value and status that `GetTaskHandler` and `PostTaskHandler` rewrite. -/
structure ExprInv (e : Expression) : Prop where
  ids : ∃ ps : List Nat, ps.Perm (List.range e.nodes.length) ∧ e.IdMap = idsFrom 0 ps
  shape : ∀ (p : Nat) (n : Node), e.nodes[p]? = some n →
    (n.Dependencies = [] ∧ n.Level = 0) ∨
    ∃ l r, n.Dependencies = [l, r] ∧ l < p ∧ r < p ∧
      n.Level = max (levelOf e.nodes r) (levelOf e.nodes l) + 1
  root : ∃ root, root < e.nodes.length ∧
    ∀ p, p < e.nodes.length → p ≠ root →
      levelOf e.nodes p < levelOf e.nodes root ∧
      ∃ (q : Nat) (n : Node), e.nodes[q]? = some n ∧ p ∈ n.Dependencies
  number_parses : ∀ (p : Nat) (n : Node), e.nodes[p]? = some n → n.Typ = NodeType.Number →
    (ParseFloat n.Value).isSome = true
  done_iff_number : ∀ (p : Nat) (n : Node), e.nodes[p]? = some n →
    (n.Status = NodeStatus.StatusDone ↔ n.Typ = NodeType.Number)
  operator_deps : ∀ (p : Nat) (n : Node), e.nodes[p]? = some n → n.Typ = NodeType.Operator →
    ∃ l r, n.Dependencies = [l, r]
  not_created : ∀ (p : Nat) (n : Node), e.nodes[p]? = some n → n.Status ≠ NodeStatus.StatusCreated

/-- What holds of every state the orchestrator reaches. -/
structure OrchInv (o : Orchestrator) : Prop where
  queue_lt : ∀ p ∈ o.Queue, p < o.exprs.length
  expr_inv : ∀ e ∈ o.exprs, ExprInv e
  registered : ∀ e ∈ o.exprs, ∃ q, mapGet o.DataBase e.ID = some q ∧ q < o.exprs.length

/-- The number a run of decimal digits denotes, continuing from `a`. -/
def digitsVal (a : Nat) (ds : List Char) : Nat :=
  ds.foldl (fun m c => m * 10 + (c.toNat - '0'.toNat)) a

/-- The states the orchestrator reaches from a fresh one through calls that
are valid when they are received. -/
inductive Reachable (cfg : OrchestratorConfig) : Orchestrator → Prop where
  | init : Reachable cfg (NewOrchestrator cfg)
  | next (o : Orchestrator) (c : Call) : Reachable cfg o → c.valid o → Reachable cfg (step o c).1

/-- The visiting order is a permutation of the keys of the head expression's
node map (anything goes on an empty queue). -/
def validOrder (o : Orchestrator) (order : List Int) : Bool :=
  match headExpr o with
  | some e => decide (order.Perm (mapKeys e.IdMap))
  | none => true

/-- The log of the claims of a run: for every call of `GetTaskHandler` that is
answered with a task, the pointer to the head expression, that expression's
id and the local id of the node handed out. -/
def claimLog : Orchestrator → List Call → List (Nat × Int × Int)
  | _, [] => []
  | o, c :: cs =>
    (match c, (step o c).2, o.Queue with
     | Call.Claim _, Response.task t, p :: _ =>
       match o.exprs[p]? with
       | some e => [(p, e.ID, t.ID)]
       | none => []
     | _, _, _ => []) ++ claimLog (step o c).1 cs

/-- The node with local id `x.2` of the expression behind pointer `x.1` has
left the status InQueue. -/
def pastQueue (o : Orchestrator) (x : Nat × Int) : Prop :=
  ∃ (e : Expression) (q : Nat) (n : Node), o.exprs[x.1]? = some e ∧ mapGet e.IdMap x.2 = some q ∧
    e.nodes[q]? = some n ∧ n.Status ≠ NodeStatus.StatusInQueue

/-- An expression after some handler calls: the same node map, and no node
back in the status InQueue once it has left it. -/
def ExprEvolves (e e' : Expression) : Prop :=
  e'.IdMap = e.IdMap ∧ e'.ID = e.ID ∧
  ∀ (q : Nat) (n : Node), e.nodes[q]? = some n →
    ∃ n', e'.nodes[q]? = some n' ∧
      (n.Status ≠ NodeStatus.StatusInQueue → n'.Status ≠ NodeStatus.StatusInQueue)

/-- An orchestrator after some handler calls: every allocated expression is
still behind its pointer and has evolved. -/
def Evolves (o o' : Orchestrator) : Prop :=
  ∀ (p : Nat) (e : Expression), o.exprs[p]? = some e →
    ∃ e', o'.exprs[p]? = some e' ∧ ExprEvolves e e'

/-- The expression ids are the allocation numbers, as 32-bit integers. -/
def IdSeq (o : Orchestrator) : Prop :=
  o.PrevExpressionID = wrapInt32 o.exprs.length ∧
  ∀ (i : Nat) (e : Expression), o.exprs[i]? = some e → e.ID = wrapInt32 (i + 1)

/-! ### The grammar of infix expressions -/

/-- One of the four operator characters. -/
def isOperator (op : Char) : Bool :=
  decide (op = '+') || decide (op = '-') || decide (op = '*') || decide (op = '/')

/-- The precedence of an operator: 1 for `+` and `-`, 2 for `*` and `/`. -/
def prec (op : Char) : Nat := if op = '*' ∨ op = '/' then 2 else 1

/-- A derivation of the grammar `E -> T (('+'|'-') T)*`, `T -> F (('*'|'/') F)*`,
`F -> digits | '(' E ')'`, with the repetitions read as left-nested binary
nodes. -/
inductive Cst where
  | num (ds : List Char)
  | paren (e : Cst)
  | bin (op : Char) (l r : Cst)
deriving DecidableEq, Repr

/-- The derivation is one of the non-terminal of level `k` (1 for `E`, 2 for
`T`, 3 for `F`): the left operand of an operator is of the operator's own
level, the right operand of the next one, and a number is a digit literal. -/
def Cst.wf : Cst → Nat → Bool
  | Cst.num ds, _ => decide (ds ≠ []) && ds.all asciiDigit
  | Cst.paren e, _ => e.wf 1
  | Cst.bin op l r, k =>
    isOperator op && decide (k ≤ prec op) && l.wf (prec op) && r.wf (prec op + 1)

/-- The text a derivation generates. -/
def Cst.render : Cst → List Char
  | Cst.num ds => ds
  | Cst.paren e => '(' :: (e.render ++ [')'])
  | Cst.bin op l r => l.render ++ op :: r.render

/-- The postfix form of a derivation. -/
def Cst.polish : Cst → List String
  | Cst.num ds => [String.mk ds]
  | Cst.paren e => e.polish
  | Cst.bin op l r => l.polish ++ r.polish ++ [String.singleton op]

/-- Every literal of the derivation is one `strconv.ParseFloat` accepts, that
is, it does not round beyond the largest finite float64. -/
def Cst.literalsParse : Cst → Bool
  | Cst.num ds => (ParseFloat (String.mk ds)).isSome
  | Cst.paren e => e.literalsParse
  | Cst.bin _ l r => l.literalsParse && r.literalsParse

/-- A parse tree: a literal, or an operator over a left and a right operand. -/
inductive Tree where
  | leaf (v : String)
  | node (op : String) (l r : Tree)
deriving DecidableEq, Repr

/-- The parse tree of a derivation: parentheses only group. -/
def Cst.tree : Cst → Tree
  | Cst.num ds => Tree.leaf (String.mk ds)
  | Cst.paren e => e.tree
  | Cst.bin op l r => Tree.node (String.singleton op) l.tree r.tree

/-- The number of nodes of a parse tree. -/
def Tree.size : Tree → Nat
  | Tree.leaf _ => 1
  | Tree.node _ l r => l.size + r.size + 1

/-- The node behind pointer `p` read as a tree through
`Dependencies = [left, right]`, to a depth of at most `fuel`: a number without
dependencies is a leaf, an operator over two dependencies an inner node. -/
def readTree (nodes : List Node) : Nat → Nat → Option Tree
  | 0, _ => none
  | fuel + 1, p =>
    match nodes[p]? with
    | none => none
    | some n =>
      match n.Typ, n.Dependencies with
      | NodeType.Number, [] => some (Tree.leaf n.Value)
      | NodeType.Operator, [l, r] =>
        match readTree nodes fuel l, readTree nodes fuel r with
        | some tl, some tr => some (Tree.node n.Value tl tr)
        | _, _ => none
      | _, _ => none

/-! ### The worker and the evaluation of an expression -/

/-- The switch of the agent's worker on the operation of a task
(agent.go:164-199): the result it reports and the error text, empty when the
computation succeeded. Floating-point results are rounded to binary64; an
overflow to infinity is outside the model. -/
def calculate (t : Task) : ℚ × String :=
  if t.Operation = "+" then (round64 (t.Arg1 + t.Arg2), "")
  else if t.Operation = "-" then (round64 (t.Arg1 - t.Arg2), "")
  else if t.Operation = "*" then (round64 (t.Arg1 * t.Arg2), "")
  else if t.Operation = "/" then
    if t.Arg2 = 0 then (0, "division by zero") else (round64 (t.Arg1 / t.Arg2), "")
  else (0, "unknown operation: " ++ t.Operation)

/-- One round of a worker (agent.go:98-290): a Claim and, when it is answered
with a task, the Report of what the worker computed; `none` when the Claim is
answered without a task. The two orders are the visiting orders of the two
handlers. -/
def workerRound (o : Orchestrator) (orders : List Int × List Int) : Option Orchestrator :=
  match GetTaskHandler o orders.1 with
  | (o1, Response.task t) =>
    some (PostTaskHandler o1 t.ID (calculate t).1 (calculate t).2 orders.2).1
  | _ => none

/-- Rounds of a worker, one after the other, each answered with a task. -/
def workerRounds : Orchestrator → List (List Int × List Int) → Option Orchestrator
  | o, [] => some o
  | o, r :: rs => (workerRound o r).bind (fun o1 => workerRounds o1 rs)

/-- The local ids `prepareInput` hands out to `n` nodes: 1 to `n`. -/
def localIds (n : Nat) : List Int := List.map (fun (i : Nat) => (i : Int) + 1) (List.range n)

/-- The number of operators of a derivation. -/
def Cst.ops : Cst → Nat
  | Cst.num _ => 0
  | Cst.paren e => e.ops
  | Cst.bin _ l r => l.ops + r.ops + 1

/-- The arithmetic value of a derivation over `+`, `-` and `*`. -/
def Cst.eval : Cst → ℤ
  | Cst.num ds => digitsVal 0 ds
  | Cst.paren e => e.eval
  | Cst.bin op l r =>
    if op = '+' then l.eval + r.eval
    else if op = '-' then l.eval - r.eval
    else l.eval * r.eval

/-- The derivation has no division, and its literals and the values of all its
parts are of magnitude below `2^53`. -/
def Cst.small : Cst → Bool
  | Cst.num ds => decide (digitsVal 0 ds < 2 ^ 53)
  | Cst.paren e => e.small
  | Cst.bin op l r =>
    decide (op ≠ '/') && l.small && r.small && decide (|(Cst.bin op l r).eval| < 2 ^ 53)

/-- The operation behind an operator symbol, on integers; none for a
division. -/
def intOp (op : String) (a b : ℤ) : Option ℤ :=
  if op = "+" then some (a + b)
  else if op = "-" then some (a - b)
  else if op = "*" then some (a * b)
  else none

/-- The value of a parse tree over `+`, `-` and `*`. -/
def Tree.eval : Tree → ℤ
  | Tree.leaf v => digitsVal 0 v.data
  | Tree.node op l r => (intOp op l.eval r.eval).getD 0

/-- The literals of the tree are digit literals, its operators are `+`, `-` and
`*`, and the values of all its parts are of magnitude below `2^53`. -/
def Tree.small : Tree → Bool
  | Tree.leaf v => decide (v.data ≠ []) && v.data.all asciiDigit && decide (digitsVal 0 v.data < 2 ^ 53)
  | Tree.node op l r =>
    (intOp op l.eval r.eval).isSome && l.small && r.small &&
      decide (|(Tree.node op l r).eval| < 2 ^ 53)

/-- The parts of a parse tree, itself included. -/
def Tree.parts : Tree → List Tree
  | Tree.leaf v => [Tree.leaf v]
  | Tree.node op l r => Tree.node op l r :: (l.parts ++ r.parts)

/-- The number of operations of an arena that are not yet computed. -/
def opCount (nodes : List Node) : Nat :=
  nodes.countP (fun n => decide (n.Typ = NodeType.Operator))

/-- The nodes of an arena hold or will hold the values `v`: a number holds its
value, an operation is over two nodes and its value is the operation's result
on theirs; all values are of magnitude below `2^53`. -/
def Vals (nodes : List Node) (v : Nat → ℤ) : Prop :=
  ∀ (p : Nat) (n : Node), nodes[p]? = some n →
    |v p| < 2 ^ 53 ∧
    (n.Typ = NodeType.Number → ParseFloat n.Value = some (v p : ℚ)) ∧
    (n.Typ = NodeType.Operator →
      ∃ l r, n.Dependencies = [l, r] ∧ intOp n.Value (v l) (v r) = some (v p))

/-- What holds of the head expression between the rounds of a worker that
reports what it computed: the values `v` are kept, no operation is with a
worker, a computed node is over computed nodes, and `root` is the one node of
the highest level. -/
structure EvalInv (v : Nat → ℤ) (root : Nat) (e : Expression) : Prop where
  vals : Vals e.nodes v
  waiting : ∀ (p : Nat) (n : Node), e.nodes[p]? = some n → n.Typ = NodeType.Operator →
    n.Status = NodeStatus.StatusInQueue
  closed : ∀ (p : Nat) (n : Node), e.nodes[p]? = some n → n.Typ = NodeType.Number →
    ∀ d ∈ n.Dependencies, ∃ m, e.nodes[d]? = some m ∧ m.Typ = NodeType.Number
  top : root < e.nodes.length ∧
    ∀ p, p < e.nodes.length → p ≠ root → levelOf e.nodes p < levelOf e.nodes root

/-! ### The query handlers -/

/-- An element of the list that `ExpressionsListHandler` sends
(handlers.go:437-442); an empty `Error` is left out of the JSON. -/
structure ListEntry where
  ID : Int
  Status : ExpressionStatus
  Result : ℚ
  Error : String
deriving DecidableEq, Repr

/-- Go's `Orchestrator.ExpressionsListHandler` on a GET request
(handlers.go:431-485): the expressions of the registry in ascending order of
their keys, each with its own id, status and result and the message of its
error, if it has one. -/
def ExpressionsListHandler (o : Orchestrator) : List ListEntry :=
  ((mapKeys o.DataBase).insertionSort (fun a b => a ≤ b)).filterMap (fun id =>
    match (mapGet o.DataBase id).bind (fun p => o.exprs[p]?) with
    | none => none
    | some expr =>
      some { ID := expr.ID, Status := expr.Status, Result := expr.Result,
             Error := match expr.Err with
               | some msg => msg
               | none => "" })

/-- Go's `strings.CutPrefix`: the text after the given start, `none` for the
`false` flag. -/
def CutPrefix : List Char → List Char → Option (List Char)
  | s, [] => some s
  | [], _ :: _ => none
  | c :: s, d :: p => if c = d then CutPrefix s p else none

/-- Go's `strconv.ParseInt(s, 10, 32)`: an optional sign and decimal digits, at
least one, denoting a number in the range of `int32`; `none` for a non-nil
error. -/
def ParseInt32 (s : List Char) : Option Int :=
  let body (neg : Bool) (ds : List Char) : Option Int :=
    if ds ≠ [] ∧ ds.all asciiDigit = true then
      let v : Int := if neg then -(digitsVal 0 ds : Int) else (digitsVal 0 ds : Int)
      if -2147483648 ≤ v ∧ v ≤ 2147483647 then some v else none
    else none
  match s with
  | '+' :: ds => body false ds
  | '-' :: ds => body true ds
  | ds => body false ds

/-- The body `GetExpressionByIDHandler` sends for an expression
(handlers.go:543-551). -/
structure Details where
  ID : Int
  Status : ExpressionStatus
  Result : ℚ
deriving DecidableEq, Repr

/-- Go's `Orchestrator.GetExpressionByIDHandler` on a GET request for the path
`url` (handlers.go:501-563): the details of the expression the registry holds
under the id in the path, or the status code and message of `http.Error`. -/
def GetExpressionByIDHandler (o : Orchestrator) (url : String) : Except (Nat × String) Details :=
  match CutPrefix url.data "/api/v1/expressions/:".data with
  | none => .error (500, "Failed to cut ID")
  | some stringID =>
    match ParseInt32 stringID with
    | none => .error (500, "Failed to parse ID")
    | some id =>
      match (mapGet o.DataBase id).bind (fun p => o.exprs[p]?) with
      | none => .error (404, "Failed to find expression")
      | some expr => .ok { ID := expr.ID, Status := expr.Status, Result := expr.Result }

/-- A request to the orchestrator: one of the three calls that change its
state, `GET /api/v1/expressions` or `GET /api/v1/expressions/...`. -/
inductive Request where
  | call (c : Call)
  | List
  | Detail (url : String)
deriving DecidableEq, Repr

/-- What the orchestrator answers a request with. -/
inductive Reply where
  | response (r : Response)
  | list (entries : List ListEntry)
  | detail (d : Except (Nat × String) Details)

/-- The handler behind a request; the two queries only read the state. -/
def handle (o : Orchestrator) : Request → Orchestrator × Reply
  | Request.call c => ((step o c).1, Reply.response (step o c).2)
  | Request.List => (o, Reply.list (ExpressionsListHandler o))
  | Request.Detail url => (o, Reply.detail (GetExpressionByIDHandler o url))

/-- A sequence of requests, handled one after the other. -/
def serve : Orchestrator → List Request → Orchestrator × List Reply
  | o, [] => (o, [])
  | o, r :: rs =>
    let a := handle o r
    let b := serve a.1 rs
    (b.1, a.2 :: b.2)

/-- A request the orchestrator can receive in state `o`. -/
def Request.valid (o : Orchestrator) : Request → Prop
  | Request.call c => c.valid o
  | _ => True

/-- A sequence of requests, each valid in the state it is received in. -/
def validServe : Orchestrator → List Request → Prop
  | _, [] => True
  | o, r :: rs => r.valid o ∧ validServe (handle o r).1 rs

/-- The ids that the successful submissions of a run returned, in order. -/
def returnedIds (rs : List Response) : List Int :=
  rs.filterMap (fun r =>
    match r with
    | Response.calculated id _ => some id
    | _ => none)

/-- An expression has reached one of its two final statuses. -/
def Expression.terminal (e : Expression) : Prop :=
  e.Status = ExpressionStatus.StatusDone ∨ e.Status = ExpressionStatus.StatusError

/-- What holds of the registry and the queue while no expression id has been
handed out twice: the registry maps the id of every expression to that
expression and holds no other key, the queue lists every expression at most
once, and its expressions are not finished. -/
structure RegInv (o : Orchestrator) : Prop where
  exact : ∀ (p : Nat) (e : Expression), o.exprs[p]? = some e → mapGet o.DataBase e.ID = some p
  keys : ∀ (id : Int) (p : Nat), mapGet o.DataBase id = some p →
    ∃ e, o.exprs[p]? = some e ∧ e.ID = id
  queue_nodup : o.Queue.Nodup
  queue_live : ∀ p ∈ o.Queue, ∀ (e : Expression), o.exprs[p]? = some e → ¬ e.terminal

/-! ### The registry -/

/-- What holds of the registry in every state: its keys are distinct, as in
every Go map, and behind each key is an allocated expression that carries the
key as its id. -/
structure KeysInv (o : Orchestrator) : Prop where
  nodup : (mapKeys o.DataBase).Nodup
  keys : ∀ (id : Int) (p : Nat), mapGet o.DataBase id = some p →
    ∃ e, o.exprs[p]? = some e ∧ e.ID = id

/-- The entry `ExpressionsListHandler` sends for an expression
(handlers.go:465-478). -/
def listEntry (e : Expression) : ListEntry :=
  { ID := e.ID, Status := e.Status, Result := e.Result,
    Error := match e.Err with
      | some msg => msg
      | none => "" }

/-! ### The worker's answer -/

/-- The float64 that an arithmetic operation with the exact result `x` yields:
the nearest binary64 value, `none` for an infinity (the exact result is at or
beyond `2^1024 - 2^970`). -/
def float64Of (x : ℚ) : Option ℚ :=
  if (overflowBound : ℚ) ≤ |x| then none else some (round64 x)

/-- What a worker of the agent posts for a task (agent.go:162-281): the switch
on the operation, then `json.Marshal` of the answer, which refuses an infinite
result, so that nothing is posted (`none`). The wait for the operation time
and the cancellation of the context are left out. -/
def workerAnswer (t : Task) : Option (ℚ × String) :=
  let r : Option ℚ × String :=
    if t.Operation = "+" then (float64Of (t.Arg1 + t.Arg2), "")
    else if t.Operation = "-" then (float64Of (t.Arg1 - t.Arg2), "")
    else if t.Operation = "*" then (float64Of (t.Arg1 * t.Arg2), "")
    else if t.Operation = "/" then
      if t.Arg2 = 0 then (some 0, "division by zero") else (float64Of (t.Arg1 / t.Arg2), "")
    else (some 0, "unknown operation: " ++ t.Operation)
  match r.1 with
  | none => none
  | some result => some (result, r.2)

/-! ### The handlers on a request -/

/-- An HTTP request as a handler reads it: the method, the `Content-Type`
header and what `json.NewDecoder(r.Body).Decode` makes of the body, `none` when
it returns an error. -/
structure HttpRequest (α : Type) where
  Method : String
  ContentType : String
  Body : Option α

/-- The body of a report (handlers.go:247-251). -/
structure PostReq where
  ID : Int
  Result : ℚ
  Error : String
deriving DecidableEq, Repr

/-- Go's `Orchestrator.CalculateHandler` from its first statement
(handlers.go:15-98): the checks of the method and of the content type, the
decoding of the body, whose failure ends in `panic(err)`, and the part on the
decoded body. -/
def CalculateRequest (o : Orchestrator) (r : HttpRequest String) : Orchestrator × Response :=
  if r.Method ≠ "POST" then (o, Response.error 422 "Wrong method, expected POST")
  else if r.ContentType ≠ "application/json" then
    (o, Response.error 422 "Wrong content-type, expected JSON")
  else
    match r.Body with
    | none => (o, Response.panic)
    | some expression => CalculateHandler o expression

/-- Go's `Orchestrator.PostTaskHandler` from its first statement
(handlers.go:225-415): the checks of the method and of the content type, the
decoding of the body, whose failure is answered with 400, and the part on the
decoded body. -/
def PostTaskRequest (o : Orchestrator) (r : HttpRequest PostReq) (order : List Int) :
    Orchestrator × Response :=
  if r.Method ≠ "POST" then (o, Response.error 422 "Wrong method, expected POST")
  else if r.ContentType ≠ "application/json" then
    (o, Response.error 422 "Wrong content-type, expected JSON")
  else
    match r.Body with
    | none => (o, Response.error 400 "Invalid JSON")
    | some postReq => PostTaskHandler o postReq.ID postReq.Result postReq.Error order

/-! ### Five decimals -/

/-- The float64 nearest to `x` rounded to five decimals: what
`strconv.ParseFloat` reads from the `%.5f` rendering of `x`. -/
def round5 (x : ℚ) : ℚ :=
  round64 ((if x < 0 then -1 else 1) * ((roundHalfEven (|x| * 100000)).toNat : ℚ) / (10 : ℚ) ^ 5)

/-! ### Reports for nodes that are with a worker -/

/-- A Report names a node that is with a worker: the node of the head
expression under the reported id, if there is one, has the status AtWorker. -/
def Call.claimed (o : Orchestrator) : Call → Prop
  | Call.Report id _ _ _ =>
    ∀ (e : Expression) (q : Nat) (n : Node), headExpr o = some e → mapGet e.IdMap id = some q →
      e.nodes[q]? = some n → n.Status = NodeStatus.StatusAtWorker
  | _ => True

/-- A sequence of calls in which every Report names a node that is with a
worker when the Report is received. -/
def claimedRun : Orchestrator → List Call → Prop
  | _, [] => True
  | o, c :: cs => c.claimed o ∧ claimedRun (step o c).1 cs

/-! ### The tokens of the scanner -/

/-- A number token of `toPostfix`: a digit, followed by digits and commas
(a point is written as a comma). -/
def isNumToken (cs : List Char) : Prop :=
  ∃ (c : Char) (rest : List Char), cs = c :: rest ∧ unicodeIsDigit c = true ∧
    ∀ d ∈ rest, unicodeIsDigit d = true ∨ d = ','

/-- A token of `toPostfix`: one of the four operator characters or a number
token. -/
def isToken (t : String) : Prop :=
  (∃ op : Char, isOperator op = true ∧ t = String.singleton op) ∨ isNumToken t.data

/-- The invariant of the scanning loop of `toPostfix`: the output holds tokens,
the stack operators and opening brackets, and the pending number is empty or
the beginning of a number token. -/
structure ScanInv (st : Scan) : Prop where
  output : ∀ t ∈ st.output, isToken t
  stack : ∀ op ∈ st.operatorStack, op = '(' ∨ isOperator op = true
  curNum : st.curNum = [] ∨ isNumToken st.curNum

/-! ### The parser with its stack operations spelled out

A second translation of `pkg/parser`, in which every call of `Stack.IsEmpty`,
`Stack.Peek` and `Stack.Pop` and every dereference of a node pointer is
explicit, and a run can end in a fault. -/

/-- How a run of the parser ends: it returns, or it faults (a `Stack.Peek` on
an empty stack indexes out of range, a `Stack.Pop` whose flag is dropped hands
out a zero value on an empty stack, a node pointer is nil), or the bound on the
iterations of a loop is used up. -/
inductive Outcome (α : Type) where
  | done (a : α)
  | fault
  | fuel
deriving DecidableEq, Repr

/-- Sequencing of runs. -/
def Outcome.bind {α β : Type} (x : Outcome α) (f : α → Outcome β) : Outcome β :=
  match x with
  | Outcome.done a => f a
  | Outcome.fault => Outcome.fault
  | Outcome.fuel => Outcome.fuel

/-- The loop on a closing bracket (parser.go:61-67), at most `k` iterations:
`for !operatorStack.IsEmpty() { op, _ := operatorStack.Pop(); ... }`. -/
def popToOpenC : Nat → Stack Char → List String → Outcome (Stack Char × List String)
  | 0, _, _ => Outcome.fuel
  | k + 1, s, out =>
    if s.IsEmpty then Outcome.done (s, out)
    else
      match s.Pop with
      | none => Outcome.fault
      | some (op, s1) =>
        if op = '(' then Outcome.done (s1, out)
        else popToOpenC k s1 (out ++ [String.singleton op])

/-- The loop on an operator (parser.go:71-79), at most `k` iterations:
`for !operatorStack.IsEmpty() { topOp := operatorStack.Peek(); ... }`. -/
def popHigherC (priority : Nat) : Nat → Stack Char → List String →
    Outcome (Stack Char × List String)
  | 0, _, _ => Outcome.fuel
  | k + 1, s, out =>
    if s.IsEmpty then Outcome.done (s, out)
    else
      match s.Peek with
      | none => Outcome.fault
      | some topOp =>
        if topOp ≠ '(' ∧ priority ≤ (operatorPriority topOp).getD 0 then
          match s.Pop with
          | none => Outcome.fault
          | some (op, s1) => popHigherC priority k s1 (out ++ [String.singleton op])
        else Outcome.done (s, out)

/-- The final loop of `toPostfix` (parser.go:93-99), at most `k` iterations. -/
def drainC : Nat → Stack Char → List String → Outcome (Except String (List String))
  | 0, _, _ => Outcome.fuel
  | k + 1, s, out =>
    if s.IsEmpty then Outcome.done (.ok out)
    else
      match s.Pop with
      | none => Outcome.fault
      | some (op, s1) =>
        if op = '(' then Outcome.done (.error "mismatched brackets")
        else drainC k s1 (out ++ [String.singleton op])

/-- One iteration of the scanning loop of `toPostfix` (parser.go:37-83); the
inner loops run for at most one iteration more than the stack has elements. -/
def scanRuneC (st : Scan) (n : Char) : Outcome Scan :=
  if unicodeIsDigit n || (decide (st.curNum ≠ []) && (decide (n = '.') || decide (n = ','))) then
    Outcome.done { st with curNum := st.curNum ++ [if n = '.' then ',' else n] }
  else
    let st := flushNum st
    match operatorPriority n with
    | none => Outcome.done st
    | some priority =>
      if n = '(' then
        Outcome.done
          { st with openBrackets := st.openBrackets + 1, operatorStack := st.operatorStack.Push n }
      else if n = ')' then
        (popToOpenC (st.operatorStack.Len + 1) st.operatorStack st.output).bind (fun r =>
          Outcome.done
            { st with openBrackets := st.openBrackets - 1, operatorStack := r.1, output := r.2 })
      else
        (popHigherC priority (st.operatorStack.Len + 1) st.operatorStack st.output).bind (fun r =>
          Outcome.done { st with operatorStack := Stack.Push r.1 n, output := r.2 })

/-- The scanning loop of `toPostfix` over the runes of the input. -/
def scanC : List Char → Scan → Outcome Scan
  | [], st => Outcome.done st
  | n :: rest, st => (scanRuneC st n).bind (fun st1 => scanC rest st1)

/-- Go's `toPostfix`, with its stack operations spelled out. -/
def toPostfixC (expression : String) : Outcome (Except String (List String)) :=
  (scanC expression.data ⟨[], NewStack, [], 0⟩).bind (fun st0 =>
    let st := flushNum st0
    if st.openBrackets ≠ 0 then Outcome.done (.error "brackets aren't balanced")
    else drainC (st.operatorStack.Len + 1) st.operatorStack st.output)

/-- The read `node.Level` through a node pointer, a fault for a pointer without
a node behind it. -/
def levelC (nodes : List Node) (p : Nat) : Outcome Nat :=
  match nodes[p]? with
  | some n => Outcome.done n.Level
  | none => Outcome.fault

/-- One iteration of the loop of `createDAG` (parser.go:110-141); the flags of
the two calls of `Stack.Pop` are checked by the source. -/
def buildTokenC (st : Build) (n : String) : Outcome (Except String Build) :=
  if (ParseFloat n).isSome then
    let p := st.nodes.length
    Outcome.done (.ok
      { nodes := st.nodes ++ [⟨NodeType.Number, n, [], 0, NodeStatus.StatusCreated⟩]
        dagStack := st.dagStack.Push p
        levelMap := levelAppend st.levelMap 0 p
        maxLevel := st.maxLevel })
  else
    match st.dagStack.Pop with
    | none => Outcome.done (.error "stack.pop not ok")
    | some (rightOperand, s1) =>
      match Stack.Pop s1 with
      | none => Outcome.done (.error "stack.pop not ok")
      | some (leftOperand, s2) =>
        (levelC st.nodes rightOperand).bind (fun lr =>
          (levelC st.nodes leftOperand).bind (fun ll =>
            let level := max lr ll + 1
            let p := st.nodes.length
            Outcome.done (.ok
              { nodes := st.nodes ++
                  [⟨NodeType.Operator, n, [leftOperand, rightOperand], level,
                    NodeStatus.StatusCreated⟩]
                dagStack := Stack.Push s2 p
                levelMap := levelAppend st.levelMap level p
                maxLevel := if st.maxLevel < level then level else st.maxLevel })))

/-- The loop of `createDAG` over the token list. -/
def buildTokensC : List String → Build → Outcome (Except String Build)
  | [], st => Outcome.done (.ok st)
  | n :: rest, st =>
    (buildTokenC st n).bind (fun r =>
      match r with
      | .error e => Outcome.done (.error e)
      | .ok st1 => buildTokensC rest st1)

/-- Go's `createDAG`, with its pointer reads spelled out. -/
def createDAGC (poland : List String) : Outcome (Except String DAG) :=
  (buildTokensC poland ⟨[], NewStack, [], 0⟩).bind (fun r =>
    match r with
    | .error e => Outcome.done (.error e)
    | .ok st =>
      if st.dagStack.Len ≠ 1 then
        Outcome.done (.error ("invalid expression: expected 1 root node, got " ++
          String.mk (natDigits st.dagStack.Len)))
      else Outcome.done (.ok ⟨st.nodes, st.levelMap, st.maxLevel⟩))

/-- Go's `ParseExpression`, with the stack operations and pointer reads of
`toPostfix` and `createDAG` spelled out. -/
def ParseExpressionC (expression : String) : Outcome (Except String DAG) :=
  (toPostfixC expression).bind (fun r =>
    match r with
    | .error e => Outcome.done (.error e)
    | .ok poland => createDAGC poland)

/-! ### The locks the handlers take

The `Lock` and `Unlock` statements of `GetTaskHandler` and `PostTaskHandler`
in the order in which one execution of the handler runs them; a deferred
`Unlock` runs when the handler returns, the last deferred first. -/

/-- The mutexes of the orchestrator: `Orchestrator.mu`, which guards the queue,
the `mu` of the expression behind a pointer, and `DataBase.mu`. -/
inductive Mutex where
  | queue
  | expression (p : Nat)
  | dataBase
deriving DecidableEq, Repr

/-- A `Lock` or an `Unlock` of a mutex. -/
inductive LockOp where
  | Lock (m : Mutex)
  | Unlock (m : Mutex)
deriving DecidableEq, Repr

/-- The lock operations of one run of `GetTaskHandler` (handlers.go:113-125):
`o.mu.Lock(); defer o.mu.Unlock()`, and with an expression at the head of the
queue `expr.mu.Lock(); defer expr.mu.Unlock()`. -/
def GetTaskHandlerLocks (o : Orchestrator) : List LockOp :=
  match o.Queue with
  | [] => [LockOp.Lock Mutex.queue, LockOp.Unlock Mutex.queue]
  | p :: _ =>
    match o.exprs[p]? with
    | none => [LockOp.Lock Mutex.queue, LockOp.Unlock Mutex.queue]
    | some _ =>
      [LockOp.Lock Mutex.queue, LockOp.Lock (Mutex.expression p),
       LockOp.Unlock (Mutex.expression p), LockOp.Unlock Mutex.queue]

/-- The lock operations around the statement
`o.DataBase.ExpressionList[id].Status = status` (handlers.go:324-326, 371-373,
403-405); without an entry for the id the statement panics and the `Unlock`
after it is not reached. -/
def registryLocks (o : Orchestrator) (id : Int) (status : ExpressionStatus) : List LockOp :=
  match setRegistryStatus o id status with
  | none => [LockOp.Lock Mutex.dataBase]
  | some _ => [LockOp.Lock Mutex.dataBase, LockOp.Unlock Mutex.dataBase]

/-- The lock operations of one run of `PostTaskHandler` on a decoded request
body (handlers.go:267-415), with the branches of `PostTaskHandler`. -/
def PostTaskHandlerLocks (o : Orchestrator) (ID : Int) (Result : ℚ) (Error : String)
    (order : List Int) : List LockOp :=
  match o.Queue with
  | [] => [LockOp.Lock Mutex.queue, LockOp.Unlock Mutex.queue]
  | p :: queueTail =>
    match o.exprs[p]? with
    | none => [LockOp.Lock Mutex.queue, LockOp.Unlock Mutex.queue]
    | some expr =>
      [LockOp.Lock Mutex.queue, LockOp.Unlock Mutex.queue, LockOp.Lock (Mutex.expression p)] ++
      (match (mapGet expr.IdMap ID).bind
          (fun q => if q < expr.nodes.length then some q else none) with
       | none => []
       | some q =>
         let expr1 := { expr with nodes := update expr.nodes q (reportNode (sprintf5 Result)) }
         if Error ≠ "" then
           let expr2 := { expr1 with Status := ExpressionStatus.StatusError, Err := some (Errorf Error) }
           let o1 := { o with exprs := o.exprs.set p expr2, Queue := queueTail }
           [LockOp.Lock Mutex.queue] ++
             registryLocks o1 expr.ID ExpressionStatus.StatusError ++
             [LockOp.Unlock Mutex.queue]
         else
           let maxLevel := maxLevelOf (mapNodes expr1)
           if allMaxLevelDone (mapNodes expr1) maxLevel then
             match firstAtLevel expr1 maxLevel order with
             | none => []
             | some node =>
               match ParseFloat node.Value with
               | none => []
               | some result =>
                 let expr2 := { expr1 with Result := result, Status := ExpressionStatus.StatusDone }
                 let o1 := { o with exprs := o.exprs.set p expr2 }
                 match setRegistryStatus o1 expr.ID ExpressionStatus.StatusDone with
                 | none => [LockOp.Lock Mutex.dataBase]
                 | some _ =>
                   [LockOp.Lock Mutex.dataBase, LockOp.Unlock Mutex.dataBase,
                    LockOp.Lock Mutex.queue, LockOp.Unlock Mutex.queue]
           else
             let expr2 := { expr1 with Status := ExpressionStatus.StatusInQueue }
             let o1 := { o with exprs := o.exprs.set p expr2 }
             registryLocks o1 expr.ID ExpressionStatus.StatusInQueue) ++
      [LockOp.Unlock (Mutex.expression p)]

/-- Whether a mutex is the `mu` of an expression. -/
def Mutex.isExpression : Mutex → Bool
  | Mutex.expression _ => true
  | _ => false

/-- The lock order queue, then expression, over a sequence of lock operations
that starts with the mutexes `held`: whenever `Orchestrator.mu` is locked, no
expression's `mu` is held. -/
def queueFirst : List LockOp → List Mutex → Bool
  | [], _ => true
  | LockOp.Lock m :: rest, held =>
    (if m = Mutex.queue then !(held.any Mutex.isExpression) else true) &&
      queueFirst rest (m :: held)
  | LockOp.Unlock m :: rest, held => queueFirst rest (held.erase m)

/-- Two handler runs side by side: the lock operations each has still to do and
the mutexes each holds. -/
structure Pair where
  todoA : List LockOp
  heldA : List Mutex
  todoB : List LockOp
  heldB : List Mutex
deriving DecidableEq, Repr

/-- Whether a run can do its next lock operation: an `Unlock` always, a `Lock`
when neither run holds the mutex (`sync.Mutex` does not admit a second
`Lock` before the `Unlock`); a run with nothing to do has returned. -/
def enabled (todo : List LockOp) (t : Pair) : Bool :=
  match todo with
  | [] => false
  | LockOp.Lock m :: _ => !(t.heldA.contains m) && !(t.heldB.contains m)
  | LockOp.Unlock _ :: _ => true

/-- The next lock operation of the first run, if it can do it. -/
def stepA (t : Pair) : Option Pair :=
  if enabled t.todoA t then
    match t.todoA with
    | [] => none
    | LockOp.Lock m :: rest => some { t with todoA := rest, heldA := m :: t.heldA }
    | LockOp.Unlock m :: rest => some { t with todoA := rest, heldA := t.heldA.erase m }
  else none

/-- The next lock operation of the second run, if it can do it. -/
def stepB (t : Pair) : Option Pair :=
  if enabled t.todoB t then
    match t.todoB with
    | [] => none
    | LockOp.Lock m :: rest => some { t with todoB := rest, heldB := m :: t.heldB }
    | LockOp.Unlock m :: rest => some { t with todoB := rest, heldB := t.heldB.erase m }
  else none

/-- An interleaving of the two runs: `false` lets the first run do its next
lock operation, `true` the second. -/
def interleave : List Bool → Pair → Option Pair
  | [], t => some t
  | false :: rest, t => (stepA t).bind (interleave rest)
  | true :: rest, t => (stepB t).bind (interleave rest)

/-- Both runs wait for a mutex the other holds: each has a lock operation to
do and neither can do it. -/
def deadlocked (t : Pair) : Bool :=
  !t.todoA.isEmpty && !t.todoB.isEmpty && !enabled t.todoA t && !enabled t.todoB t


/-! ## Lemmas on the scanner -/

theorem asciiDigit_unicodeIsDigit (c : Char) (h : asciiDigit c = true) : unicodeIsDigit c = true := by
  unfold asciiDigit at h
  unfold unicodeIsDigit digitRanges
  simp only [List.any_cons, Bool.or_eq_true]
  left
  simpa using h

theorem not_digit_of_bracket (c : Char) (h : c = '(' ∨ c = ')' ∨ c = '.' ∨ c = ',' ∨ c = '+' ∨ c = '-' ∨ c = '*' ∨ c = '/') :
    unicodeIsDigit c = false := by
  rcases h with h | h | h | h | h | h | h | h <;> subst h <;> decide

theorem popToOpen_count (s : Stack Char) (out : List String) :
    (popToOpen s out).1.count '(' = s.count '(' - 1 := by
  induction s generalizing out with
  | nil => simp [popToOpen]
  | cons op rest ih =>
    unfold popToOpen
    by_cases h : op = '('
    · subst h; simp
    · simp only [h, if_false]
      rw [ih, List.count_cons_of_ne (Ne.symm h)]

theorem popHigher_count (priority : Nat) (s : Stack Char) (out : List String) :
    (popHigher priority s out).1.count '(' = s.count '(' := by
  induction s generalizing out with
  | nil => simp [popHigher]
  | cons op rest ih =>
    unfold popHigher
    split
    · rename_i h
      rw [ih, List.count_cons_of_ne (Ne.symm h.1)]
    · rfl

theorem drain_ok_iff (s : Stack Char) (out : List String) :
    (∃ r, drain s out = .ok r) ↔ s.count '(' = 0 := by
  induction s generalizing out with
  | nil => simp [drain]
  | cons op rest ih =>
    unfold drain
    by_cases h : op = '('
    · subst h; simp
    · simp only [h, if_false]
      rw [ih, List.count_cons_of_ne (Ne.symm h)]

/-- The bracket bookkeeping of the scan: the number of opening brackets on the
operator stack and the number of closing brackets that found none. -/
theorem flushNum_stack (st : Scan) :
    (flushNum st).operatorStack = st.operatorStack ∧ (flushNum st).openBrackets = st.openBrackets := by
  unfold flushNum; split <;> simp

theorem scanRune_brackets (st : Scan) (c : Char) :
    ((scanRune st c).operatorStack.count '(' =
        if c = '(' then st.operatorStack.count '(' + 1
        else if c = ')' then st.operatorStack.count '(' - 1
        else st.operatorStack.count '(') ∧
    ((scanRune st c).openBrackets =
        if c = '(' then st.openBrackets + 1
        else if c = ')' then st.openBrackets - 1
        else st.openBrackets) := by
  unfold scanRune
  split
  · rename_i h
    have h1 : c ≠ '(' := by
      rintro rfl; revert h; simp [not_digit_of_bracket]
    have h2 : c ≠ ')' := by
      rintro rfl; revert h; simp [not_digit_of_bracket]
    simp [h1, h2]
  · obtain ⟨hs, ho⟩ := flushNum_stack st
    by_cases h1 : c = '('
    · subst h1
      simp [operatorPriority, Stack.Push, hs, ho]
    · by_cases h2 : c = ')'
      · subst h2
        simp [operatorPriority, hs, ho, popToOpen_count]
      · simp only [h1, h2, if_false]
        cases hp : operatorPriority c with
        | none => simp [hs, ho]
        | some p =>
          simp only [Stack.Push, hs, ho, and_true]
          rw [List.count_cons_of_ne (Ne.symm h1), popHigher_count]

theorem foldl_scanRune_brackets (cs : List Char) (st : Scan) (u : Nat)
    (h : st.openBrackets = (st.operatorStack.count '(' : Int) - u) :
    ((cs.foldl scanRune st).openBrackets = 0 ∧ (cs.foldl scanRune st).operatorStack.count '(' = 0) ↔
      (u = 0 ∧ nestingOk cs (st.operatorStack.count '(') = true) := by
  induction cs generalizing st u with
  | nil =>
    simp only [List.foldl_nil, nestingOk, beq_iff_eq]
    omega
  | cons c cs ih =>
    simp only [List.foldl_cons]
    obtain ⟨hc, ho⟩ := scanRune_brackets st c
    by_cases h1 : c = '('
    · subst h1
      simp only [if_true] at hc ho
      rw [ih (scanRune st '(') u (by rw [hc, ho, h]; push_cast; ring), hc]
      simp [nestingOk]
    · by_cases h2 : c = ')'
      · subst h2
        simp only [h1, if_false, if_true] at hc ho
        cases hd : st.operatorStack.count '(' with
        | zero =>
          rw [hd] at hc h
          rw [ih (scanRune st ')') (u + 1) (by rw [hc, ho, h]; push_cast; ring)]
          simp [nestingOk]
        | succ d =>
          rw [hd] at hc h
          rw [ih (scanRune st ')') u (by rw [hc, ho, h]; simp; ring), hc]
          simp [nestingOk]
      · simp only [h1, h2, if_false] at hc ho
        rw [ih (scanRune st c) u (by rw [hc, ho, h]), hc]
        simp [nestingOk, h1, h2]

theorem toPostfix_ok_iff (s : String) : (∃ r, toPostfix s = .ok r) ↔ properlyNested s = true := by
  unfold toPostfix properlyNested
  have key := foldl_scanRune_brackets s.data ⟨[], NewStack, [], 0⟩ 0 (by simp [NewStack])
  obtain ⟨hs, ho⟩ := flushNum_stack (s.data.foldl scanRune ⟨[], NewStack, [], 0⟩)
  simp only [NewStack, List.count_nil, true_and] at key
  rw [← key]
  simp only [NewStack] at hs ho ⊢
  by_cases hb : (List.foldl scanRune ⟨[], [], [], 0⟩ s.data).openBrackets = 0
  · simp only [ho, hb, ne_eq, not_true_eq_false, if_false, true_and]
    rw [drain_ok_iff, hs]
  · simp [ho, hb]

theorem except_error_iff_not_ok {ε α : Type} (x : Except ε α) :
    (∃ e, x = .error e) ↔ ¬ ∃ r, x = .ok r := by
  cases x <;> simp

/-- C8. Parenthesis validation: `toPostfix` returns an error exactly when the
parentheses of the input are not properly nested, it returns a token list
exactly when they are, and `ParseExpression` returns an error whenever they
are not. -/
theorem toPostfix_error_iff_unbalanced (s : String) :
    ((∃ e, toPostfix s = .error e) ↔ properlyNested s = false) ∧
    ((∃ r, toPostfix s = .ok r) ↔ properlyNested s = true) ∧
    (properlyNested s = false → ∃ e, ParseExpression s = .error e) := by
  have h1 : (∃ e, toPostfix s = .error e) ↔ properlyNested s = false := by
    rw [except_error_iff_not_ok, toPostfix_ok_iff]; simp
  refine ⟨h1, toPostfix_ok_iff s, fun h => ?_⟩
  obtain ⟨e, he⟩ := h1.2 h
  exact ⟨e, by simp [ParseExpression, he]⟩

/-- C8, witnesses: an unclosed bracket in `2+(3*4`, and `)2+3(`, which has as
many opening as closing brackets, are both rejected. -/
theorem toPostfix_error_iff_unbalanced_witness :
    (properlyNested "2+(3*4" = false ∧ ∃ e, ParseExpression "2+(3*4" = .error e) ∧
    (properlyNested ")2+3(" = false ∧ ∃ e, ParseExpression ")2+3(" = .error e) :=
  ⟨⟨by decide, (toPostfix_error_iff_unbalanced "2+(3*4").2.2 (by decide)⟩,
   ⟨by decide, (toPostfix_error_iff_unbalanced ")2+3(").2.2 (by decide)⟩⟩

/-! ## Lemmas on the graph builder -/

theorem buildTokens_depth (ts : List String) (st : Build) :
    (buildTokens ts st).toOption.map (fun r => r.dagStack.length) =
      arityScan ts st.dagStack.length := by
  induction ts generalizing st with
  | nil => simp [buildTokens, arityScan, Except.toOption]
  | cons t ts ih =>
    unfold buildTokens arityScan buildToken
    by_cases hn : (ParseFloat t).isSome = true
    · simp only [hn, if_true]
      rw [ih]
      simp [Stack.Push]
    · simp only [hn, if_false]
      match hs : st.dagStack with
      | [] => simp [Stack.Pop, Except.toOption]
      | [x] => simp [Stack.Pop, Except.toOption]
      | x :: y :: s =>
        simp only [Stack.Pop, Bool.false_eq_true, if_false]
        rw [ih]
        have hlt : ¬ (s.length + 1 + 1 < 2) := by omega
        simp [Stack.Push, hlt]

theorem createDAG_ok_iff (poland : List String) :
    (∃ r, createDAG poland = .ok r) ↔ arityOk poland = true := by
  have h := buildTokens_depth poland ⟨[], NewStack, [], 0⟩
  unfold createDAG arityOk
  simp only [NewStack, List.length_nil] at h ⊢
  rw [← h]
  cases hb : buildTokens poland ⟨[], [], [], 0⟩ with
  | error e => simp [Except.toOption]
  | ok st =>
    by_cases hl : st.dagStack.length = 1 <;> simp [Except.toOption, Stack.Len, hl]

/-! ## The scanner on single characters -/

theorem scanRune_digit (st : Scan) (c : Char) (h : unicodeIsDigit c = true) :
    scanRune st c = ⟨st.output, st.operatorStack, st.curNum ++ [c], st.openBrackets⟩ := by
  have h1 : c ≠ '.' := by
    have h0 := not_digit_of_bracket '.' (by simp)
    rintro rfl; simp [h0] at h
  simp [scanRune, h, h1]

theorem foldl_scanRune_digits (ds : List Char) (st : Scan)
    (h : ∀ c ∈ ds, unicodeIsDigit c = true) :
    ds.foldl scanRune st = ⟨st.output, st.operatorStack, st.curNum ++ ds, st.openBrackets⟩ := by
  induction ds generalizing st with
  | nil => simp
  | cons c ds ih =>
    simp only [List.foldl_cons]
    rw [scanRune_digit st c (h c (List.mem_cons_self _ _)),
      ih _ (fun d hd => h d (List.mem_cons_of_mem _ hd))]
    simp

theorem flushNum_fields (st : Scan) :
    (flushNum st).operatorStack = st.operatorStack ∧
    (flushNum st).openBrackets = st.openBrackets ∧ (flushNum st).curNum = [] := by
  unfold flushNum
  split
  · simp
  · rename_i h
    simpa using h

theorem scanRune_operator (st : Scan) (c : Char) (p : Nat)
    (hc : (c = '+' ∧ p = 1) ∨ (c = '-' ∧ p = 1) ∨ (c = '*' ∧ p = 2) ∨ (c = '/' ∧ p = 2)) :
    scanRune st c =
      ⟨(popHigher p st.operatorStack (flushNum st).output).2,
       c :: (popHigher p st.operatorStack (flushNum st).output).1, [], st.openBrackets⟩ := by
  obtain ⟨h1, h2, h3⟩ := flushNum_fields st
  rcases hc with ⟨rfl, rfl⟩ | ⟨rfl, rfl⟩ | ⟨rfl, rfl⟩ | ⟨rfl, rfl⟩ <;>
    simp [scanRune, operatorPriority, Stack.Push, not_digit_of_bracket, h1, h2, h3]

theorem scanRune_open (st : Scan) :
    scanRune st '(' =
      ⟨(flushNum st).output, '(' :: st.operatorStack, [], st.openBrackets + 1⟩ := by
  obtain ⟨h1, h2, h3⟩ := flushNum_fields st
  simp [scanRune, operatorPriority, Stack.Push, not_digit_of_bracket, h1, h2, h3]

theorem scanRune_close (st : Scan) :
    scanRune st ')' =
      ⟨(popToOpen st.operatorStack (flushNum st).output).2,
       (popToOpen st.operatorStack (flushNum st).output).1, [], st.openBrackets - 1⟩ := by
  obtain ⟨h1, h2, h3⟩ := flushNum_fields st
  simp [scanRune, operatorPriority, not_digit_of_bracket, h1, h2, h3]

theorem isDigits_unicode {a : List Char} (h : isDigits a) : ∀ c ∈ a, unicodeIsDigit c = true :=
  fun c hc => asciiDigit_unicodeIsDigit c (h.2 c hc)

theorem parseFloat_operator :
    ParseFloat "+" = none ∧ ParseFloat "-" = none ∧ ParseFloat "*" = none ∧ ParseFloat "/" = none := by
  refine ⟨?_, ?_, ?_, ?_⟩ <;> rfl

theorem toPostfix_plus_plus (a b : List Char) (ha : isDigits a) (hb : isDigits b) :
    toPostfix (String.mk (a ++ '+' :: '+' :: b)) = .ok [String.mk a, "+", String.mk b, "+"] := by
  unfold toPostfix
  simp only [List.foldl_append, List.foldl_cons, NewStack]
  rw [foldl_scanRune_digits a _ (isDigits_unicode ha)]
  rw [scanRune_operator _ '+' 1 (by simp), scanRune_operator _ '+' 1 (by simp)]
  rw [foldl_scanRune_digits b _ (isDigits_unicode hb)]
  simp [flushNum, ha.1, hb.1, popHigher, operatorPriority, drain]
  rfl

theorem toPostfix_trailing_plus (a : List Char) (ha : isDigits a) :
    toPostfix (String.mk (a ++ ['+'])) = .ok [String.mk a, "+"] := by
  unfold toPostfix
  simp only [List.foldl_append, List.foldl_cons, List.foldl_nil, NewStack]
  rw [foldl_scanRune_digits a _ (isDigits_unicode ha)]
  rw [scanRune_operator _ '+' 1 (by simp)]
  simp [flushNum, ha.1, popHigher, drain]
  rfl

theorem toPostfix_leading_minus (a : List Char) (ha : isDigits a) :
    toPostfix (String.mk ('-' :: a)) = .ok [String.mk a, "-"] := by
  unfold toPostfix
  simp only [List.foldl_cons, NewStack]
  rw [scanRune_operator _ '-' 1 (by simp)]
  rw [foldl_scanRune_digits a _ (isDigits_unicode ha)]
  simp [flushNum, ha.1, popHigher, drain]
  rfl

theorem arityScan_operand_plus (a : String) (rest : List String) :
    arityScan (a :: "+" :: rest) 0 = none ∧ arityScan (a :: "-" :: rest) 0 = none := by
  have hp := parseFloat_operator
  constructor <;> by_cases h : (ParseFloat a).isSome = true <;>
    simp [arityScan, h, hp.1, hp.2.1]

theorem createDAG_error_of_arity (poland : List String) (h : arityOk poland = false) :
    ∃ e, createDAG poland = .error e := by
  rw [except_error_iff_not_ok, createDAG_ok_iff]; simp [h]

/-- C9. Arity validation: `createDAG` returns an error exactly when some
operator token finds fewer than two operands or the operand stack does not hold
exactly one node after the last token; hence `ParseExpression` rejects
`a++b`, `a+`, `-a`, the empty string and `()` for all digit literals. -/
theorem createDAG_error_iff_arity :
    (∀ poland : List String, (∃ e, createDAG poland = .error e) ↔ arityOk poland = false) ∧
    (∀ a b : List Char, isDigits a → isDigits b →
      (∃ e, ParseExpression (String.mk (a ++ '+' :: '+' :: b)) = .error e) ∧
      (∃ e, ParseExpression (String.mk (a ++ ['+'])) = .error e) ∧
      (∃ e, ParseExpression (String.mk ('-' :: a)) = .error e)) ∧
    (∃ e, ParseExpression "" = .error e) ∧ (∃ e, ParseExpression "()" = .error e) := by
  refine ⟨fun poland => ?_, fun a b ha hb => ⟨?_, ?_, ?_⟩, ⟨_, rfl⟩, ⟨_, rfl⟩⟩
  · rw [except_error_iff_not_ok, createDAG_ok_iff]; simp
  · simp only [ParseExpression, toPostfix_plus_plus a b ha hb]
    exact createDAG_error_of_arity _ (by simp [arityOk, (arityScan_operand_plus _ _).1])
  · simp only [ParseExpression, toPostfix_trailing_plus a ha]
    exact createDAG_error_of_arity _ (by simp [arityOk, (arityScan_operand_plus _ _).1])
  · simp only [ParseExpression, toPostfix_leading_minus a ha]
    exact createDAG_error_of_arity _ (by simp [arityOk, (arityScan_operand_plus _ _).2])

/-- C9, witness: `2++3` is rejected. -/
theorem createDAG_error_iff_arity_witness :
    isDigits ['2'] ∧ isDigits ['3'] ∧ ∃ e, ParseExpression "2++3" = .error e :=
  ⟨by simp [isDigits, asciiDigit], by simp [isDigits, asciiDigit],
   (createDAG_error_iff_arity.2.1 ['2'] ['3'] (by simp [isDigits, asciiDigit])
      (by simp [isDigits, asciiDigit])).1⟩

/-- C10. Decimal literals: the scanner rewrites the point of `2.5` into a
comma, `strconv.ParseFloat` rejects `2,5`, and `createDAG` then takes the token
for an operator and fails on the empty operand stack; the repository's own
tests expect both inputs to compile. -/
theorem decimal_literals_rejected :
    toPostfix "2.5+3.7" = .ok ["2,5", "3,7", "+"] ∧
    ParseExpression "2.5+3.7" = .error "stack.pop not ok" ∧
    ParseExpression "2.5+3.5" = .error "stack.pop not ok" ∧
    ParseExpression "2,5+3,5" = .error "stack.pop not ok" := by
  refine ⟨?_, ?_, ?_, ?_⟩ <;> rfl

/-! ## Maps -/

theorem mapGet_mapSet {κ ν : Type} [DecidableEq κ] (m : List (κ × ν)) (k k' : κ) (v : ν) :
    mapGet (mapSet m k v) k' = if k' = k then some v else mapGet m k' := by
  induction m with
  | nil =>
    simp only [mapSet, mapGet]
    by_cases h : k = k'
    · simp [h]
    · simp [h, Ne.symm h]
  | cons kv m ih =>
    unfold mapSet
    by_cases h1 : kv.1 = k
    · simp only [h1, if_true, mapGet]
      by_cases h2 : k = k'
      · simp [h2]
      · simp [h2, Ne.symm h2, h1]
    · simp only [h1, if_false, mapGet, ih]
      by_cases h2 : kv.1 = k'
      · have : k' ≠ k := fun h => h1 (h2.trans h)
        simp [h2, this]
      · simp [h2]

theorem mapGet_none_iff {κ ν : Type} [DecidableEq κ] (m : List (κ × ν)) (k : κ) :
    mapGet m k = none ↔ k ∉ mapKeys m := by
  induction m with
  | nil => simp [mapGet, mapKeys]
  | cons kv m ih =>
    unfold mapGet
    by_cases h : kv.1 = k
    · simp only [h, if_true, mapKeys, List.map_cons, List.mem_cons]
      simp [← h]
    · simp only [h, if_false, ih, mapKeys, List.map_cons, List.mem_cons, not_or]
      constructor
      · intro h2; exact ⟨fun h3 => h h3.symm, h2⟩
      · intro h2; exact h2.2

theorem mapSet_of_not_mem {κ ν : Type} [DecidableEq κ] (m : List (κ × ν)) (k : κ) (v : ν)
    (h : k ∉ mapKeys m) : mapSet m k v = m ++ [(k, v)] := by
  induction m with
  | nil => simp [mapSet]
  | cons kv m ih =>
    simp only [mapKeys, List.map_cons, List.mem_cons, not_or] at h
    unfold mapSet
    have h1 : ¬ kv.1 = k := fun h' => h.1 (Eq.symm h')
    simp only [h1, if_false, List.cons_append]
    rw [ih h.2]

theorem mapGet_mem {κ ν : Type} [DecidableEq κ] (m : List (κ × ν)) (k : κ) (v : ν)
    (h : mapGet m k = some v) : (k, v) ∈ m := by
  induction m with
  | nil => simp [mapGet] at h
  | cons kv m ih =>
    unfold mapGet at h
    by_cases h1 : kv.1 = k
    · simp only [h1, if_true, Option.some.injEq] at h
      have : kv = (k, v) := Prod.ext h1 h
      simp [this]
    · simp only [h1, if_false] at h
      exact List.mem_cons_of_mem _ (ih h)

theorem mapGet_of_mem {κ ν : Type} [DecidableEq κ] (m : List (κ × ν)) (k : κ) (v : ν)
    (hn : (mapKeys m).Nodup) (h : (k, v) ∈ m) : mapGet m k = some v := by
  induction m with
  | nil => simp at h
  | cons kv m ih =>
    simp only [mapKeys, List.map_cons, List.nodup_cons] at hn
    unfold mapGet
    rcases List.mem_cons.1 h with h1 | h1
    · simp [← h1]
    · have hk : k ∈ mapKeys m := List.mem_map.2 ⟨(k, v), h1, rfl⟩
      have : kv.1 ≠ k := fun h2 => hn.1 (h2 ▸ hk)
      simp only [this, if_false]
      exact ih hn.2 h1

theorem levelNodes_levelAppend (m : List (Nat × List Nat)) (L p L' : Nat) :
    levelNodes (levelAppend m L p) L' =
      if L' = L then levelNodes m L ++ [p] else levelNodes m L' := by
  unfold levelAppend
  rw [levelNodes, mapGet_mapSet]
  by_cases h : L' = L <;> simp [h, levelNodes]

/-! ## Arenas -/

theorem levelOf_append (nodes ext : List Node) (p : Nat) (h : p < nodes.length) :
    levelOf (nodes ++ ext) p = levelOf nodes p := by
  simp [levelOf, List.getElem?_append_left h]

theorem levelOf_append_self (nodes : List Node) (n : Node) :
    levelOf (nodes ++ [n]) nodes.length = n.Level := by
  simp [levelOf]

theorem maxLevelOf_append (ns : List Node) (n : Node) :
    maxLevelOf (ns ++ [n]) = if maxLevelOf ns < n.Level then n.Level else maxLevelOf ns := by
  simp [maxLevelOf, List.foldl_append]

theorem range_filter_succ (n : Nat) (f : Nat → Bool) :
    (List.range (n + 1)).filter f = (List.range n).filter f ++ (if f n then [n] else []) := by
  rw [List.range_succ, List.filter_append]
  by_cases h : f n <;> simp [h]

theorem filter_level_append (nodes : List Node) (n : Node) (L : Nat) :
    (List.range (nodes ++ [n]).length).filter (fun p => decide (levelOf (nodes ++ [n]) p = L)) =
      (List.range nodes.length).filter (fun p => decide (levelOf nodes p = L)) ++
        (if n.Level = L then [nodes.length] else []) := by
  rw [List.length_append, List.length_singleton, range_filter_succ, levelOf_append_self]
  congr 1
  · apply List.filter_congr
    intro p hp
    rw [levelOf_append _ _ _ (List.mem_range.1 hp)]
  · by_cases h : n.Level = L <;> simp [h]

theorem nodeBuilt_append (nodes ext : List Node) (p : Nat) (n : Node) (hp : p < nodes.length)
    (h : NodeBuilt nodes p n) : NodeBuilt (nodes ++ ext) p n := by
  refine ⟨h.1, ?_⟩
  rcases h.2 with h2 | ⟨h2, h3, l, r, hd, hl, hr, hlev⟩
  · exact Or.inl h2
  · refine Or.inr ⟨h2, h3, l, r, hd, hl, hr, ?_⟩
    rw [levelOf_append _ _ _ (by omega), levelOf_append _ _ _ (by omega)]
    exact hlev

/-! ## The invariant of `createDAG` -/

theorem buildInv_init : BuildInv ⟨[], NewStack, [], 0⟩ where
  stack_lt := by simp [NewStack]
  node_ok := by simp
  covered := by simp
  parent := by simp
  level_map := by simp [levelNodes, mapGet]
  max_level := by simp [maxLevelOf]

theorem getElem?_append_singleton {α : Type} (xs : List α) (x y : α) (p : Nat)
    (h : (xs ++ [x])[p]? = some y) : (p < xs.length ∧ xs[p]? = some y) ∨ (p = xs.length ∧ y = x) := by
  rcases Nat.lt_trichotomy p xs.length with hlt | heq | hgt
  · rw [List.getElem?_append_left hlt] at h
    exact Or.inl ⟨hlt, h⟩
  · subst heq
    simp at h
    exact Or.inr ⟨rfl, h.symm⟩
  · rw [List.getElem?_eq_none (by simp; omega)] at h
    simp at h

theorem buildInv_number (st : Build) (t : String) (hinv : BuildInv st)
    (ht : (ParseFloat t).isSome = true) :
    BuildInv { nodes := st.nodes ++ [⟨NodeType.Number, t, [], 0, NodeStatus.StatusCreated⟩]
               dagStack := Stack.Push st.dagStack st.nodes.length
               levelMap := levelAppend st.levelMap 0 st.nodes.length
               maxLevel := st.maxLevel } where
  stack_lt := by
    intro p hp
    simp only [Stack.Push, List.mem_cons] at hp
    simp only [List.length_append, List.length_singleton]
    rcases hp with rfl | hp
    · omega
    · have := hinv.stack_lt p hp; omega
  node_ok := by
    intro p n hn
    rcases getElem?_append_singleton _ _ _ _ hn with ⟨hlt, h⟩ | ⟨rfl, rfl⟩
    · exact nodeBuilt_append _ _ _ _ hlt (hinv.node_ok p n h)
    · exact ⟨rfl, Or.inl ⟨rfl, rfl, rfl, ht⟩⟩
  covered := by
    intro p hp
    simp only [List.length_append, List.length_singleton] at hp
    simp only [Stack.Push, List.mem_cons]
    rcases Nat.lt_succ_iff_lt_or_eq.1 hp with hlt | rfl
    · rcases hinv.covered p hlt with h | ⟨r, hr, hlev⟩
      · exact Or.inl (Or.inr h)
      · refine Or.inr ⟨r, Or.inr hr, ?_⟩
        rw [levelOf_append _ _ _ hlt, levelOf_append _ _ _ (hinv.stack_lt r hr)]
        exact hlev
    · exact Or.inl (Or.inl rfl)
  parent := by
    intro p hp
    simp only [List.length_append, List.length_singleton] at hp
    simp only [Stack.Push, List.mem_cons]
    rcases Nat.lt_succ_iff_lt_or_eq.1 hp with hlt | rfl
    · rcases hinv.parent p hlt with h | ⟨q, n, hq, hmem⟩
      · exact Or.inl (Or.inr h)
      · refine Or.inr ⟨q, n, ?_, hmem⟩
        have hql : q < st.nodes.length := by
          by_contra hc
          rw [List.getElem?_eq_none (by omega)] at hq
          simp at hq
        rw [List.getElem?_append_left hql]
        exact hq
    · exact Or.inl (Or.inl rfl)
  level_map := by
    intro L
    rw [levelNodes_levelAppend, filter_level_append, hinv.level_map, hinv.level_map]
    by_cases h : L = 0
    · subst h; simp
    · simp [h, Ne.symm h]
  max_level := by
    simp only [maxLevelOf_append, Nat.not_lt_zero, if_false]
    exact hinv.max_level

theorem buildInv_operator (st : Build) (t : String) (x y : Nat) (s : List Nat)
    (hinv : BuildInv st) (ht : ParseFloat t = none) (hs : st.dagStack = x :: y :: s) :
    BuildInv
      { nodes := st.nodes ++
          [⟨NodeType.Operator, t, [y, x], max (levelOf st.nodes x) (levelOf st.nodes y) + 1,
            NodeStatus.StatusCreated⟩]
        dagStack := Stack.Push s st.nodes.length
        levelMap := levelAppend st.levelMap (max (levelOf st.nodes x) (levelOf st.nodes y) + 1)
          st.nodes.length
        maxLevel :=
          if st.maxLevel < max (levelOf st.nodes x) (levelOf st.nodes y) + 1 then
            max (levelOf st.nodes x) (levelOf st.nodes y) + 1
          else st.maxLevel } where
  stack_lt := by
    intro p hp
    simp only [Stack.Push, List.mem_cons] at hp
    simp only [List.length_append, List.length_singleton]
    rcases hp with rfl | hp
    · omega
    · have := hinv.stack_lt p (by rw [hs]; simp [hp]); omega
  node_ok := by
    intro p n hn
    have hx : x < st.nodes.length := hinv.stack_lt x (by rw [hs]; simp)
    have hy : y < st.nodes.length := hinv.stack_lt y (by rw [hs]; simp)
    rcases getElem?_append_singleton _ _ _ _ hn with ⟨hlt, h⟩ | ⟨rfl, rfl⟩
    · exact nodeBuilt_append _ _ _ _ hlt (hinv.node_ok p n h)
    · refine ⟨rfl, Or.inr ⟨rfl, ht, y, x, rfl, hy, hx, ?_⟩⟩
      rw [levelOf_append _ _ _ hx, levelOf_append _ _ _ hy]
  covered := by
    intro p hp
    have hx : x < st.nodes.length := hinv.stack_lt x (by rw [hs]; simp)
    have hy : y < st.nodes.length := hinv.stack_lt y (by rw [hs]; simp)
    simp only [List.length_append, List.length_singleton] at hp
    simp only [Stack.Push, List.mem_cons]
    have hnew : ∀ r, r = x ∨ r = y → ∀ q, q < st.nodes.length →
        levelOf st.nodes q ≤ levelOf st.nodes r →
        levelOf (st.nodes ++
          [⟨NodeType.Operator, t, [y, x], max (levelOf st.nodes x) (levelOf st.nodes y) + 1,
            NodeStatus.StatusCreated⟩]) q <
        levelOf (st.nodes ++
          [⟨NodeType.Operator, t, [y, x], max (levelOf st.nodes x) (levelOf st.nodes y) + 1,
            NodeStatus.StatusCreated⟩]) st.nodes.length := by
      intro r hr q hq hle
      rw [levelOf_append _ _ _ hq, levelOf_append_self]
      rcases hr with rfl | rfl
      · have := le_max_left (levelOf st.nodes r) (levelOf st.nodes y); simp only; omega
      · have := le_max_right (levelOf st.nodes x) (levelOf st.nodes r); simp only; omega
    rcases Nat.lt_succ_iff_lt_or_eq.1 hp with hlt | rfl
    · rcases hinv.covered p hlt with h | ⟨r, hr, hlev⟩
      · rw [hs] at h
        simp only [List.mem_cons] at h
        rcases h with rfl | rfl | h
        · exact Or.inr ⟨_, Or.inl rfl, hnew p (Or.inl rfl) p hlt le_rfl⟩
        · exact Or.inr ⟨_, Or.inl rfl, hnew p (Or.inr rfl) p hlt le_rfl⟩
        · exact Or.inl (Or.inr h)
      · rw [hs] at hr
        simp only [List.mem_cons] at hr
        rcases hr with rfl | rfl | hr
        · exact Or.inr ⟨_, Or.inl rfl, hnew r (Or.inl rfl) p hlt (le_of_lt hlev)⟩
        · exact Or.inr ⟨_, Or.inl rfl, hnew r (Or.inr rfl) p hlt (le_of_lt hlev)⟩
        · refine Or.inr ⟨r, Or.inr hr, ?_⟩
          rw [levelOf_append _ _ _ hlt,
            levelOf_append _ _ _ (hinv.stack_lt r (by rw [hs]; simp [hr]))]
          exact hlev
    · exact Or.inl (Or.inl rfl)
  parent := by
    intro p hp
    simp only [List.length_append, List.length_singleton] at hp
    simp only [Stack.Push, List.mem_cons]
    rcases Nat.lt_succ_iff_lt_or_eq.1 hp with hlt | rfl
    · rcases hinv.parent p hlt with h | ⟨q, n, hq, hmem⟩
      · rw [hs] at h
        simp only [List.mem_cons] at h
        rcases h with rfl | rfl | h
        · exact Or.inr ⟨st.nodes.length, _, List.getElem?_concat_length _ _, by simp⟩
        · exact Or.inr ⟨st.nodes.length, _, List.getElem?_concat_length _ _, by simp⟩
        · exact Or.inl (Or.inr h)
      · refine Or.inr ⟨q, n, ?_, hmem⟩
        have hql : q < st.nodes.length := by
          by_contra hc
          rw [List.getElem?_eq_none (by omega)] at hq
          simp at hq
        rw [List.getElem?_append_left hql]
        exact hq
    · exact Or.inl (Or.inl rfl)
  level_map := by
    intro L
    rw [levelNodes_levelAppend, filter_level_append, hinv.level_map, hinv.level_map]
    by_cases h : L = max (levelOf st.nodes x) (levelOf st.nodes y) + 1
    · subst h; simp
    · simp [h, Ne.symm h]
  max_level := by
    simp only [maxLevelOf_append]
    rw [hinv.max_level]

theorem buildToken_inv (st st1 : Build) (t : String) (hinv : BuildInv st)
    (h : buildToken st t = .ok st1) : BuildInv st1 := by
  unfold buildToken at h
  by_cases hn : (ParseFloat t).isSome = true
  · simp only [hn, if_true, Except.ok.injEq] at h
    subst h
    exact buildInv_number st t hinv hn
  · simp only [hn, if_false] at h
    have hnone : ParseFloat t = none := by simpa using hn
    match hs : st.dagStack with
    | [] => simp [hs, Stack.Pop] at h
    | [x] => simp [hs, Stack.Pop] at h
    | x :: y :: s =>
      simp only [hs, Stack.Pop, Bool.false_eq_true, if_false, Except.ok.injEq] at h
      subst h
      exact buildInv_operator st t x y s hinv hnone hs

theorem buildTokens_inv (ts : List String) (st st1 : Build) (hinv : BuildInv st)
    (h : buildTokens ts st = .ok st1) : BuildInv st1 := by
  induction ts generalizing st with
  | nil =>
    simp only [buildTokens, Except.ok.injEq] at h
    exact h ▸ hinv
  | cons t ts ih =>
    unfold buildTokens at h
    cases hb : buildToken st t with
    | error e => simp [hb] at h
    | ok st2 =>
      simp only [hb] at h
      exact ih st2 (buildToken_inv st st2 t hinv hb) h

theorem le_maxLevelOf (ns : List Node) (n : Node) (h : n ∈ ns) : n.Level ≤ maxLevelOf ns := by
  induction ns using List.reverseRecOn with
  | nil => simp at h
  | append_singleton ns m ih =>
    rw [maxLevelOf_append]
    rcases List.mem_append.1 h with h1 | h1
    · have := ih h1
      split <;> omega
    · simp only [List.mem_singleton] at h1
      subst h1
      split <;> omega

theorem maxLevelOf_attained (ns : List Node) (h : ns ≠ []) :
    ∃ n ∈ ns, n.Level = maxLevelOf ns := by
  induction ns using List.reverseRecOn with
  | nil => exact absurd rfl h
  | append_singleton ns m ih =>
    rw [maxLevelOf_append]
    by_cases hlt : maxLevelOf ns < m.Level
    · exact ⟨m, by simp, by simp [hlt]⟩
    · simp only [hlt, if_false]
      by_cases hns : ns = []
      · subst hns
        refine ⟨m, by simp, ?_⟩
        simp only [maxLevelOf, List.foldl_nil] at hlt ⊢
        omega
      · obtain ⟨n, hn, hl⟩ := ih hns
        exact ⟨n, by simp [hn], hl⟩

theorem levelOf_le_maxLevelOf (nodes : List Node) (p : Nat) : levelOf nodes p ≤ maxLevelOf nodes := by
  unfold levelOf
  cases h : nodes[p]? with
  | none => simp
  | some n => exact le_maxLevelOf nodes n (List.getElem?_mem h)

theorem levelOrder_perm (nodes : List Node) (m : List (Nat × List Nat))
    (hm : ∀ L, levelNodes m L =
      (List.range nodes.length).filter (fun p => decide (levelOf nodes p = L)))
    (L k : Nat) :
    (levelOrder m L k).Perm
      ((List.range nodes.length).filter (fun p => decide (L ≤ levelOf nodes p ∧ levelOf nodes p < L + k))) := by
  induction k generalizing L with
  | zero =>
    simp only [levelOrder]
    rw [List.filter_eq_nil_iff.2]
    intro p _
    simp
  | succ k ih =>
    simp only [levelOrder]
    have h1 := (ih (L + 1)).append_left (levelNodes m L)
    refine h1.trans ?_
    rw [hm L]
    have h2 := List.filter_append_perm (fun p => decide (levelOf nodes p = L))
      ((List.range nodes.length).filter
        (fun p => decide (L ≤ levelOf nodes p ∧ levelOf nodes p < L + (k + 1))))
    refine List.Perm.trans ?_ h2
    rw [List.filter_filter, List.filter_filter]
    have e1 : (List.range nodes.length).filter (fun p => decide (levelOf nodes p = L)) =
        (List.range nodes.length).filter (fun a => decide (levelOf nodes a = L) &&
          decide (L ≤ levelOf nodes a ∧ levelOf nodes a < L + (k + 1))) := by
      apply List.filter_congr
      intro p _
      by_cases h : levelOf nodes p = L
      · simp [h]
      · simp [h]
    have e2 : (List.range nodes.length).filter
          (fun p => decide (L + 1 ≤ levelOf nodes p ∧ levelOf nodes p < L + 1 + k)) =
        (List.range nodes.length).filter (fun a => (!decide (levelOf nodes a = L)) &&
          decide (L ≤ levelOf nodes a ∧ levelOf nodes a < L + (k + 1))) := by
      apply List.filter_congr
      intro p _
      rw [Bool.eq_iff_iff]
      simp only [decide_eq_true_eq, Bool.and_eq_true, Bool.not_eq_true', decide_eq_false_iff_not]
      omega
    rw [← e1, ← e2]

theorem levelOrder_perm_range (st : Build) (hinv : BuildInv st) :
    (levelOrder st.levelMap 0 (st.maxLevel + 1)).Perm (List.range st.nodes.length) := by
  refine (levelOrder_perm st.nodes st.levelMap hinv.level_map 0 (st.maxLevel + 1)).trans ?_
  rw [List.filter_eq_self.2]
  intro p _
  have := levelOf_le_maxLevelOf st.nodes p
  rw [hinv.max_level]
  simp only [decide_eq_true_eq]
  omega

theorem createDAG_ok (poland : List String) (dag : DAG) (h : createDAG poland = .ok dag) :
    ∃ st root, BuildInv st ∧ buildTokens poland ⟨[], NewStack, [], 0⟩ = .ok st ∧
      st.dagStack = [root] ∧ dag = ⟨st.nodes, st.levelMap, st.maxLevel⟩ := by
  unfold createDAG at h
  cases hb : buildTokens poland ⟨[], NewStack, [], 0⟩ with
  | error e => simp [hb] at h
  | ok st =>
    simp only [hb] at h
    by_cases hl : Stack.Len st.dagStack ≠ 1
    · simp [hl] at h
    · simp only [hl, if_false, Except.ok.injEq] at h
      have hl1 : st.dagStack.length = 1 := by simpa [Stack.Len] using hl
      obtain ⟨root, hroot⟩ := List.length_eq_one.1 hl1
      exact ⟨st, root, buildTokens_inv _ _ _ buildInv_init hb, rfl, hroot, h.symm⟩

/-! ## `prepareInput` -/

theorem update_length {α : Type} (xs : List α) (p : Nat) (f : α → α) :
    (update xs p f).length = xs.length := by
  unfold update; split <;> simp

theorem update_getElem? {α : Type} (xs : List α) (p q : Nat) (f : α → α) :
    (update xs p f)[q]? = if q = p then (xs[q]?).map f else xs[q]? := by
  unfold update
  cases h : xs[p]? with
  | none =>
    by_cases hq : q = p
    · subst hq; simp [h]
    · simp [hq]
  | some x =>
    simp only
    rw [List.getElem?_set]
    by_cases hq : p = q
    · subst hq
      have hlt : p < xs.length := by
        by_contra hc
        rw [List.getElem?_eq_none (by omega)] at h
        simp at h
      simp [h, hlt]
    · simp [hq, Ne.symm hq]

theorem foldl_update_length {α : Type} (ps : List Nat) (xs : List α) (f : α → α) :
    (ps.foldl (fun ns p => update ns p f) xs).length = xs.length := by
  induction ps generalizing xs with
  | nil => rfl
  | cons p ps ih => simp only [List.foldl_cons]; rw [ih, update_length]

theorem foldl_update_getElem? {α : Type} (ps : List Nat) (xs : List α) (f : α → α)
    (hf : ∀ x, f (f x) = f x) (q : Nat) :
    (ps.foldl (fun ns p => update ns p f) xs)[q]? = if q ∈ ps then (xs[q]?).map f else xs[q]? := by
  induction ps generalizing xs with
  | nil => simp
  | cons p ps ih =>
    simp only [List.foldl_cons, List.mem_cons]
    rw [ih, update_getElem?]
    by_cases h1 : q = p
    · subst h1
      cases xs[q]? <;> simp [hf]
    · simp [h1]

theorem markNode_idem (n : Node) : markNode (markNode n) = markNode n := by
  unfold markNode
  by_cases h : n.Typ = NodeType.Number <;> simp [h]

theorem mapKeys_idsFrom_gt (prev : Int) (ps : List Nat) : ∀ k ∈ mapKeys (idsFrom prev ps), prev < k := by
  induction ps generalizing prev with
  | nil => simp [idsFrom, mapKeys]
  | cons p ps ih =>
    intro k hk
    simp only [idsFrom, mapKeys, List.map_cons, List.mem_cons] at hk
    rcases hk with rfl | hk
    · omega
    · have := ih (prev + 1) k hk; omega

theorem mapKeys_idsFrom_le (prev : Int) (ps : List Nat) :
    ∀ k ∈ mapKeys (idsFrom prev ps), k ≤ prev + ps.length := by
  induction ps generalizing prev with
  | nil => simp [idsFrom, mapKeys]
  | cons p ps ih =>
    intro k hk
    simp only [idsFrom, mapKeys, List.map_cons, List.mem_cons] at hk
    simp only [List.length_cons, Nat.cast_add, Nat.cast_one]
    rcases hk with rfl | hk
    · omega
    · have := ih (prev + 1) k hk; omega

theorem mapKeys_idsFrom_nodup (prev : Int) (ps : List Nat) : (mapKeys (idsFrom prev ps)).Nodup := by
  induction ps generalizing prev with
  | nil => simp [idsFrom, mapKeys]
  | cons p ps ih =>
    simp only [idsFrom, mapKeys, List.map_cons, List.nodup_cons]
    refine ⟨fun h => ?_, ih (prev + 1)⟩
    have := mapKeys_idsFrom_gt (prev + 1) ps _ h
    omega

theorem idsFrom_snd (prev : Int) (ps : List Nat) : (idsFrom prev ps).map Prod.snd = ps := by
  induction ps generalizing prev with
  | nil => rfl
  | cons p ps ih => simp [idsFrom, ih]

theorem mapKeys_append {κ ν : Type} (m m' : List (κ × ν)) :
    mapKeys (m ++ m') = mapKeys m ++ mapKeys m' := by
  simp [mapKeys]

theorem assignIds_ok (ps : List Nat) (expr : Expression) (prev : Int)
    (h : ∀ k ∈ mapKeys expr.IdMap, k ≤ prev) :
    assignIds ps expr prev =
      .ok { expr with
            nodes := ps.foldl (fun ns p => update ns p markNode) expr.nodes
            IdMap := expr.IdMap ++ idsFrom prev ps } := by
  induction ps generalizing expr prev with
  | nil => simp [assignIds, idsFrom]
  | cons p ps ih =>
    have hnot : prev + 1 ∉ mapKeys expr.IdMap := fun hk => by
      have := h _ hk; omega
    unfold assignIds
    simp only [(mapGet_none_iff _ _).2 hnot, Option.isSome_none, Bool.false_eq_true, if_false]
    rw [ih]
    · simp only [mapSet_of_not_mem _ _ _ hnot, List.foldl_cons, idsFrom, List.append_assoc,
        List.singleton_append]
    · intro k hk
      simp only [mapSet_of_not_mem _ _ _ hnot, mapKeys_append, List.mem_append] at hk
      rcases hk with hk | hk
      · have := h k hk; omega
      · simp only [mapKeys, List.map_cons, List.map_nil, List.mem_singleton] at hk
        omega

theorem levelOf_map_markNode (nodes : List Node) (p : Nat) :
    levelOf (nodes.map markNode) p = levelOf nodes p := by
  unfold levelOf
  rw [List.getElem?_map]
  cases nodes[p]? with
  | none => rfl
  | some n =>
    simp only [Option.map_some']
    unfold markNode
    split <;> rfl

theorem foldl_markNode (ps : List Nat) (nodes : List Node)
    (hps : ps.Perm (List.range nodes.length)) :
    ps.foldl (fun ns p => update ns p markNode) nodes = nodes.map markNode := by
  apply List.ext_getElem?
  intro q
  rw [foldl_update_getElem? _ _ _ markNode_idem, List.getElem?_map]
  by_cases hq : q ∈ ps
  · simp [hq]
  · have : ¬ q < nodes.length := fun h => hq (hps.mem_iff.2 (List.mem_range.2 h))
    simp [hq, List.getElem?_eq_none (Nat.le_of_not_lt this)]

/-- The expression `prepareInput` builds from a compiled graph. -/
theorem prepareInput_ok (o : Orchestrator) (input : String) (dag : DAG)
    (h : ParseExpression input = .ok dag) :
    prepareInput o input =
      ({ o with
         PrevExpressionID := wrapInt32 (o.PrevExpressionID + 1)
         exprs := o.exprs ++
           [{ ID := wrapInt32 (o.PrevExpressionID + 1)
              nodes := dag.nodes.map markNode
              IdMap := idsFrom 0 (levelOrder dag.levelMap 0 (dag.maxLevel + 1))
              Status := ExpressionStatus.StatusCreated
              Err := none
              Result := 0 }]
         DataBase := mapSet o.DataBase (wrapInt32 (o.PrevExpressionID + 1)) o.exprs.length },
       .ok o.exprs.length) := by
  have hdag : ∃ poland, createDAG poland = .ok dag := by
    unfold ParseExpression at h
    cases hp : toPostfix input with
    | error e => simp [hp] at h
    | ok poland => exact ⟨poland, by simpa [hp] using h⟩
  obtain ⟨poland, hc⟩ := hdag
  obtain ⟨st, root, hinv, -, -, rfl⟩ := createDAG_ok poland dag hc
  unfold prepareInput
  simp only [h, NewExpression]
  rw [assignIds_ok _ _ _ (by simp [mapKeys])]
  simp only [List.nil_append]
  rw [foldl_markNode _ _ (levelOrder_perm_range st hinv)]

theorem exprInv_prepared (poland : List String) (dag : DAG) (id : Int)
    (hc : createDAG poland = .ok dag) :
    ExprInv { ID := id
              nodes := dag.nodes.map markNode
              IdMap := idsFrom 0 (levelOrder dag.levelMap 0 (dag.maxLevel + 1))
              Status := ExpressionStatus.StatusCreated
              Err := none
              Result := 0 } := by
  obtain ⟨st, root, hinv, -, hroot, rfl⟩ := createDAG_ok poland dag hc
  have hget : ∀ (p : Nat) (n : Node), (st.nodes.map markNode)[p]? = some n →
      ∃ m, st.nodes[p]? = some m ∧ n = markNode m := by
    intro p n hn
    rw [List.getElem?_map] at hn
    cases hm : st.nodes[p]? with
    | none => simp [hm] at hn
    | some m => exact ⟨m, rfl, by simpa [hm] using hn.symm⟩
  have hmark : ∀ m : Node, (markNode m).Dependencies = m.Dependencies ∧
      (markNode m).Level = m.Level ∧ (markNode m).Typ = m.Typ ∧ (markNode m).Value = m.Value := by
    intro m; unfold markNode; split <;> simp
  constructor
  · exact ⟨_, by simpa using levelOrder_perm_range st hinv, rfl⟩
  · intro p n hn
    obtain ⟨m, hm, rfl⟩ := hget p n hn
    simp only [(hmark m).1, (hmark m).2.1, levelOf_map_markNode]
    rcases (hinv.node_ok p m hm).2 with ⟨-, hd, hl, -⟩ | ⟨-, -, l, r, hd, hl, hr, hlev⟩
    · exact Or.inl ⟨hd, hl⟩
    · exact Or.inr ⟨l, r, hd, hl, hr, hlev⟩
  · refine ⟨root, ?_, ?_⟩
    · simpa using hinv.stack_lt root (by simp [hroot])
    · intro p hp hne
      simp only [List.length_map] at hp
      simp only [levelOf_map_markNode]
      constructor
      · rcases hinv.covered p hp with h | ⟨r, hr, hlev⟩
        · simp [hroot] at h; exact absurd h hne
        · simp only [hroot, List.mem_singleton] at hr
          subst hr; exact hlev
      · rcases hinv.parent p hp with h | ⟨q, n, hq, hmem⟩
        · simp [hroot] at h; exact absurd h hne
        · refine ⟨q, markNode n, ?_, by rw [(hmark n).1]; exact hmem⟩
          rw [List.getElem?_map, hq]; rfl
  · intro p n hn hnum
    obtain ⟨m, hm, rfl⟩ := hget p n hn
    rw [(hmark m).2.2.1] at hnum
    rw [(hmark m).2.2.2]
    rcases (hinv.node_ok p m hm).2 with ⟨-, -, -, hpf⟩ | ⟨hop, -⟩
    · exact hpf
    · rw [hop] at hnum; cases hnum
  · intro p n hn
    obtain ⟨m, hm, rfl⟩ := hget p n hn
    unfold markNode
    by_cases h : m.Typ = NodeType.Number <;> simp [h]
  · intro p n hn hop
    obtain ⟨m, hm, rfl⟩ := hget p n hn
    rw [(hmark m).2.2.1] at hop
    rw [(hmark m).1]
    rcases (hinv.node_ok p m hm).2 with ⟨hnum, -⟩ | ⟨-, -, l, r, hd, -⟩
    · rw [hnum] at hop; cases hop
    · exact ⟨l, r, hd⟩
  · intro p n hn
    obtain ⟨m, hm, rfl⟩ := hget p n hn
    unfold markNode
    split <;> simp

/-! ## `GetTaskHandler` -/

theorem claimLoop_skip (cfg : OrchestratorConfig) (idMap : List (Int × Nat)) (id : Int)
    (rest : List Int) (nodes : List Node) (h : readyId idMap nodes id = false) :
    claimLoop cfg idMap (id :: rest) nodes = claimLoop cfg idMap rest nodes := by
  unfold readyId at h
  conv_lhs => rw [claimLoop]
  cases hp : mapGet idMap id with
  | none => simp
  | some p =>
    cases hn : nodes[p]? with
    | none => simp [hn]
    | some task =>
      simp only [hp, hn, Option.some_bind, ready, Bool.and_eq_false_imp, Bool.and_eq_true,
        decide_eq_true_eq, and_imp] at h
      simp only [Option.some_bind, Option.map_some', ne_eq, hn]
      by_cases h1 : task.Typ = NodeType.Operator
      · by_cases h2 : task.Status = NodeStatus.StatusInQueue
        · have h3 := h h1 h2
          simp only [h1, h2, not_true_eq_false, or_self, if_false]
          match hd : task.Dependencies with
          | [] => rfl
          | [_] => rfl
          | d1 :: d2 :: ds =>
            simp only [hd] at h3
            simp only
            cases hd1 : nodes[d1]? with
            | none => rfl
            | some dep1 =>
              cases hd2 : nodes[d2]? with
              | none => rfl
              | some dep2 =>
                simp only [hd1, hd2, Bool.and_eq_false_imp, decide_eq_true_eq,
                  decide_eq_false_iff_not] at h3
                simp only
                by_cases h4 : dep1.Typ = NodeType.Number
                · simp [h4, h3 h4]
                · simp [h4]
        · simp [h2]
      · simp [h1]

theorem claimLoop_take (cfg : OrchestratorConfig) (idMap : List (Int × Nat)) (id : Int)
    (rest : List Int) (nodes : List Node)
    (hparse : ∀ (p : Nat) (n : Node), nodes[p]? = some n → n.Typ = NodeType.Number →
      (ParseFloat n.Value).isSome = true)
    (h : readyId idMap nodes id = true) :
    ∃ p task d1 d2 ds dep1 dep2 a1 a2,
      mapGet idMap id = some p ∧ nodes[p]? = some task ∧
      task.Typ = NodeType.Operator ∧ task.Status = NodeStatus.StatusInQueue ∧
      task.Dependencies = d1 :: d2 :: ds ∧ nodes[d1]? = some dep1 ∧ nodes[d2]? = some dep2 ∧
      dep1.Typ = NodeType.Number ∧ dep2.Typ = NodeType.Number ∧
      ParseFloat dep1.Value = some a1 ∧ ParseFloat dep2.Value = some a2 ∧
      claimLoop cfg idMap (id :: rest) nodes =
        (update nodes p claimNode,
         some { ID := id, Arg1 := a1, Arg2 := a2, Operation := task.Value,
                OperationTime := operationTime cfg task.Value }) := by
  unfold readyId at h
  cases hp : mapGet idMap id with
  | none => simp [hp] at h
  | some p =>
    cases hn : nodes[p]? with
    | none => simp [hp, hn] at h
    | some task =>
      simp only [hp, hn, Option.some_bind, ready, Bool.and_eq_true, decide_eq_true_eq] at h
      obtain ⟨⟨h1, h2⟩, h3⟩ := h
      match hd : task.Dependencies with
      | [] => simp [hd] at h3
      | [_] => simp [hd] at h3
      | d1 :: d2 :: ds =>
        simp only [hd] at h3
        cases hd1 : nodes[d1]? with
        | none => simp [hd1] at h3
        | some dep1 =>
          cases hd2 : nodes[d2]? with
          | none => simp [hd1, hd2] at h3
          | some dep2 =>
            simp only [hd1, hd2, Bool.and_eq_true, decide_eq_true_eq] at h3
            obtain ⟨a1, ha1⟩ := Option.isSome_iff_exists.1 (hparse d1 dep1 hd1 h3.1)
            obtain ⟨a2, ha2⟩ := Option.isSome_iff_exists.1 (hparse d2 dep2 hd2 h3.2)
            refine ⟨p, task, d1, d2, ds, dep1, dep2, a1, a2, rfl, hn, h1, h2, hd, hd1, hd2,
              h3.1, h3.2, ha1, ha2, ?_⟩
            rw [claimLoop]
            simp [hp, hn, h1, h2, hd, hd1, hd2, h3.1, h3.2, ha1, ha2]

/-- The loop of `GetTaskHandler` on an arena whose numbers all parse: it stops
at the first dispatchable id of the visiting order, marks that node and sends
it with its two operands; without a dispatchable id it changes nothing. -/
theorem claimLoop_spec (cfg : OrchestratorConfig) (idMap : List (Int × Nat))
    (order : List Int) (nodes : List Node)
    (hparse : ∀ (p : Nat) (n : Node), nodes[p]? = some n → n.Typ = NodeType.Number →
      (ParseFloat n.Value).isSome = true) :
    ((∀ id ∈ order, readyId idMap nodes id = false) ∧
      claimLoop cfg idMap order nodes = (nodes, none)) ∨
    ∃ id p task d1 d2 ds dep1 dep2 a1 a2,
      id ∈ order ∧ readyId idMap nodes id = true ∧
      mapGet idMap id = some p ∧ nodes[p]? = some task ∧
      task.Typ = NodeType.Operator ∧ task.Status = NodeStatus.StatusInQueue ∧
      task.Dependencies = d1 :: d2 :: ds ∧ nodes[d1]? = some dep1 ∧ nodes[d2]? = some dep2 ∧
      dep1.Typ = NodeType.Number ∧ dep2.Typ = NodeType.Number ∧
      ParseFloat dep1.Value = some a1 ∧ ParseFloat dep2.Value = some a2 ∧
      claimLoop cfg idMap order nodes =
        (update nodes p claimNode,
         some { ID := id, Arg1 := a1, Arg2 := a2, Operation := task.Value,
                OperationTime := operationTime cfg task.Value }) := by
  induction order with
  | nil => exact Or.inl ⟨by simp, by simp [claimLoop]⟩
  | cons id rest ih =>
    by_cases h : readyId idMap nodes id = true
    · obtain ⟨p, task, d1, d2, ds, dep1, dep2, a1, a2, h1, h2, h3, h4, h5, h6, h7, h8, h9, h10,
        h11, h12⟩ := claimLoop_take cfg idMap id rest nodes hparse h
      exact Or.inr ⟨id, p, task, d1, d2, ds, dep1, dep2, a1, a2, by simp, h, h1, h2, h3, h4, h5,
        h6, h7, h8, h9, h10, h11, h12⟩
    · have hf : readyId idMap nodes id = false := by simpa using h
      rw [claimLoop_skip cfg idMap id rest nodes hf]
      rcases ih with ⟨h1, h2⟩ | ⟨id', p, task, d1, d2, ds, dep1, dep2, a1, a2, h0, h1, h2⟩
      · refine Or.inl ⟨?_, h2⟩
        intro i hi
        rcases List.mem_cons.1 hi with rfl | hi
        · exact hf
        · exact h1 i hi
      · exact Or.inr ⟨id', p, task, d1, d2, ds, dep1, dep2, a1, a2, by simp [h0], h1, h2⟩

/-! ## Decimal renderings and `ParseFloat` -/

theorem digitChar_spec (d : Nat) (h : d < 10) :
    asciiDigit (digitChar d) = true ∧ (digitChar d).toNat - '0'.toNat = d ∧
      digitChar d ≠ '+' ∧ digitChar d ≠ '-' := by
  interval_cases d <;> decide

theorem digitsVal_append (a : Nat) (ds es : List Char) :
    digitsVal a (ds ++ es) = digitsVal (digitsVal a ds) es := by
  simp [digitsVal, List.foldl_append]

theorem natDigitsAux_spec (fuel n : Nat) (acc : List Char) (h : n < fuel) :
    ∃ ds, natDigitsAux fuel n acc = ds ++ acc ∧ ds ≠ [] ∧ (∀ c ∈ ds, asciiDigit c = true) ∧
      (∀ c, ds.head? = some c → c ≠ '+' ∧ c ≠ '-') ∧
      ∀ a, digitsVal a ds = a * 10 ^ ds.length + n := by
  induction fuel generalizing n acc with
  | zero => omega
  | succ fuel ih =>
    unfold natDigitsAux
    by_cases hn : n < 10
    · simp only [hn, if_true]
      have hd := digitChar_spec n hn
      refine ⟨[digitChar n], rfl, by simp, by simpa using hd.1, ?_, ?_⟩
      · intro c hc
        simp only [List.head?_cons, Option.some.injEq] at hc
        subst hc; exact hd.2.2
      · intro a
        simp only [digitsVal, List.foldl_cons, List.foldl_nil, hd.2.1, List.length_singleton,
          pow_one]
    · simp only [hn, if_false]
      obtain ⟨ds, hds, hne, hall, hhead, hval⟩ := ih (n / 10) (digitChar (n % 10) :: acc) (by omega)
      have hd := digitChar_spec (n % 10) (by omega)
      refine ⟨ds ++ [digitChar (n % 10)], by simp [hds], by simp, ?_, ?_, ?_⟩
      · intro c hc
        rcases List.mem_append.1 hc with hc | hc
        · exact hall c hc
        · simp only [List.mem_singleton] at hc
          subst hc; exact hd.1
      · intro c hc
        cases ds with
        | nil => exact absurd rfl hne
        | cons d ds' => exact hhead c (by simpa using hc)
      · intro a
        rw [digitsVal_append, hval]
        simp only [digitsVal, List.foldl_cons, List.foldl_nil, hd.2.1, List.length_append,
          List.length_singleton, pow_succ]
        have := Nat.div_add_mod n 10
        nlinarith [this]

theorem natDigits_spec (n : Nat) :
    natDigits n ≠ [] ∧ (∀ c ∈ natDigits n, asciiDigit c = true) ∧
      (∀ c, (natDigits n).head? = some c → c ≠ '+' ∧ c ≠ '-') ∧
      ∀ a, digitsVal a (natDigits n) = a * 10 ^ (natDigits n).length + n := by
  obtain ⟨ds, hds, hne, hall, hhead, hval⟩ := natDigitsAux_spec (n + 1) n [] (by omega)
  have : natDigits n = ds := by simpa [natDigits] using hds
  rw [this]
  exact ⟨hne, hall, hhead, hval⟩

theorem fracDigits_spec (f : Nat) (h : f < 100000) :
    (∀ c ∈ fracDigits f, asciiDigit c = true) ∧ (fracDigits f).length = 5 ∧
      ∀ a, digitsVal a (fracDigits f) = a * 100000 + f := by
  have d4 := digitChar_spec (f / 10000 % 10) (by omega)
  have d3 := digitChar_spec (f / 1000 % 10) (by omega)
  have d2 := digitChar_spec (f / 100 % 10) (by omega)
  have d1 := digitChar_spec (f / 10 % 10) (by omega)
  have d0 := digitChar_spec (f % 10) (by omega)
  refine ⟨?_, rfl, ?_⟩
  · intro c hc
    simp only [fracDigits, List.mem_cons, List.mem_singleton, List.not_mem_nil, or_false] at hc
    rcases hc with rfl | rfl | rfl | rfl | rfl
    · exact d4.1
    · exact d3.1
    · exact d2.1
    · exact d1.1
    · exact d0.1
  · intro a
    simp only [digitsVal, fracDigits, List.foldl_cons, List.foldl_nil, d4.2.1, d3.2.1, d2.2.1,
      d1.2.1, d0.2.1]
    omega

theorem scanDecimal_digits (ds rest : List Char) (st : DecScan)
    (h : ∀ c ∈ ds, asciiDigit c = true) :
    scanDecimal (ds ++ rest) st =
      scanDecimal rest
        { mant := digitsVal st.mant ds
          scale := if st.sawdot then st.scale + ds.length else st.scale
          sawdot := st.sawdot
          sawdigits := st.sawdigits || !ds.isEmpty } := by
  induction ds generalizing st with
  | nil => simp [digitsVal]
  | cons c ds ih =>
    simp only [List.cons_append]
    rw [scanDecimal]
    simp only [h c (List.mem_cons_self _ _), if_true]
    rw [ih _ (fun d hd => h d (List.mem_cons_of_mem _ hd))]
    congr 1
    cases hs : st.sawdot <;> simp [digitsVal, hs]; omega

theorem parseDecimal_unsigned (cs : List Char)
    (h : ∀ c, cs.head? = some c → c ≠ '+' ∧ c ≠ '-') :
    parseDecimal cs =
      match scanDecimal cs ⟨0, 0, false, false⟩ with
      | some st => if st.sawdigits then some (false, st.mant, st.scale) else none
      | none => none := by
  unfold parseDecimal
  match cs with
  | [] => rfl
  | c :: rest =>
    have hc := h c rfl
    split
    · rename_i heq; simp only [List.cons.injEq] at heq; exact absurd heq.1 hc.1
    · rename_i heq; simp only [List.cons.injEq] at heq; exact absurd heq.1 hc.2
    · rfl

/-- The scan of a rendered decimal `k.fffff`. -/
theorem scanDecimal_rendered (k f : Nat) (hf : f < 100000) :
    scanDecimal (natDigits k ++ '.' :: fracDigits f) ⟨0, 0, false, false⟩ =
      some ⟨k * 100000 + f, 5, true, true⟩ := by
  obtain ⟨hne, hall, -, hval⟩ := natDigits_spec k
  obtain ⟨fall, flen, fval⟩ := fracDigits_spec f hf
  rw [scanDecimal_digits _ _ _ hall, hval]
  rw [scanDecimal]
  have hdot : asciiDigit '.' = false := by decide
  simp only [hdot, Bool.false_eq_true, if_false, if_true]
  have h2 := scanDecimal_digits (fracDigits f) [] ⟨0 * 10 ^ (natDigits k).length + k, 0, true,
      false || !(natDigits k).isEmpty⟩ fall
  simp only [List.append_nil] at h2
  rw [h2, fval, flen]
  simp [scanDecimal, hne]

theorem parseDecimal_rendered (neg : Bool) (k f : Nat) (hf : f < 100000) :
    parseDecimal ((if neg then ['-'] else []) ++ natDigits k ++ '.' :: fracDigits f) =
      some (neg, k * 100000 + f, 5) := by
  cases neg with
  | true =>
    simp only [if_true, List.singleton_append, List.cons_append, List.nil_append, parseDecimal]
    rw [scanDecimal_rendered k f hf]
    rfl
  | false =>
    simp only [Bool.false_eq_true, if_false, List.nil_append]
    rw [parseDecimal_unsigned, scanDecimal_rendered k f hf]
    · rfl
    · intro c hc
      obtain ⟨hne, -, hhead, -⟩ := natDigits_spec k
      apply hhead
      cases hk : natDigits k with
      | nil => exact absurd hk hne
      | cons d ds => simpa [hk] using hc

theorem overflowBound_eq : overflowBound = 2 ^ 970 * (2 ^ 54 - 1) := by
  unfold overflowBound; norm_num

theorem roundHalfEven_nonneg (x : ℚ) (hx : 0 ≤ x) : 0 ≤ roundHalfEven x := by
  unfold roundHalfEven
  have hf : 0 ≤ ⌊x⌋ := Int.floor_nonneg.2 hx
  simp only
  split
  · exact hf
  · split
    · omega
    · split <;> omega

theorem roundHalfEven_le (x : ℚ) : (roundHalfEven x : ℚ) ≤ x + 1 / 2 := by
  unfold roundHalfEven
  have hf : (⌊x⌋ : ℚ) ≤ x := Int.floor_le x
  simp only
  split
  · linarith
  · rename_i h1
    split
    · push_cast; linarith
    · split
      · linarith
      · push_cast; linarith

theorem roundHalfEven_intCast (z : ℤ) : roundHalfEven (z : ℚ) = z := by
  unfold roundHalfEven
  simp

/-- The digits `Sprintf("%.5f", x)` writes, read back as a decimal literal. -/
theorem parseDecimal_sprintf5 (x : ℚ) :
    parseDecimal (sprintf5 x).data =
      some (decide (x < 0), (roundHalfEven (|x| * 100000)).toNat, 5) := by
  unfold sprintf5
  simp only
  have h := parseDecimal_rendered (decide (x < 0))
    ((roundHalfEven (|x| * 100000)).toNat / 100000)
    ((roundHalfEven (|x| * 100000)).toNat % 100000) (Nat.mod_lt _ (by norm_num))
  rw [Nat.div_add_mod'] at h
  simp only [decide_eq_true_eq] at h
  rw [← h]

theorem parseFloat_sprintf5 (x : ℚ) :
    ParseFloat (sprintf5 x) =
      if overflowBound * 10 ^ 5 ≤ (roundHalfEven (|x| * 100000)).toNat then none
      else some (round64 ((if x < 0 then -1 else 1) *
        ((roundHalfEven (|x| * 100000)).toNat : ℚ) / (10 : ℚ) ^ 5)) := by
  unfold ParseFloat
  rw [parseDecimal_sprintf5]
  simp

theorem isFloat64_abs_le (x : ℚ) (h : isFloat64 x) : |x| ≤ 2 ^ 970 * (2 ^ 54 - 2) := by
  obtain ⟨m, u, hm, hlo, hhi, rfl⟩ := h
  rw [abs_mul, abs_of_pos (zpow_pos (by norm_num : (0 : ℚ) < 2) u)]
  have h1 : (|(m : ℚ)|) ≤ 2 ^ 53 - 1 := by
    have : |m| ≤ 2 ^ 53 - 1 := by omega
    have h2 : ((|m| : ℤ) : ℚ) ≤ 2 ^ 53 - 1 := by exact_mod_cast this
    rwa [Int.cast_abs] at h2
  have h2 : (2 : ℚ) ^ u ≤ 2 ^ (971 : ℤ) := zpow_le_zpow_right₀ (by norm_num) hhi
  have h3 : (0 : ℚ) ≤ 2 ^ u := le_of_lt (zpow_pos (by norm_num) u)
  calc |(m : ℚ)| * 2 ^ u ≤ (2 ^ 53 - 1) * 2 ^ (971 : ℤ) :=
        mul_le_mul h1 h2 h3 (by norm_num)
    _ = 2 ^ 970 * (2 ^ 54 - 2) := by norm_num

/-- The rendering of a finite float64 with five decimals parses as a float64:
it stays below the overflow bound. -/
theorem parseFloat_sprintf5_isSome (x : ℚ) (h : isFloat64 x) :
    (ParseFloat (sprintf5 x)).isSome = true := by
  rw [parseFloat_sprintf5]
  have hn : ¬ overflowBound * 10 ^ 5 ≤ (roundHalfEven (|x| * 100000)).toNat := by
    intro hc
    have h0 : 0 ≤ roundHalfEven (|x| * 100000) :=
      roundHalfEven_nonneg _ (mul_nonneg (abs_nonneg x) (by norm_num))
    have h1 : ((roundHalfEven (|x| * 100000)).toNat : ℚ) ≤ |x| * 100000 + 1 / 2 := by
      have := roundHalfEven_le (|x| * 100000)
      have hc2 : (((roundHalfEven (|x| * 100000)).toNat : ℤ) : ℚ) = (roundHalfEven (|x| * 100000) : ℚ) := by
        rw [Int.toNat_of_nonneg h0]
      rw [← hc2] at this
      exact_mod_cast this
    have h2 := isFloat64_abs_le x h
    have h3 : ((overflowBound * 10 ^ 5 : ℕ) : ℚ) ≤ ((roundHalfEven (|x| * 100000)).toNat : ℚ) :=
      Nat.cast_le.2 hc
    rw [overflowBound_eq] at h3
    have h4 : (1 : ℚ) ≤ 2 ^ 970 := one_le_pow₀ (by norm_num)
    have h5 : ((2 ^ 970 * (2 ^ 54 - 1) * 10 ^ 5 : ℕ) : ℚ) = 2 ^ 970 * (2 ^ 54 - 1) * 10 ^ 5 := by
      have h54 : (2 ^ 54 - 1 : ℕ) = 18014398509481983 := by norm_num
      rw [h54, Nat.cast_mul, Nat.cast_mul, Nat.cast_pow, Nat.cast_pow]
      norm_num
    rw [h5] at h3
    generalize (2 : ℚ) ^ 970 = P at h2 h3 h4
    norm_num at h2 h3
    linarith
  rw [if_neg hn]
  rfl

/-! ## Preservation of the invariants -/

theorem getElem?_lt_of_some {α : Type} (xs : List α) (p : Nat) (x : α) (h : xs[p]? = some x) :
    p < xs.length := by
  by_contra hc
  rw [List.getElem?_eq_none (by omega)] at h
  simp at h

/-- What a rewrite of kind, value and status leaves of a node. -/
theorem exprInv_of_pointwise (e e' : Expression) (h : ExprInv e) (hid : e'.IdMap = e.IdMap)
    (hlen : e'.nodes.length = e.nodes.length)
    (hpt : ∀ (p : Nat) (n' : Node), e'.nodes[p]? = some n' →
      ∃ n, e.nodes[p]? = some n ∧ n'.Dependencies = n.Dependencies ∧ n'.Level = n.Level ∧
        (n'.Typ = NodeType.Number → (ParseFloat n'.Value).isSome = true) ∧
        (n'.Status = NodeStatus.StatusDone ↔ n'.Typ = NodeType.Number) ∧
        (n'.Typ = NodeType.Operator → n.Typ = NodeType.Operator) ∧
        n'.Status ≠ NodeStatus.StatusCreated) : ExprInv e' := by
  have hlev : ∀ p, levelOf e'.nodes p = levelOf e.nodes p := by
    intro p
    unfold levelOf
    cases hp : e'.nodes[p]? with
    | none =>
      have : e.nodes[p]? = none := by
        rw [List.getElem?_eq_none_iff] at hp ⊢; omega
      simp [this]
    | some n' =>
      obtain ⟨n, hn, -, hl, -⟩ := hpt p n' hp
      simp [hn, hl]
  have hback : ∀ (q : Nat) (n : Node), e.nodes[q]? = some n →
      ∃ n', e'.nodes[q]? = some n' ∧ n'.Dependencies = n.Dependencies := by
    intro q n hq
    have hlt : q < e'.nodes.length := by
      rw [hlen]; exact getElem?_lt_of_some _ _ _ hq
    obtain ⟨n', hn'⟩ : ∃ n', e'.nodes[q]? = some n' := ⟨_, List.getElem?_eq_getElem hlt⟩
    obtain ⟨n0, hn0, hd, -⟩ := hpt q n' hn'
    rw [hq] at hn0
    cases hn0
    exact ⟨n', hn', hd⟩
  constructor
  · obtain ⟨ps, hps, hmap⟩ := h.ids
    exact ⟨ps, by rw [hlen]; exact hps, by rw [hid]; exact hmap⟩
  · intro p n' hn'
    obtain ⟨n, hn, hd, hl, -⟩ := hpt p n' hn'
    rw [hd, hl]
    simp only [hlev]
    exact h.shape p n hn
  · obtain ⟨root, hr, hroot⟩ := h.root
    refine ⟨root, by rw [hlen]; exact hr, ?_⟩
    intro p hp hne
    rw [hlen] at hp
    obtain ⟨h1, q, n, hq, hmem⟩ := hroot p hp hne
    obtain ⟨n', hn', hd⟩ := hback q n hq
    exact ⟨by simpa only [hlev] using h1, q, n', hn', by rw [hd]; exact hmem⟩
  · intro p n' hn' hnum
    obtain ⟨n, -, -, -, h1, -⟩ := hpt p n' hn'
    exact h1 hnum
  · intro p n' hn'
    obtain ⟨n, -, -, -, -, h1, -⟩ := hpt p n' hn'
    exact h1
  · intro p n' hn' hop
    obtain ⟨n, hn, hd, -, -, -, h1, -⟩ := hpt p n' hn'
    rw [hd]
    exact h.operator_deps p n hn (h1 hop)
  · intro p n' hn'
    obtain ⟨n, -, -, -, -, -, -, h1⟩ := hpt p n' hn'
    exact h1

theorem exprInv_fields (e : Expression) (s : ExpressionStatus) (err : Option String) (res : ℚ)
    (h : ExprInv e) : ExprInv { e with Status := s, Err := err, Result := res } := by
  refine exprInv_of_pointwise e _ h ?_ ?_ ?_
  · rfl
  · rfl
  intro p n' hn'
  exact ⟨n', hn', rfl, rfl, h.number_parses p n' hn', h.done_iff_number p n' hn', id,
    h.not_created p n' hn'⟩

/-- The arena after a claim of node `p`. -/
theorem exprInv_claim (e : Expression) (p : Nat) (task : Node) (h : ExprInv e)
    (hp : e.nodes[p]? = some task) (hop : task.Typ = NodeType.Operator) :
    ExprInv { e with
              nodes := update e.nodes p claimNode } := by
  refine exprInv_of_pointwise e _ h ?_ ?_ ?_
  · rfl
  · exact update_length _ _ _
  intro q n' hn'
  simp only [update_getElem?] at hn'
  by_cases hq : q = p
  · subst hq
    simp only [if_true, hp, Option.map_some', Option.some.injEq] at hn'
    subst hn'
    exact ⟨task, hp, rfl, rfl, by simp [claimNode, hop], by simp [claimNode, hop], fun _ => hop,
      by simp [claimNode]⟩
  · simp only [hq, if_false] at hn'
    exact ⟨n', hn', rfl, rfl, h.number_parses q n' hn', h.done_iff_number q n' hn', id,
      h.not_created q n' hn'⟩

/-- The arena after a report for the node behind `q`. -/
theorem exprInv_report (e : Expression) (q : Nat) (result : ℚ) (h : ExprInv e)
    (hr : isFloat64 result) :
    ExprInv { e with
              nodes := update e.nodes q (reportNode (sprintf5 result)) } := by
  refine exprInv_of_pointwise e _ h ?_ ?_ ?_
  · rfl
  · exact update_length _ _ _
  intro p n' hn'
  simp only [update_getElem?] at hn'
  by_cases hq : p = q
  · subst hq
    simp only [if_true] at hn'
    cases hn : e.nodes[p]? with
    | none => simp [hn] at hn'
    | some n =>
      simp only [hn, Option.map_some', Option.some.injEq] at hn'
      subst hn'
      exact ⟨n, rfl, rfl, rfl, fun _ => parseFloat_sprintf5_isSome result hr,
        by simp [reportNode], by simp [reportNode], by simp [reportNode]⟩
  · simp only [hq, if_false] at hn'
    exact ⟨n', hn', rfl, rfl, h.number_parses p n' hn', h.done_iff_number p n' hn', id,
      h.not_created p n' hn'⟩

/-- A rewrite of expressions in place that keeps their ids and invariants, with
the queue shrunk or kept and the registry kept. -/
theorem orchInv_of_exprs (o o' : Orchestrator) (h : OrchInv o)
    (hq : ∀ p ∈ o'.Queue, p ∈ o.Queue) (hdb : o'.DataBase = o.DataBase)
    (hlen : o'.exprs.length = o.exprs.length)
    (hex : ∀ (i : Nat) (e' : Expression), o'.exprs[i]? = some e' →
      ∃ e, o.exprs[i]? = some e ∧ e'.ID = e.ID ∧ ExprInv e') : OrchInv o' := by
  constructor
  · intro p hp
    rw [hlen]; exact h.queue_lt p (hq p hp)
  · intro e' he'
    obtain ⟨i, hi⟩ := List.mem_iff_getElem?.1 he'
    obtain ⟨e, -, -, hinv⟩ := hex i e' hi
    exact hinv
  · intro e' he'
    obtain ⟨i, hi⟩ := List.mem_iff_getElem?.1 he'
    obtain ⟨e, he, hid, -⟩ := hex i e' hi
    rw [hid, hdb, hlen]
    exact h.registered e (List.getElem?_mem he)

theorem set_getElem?_cases {α : Type} (xs : List α) (p i : Nat) (x y : α)
    (h : (xs.set p x)[i]? = some y) : (i = p ∧ y = x) ∨ (i ≠ p ∧ xs[i]? = some y) := by
  rw [List.getElem?_set] at h
  by_cases hi : p = i
  · subst hi
    by_cases hlt : p < xs.length
    · simp [hlt] at h; exact Or.inl ⟨rfl, h.symm⟩
    · simp [hlt] at h
  · simp only [hi, if_false] at h
    exact Or.inr ⟨fun h' => hi h'.symm, h⟩

theorem orchInv_set (o : Orchestrator) (p : Nat) (e e' : Expression) (queue : List Nat)
    (h : OrchInv o) (hp : o.exprs[p]? = some e) (hid : e'.ID = e.ID) (hinv : ExprInv e')
    (hq : ∀ i ∈ queue, i ∈ o.Queue) :
    OrchInv { o with exprs := o.exprs.set p e', Queue := queue } := by
  refine orchInv_of_exprs o _ h hq ?_ ?_ ?_
  · rfl
  · simp
  intro i e1 hi
  rcases set_getElem?_cases _ _ _ _ _ hi with ⟨rfl, rfl⟩ | ⟨-, h1⟩
  · exact ⟨e, hp, hid, hinv⟩
  · exact ⟨e1, h1, rfl, h.expr_inv e1 (List.getElem?_mem h1)⟩

theorem setRegistryStatus_spec (o : Orchestrator) (id : Int) (s : ExpressionStatus)
    (e : Expression) (h : OrchInv o) (he : e ∈ o.exprs) (hid : e.ID = id) :
    ∃ q, q < o.exprs.length ∧ mapGet o.DataBase id = some q ∧
      setRegistryStatus o id s =
        some { o with exprs := update o.exprs q (fun e => { e with Status := s }) } := by
  obtain ⟨q, hq, hlt⟩ := h.registered e he
  rw [hid] at hq
  exact ⟨q, hlt, hq, by simp [setRegistryStatus, hq, hlt]⟩

theorem orchInv_update_status (o : Orchestrator) (q : Nat) (s : ExpressionStatus) (h : OrchInv o) :
    OrchInv { o with exprs := update o.exprs q (fun e => { e with Status := s }) } := by
  refine orchInv_of_exprs o _ h (fun _ hp => hp) ?_ ?_ ?_
  · rfl
  · exact update_length _ _ _
  intro i e1 hi
  simp only [update_getElem?] at hi
  by_cases hiq : i = q
  · subst hiq
    simp only [if_true] at hi
    cases he : o.exprs[i]? with
    | none => simp [he] at hi
    | some e =>
      simp only [he, Option.map_some', Option.some.injEq] at hi
      subst hi
      exact ⟨e, rfl, rfl, exprInv_fields e s e.Err e.Result (h.expr_inv e (List.getElem?_mem he))⟩
  · simp only [hiq, if_false] at hi
    exact ⟨e1, hi, rfl, h.expr_inv e1 (List.getElem?_mem hi)⟩

/-! ## Facts that follow from the invariants -/

theorem idMap_ptr_lt (e : Expression) (h : ExprInv e) (id : Int) (q : Nat)
    (hq : mapGet e.IdMap id = some q) : q < e.nodes.length := by
  obtain ⟨ps, hps, hmap⟩ := h.ids
  have hmem := mapGet_mem _ _ _ hq
  rw [hmap] at hmem
  have : q ∈ (idsFrom 0 ps).map Prod.snd := List.mem_map.2 ⟨(id, q), hmem, rfl⟩
  rw [idsFrom_snd] at this
  exact List.mem_range.1 (hps.mem_iff.1 this)

theorem idMap_covers (e : Expression) (h : ExprInv e) (q : Nat) (hq : q < e.nodes.length) :
    ∃ id, id ∈ mapKeys e.IdMap ∧ mapGet e.IdMap id = some q := by
  obtain ⟨ps, hps, hmap⟩ := h.ids
  have h1 : q ∈ (idsFrom 0 ps).map Prod.snd := by
    rw [idsFrom_snd]; exact hps.mem_iff.2 (List.mem_range.2 hq)
  obtain ⟨⟨id, q'⟩, hmem, hq'⟩ := List.mem_map.1 h1
  simp only at hq'
  subst hq'
  refine ⟨id, ?_, ?_⟩
  · rw [hmap]; exact List.mem_map.2 ⟨(id, q'), hmem, rfl⟩
  · rw [hmap]; exact mapGet_of_mem _ _ _ (mapKeys_idsFrom_nodup 0 ps) hmem

theorem idMap_keys_nodup (e : Expression) (h : ExprInv e) : (mapKeys e.IdMap).Nodup := by
  obtain ⟨ps, -, hmap⟩ := h.ids
  rw [hmap]; exact mapKeys_idsFrom_nodup 0 ps

theorem mem_mapNodes_iff (e : Expression) (h : ExprInv e) (n : Node) :
    n ∈ mapNodes e ↔ n ∈ e.nodes := by
  unfold mapNodes
  rw [List.mem_filterMap]
  constructor
  · rintro ⟨kv, -, hkv⟩
    exact List.getElem?_mem hkv
  · intro hn
    obtain ⟨q, hq⟩ := List.mem_iff_getElem?.1 hn
    obtain ⟨id, -, hid⟩ := idMap_covers e h q (getElem?_lt_of_some _ _ _ hq)
    exact ⟨(id, q), mapGet_mem _ _ _ hid, hq⟩

theorem levelOf_eq_of_getElem? (nodes : List Node) (p : Nat) (n : Node) (h : nodes[p]? = some n) :
    levelOf nodes p = n.Level := by
  simp [levelOf, h]

/-- The maximum level the completion check computes is the level of the root. -/
theorem maxLevelOf_mapNodes (e : Expression) (h : ExprInv e) (root : Nat)
    (hr : root < e.nodes.length)
    (hroot : ∀ p, p < e.nodes.length → p ≠ root → levelOf e.nodes p < levelOf e.nodes root) :
    maxLevelOf (mapNodes e) = levelOf e.nodes root := by
  obtain ⟨nr, hnr⟩ : ∃ nr, e.nodes[root]? = some nr := ⟨_, List.getElem?_eq_getElem hr⟩
  have hmem : nr ∈ mapNodes e := (mem_mapNodes_iff e h nr).2 (List.getElem?_mem hnr)
  have h1 := le_maxLevelOf _ _ hmem
  obtain ⟨n, hn, hl⟩ := maxLevelOf_attained (mapNodes e) (List.ne_nil_of_mem hmem)
  obtain ⟨q, hq⟩ := List.mem_iff_getElem?.1 ((mem_mapNodes_iff e h n).1 hn)
  rw [levelOf_eq_of_getElem? _ _ _ hnr]
  by_cases hqr : q = root
  · subst hqr
    rw [hnr] at hq
    cases hq
    exact hl.symm
  · have := hroot q (getElem?_lt_of_some _ _ _ hq) hqr
    rw [levelOf_eq_of_getElem? _ _ _ hq, levelOf_eq_of_getElem? _ _ _ hnr] at this
    omega

theorem allMaxLevelDone_iff (ns : List Node) (L : Nat) :
    allMaxLevelDone ns L = true ↔ ∀ n ∈ ns, n.Level = L → n.Status = NodeStatus.StatusDone := by
  unfold allMaxLevelDone
  rw [List.all_eq_true]
  constructor
  · intro h n hn hl
    have := h n hn
    simp only [Bool.not_eq_true', Bool.and_eq_false_imp, decide_eq_true_eq,
      decide_eq_false_iff_not, ne_eq, not_not] at this
    exact this hl
  · intro h n hn
    simp only [Bool.not_eq_true', Bool.and_eq_false_imp, decide_eq_true_eq,
      decide_eq_false_iff_not, ne_eq, not_not]
    exact h n hn

theorem firstAtLevel_unique (e : Expression) (L : Nat) (nr : Node) (order : List Int)
    (huniq : ∀ id ∈ order, ∀ (p : Nat) (n : Node), mapGet e.IdMap id = some p →
      e.nodes[p]? = some n → n.Level = L → n = nr)
    (hex : ∃ id ∈ order, ∃ p, mapGet e.IdMap id = some p ∧ e.nodes[p]? = some nr ∧ nr.Level = L) :
    firstAtLevel e L order = some nr := by
  induction order with
  | nil => simp at hex
  | cons id rest ih =>
    unfold firstAtLevel
    cases hp : mapGet e.IdMap id with
    | none =>
      simp only [Option.none_bind]
      apply ih (fun i hi => huniq i (List.mem_cons_of_mem _ hi))
      obtain ⟨i, hi, p, h1, h2⟩ := hex
      rcases List.mem_cons.1 hi with rfl | hi
      · rw [hp] at h1; cases h1
      · exact ⟨i, hi, p, h1, h2⟩
    | some p =>
      simp only [Option.some_bind]
      cases hn : e.nodes[p]? with
      | none =>
        simp only
        apply ih (fun i hi => huniq i (List.mem_cons_of_mem _ hi))
        obtain ⟨i, hi, p', h1, h2, h3⟩ := hex
        rcases List.mem_cons.1 hi with rfl | hi
        · rw [hp] at h1; cases h1; rw [hn] at h2; cases h2
        · exact ⟨i, hi, p', h1, h2, h3⟩
      | some n =>
        simp only
        by_cases hl : n.Level = L
        · simp only [hl, if_true]
          rw [huniq id (List.mem_cons_self _ _) p n hp hn hl]
        · simp only [hl, if_false]
          apply ih (fun i hi => huniq i (List.mem_cons_of_mem _ hi))
          obtain ⟨i, hi, p', h1, h2, h3⟩ := hex
          rcases List.mem_cons.1 hi with rfl | hi
          · rw [hp] at h1; cases h1; rw [hn] at h2; cases h2; exact absurd h3 hl
          · exact ⟨i, hi, p', h1, h2, h3⟩

/-! ## The handlers on states that satisfy the invariant -/

theorem queue_head_expr (o : Orchestrator) (h : OrchInv o) (p : Nat) (tail : List Nat)
    (hq : o.Queue = p :: tail) : ∃ expr, o.exprs[p]? = some expr ∧ ExprInv expr := by
  have hlt := h.queue_lt p (by rw [hq]; simp)
  exact ⟨o.exprs[p], List.getElem?_eq_getElem hlt, h.expr_inv _ (List.getElem_mem _)⟩

theorem GetTaskHandler_empty (o : Orchestrator) (order : List Int) (hq : o.Queue = []) :
    GetTaskHandler o order =
      (o, Response.error 404 "No tasks available now (no expressions in queue)") := by
  simp [GetTaskHandler, hq]

/-- The two outcomes of `GetTaskHandler` on a non-empty queue. -/
theorem GetTaskHandler_spec (o : Orchestrator) (order : List Int) (h : OrchInv o)
    (p : Nat) (tail : List Nat) (expr : Expression)
    (hq : o.Queue = p :: tail) (he : o.exprs[p]? = some expr) :
    ((∀ id ∈ order, readyId expr.IdMap expr.nodes id = false) ∧
      GetTaskHandler o order =
        ({ o with exprs := o.exprs.set p ({ expr with Status := ExpressionStatus.StatusInProgress }) },
         Response.error 404 "No tasks to do")) ∨
    ∃ id q task d1 d2 ds dep1 dep2 a1 a2,
      id ∈ order ∧ readyId expr.IdMap expr.nodes id = true ∧
      mapGet expr.IdMap id = some q ∧ expr.nodes[q]? = some task ∧
      task.Typ = NodeType.Operator ∧ task.Status = NodeStatus.StatusInQueue ∧
      task.Dependencies = d1 :: d2 :: ds ∧ expr.nodes[d1]? = some dep1 ∧
      expr.nodes[d2]? = some dep2 ∧
      dep1.Typ = NodeType.Number ∧ dep2.Typ = NodeType.Number ∧
      ParseFloat dep1.Value = some a1 ∧ ParseFloat dep2.Value = some a2 ∧
      GetTaskHandler o order =
        ({ o with exprs := o.exprs.set p ({ expr with Status := ExpressionStatus.StatusInProgress,
                                                      nodes := update expr.nodes q claimNode }) },
         Response.task { ID := id, Arg1 := a1, Arg2 := a2, Operation := task.Value,
                         OperationTime := operationTime o.Config task.Value }) := by
  have hinv : ExprInv expr := h.expr_inv _ (List.getElem?_mem he)
  rcases claimLoop_spec o.Config expr.IdMap order expr.nodes hinv.number_parses with
    ⟨h1, h2⟩ | ⟨id, q, task, d1, d2, ds, dep1, dep2, a1, a2, h0, h1, h2, h3, h4, h5, h6, h7, h8,
      h9, h10, h11, h12, h13⟩
  · refine Or.inl ⟨h1, ?_⟩
    simp [GetTaskHandler, hq, he, h2]
  · refine Or.inr ⟨id, q, task, d1, d2, ds, dep1, dep2, a1, a2, h0, h1, h2, h3, h4, h5, h6, h7,
      h8, h9, h10, h11, h12, ?_⟩
    simp [GetTaskHandler, hq, he, h13]

theorem orchInv_GetTaskHandler (o : Orchestrator) (order : List Int) (h : OrchInv o) :
    OrchInv (GetTaskHandler o order).1 := by
  cases hq : o.Queue with
  | nil => rw [GetTaskHandler_empty o order hq]; exact h
  | cons p tail =>
    obtain ⟨expr, he, hinv⟩ := queue_head_expr o h p tail hq
    have hset : ∀ e' : Expression, e'.ID = expr.ID → ExprInv e' →
        OrchInv { o with exprs := o.exprs.set p e' } := by
      intro e' hid hinv'
      have := orchInv_set o p expr e' o.Queue h he hid hinv' (fun _ hi => hi)
      exact this
    rcases GetTaskHandler_spec o order h p tail expr hq he with
      ⟨-, h2⟩ | ⟨id, q, task, d1, d2, ds, dep1, dep2, a1, a2, -, -, -, h3, h4, -, -, -, -, -, -,
        -, -, h13⟩
    · rw [h2]
      exact hset _ rfl (exprInv_fields expr _ _ _ hinv)
    · rw [h13]
      exact hset _ rfl (exprInv_fields _ ExpressionStatus.StatusInProgress expr.Err expr.Result
        (exprInv_claim expr q task hinv h3 h4))

theorem update_append_length {α : Type} (xs : List α) (x : α) (f : α → α) :
    update (xs ++ [x]) xs.length f = xs ++ [f x] := by
  simp [update]

theorem CalculateHandler_error (o : Orchestrator) (s : String) (e : String)
    (h : ParseExpression s = .error e) :
    CalculateHandler o s = (o, Response.error 422 "Invalid expression") := by
  simp [CalculateHandler, prepareInput, h]

/-- The state after a successful submission. -/
theorem CalculateHandler_ok (o : Orchestrator) (s : String) (dag : DAG)
    (h : ParseExpression s = .ok dag) :
    CalculateHandler o s =
      ({ o with
         PrevExpressionID := wrapInt32 (o.PrevExpressionID + 1)
         exprs := o.exprs ++
           [{ ID := wrapInt32 (o.PrevExpressionID + 1)
              nodes := dag.nodes.map markNode
              IdMap := idsFrom 0 (levelOrder dag.levelMap 0 (dag.maxLevel + 1))
              Status := ExpressionStatus.StatusInQueue
              Err := none
              Result := 0 }]
         Queue := o.Queue ++ [o.exprs.length]
         DataBase := mapSet (mapSet o.DataBase (wrapInt32 (o.PrevExpressionID + 1)) o.exprs.length)
           (wrapInt32 (o.PrevExpressionID + 1)) o.exprs.length },
       Response.calculated (wrapInt32 (o.PrevExpressionID + 1)) ExpressionStatus.StatusInQueue) := by
  unfold CalculateHandler
  rw [prepareInput_ok o s dag h]
  simp [update_append_length]

theorem parseExpression_createDAG (s : String) (dag : DAG) (h : ParseExpression s = .ok dag) :
    ∃ poland, toPostfix s = .ok poland ∧ createDAG poland = .ok dag := by
  unfold ParseExpression at h
  cases hp : toPostfix s with
  | error e => simp [hp] at h
  | ok poland => exact ⟨poland, rfl, by simpa [hp] using h⟩

theorem orchInv_CalculateHandler (o : Orchestrator) (s : String) (h : OrchInv o) :
    OrchInv (CalculateHandler o s).1 := by
  cases hp : ParseExpression s with
  | error e => rw [CalculateHandler_error o s e hp]; exact h
  | ok dag =>
    rw [CalculateHandler_ok o s dag hp]
    obtain ⟨poland, -, hc⟩ := parseExpression_createDAG s dag hp
    have hnew := exprInv_fields _ ExpressionStatus.StatusInQueue none 0
      (exprInv_prepared poland dag (wrapInt32 (o.PrevExpressionID + 1)) hc)
    constructor
    · intro p hp
      simp only [List.mem_append, List.mem_singleton, List.length_append, List.length_singleton] at hp ⊢
      rcases hp with hp | rfl
      · have := h.queue_lt p hp; omega
      · omega
    · intro e he
      simp only [List.mem_append, List.mem_singleton] at he
      rcases he with he | rfl
      · exact h.expr_inv e he
      · exact hnew
    · intro e he
      simp only [List.length_append, List.length_singleton, mapGet_mapSet]
      simp only [List.mem_append, List.mem_singleton] at he
      by_cases hid : e.ID = wrapInt32 (o.PrevExpressionID + 1)
      · exact ⟨o.exprs.length, by simp [hid], by omega⟩
      · rcases he with he | rfl
        · obtain ⟨q, hq, hlt⟩ := h.registered e he
          exact ⟨q, by simp [hid, hq], by omega⟩
        · exact absurd rfl hid

/-! ## `PostTaskHandler` -/

theorem set_getElem?_self {α : Type} (xs : List α) (p : Nat) (x : α) (h : p < xs.length) :
    (xs.set p x)[p]? = some x := by
  simp [List.getElem?_set, h]

theorem registry_write (o1 : Orchestrator) (p : Nat) (e2 : Expression) (s : ExpressionStatus)
    (h : OrchInv o1) (hp : o1.exprs[p]? = some e2) (hs : e2.Status = s) :
    ∃ j, j < o1.exprs.length ∧
      setRegistryStatus o1 e2.ID s =
        some { o1 with exprs := update o1.exprs j (fun e => { e with Status := s }) } ∧
      (update o1.exprs j (fun e => { e with Status := s }))[p]? = some e2 := by
  obtain ⟨j, hj, -, hset⟩ := setRegistryStatus_spec o1 e2.ID s e2 h (List.getElem?_mem hp) rfl
  refine ⟨j, hj, hset, ?_⟩
  rw [update_getElem?]
  by_cases hpj : p = j
  · simp only [hpj, if_true]
    rw [← hpj, hp]
    simp only [Option.map_some', Option.some.injEq]
    rw [← hs]
  · simp [hpj, hp]

theorem PostTaskHandler_empty (o : Orchestrator) (ID : Int) (Result : ℚ) (Error : String)
    (order : List Int) (hq : o.Queue = []) :
    PostTaskHandler o ID Result Error order = (o, Response.error 404 "No expressions in queue") := by
  simp [PostTaskHandler, hq]

theorem PostTaskHandler_unknown (o : Orchestrator) (ID : Int) (Result : ℚ) (Error : String)
    (order : List Int) (p : Nat) (tail : List Nat) (expr : Expression)
    (hq : o.Queue = p :: tail) (he : o.exprs[p]? = some expr)
    (hid : (mapGet expr.IdMap ID).bind (fun q => if q < expr.nodes.length then some q else none) = none) :
    PostTaskHandler o ID Result Error order = (o, Response.error 404 "Node not found") := by
  simp [PostTaskHandler, hq, he, hid]

theorem idMap_lookup (e : Expression) (h : ExprInv e) (ID : Int) (q : Nat)
    (hid : mapGet e.IdMap ID = some q) :
    (mapGet e.IdMap ID).bind (fun q => if q < e.nodes.length then some q else none) = some q := by
  simp [hid, idMap_ptr_lt e h ID q hid]

/-- A report that carries an error. -/
theorem PostTaskHandler_error_spec (o : Orchestrator) (ID : Int) (Result : ℚ) (Error : String)
    (order : List Int) (h : OrchInv o) (hr : isFloat64 Result)
    (p : Nat) (tail : List Nat) (expr : Expression) (q : Nat)
    (hq : o.Queue = p :: tail) (he : o.exprs[p]? = some expr)
    (hid : mapGet expr.IdMap ID = some q) (herr : Error ≠ "") :
    ∃ o', PostTaskHandler o ID Result Error order = (o', Response.ok) ∧ OrchInv o' ∧
      o'.Queue = tail ∧
      (∃ j, o'.exprs = update (o.exprs.set p { expr with
          nodes := update expr.nodes q (reportNode (sprintf5 Result))
          Status := ExpressionStatus.StatusError
          Err := some (Errorf Error) }) j
            (fun e => { e with Status := ExpressionStatus.StatusError })) ∧
      o'.exprs[p]? = some { expr with
        nodes := update expr.nodes q (reportNode (sprintf5 Result))
        Status := ExpressionStatus.StatusError
        Err := some (Errorf Error) } := by
  have hinv : ExprInv expr := h.expr_inv _ (List.getElem?_mem he)
  have hplt : p < o.exprs.length := getElem?_lt_of_some _ _ _ he
  have h1 : OrchInv { o with
      exprs := o.exprs.set p { expr with
        nodes := update expr.nodes q (reportNode (sprintf5 Result))
        Status := ExpressionStatus.StatusError
        Err := some (Errorf Error) }
      Queue := tail } :=
    orchInv_set o p expr _ tail h he rfl
      (exprInv_fields _ ExpressionStatus.StatusError (some (Errorf Error)) expr.Result
        (exprInv_report expr q Result hinv hr))
      (fun i hi => by rw [hq]; exact List.mem_cons_of_mem _ hi)
  obtain ⟨j, hj, hset, hget⟩ := registry_write _ p _ ExpressionStatus.StatusError h1
    (set_getElem?_self _ _ _ hplt) rfl
  refine ⟨_, ?_, orchInv_update_status _ j ExpressionStatus.StatusError h1, rfl, ⟨j, rfl⟩, hget⟩
  simp only [PostTaskHandler, hq, he, idMap_lookup expr hinv ID q hid, herr, ne_eq,
    not_false_eq_true, if_true]
  simp only [hq] at hset
  rw [hset]

/-- A report without error: the completion check and its two outcomes. -/
theorem PostTaskHandler_ok_spec (o : Orchestrator) (ID : Int) (Result : ℚ)
    (order : List Int) (h : OrchInv o) (hr : isFloat64 Result)
    (p : Nat) (tail : List Nat) (expr : Expression) (q : Nat)
    (hq : o.Queue = p :: tail) (he : o.exprs[p]? = some expr)
    (hid : mapGet expr.IdMap ID = some q) (hord : order.Perm (mapKeys expr.IdMap)) :
    ∃ root nr, root < expr.nodes.length ∧
      (∀ p', p' < expr.nodes.length → p' ≠ root →
        levelOf expr.nodes p' < levelOf expr.nodes root) ∧
      (update expr.nodes q (reportNode (sprintf5 Result)))[root]? = some nr ∧
      ((nr.Status = NodeStatus.StatusDone ∧
        ∃ o' result, PostTaskHandler o ID Result "" order = (o', Response.ok) ∧ OrchInv o' ∧
          ParseFloat nr.Value = some result ∧
          o'.Queue = tail ∧
          (∃ j, o'.exprs = update (o.exprs.set p { expr with
              nodes := update expr.nodes q (reportNode (sprintf5 Result))
              Result := result
              Status := ExpressionStatus.StatusDone }) j
                (fun e => { e with Status := ExpressionStatus.StatusDone })) ∧
          o'.exprs[p]? = some { expr with
            nodes := update expr.nodes q (reportNode (sprintf5 Result))
            Result := result
            Status := ExpressionStatus.StatusDone }) ∨
       (nr.Status ≠ NodeStatus.StatusDone ∧
        ∃ o', PostTaskHandler o ID Result "" order = (o', Response.ok) ∧ OrchInv o' ∧
          o'.Queue = p :: tail ∧
          (∃ j, o'.exprs = update (o.exprs.set p { expr with
              nodes := update expr.nodes q (reportNode (sprintf5 Result))
              Status := ExpressionStatus.StatusInQueue }) j
                (fun e => { e with Status := ExpressionStatus.StatusInQueue })) ∧
          o'.exprs[p]? = some { expr with
            nodes := update expr.nodes q (reportNode (sprintf5 Result))
            Status := ExpressionStatus.StatusInQueue })) := by
  have hinv : ExprInv expr := h.expr_inv _ (List.getElem?_mem he)
  have hplt : p < o.exprs.length := getElem?_lt_of_some _ _ _ he
  have hinv1 := exprInv_report expr q Result hinv hr
  obtain ⟨root, hrlt, hroot⟩ := hinv.root
  have hroot1 : ∀ p', p' < expr.nodes.length → p' ≠ root →
      levelOf expr.nodes p' < levelOf expr.nodes root := fun p' h1 h2 => (hroot p' h1 h2).1
  have hlen1 : (update expr.nodes q (reportNode (sprintf5 Result))).length = expr.nodes.length :=
    update_length _ _ _
  obtain ⟨nr, hnr⟩ : ∃ nr, (update expr.nodes q (reportNode (sprintf5 Result)))[root]? = some nr :=
    ⟨_, List.getElem?_eq_getElem (by rw [hlen1]; exact hrlt)⟩
  have hlev : ∀ p', levelOf (update expr.nodes q (reportNode (sprintf5 Result))) p' =
      levelOf expr.nodes p' := by
    intro p'
    unfold levelOf
    rw [update_getElem?]
    by_cases hp' : p' = q
    · subst hp'
      cases expr.nodes[p']? <;> simp [reportNode]
    · simp [hp']
  have hroot2 : ∀ p', p' < (update expr.nodes q (reportNode (sprintf5 Result))).length →
      p' ≠ root → levelOf (update expr.nodes q (reportNode (sprintf5 Result))) p' <
        levelOf (update expr.nodes q (reportNode (sprintf5 Result))) root := by
    intro p' h1 h2
    rw [hlev, hlev]
    exact hroot1 p' (by rw [← hlen1]; exact h1) h2
  have hmax := maxLevelOf_mapNodes _ hinv1 root (by rw [hlen1]; exact hrlt) hroot2
  simp only at hmax
  have hnrl : nr.Level = levelOf (update expr.nodes q (reportNode (sprintf5 Result))) root :=
    (levelOf_eq_of_getElem? _ _ _ hnr).symm
  have hall : allMaxLevelDone
      (mapNodes { expr with nodes := update expr.nodes q (reportNode (sprintf5 Result)) })
      (maxLevelOf
        (mapNodes { expr with nodes := update expr.nodes q (reportNode (sprintf5 Result)) })) = true ↔
      nr.Status = NodeStatus.StatusDone := by
    rw [allMaxLevelDone_iff, hmax]
    constructor
    · intro hd
      exact hd nr ((mem_mapNodes_iff _ hinv1 nr).2 (List.getElem?_mem hnr)) hnrl
    · intro hd n hn hl
      obtain ⟨p', hp'⟩ := List.mem_iff_getElem?.1 ((mem_mapNodes_iff _ hinv1 n).1 hn)
      by_cases hpr : p' = root
      · subst hpr
        rw [hnr] at hp'
        cases hp'
        exact hd
      · have := hroot2 p' (getElem?_lt_of_some _ _ _ hp') hpr
        rw [levelOf_eq_of_getElem? _ _ _ hp'] at this
        omega
  refine ⟨root, nr, hrlt, hroot1, hnr, ?_⟩
  by_cases hdone : nr.Status = NodeStatus.StatusDone
  · refine Or.inl ⟨hdone, ?_⟩
    have hnum : nr.Typ = NodeType.Number := (hinv1.done_iff_number root nr hnr).1 hdone
    obtain ⟨result, hres⟩ := Option.isSome_iff_exists.1 (hinv1.number_parses root nr hnr hnum)
    obtain ⟨idr, hidr, hmapr⟩ := idMap_covers expr hinv root hrlt
    have hfirst : firstAtLevel
        { expr with nodes := update expr.nodes q (reportNode (sprintf5 Result)) }
        (maxLevelOf
          (mapNodes { expr with nodes := update expr.nodes q (reportNode (sprintf5 Result)) }))
        order = some nr := by
      rw [hmax]
      apply firstAtLevel_unique
      · intro id _ p' n hp' hn hl
        by_cases hpr : p' = root
        · subst hpr
          simp only at hn
          rw [hnr] at hn
          cases hn; rfl
        · have := hroot2 p' (getElem?_lt_of_some _ _ _ hn) hpr
          rw [levelOf_eq_of_getElem? _ _ _ hn] at this
          omega
      · exact ⟨idr, hord.mem_iff.2 hidr, root, hmapr, hnr, hnrl⟩
    have h1 : OrchInv { o with
        exprs := o.exprs.set p { expr with
          nodes := update expr.nodes q (reportNode (sprintf5 Result))
          Result := result
          Status := ExpressionStatus.StatusDone } } :=
      orchInv_set o p expr _ o.Queue h he rfl
        (exprInv_fields _ ExpressionStatus.StatusDone expr.Err result hinv1) (fun i hi => hi)
    obtain ⟨j, hj, hset, hget⟩ := registry_write _ p _ ExpressionStatus.StatusDone h1
      (set_getElem?_self _ _ _ hplt) rfl
    have h2 := orchInv_update_status _ j ExpressionStatus.StatusDone h1
    refine ⟨{ o with
        exprs := update (o.exprs.set p { expr with
          nodes := update expr.nodes q (reportNode (sprintf5 Result))
          Result := result
          Status := ExpressionStatus.StatusDone }) j
            (fun e => { e with Status := ExpressionStatus.StatusDone })
        Queue := tail }, result, ?_, ?_, hres, rfl, ⟨j, rfl⟩, hget⟩
    · simp only [PostTaskHandler, hq, he, idMap_lookup expr hinv ID q hid, ne_eq,
        not_true_eq_false, if_false, hall.2 hdone, if_true, hfirst, hres]
      simp only [hq] at hset
      rw [hset]
    · exact ⟨fun i hi => h2.queue_lt i (by simp only [hq]; exact List.mem_cons_of_mem _ hi),
        h2.expr_inv, h2.registered⟩
  · refine Or.inr ⟨hdone, ?_⟩
    have hall' : allMaxLevelDone
        (mapNodes { expr with nodes := update expr.nodes q (reportNode (sprintf5 Result)) })
        (maxLevelOf
          (mapNodes { expr with nodes := update expr.nodes q (reportNode (sprintf5 Result)) })) =
        false := by
      rw [← Bool.not_eq_true, hall]; exact hdone
    have h1 : OrchInv { o with
        exprs := o.exprs.set p { expr with
          nodes := update expr.nodes q (reportNode (sprintf5 Result))
          Status := ExpressionStatus.StatusInQueue } } :=
      orchInv_set o p expr _ o.Queue h he rfl
        (exprInv_fields _ ExpressionStatus.StatusInQueue expr.Err expr.Result hinv1)
        (fun i hi => hi)
    obtain ⟨j, hj, hset, hget⟩ := registry_write _ p _ ExpressionStatus.StatusInQueue h1
      (set_getElem?_self _ _ _ hplt) rfl
    refine ⟨_, ?_, orchInv_update_status _ j ExpressionStatus.StatusInQueue h1, hq, ⟨j, rfl⟩, hget⟩
    simp only [PostTaskHandler, hq, he, idMap_lookup expr hinv ID q hid, ne_eq,
      not_true_eq_false, if_false, hall', Bool.false_eq_true]
    simp only [hq] at hset
    rw [hset]

theorem headExpr_eq (o : Orchestrator) (p : Nat) (tail : List Nat) (expr : Expression)
    (hq : o.Queue = p :: tail) (he : o.exprs[p]? = some expr) : headExpr o = some expr := by
  simp [headExpr, hq, he]

theorem orchInv_PostTaskHandler (o : Orchestrator) (ID : Int) (Result : ℚ) (Error : String)
    (order : List Int) (h : OrchInv o) (hv : (Call.Report ID Result Error order).valid o) :
    OrchInv (PostTaskHandler o ID Result Error order).1 := by
  cases hq : o.Queue with
  | nil => rw [PostTaskHandler_empty o ID Result Error order hq]; exact h
  | cons p tail =>
    obtain ⟨expr, he, hinv⟩ := queue_head_expr o h p tail hq
    cases hid : mapGet expr.IdMap ID with
    | none =>
      rw [PostTaskHandler_unknown o ID Result Error order p tail expr hq he (by simp [hid])]
      exact h
    | some q =>
      by_cases herr : Error = ""
      · subst herr
        obtain ⟨root, nr, -, -, -, hcase⟩ := PostTaskHandler_ok_spec o ID Result order h hv.1 p tail
          expr q hq he hid (hv.2 expr (headExpr_eq o p tail expr hq he))
        rcases hcase with ⟨-, o', result, hpost, ho', -⟩ | ⟨-, o', hpost, ho', -⟩
        · rw [hpost]; exact ho'
        · rw [hpost]; exact ho'
      · obtain ⟨o', hpost, ho', -⟩ := PostTaskHandler_error_spec o ID Result Error order h hv.1
          p tail expr q hq he hid herr
        rw [hpost]; exact ho'

theorem orchInv_init (cfg : OrchestratorConfig) : OrchInv (NewOrchestrator cfg) := by
  constructor <;> simp [NewOrchestrator]

theorem orchInv_step (o : Orchestrator) (c : Call) (h : OrchInv o) (hv : c.valid o) :
    OrchInv (step o c).1 := by
  cases c with
  | Submit s => exact orchInv_CalculateHandler o s h
  | Claim order => exact orchInv_GetTaskHandler o order h
  | Report id result error order => exact orchInv_PostTaskHandler o id result error order h hv

/-- Every reachable state satisfies the invariant. -/
theorem reachable_inv (cfg : OrchestratorConfig) (o : Orchestrator) (h : Reachable cfg o) :
    OrchInv o := by
  induction h with
  | init => exact orchInv_init cfg
  | next o c _ hv ih => exact orchInv_step o c ih hv

/-! ## Claims on dispatch and completion -/

theorem map_nodes_set (xs : List Expression) (p : Nat) (e e' : Expression)
    (he : xs[p]? = some e) (hn : e'.nodes = e.nodes) :
    (xs.set p e').map (fun x => x.nodes) = xs.map (fun x => x.nodes) := by
  apply List.ext_getElem?
  intro i
  simp only [List.getElem?_map, List.getElem?_set]
  by_cases hi : p = i
  · subst hi
    simp [he, hn, getElem?_lt_of_some _ _ _ he]
  · simp [hi]

theorem readyId_mem_keys (idMap : List (Int × Nat)) (nodes : List Node) (id : Int)
    (h : readyId idMap nodes id = true) : id ∈ mapKeys idMap := by
  by_contra hc
  rw [← mapGet_none_iff] at hc
  simp [readyId, hc] at h

/-- C4. Dispatchability: in every reachable state a Claim returns a task
exactly when the queue has a head expression with a dispatchable node (an
operation in the queue whose two dependencies are of kind number); the node of
the returned task is dispatchable at the call; otherwise the answer is the 404
no-work response and no node of any expression changes. -/
theorem claim_iff_dispatchable (cfg : OrchestratorConfig) (o : Orchestrator) (order : List Int)
    (hr : Reachable cfg o) (hv : (Call.Claim order).valid o) :
    ((∃ t, (GetTaskHandler o order).2 = Response.task t) ↔
      ∃ e id, headExpr o = some e ∧ readyId e.IdMap e.nodes id = true) ∧
    (∀ t, (GetTaskHandler o order).2 = Response.task t →
      ∃ e, headExpr o = some e ∧ readyId e.IdMap e.nodes t.ID = true) ∧
    ((¬ ∃ t, (GetTaskHandler o order).2 = Response.task t) →
      (∃ msg, (GetTaskHandler o order).2 = Response.error 404 msg) ∧
      (GetTaskHandler o order).1.exprs.map (fun e => e.nodes) = o.exprs.map (fun e => e.nodes)) := by
  have hinv := reachable_inv cfg o hr
  cases hq : o.Queue with
  | nil =>
    rw [GetTaskHandler_empty o order hq]
    refine ⟨⟨fun ⟨t, ht⟩ => (by cases ht), fun ⟨e, id, he, _⟩ => (by simp [headExpr, hq] at he)⟩,
      fun t ht => (by cases ht), fun _ => ⟨⟨_, rfl⟩, rfl⟩⟩
  | cons p tail =>
    obtain ⟨expr, he, hexpr⟩ := queue_head_expr o hinv p tail hq
    have hhead := headExpr_eq o p tail expr hq he
    have hperm := hv expr hhead
    rcases GetTaskHandler_spec o order hinv p tail expr hq he with
      ⟨h1, h2⟩ | ⟨id, q, task, d1, d2, ds, dep1, dep2, a1, a2, h0, h1, -, -, -, -, -, -, -, -, -,
        -, -, h13⟩
    · rw [h2]
      refine ⟨⟨fun ⟨t, ht⟩ => (by cases ht), ?_⟩, fun t ht => (by cases ht), fun _ => ⟨⟨_, rfl⟩, ?_⟩⟩
      · rintro ⟨e, id, he', hready⟩
        rw [hhead] at he'
        cases he'
        have := h1 id (hperm.mem_iff.2 (readyId_mem_keys _ _ _ hready))
        rw [this] at hready
        cases hready
      · exact map_nodes_set o.exprs p expr _ he rfl
    · rw [h13]
      refine ⟨⟨fun _ => ⟨expr, id, hhead, h1⟩, fun _ => ⟨_, rfl⟩⟩, ?_, ?_⟩
      · intro t ht
        simp only [Response.task.injEq] at ht
        subst ht
        exact ⟨expr, hhead, h1⟩
      · intro hno
        exact absurd ⟨_, rfl⟩ hno

theorem valid_claim_of (o : Orchestrator) (order : List Int) (h : validOrder o order = true) :
    (Call.Claim order).valid o := by
  intro e he
  simpa [validOrder, he] using h

theorem valid_report_of (o : Orchestrator) (id : Int) (result : ℚ) (error : String)
    (order : List Int) (hf : isFloat64 result) (h : validOrder o order = true) :
    (Call.Report id result error order).valid o := by
  refine ⟨hf, ?_⟩
  intro e he
  simpa [validOrder, he] using h

theorem reachable_submit (cfg : OrchestratorConfig) (s : String) :
    Reachable cfg (CalculateHandler (NewOrchestrator cfg) s).1 :=
  Reachable.next _ (Call.Submit s) Reachable.init trivial

/-- C4, witness: after the submission of `2+3` a Claim visiting the ids in the
order 3, 1, 2 is answered with a task, and the node with id 3 is dispatchable. -/
theorem claim_iff_dispatchable_witness :
    Reachable ⟨8080, 5000, 5000, 10000, 10000⟩
      (CalculateHandler (NewOrchestrator ⟨8080, 5000, 5000, 10000, 10000⟩) "2+3").1 ∧
    (∃ t, (GetTaskHandler (CalculateHandler (NewOrchestrator ⟨8080, 5000, 5000, 10000, 10000⟩)
      "2+3").1 [3, 1, 2]).2 = Response.task t) ∧
    ∀ t, (GetTaskHandler (CalculateHandler (NewOrchestrator ⟨8080, 5000, 5000, 10000, 10000⟩)
      "2+3").1 [3, 1, 2]).2 = Response.task t →
      ∃ e, headExpr (CalculateHandler (NewOrchestrator ⟨8080, 5000, 5000, 10000, 10000⟩)
        "2+3").1 = some e ∧ readyId e.IdMap e.nodes t.ID = true :=
  ⟨reachable_submit _ "2+3", ⟨⟨3, 2, 3, "+", 5000000000⟩, by decide!⟩,
   (claim_iff_dispatchable ⟨8080, 5000, 5000, 10000, 10000⟩ _ [3, 1, 2]
    (reachable_submit _ "2+3") (valid_claim_of _ _ (by decide!))).2.1⟩

theorem durationOfMS_exact (ms : Int) (h0 : 0 ≤ ms) (h1 : ms ≤ 9223372036854) :
    durationOfMS ms = ms * 1000000 := by
  unfold durationOfMS wrapInt64 Millisecond
  omega

theorem toPostfix_minus (a b : List Char) (ha : isDigits a) (hb : isDigits b) :
    toPostfix (String.mk (a ++ '-' :: b)) = .ok [String.mk a, String.mk b, "-"] := by
  unfold toPostfix
  simp only [List.foldl_append, List.foldl_cons, NewStack]
  rw [foldl_scanRune_digits a _ (isDigits_unicode ha)]
  rw [scanRune_operator _ '-' 1 (by simp)]
  rw [foldl_scanRune_digits b _ (isDigits_unicode hb)]
  simp [flushNum, ha.1, hb.1, popHigher, drain]
  rfl

theorem parseExpression_minus (a b : List Char) (x y : ℚ) (ha : isDigits a) (hb : isDigits b)
    (hx : ParseFloat (String.mk a) = some x) (hy : ParseFloat (String.mk b) = some y) :
    ParseExpression (String.mk (a ++ '-' :: b)) =
      .ok ⟨[⟨NodeType.Number, String.mk a, [], 0, NodeStatus.StatusCreated⟩,
            ⟨NodeType.Number, String.mk b, [], 0, NodeStatus.StatusCreated⟩,
            ⟨NodeType.Operator, "-", [0, 1], 1, NodeStatus.StatusCreated⟩],
           [(0, [0, 1]), (1, [2])], 1⟩ := by
  unfold ParseExpression
  rw [toPostfix_minus a b ha hb]
  have hm := parseFloat_operator.2.1
  simp [createDAG, buildTokens, buildToken, hx, hy, hm, Stack.Push, Stack.Pop, Stack.Len, NewStack,
    levelAppend, levelNodes, mapGet, mapSet, levelOf]

/-- The claim after the submission of `a-b`. -/
theorem claim_minus (cfg : OrchestratorConfig) (a b : List Char) (x y : ℚ) (order : List Int)
    (ha : isDigits a) (hb : isDigits b)
    (hx : ParseFloat (String.mk a) = some x) (hy : ParseFloat (String.mk b) = some y)
    (hord : order.Perm [1, 2, 3]) :
    (GetTaskHandler (CalculateHandler (NewOrchestrator cfg) (String.mk (a ++ '-' :: b))).1 order).2 =
      Response.task ⟨3, x, y, "-", durationOfMS cfg.TimeSubtractionMS⟩ := by
  have hinv := reachable_inv cfg _ (reachable_submit cfg (String.mk (a ++ '-' :: b)))
  have hparse := parseExpression_minus a b x y ha hb hx hy
  rw [CalculateHandler_ok _ _ _ hparse] at hinv ⊢
  simp only [NewOrchestrator, List.nil_append, List.length_nil, List.map_cons, List.map_nil,
    levelOrder, levelNodes, mapGet, idsFrom] at hinv ⊢
  simp only [markNode] at hinv ⊢
  norm_num at hinv ⊢
  rcases GetTaskHandler_spec _ order hinv 0 [] _ rfl rfl with
    ⟨h1, -⟩ | ⟨id, q, task, d1, d2, ds, dep1, dep2, a1, a2, h0, h1, h2, h3, h4, h5, h6, h7, h8,
      -, -, h11, h12, h13⟩
  · have := h1 3 (hord.mem_iff.2 (by simp))
    simp [readyId, ready, mapGet] at this
  · have hid : id = 1 ∨ id = 2 ∨ id = 3 := by simpa using hord.mem_iff.1 h0
    rcases hid with rfl | rfl | rfl
    · simp [readyId, ready, mapGet] at h1
    · simp [readyId, ready, mapGet] at h1
    · have hq2 : q = 2 := by
        simp only [mapGet] at h2
        norm_num at h2
        exact h2.symm
      subst hq2
      have ht : task = ⟨NodeType.Operator, "-", [0, 1], 1, NodeStatus.StatusInQueue⟩ := by
        simpa using h3.symm
      subst ht
      simp only [List.cons.injEq] at h6
      obtain ⟨rfl, rfl, -⟩ := h6
      have hd1 : dep1 = ⟨NodeType.Number, String.mk a, [], 0, NodeStatus.StatusDone⟩ := by
        simpa using h7.symm
      have hd2 : dep2 = ⟨NodeType.Number, String.mk b, [], 0, NodeStatus.StatusDone⟩ := by
        simpa using h8.symm
      subst hd1 hd2
      simp only [hx, hy, Option.some.injEq] at h11 h12
      subst h11 h12
      rw [h13]
      simp [operationTime]

/-- The completion check looks at the root only: every node of the map at the
maximum level is done exactly when the root is. -/
theorem maxLevelDone_iff_root (e : Expression) (h : ExprInv e) (root : Nat) (nr : Node)
    (hroot : ∀ p, p < e.nodes.length → p ≠ root → levelOf e.nodes p < levelOf e.nodes root)
    (hnr : e.nodes[root]? = some nr) :
    (∀ n ∈ mapNodes e, n.Level = maxLevelOf (mapNodes e) → n.Status = NodeStatus.StatusDone) ↔
      nr.Status = NodeStatus.StatusDone := by
  have hmax := maxLevelOf_mapNodes e h root (getElem?_lt_of_some _ _ _ hnr) hroot
  rw [hmax]
  constructor
  · intro hd
    exact hd nr ((mem_mapNodes_iff e h nr).2 (List.getElem?_mem hnr))
      (levelOf_eq_of_getElem? _ _ _ hnr).symm
  · intro hd n hn hl
    obtain ⟨p', hp'⟩ := List.mem_iff_getElem?.1 ((mem_mapNodes_iff e h n).1 hn)
    by_cases hpr : p' = root
    · subst hpr
      rw [hnr] at hp'
      cases hp'
      exact hd
    · have := hroot p' (getElem?_lt_of_some _ _ _ hp') hpr
      rw [levelOf_eq_of_getElem? _ _ _ hp'] at this
      omega

theorem levelOf_update_reportNode (nodes : List Node) (q : Nat) (s : String) (p : Nat) :
    levelOf (update nodes q (reportNode s)) p = levelOf nodes p := by
  unfold levelOf
  rw [update_getElem?]
  by_cases hp : p = q
  · subst hp
    cases nodes[p]? <;> simp [reportNode]
  · simp [hp]

/-- C5. Claim payload: a task returned for node `k` of the head expression
carries `k`, the parsed values of the node's left and right dependency as
`arg1` and `arg2`, the node's operator symbol and the latency configured for
that operator; the node becomes AtWorker and the expression in_progress. For
`a-b` the task has `arg1 = a` and `arg2 = b`. -/
theorem claim_payload (cfg : OrchestratorConfig) :
    (∀ (o : Orchestrator) (order : List Int) (t : Task), Reachable cfg o →
      (Call.Claim order).valid o → (GetTaskHandler o order).2 = Response.task t →
      ∃ p tail expr q task d1 d2 dep1 dep2,
        o.Queue = p :: tail ∧ o.exprs[p]? = some expr ∧
        mapGet expr.IdMap t.ID = some q ∧ expr.nodes[q]? = some task ∧
        task.Dependencies = [d1, d2] ∧ expr.nodes[d1]? = some dep1 ∧ expr.nodes[d2]? = some dep2 ∧
        ParseFloat dep1.Value = some t.Arg1 ∧ ParseFloat dep2.Value = some t.Arg2 ∧
        t.Operation = task.Value ∧
        (task.Value = "+" → t.OperationTime = durationOfMS o.Config.TimeAdditionMS) ∧
        (task.Value = "-" → t.OperationTime = durationOfMS o.Config.TimeSubtractionMS) ∧
        (task.Value = "*" → t.OperationTime = durationOfMS o.Config.TimeMultiplicationsMS) ∧
        (task.Value = "/" → t.OperationTime = durationOfMS o.Config.TimeDivisionsMS) ∧
        ∃ expr' task', (GetTaskHandler o order).1.exprs[p]? = some expr' ∧
          expr'.Status = ExpressionStatus.StatusInProgress ∧
          expr'.nodes[q]? = some task' ∧ task'.Status = NodeStatus.StatusAtWorker) ∧
    (∀ ms : Int, 0 ≤ ms → ms ≤ 9223372036854 → durationOfMS ms = ms * 1000000) ∧
    (∀ (a b : List Char) (x y : ℚ) (order : List Int), isDigits a → isDigits b →
      ParseFloat (String.mk a) = some x → ParseFloat (String.mk b) = some y →
      order.Perm [1, 2, 3] →
      (GetTaskHandler (CalculateHandler (NewOrchestrator cfg) (String.mk (a ++ '-' :: b))).1
        order).2 = Response.task ⟨3, x, y, "-", durationOfMS cfg.TimeSubtractionMS⟩) := by
  refine ⟨?_, durationOfMS_exact, fun a b x y order ha hb hx hy hord =>
    claim_minus cfg a b x y order ha hb hx hy hord⟩
  intro o order t hr hv ht
  have hinv := reachable_inv cfg o hr
  cases hq : o.Queue with
  | nil => rw [GetTaskHandler_empty o order hq] at ht; cases ht
  | cons p tail =>
    obtain ⟨expr, he, hexpr⟩ := queue_head_expr o hinv p tail hq
    rcases GetTaskHandler_spec o order hinv p tail expr hq he with
      ⟨-, h2⟩ | ⟨id, q, task, d1, d2, ds, dep1, dep2, a1, a2, -, -, h2, h3, h4, h5, h6, h7, h8, -,
        -, h11, h12, h13⟩
    · rw [h2] at ht; cases ht
    · rw [h13] at ht ⊢
      simp only [Response.task.injEq] at ht
      subst ht
      obtain ⟨l, r, hlr⟩ := hexpr.operator_deps q task h3 h4
      rw [h6] at hlr
      simp only [List.cons.injEq] at hlr
      obtain ⟨rfl, rfl, rfl⟩ := hlr
      have hplt : p < o.exprs.length := getElem?_lt_of_some _ _ _ he
      refine ⟨p, tail, expr, q, task, d1, d2, dep1, dep2, rfl, he, h2, h3, h6, h7, h8, h11, h12,
        rfl, ?_, ?_, ?_, ?_, _, claimNode task, set_getElem?_self _ _ _ hplt, rfl, ?_, rfl⟩
      · intro hv; simp [operationTime, hv]
      · intro hv; simp [operationTime, hv]
      · intro hv; simp [operationTime, hv]
      · intro hv; simp [operationTime, hv]
      · simp [update_getElem?, h3]

/-- C5, witness: after the submission of `7-2` the task for node 3 carries
`arg1 = 7` and `arg2 = 2`. -/
theorem claim_payload_witness :
    isDigits ['7'] ∧ isDigits ['2'] ∧ ParseFloat "7" = some 7 ∧ ParseFloat "2" = some 2 ∧
    (GetTaskHandler (CalculateHandler (NewOrchestrator ⟨8080, 5000, 5000, 10000, 10000⟩) "7-2").1
      [2, 3, 1]).2 = Response.task ⟨3, 7, 2, "-", durationOfMS 5000⟩ :=
  ⟨by simp [isDigits, asciiDigit], by simp [isDigits, asciiDigit], by decide!, by decide!,
   (claim_payload ⟨8080, 5000, 5000, 10000, 10000⟩).2.2 ['7'] ['2'] 7 2 [2, 3, 1]
     (by simp [isDigits, asciiDigit]) (by simp [isDigits, asciiDigit]) (by decide!) (by decide!)
     (by decide)⟩

/-- C6. Finalization rule: after a Report without error for an existing node
of the head expression, the expression is done, holds the parsed value of the
single node at the maximum level as its result and has left the queue if every
node at the maximum level is done after the update; otherwise its status is
in_queue again and it stays the head of the queue. -/
theorem report_finalizes (cfg : OrchestratorConfig) (o : Orchestrator) (ID : Int) (Result : ℚ)
    (order : List Int) (p : Nat) (tail : List Nat) (expr : Expression) (q : Nat)
    (hr : Reachable cfg o) (hv : (Call.Report ID Result "" order).valid o)
    (hq : o.Queue = p :: tail) (he : o.exprs[p]? = some expr)
    (hid : mapGet expr.IdMap ID = some q) :
    ∃ o' expr', PostTaskHandler o ID Result "" order = (o', Response.ok) ∧
      o'.exprs[p]? = some expr' ∧ expr'.IdMap = expr.IdMap ∧
      expr'.nodes = update expr.nodes q (reportNode (sprintf5 Result)) ∧
      ((∀ n ∈ mapNodes expr', n.Level = maxLevelOf (mapNodes expr') →
          n.Status = NodeStatus.StatusDone) →
        expr'.Status = ExpressionStatus.StatusDone ∧ o'.Queue = tail ∧
        ∃ root nr, root < expr'.nodes.length ∧
          (∀ p', p' < expr'.nodes.length → p' ≠ root →
            levelOf expr'.nodes p' < levelOf expr'.nodes root) ∧
          expr'.nodes[root]? = some nr ∧ ParseFloat nr.Value = some expr'.Result) ∧
      ((¬ ∀ n ∈ mapNodes expr', n.Level = maxLevelOf (mapNodes expr') →
          n.Status = NodeStatus.StatusDone) →
        expr'.Status = ExpressionStatus.StatusInQueue ∧ o'.Queue = p :: tail) := by
  have hinv := reachable_inv cfg o hr
  obtain ⟨root, nr, hrlt, hroot, hnr, hcase⟩ := PostTaskHandler_ok_spec o ID Result order hinv hv.1
    p tail expr q hq he hid (hv.2 expr (headExpr_eq o p tail expr hq he))
  have hroot' : ∀ p', p' < (update expr.nodes q (reportNode (sprintf5 Result))).length →
      p' ≠ root → levelOf (update expr.nodes q (reportNode (sprintf5 Result))) p' <
        levelOf (update expr.nodes q (reportNode (sprintf5 Result))) root := by
    intro p' h1 h2
    rw [levelOf_update_reportNode, levelOf_update_reportNode]
    exact hroot p' (by simpa [update_length] using h1) h2
  rcases hcase with ⟨hdone, o', result, hpost, ho', hres, hqueue, -, hget⟩ |
    ⟨hdone, o', hpost, ho', hqueue, -, hget⟩
  · refine ⟨o', _, hpost, hget, rfl, rfl, fun _ => ⟨rfl, hqueue, root, nr, ?_, hroot', hnr, hres⟩,
      fun hnot => absurd ?_ hnot⟩
    · simpa [update_length] using hrlt
    · exact (maxLevelDone_iff_root _ (ho'.expr_inv _ (List.getElem?_mem hget)) root nr hroot'
        hnr).2 hdone
  · refine ⟨o', _, hpost, hget, rfl, rfl, fun hall => absurd ?_ hdone, fun _ => ⟨rfl, hqueue⟩⟩
    exact (maxLevelDone_iff_root _ (ho'.expr_inv _ (List.getElem?_mem hget)) root nr hroot'
      hnr).1 hall

theorem isFloat64_intCast (z : ℤ) (h : |z| < 2 ^ 53) : isFloat64 (z : ℚ) :=
  ⟨z, 0, h, by norm_num, by norm_num, by simp⟩

theorem reachable_run (cfg : OrchestratorConfig) (o : Orchestrator) (calls : List Call)
    (hr : Reachable cfg o) (hv : validRun o calls) : Reachable cfg (run o calls).1 := by
  induction calls generalizing o with
  | nil => exact hr
  | cons c cs ih =>
    simp only [run]
    exact ih _ (Reachable.next o c hr hv.1) hv.2

/-- C6, witness: the report of 5 for node 3 of `2+3` completes the expression
with result 5 and empties the queue. -/
theorem report_finalizes_witness :
    ∃ o' expr',
      PostTaskHandler (run (NewOrchestrator ⟨8080, 5000, 5000, 10000, 10000⟩)
        [Call.Submit "2+3", Call.Claim [1, 2, 3]]).1 3 5 "" [1, 2, 3] = (o', Response.ok) ∧
      o'.exprs[0]? = some expr' ∧ expr'.Status = ExpressionStatus.StatusDone ∧ o'.Queue = [] := by
  have hr : Reachable ⟨8080, 5000, 5000, 10000, 10000⟩
      (run (NewOrchestrator ⟨8080, 5000, 5000, 10000, 10000⟩)
        [Call.Submit "2+3", Call.Claim [1, 2, 3]]).1 :=
    reachable_run _ _ _ Reachable.init ⟨trivial, valid_claim_of _ _ (by decide!), trivial⟩
  have hf : isFloat64 5 := by simpa using isFloat64_intCast 5 (by norm_num)
  obtain ⟨o', expr', h1, h2, h3, h4, h5, -⟩ :=
    report_finalizes ⟨8080, 5000, 5000, 10000, 10000⟩ _ 3 5 [1, 2, 3] 0 []
      ((run (NewOrchestrator ⟨8080, 5000, 5000, 10000, 10000⟩)
        [Call.Submit "2+3", Call.Claim [1, 2, 3]]).1.exprs.get ⟨0, by decide!⟩) 2
      hr (valid_report_of _ _ _ _ _ hf (by decide!)) (by decide!) (by decide!) (by decide!)
  refine ⟨o', expr', h1, h2, ?_⟩
  have hall : ∀ n ∈ mapNodes expr', n.Level = maxLevelOf (mapNodes expr') →
      n.Status = NodeStatus.StatusDone := by
    unfold mapNodes
    rw [h3, h4]
    decide!
  exact ⟨(h5 hall).1, (h5 hall).2.1⟩

/-- C7 as amended. Error report: after a Report with a non-empty error for an
existing node of the head expression, the expression has status error and the
error set, it has left the queue, whose next expression is the new head, and
the reported node is done, of kind number, and holds the five-decimal rendering
of the report's result field. -/
theorem error_report (cfg : OrchestratorConfig) (o : Orchestrator) (ID : Int) (Result : ℚ)
    (Error : String) (order : List Int) (p : Nat) (tail : List Nat) (expr : Expression) (q : Nat)
    (hr : Reachable cfg o) (hv : (Call.Report ID Result Error order).valid o)
    (herr : Error ≠ "") (hq : o.Queue = p :: tail) (he : o.exprs[p]? = some expr)
    (hid : mapGet expr.IdMap ID = some q) :
    ∃ o' expr' node', PostTaskHandler o ID Result Error order = (o', Response.ok) ∧
      o'.Queue = tail ∧ o'.exprs[p]? = some expr' ∧
      expr'.Status = ExpressionStatus.StatusError ∧ expr'.Err = some (Errorf Error) ∧
      expr'.nodes[q]? = some node' ∧ node'.Status = NodeStatus.StatusDone ∧
      node'.Typ = NodeType.Number ∧ node'.Value = sprintf5 Result := by
  have hinv := reachable_inv cfg o hr
  have hexpr : ExprInv expr := hinv.expr_inv _ (List.getElem?_mem he)
  obtain ⟨o', hpost, -, hqueue, -, hget⟩ := PostTaskHandler_error_spec o ID Result Error order
    hinv hv.1 p tail expr q hq he hid herr
  have hqlt := idMap_ptr_lt expr hexpr ID q hid
  refine ⟨o', _, reportNode (sprintf5 Result) (expr.nodes.get ⟨q, hqlt⟩), hpost, hqueue, hget, rfl,
    rfl, ?_, rfl, rfl, rfl⟩
  simp only [update_getElem?, if_true]
  rw [List.getElem?_eq_getElem hqlt]
  rfl

/-- C7, witness: `4/0` is submitted and claimed, and the worker reports a
division by zero. -/
theorem error_report_witness :
    ∃ o' expr' node',
      PostTaskHandler (run (NewOrchestrator ⟨8080, 5000, 5000, 10000, 10000⟩)
        [Call.Submit "4/0", Call.Claim [1, 2, 3]]).1 3 0 "division by zero" [1, 2, 3] =
          (o', Response.ok) ∧
      o'.Queue = [] ∧ o'.exprs[0]? = some expr' ∧
      expr'.Status = ExpressionStatus.StatusError ∧ expr'.Err = some (Errorf "division by zero") ∧
      expr'.nodes[2]? = some node' ∧ node'.Status = NodeStatus.StatusDone ∧
      node'.Typ = NodeType.Number ∧ node'.Value = sprintf5 0 :=
  error_report ⟨8080, 5000, 5000, 10000, 10000⟩ _ 3 0 "division by zero" [1, 2, 3] 0 []
    ((run (NewOrchestrator ⟨8080, 5000, 5000, 10000, 10000⟩)
      [Call.Submit "4/0", Call.Claim [1, 2, 3]]).1.exprs.get ⟨0, by decide!⟩) 2
    (reachable_run _ _ _ Reachable.init ⟨trivial, valid_claim_of _ _ (by decide!), trivial⟩)
    (valid_report_of _ _ _ _ _ (by simpa using isFloat64_intCast 0 (by norm_num)) (by decide!))
    (by decide) (by decide!) (by decide!) (by decide!)

/-- C7, counterexample: after `4/0` is submitted and claimed and the worker
reports a division by zero, the reported node is done but does hold a numeric
value: its kind is number and its value `0.00000` parses to 0. -/
theorem error_report_keeps_value :
    (((run (NewOrchestrator ⟨8080, 5000, 5000, 10000, 10000⟩)
        [Call.Submit "4/0", Call.Claim [1, 2, 3],
         Call.Report 3 0 "division by zero" [1, 2, 3]]).1.exprs[0]?).bind
      (fun e => e.nodes[2]?)).map (fun n => (n.Status, n.Typ, n.Value, ParseFloat n.Value)) =
    some (NodeStatus.StatusDone, NodeType.Number, "0.00000", some 0) := by
  decide!

/-! ## Claim exclusivity -/

theorem exprEvolves_refl (e : Expression) : ExprEvolves e e :=
  ⟨rfl, rfl, fun _ n hn => ⟨n, hn, id⟩⟩

theorem exprEvolves_status (e e' : Expression) (s : ExpressionStatus) (h : ExprEvolves e e') :
    ExprEvolves e { e' with Status := s } :=
  ⟨h.1, h.2.1, h.2.2⟩

theorem evolves_refl (o : Orchestrator) : Evolves o o :=
  fun _ e he => ⟨e, he, exprEvolves_refl e⟩

theorem evolves_of_set_update (o o' : Orchestrator) (p : Nat) (expr E : Expression) (j : Nat)
    (s : ExpressionStatus) (he : o.exprs[p]? = some expr) (hE : ExprEvolves expr E)
    (hexprs : o'.exprs = update (o.exprs.set p E) j (fun e => { e with Status := s })) :
    Evolves o o' := by
  intro i e hi
  rw [hexprs, update_getElem?]
  have hset : ∃ e1, (o.exprs.set p E)[i]? = some e1 ∧ ExprEvolves e e1 := by
    rw [List.getElem?_set]
    by_cases hpi : p = i
    · subst hpi
      rw [he] at hi
      cases hi
      exact ⟨E, by simp [getElem?_lt_of_some _ _ _ he], hE⟩
    · exact ⟨e, by simp [hpi, hi], exprEvolves_refl e⟩
  obtain ⟨e1, h1, h2⟩ := hset
  by_cases hij : i = j
  · subst hij
    exact ⟨_, by simp [h1], exprEvolves_status e e1 s h2⟩
  · exact ⟨e1, by simp [hij, h1], h2⟩

theorem evolves_of_set (o : Orchestrator) (p : Nat) (expr E : Expression)
    (he : o.exprs[p]? = some expr) (hE : ExprEvolves expr E) :
    Evolves o { o with exprs := o.exprs.set p E } := by
  intro i e hi
  simp only [List.getElem?_set]
  by_cases hpi : p = i
  · subst hpi
    rw [he] at hi
    cases hi
    exact ⟨E, by simp [getElem?_lt_of_some _ _ _ he], hE⟩
  · exact ⟨e, by simp [hpi, hi], exprEvolves_refl e⟩

theorem exprEvolves_update (e : Expression) (q : Nat) (f : Node → Node) (s : ExpressionStatus)
    (err : Option String) (res : ℚ)
    (hf : ∀ n, (f n).Status ≠ NodeStatus.StatusInQueue) :
    ExprEvolves e { e with nodes := update e.nodes q f, Status := s, Err := err, Result := res } := by
  refine ⟨rfl, rfl, fun q' n hn => ?_⟩
  simp only [update_getElem?]
  by_cases hq : q' = q
  · subst hq
    exact ⟨f n, by simp [hn], fun _ => hf n⟩
  · exact ⟨n, by simp [hq, hn], id⟩

theorem evolves_GetTaskHandler (o : Orchestrator) (order : List Int) (h : OrchInv o) :
    Evolves o (GetTaskHandler o order).1 := by
  cases hq : o.Queue with
  | nil => rw [GetTaskHandler_empty o order hq]; exact evolves_refl o
  | cons p tail =>
    obtain ⟨expr, he, -⟩ := queue_head_expr o h p tail hq
    rcases GetTaskHandler_spec o order h p tail expr hq he with
      ⟨-, h2⟩ | ⟨id, q, task, d1, d2, ds, dep1, dep2, a1, a2, -, -, -, -, -, -, -, -, -, -, -,
        -, -, h13⟩
    · rw [h2]
      exact evolves_of_set o p expr _ he (exprEvolves_status expr expr _ (exprEvolves_refl expr))
    · rw [h13]
      exact evolves_of_set o p expr _ he
        (exprEvolves_update expr q claimNode _ expr.Err expr.Result (by simp [claimNode]))

theorem evolves_PostTaskHandler (o : Orchestrator) (ID : Int) (Result : ℚ) (Error : String)
    (order : List Int) (h : OrchInv o) (hv : (Call.Report ID Result Error order).valid o) :
    Evolves o (PostTaskHandler o ID Result Error order).1 := by
  cases hq : o.Queue with
  | nil => rw [PostTaskHandler_empty o ID Result Error order hq]; exact evolves_refl o
  | cons p tail =>
    obtain ⟨expr, he, hinv⟩ := queue_head_expr o h p tail hq
    cases hid : mapGet expr.IdMap ID with
    | none =>
      rw [PostTaskHandler_unknown o ID Result Error order p tail expr hq he (by simp [hid])]
      exact evolves_refl o
    | some q =>
      by_cases herr : Error = ""
      · subst herr
        obtain ⟨root, nr, -, -, -, hcase⟩ := PostTaskHandler_ok_spec o ID Result order h hv.1 p tail
          expr q hq he hid (hv.2 expr (headExpr_eq o p tail expr hq he))
        rcases hcase with ⟨-, o', result, hpost, -, -, -, ⟨j, hj⟩, -⟩ | ⟨-, o', hpost, -, -, ⟨j, hj⟩, -⟩
        · rw [hpost]
          exact evolves_of_set_update o o' p expr _ j _ he
            (exprEvolves_update expr q _ _ expr.Err result (by simp [reportNode])) hj
        · rw [hpost]
          exact evolves_of_set_update o o' p expr _ j _ he
            (exprEvolves_update expr q _ _ expr.Err expr.Result (by simp [reportNode])) hj
      · obtain ⟨o', hpost, -, -, ⟨j, hj⟩, -⟩ := PostTaskHandler_error_spec o ID Result Error order h
          hv.1 p tail expr q hq he hid herr
        rw [hpost]
        exact evolves_of_set_update o o' p expr _ j _ he
          (exprEvolves_update expr q _ _ _ expr.Result (by simp [reportNode])) hj

theorem evolves_CalculateHandler (o : Orchestrator) (s : String) :
    Evolves o (CalculateHandler o s).1 := by
  cases hp : ParseExpression s with
  | error e => rw [CalculateHandler_error o s e hp]; exact evolves_refl o
  | ok dag =>
    rw [CalculateHandler_ok o s dag hp]
    intro i e hi
    refine ⟨e, ?_, exprEvolves_refl e⟩
    simp only
    rw [List.getElem?_append_left (getElem?_lt_of_some _ _ _ hi)]
    exact hi

theorem evolves_step (o : Orchestrator) (c : Call) (h : OrchInv o) (hv : c.valid o) :
    Evolves o (step o c).1 := by
  cases c with
  | Submit s => exact evolves_CalculateHandler o s
  | Claim order => exact evolves_GetTaskHandler o order h
  | Report id result error order => exact evolves_PostTaskHandler o id result error order h hv

theorem pastQueue_mono (o o' : Orchestrator) (x : Nat × Int) (h : Evolves o o')
    (hx : pastQueue o x) : pastQueue o' x := by
  obtain ⟨e, q, n, he, hq, hn, hs⟩ := hx
  obtain ⟨e', he', hid, -, hnodes⟩ := h x.1 e he
  obtain ⟨n', hn', hs'⟩ := hnodes q n hn
  exact ⟨e', q, n', he', by rw [hid]; exact hq, hn', hs' hs⟩

/-- The entries of the claim log of a run are pairwise distinct as pairs of
expression pointer and local node id, and none of them had left the queue
before the run. -/
theorem claimLog_nodup (calls : List Call) (o : Orchestrator) (h : OrchInv o)
    (hv : validRun o calls) :
    ((claimLog o calls).map (fun x => (x.1, x.2.2))).Nodup ∧
    ∀ x ∈ (claimLog o calls).map (fun x => (x.1, x.2.2)), ¬ pastQueue o x := by
  induction calls generalizing o with
  | nil => simp [claimLog]
  | cons c cs ih =>
    obtain ⟨ih1, ih2⟩ := ih (step o c).1 (orchInv_step o c h hv.1) hv.2
    have hev := evolves_step o c h hv.1
    have hrest : ∀ x ∈ (claimLog (step o c).1 cs).map (fun x => (x.1, x.2.2)), ¬ pastQueue o x :=
      fun x hx hp => ih2 x hx (pastQueue_mono o _ x hev hp)
    have hplain : (claimLog o (c :: cs) = claimLog (step o c).1 cs) →
        ((claimLog o (c :: cs)).map (fun x => (x.1, x.2.2))).Nodup ∧
        ∀ x ∈ (claimLog o (c :: cs)).map (fun x => (x.1, x.2.2)), ¬ pastQueue o x := by
      intro heq
      rw [heq]
      exact ⟨ih1, hrest⟩
    cases c with
    | Submit s => exact hplain (by simp [claimLog])
    | Report id result error order => exact hplain (by simp [claimLog])
    | Claim order =>
      cases hq : o.Queue with
      | nil =>
        apply hplain
        simp [claimLog, step, GetTaskHandler_empty o order hq]
      | cons p tail =>
        obtain ⟨expr, he, -⟩ := queue_head_expr o h p tail hq
        rcases GetTaskHandler_spec o order h p tail expr hq he with
          ⟨-, h2⟩ | ⟨id, q, task, d1, d2, ds, dep1, dep2, a1, a2, -, -, hmap, hnode, -, hstat, -,
            -, -, -, -, -, -, h13⟩
        · apply hplain
          simp [claimLog, step, h2]
        · have hlog : claimLog o (Call.Claim order :: cs) =
              (p, expr.ID, id) :: claimLog (step o (Call.Claim order)).1 cs := by
            simp [claimLog, step, h13, hq, he]
          rw [hlog]
          simp only [List.map_cons, List.nodup_cons, List.mem_cons, forall_eq_or_imp]
          have hnew : pastQueue (step o (Call.Claim order)).1 (p, id) := by
            simp only [step, h13]
            refine ⟨_, q, claimNode task, set_getElem?_self _ _ _ (getElem?_lt_of_some _ _ _ he),
              hmap, ?_, by simp [claimNode]⟩
            simp [update_getElem?, hnode]
          refine ⟨⟨fun hmem => ih2 _ hmem hnew, ih1⟩, ?_, hrest⟩
          rintro ⟨e, q', n, he', hq', hn', hs'⟩
          simp only at he' hq'
          rw [he] at he'
          cases he'
          rw [hmap] at hq'
          cases hq'
          rw [hnode] at hn'
          cases hn'
          exact hs' hstat

theorem setRegistryStatus_frame (o o2 : Orchestrator) (id : Int) (s : ExpressionStatus)
    (h : setRegistryStatus o id s = some o2) :
    o2.PrevExpressionID = o.PrevExpressionID ∧ o2.exprs.length = o.exprs.length := by
  unfold setRegistryStatus at h
  split at h
  · cases h
  · split at h
    · simp only [Option.some.injEq] at h
      subst h
      exact ⟨rfl, update_length _ _ _⟩
    · cases h

theorem PostTaskHandler_frame (o : Orchestrator) (ID : Int) (Result : ℚ) (Error : String)
    (order : List Int) :
    (PostTaskHandler o ID Result Error order).1.PrevExpressionID = o.PrevExpressionID ∧
    (PostTaskHandler o ID Result Error order).1.exprs.length = o.exprs.length := by
  unfold PostTaskHandler
  dsimp only
  repeat' split
  all_goals first
    | exact ⟨rfl, rfl⟩
    | exact ⟨rfl, by simp⟩
    | (rename_i h; have := setRegistryStatus_frame _ _ _ _ h; simpa using this)

theorem GetTaskHandler_frame (o : Orchestrator) (order : List Int) :
    (GetTaskHandler o order).1.PrevExpressionID = o.PrevExpressionID ∧
    (GetTaskHandler o order).1.exprs.length = o.exprs.length := by
  unfold GetTaskHandler
  repeat' split
  all_goals first
    | exact ⟨rfl, rfl⟩
    | exact ⟨rfl, by simp⟩

theorem idSeq_of_evolves (o o' : Orchestrator) (h : IdSeq o) (hev : Evolves o o')
    (hprev : o'.PrevExpressionID = o.PrevExpressionID)
    (hlen : o'.exprs.length = o.exprs.length) : IdSeq o' := by
  refine ⟨by rw [hprev, hlen]; exact h.1, fun i e' hi => ?_⟩
  have hlt : i < o.exprs.length := by
    rw [← hlen]; exact getElem?_lt_of_some _ _ _ hi
  obtain ⟨e1, h1, -, hid, -⟩ := hev i _ (List.getElem?_eq_getElem hlt)
  rw [hi] at h1
  cases h1
  rw [hid]
  exact h.2 i _ (List.getElem?_eq_getElem hlt)

theorem wrapInt32_succ (x : Int) : wrapInt32 (wrapInt32 x + 1) = wrapInt32 (x + 1) := by
  unfold wrapInt32; omega

theorem idSeq_step (o : Orchestrator) (c : Call) (h : OrchInv o) (hs : IdSeq o) (hv : c.valid o) :
    IdSeq (step o c).1 := by
  cases c with
  | Submit s =>
    simp only [step]
    cases hp : ParseExpression s with
    | error e => rw [CalculateHandler_error o s e hp]; exact hs
    | ok dag =>
      rw [CalculateHandler_ok o s dag hp]
      refine ⟨?_, fun i e hi => ?_⟩
      · simp only [List.length_append, List.length_singleton, Nat.cast_add, Nat.cast_one]
        rw [hs.1, wrapInt32_succ]
      · simp only at hi
        rcases getElem?_append_singleton _ _ _ _ hi with ⟨-, h1⟩ | ⟨rfl, rfl⟩
        · exact hs.2 i e h1
        · simp only
          rw [hs.1, wrapInt32_succ]
  | Claim order =>
    exact idSeq_of_evolves o _ hs (evolves_GetTaskHandler o order h)
      (GetTaskHandler_frame o order).1 (GetTaskHandler_frame o order).2
  | Report id result error order =>
    exact idSeq_of_evolves o _ hs (evolves_PostTaskHandler o id result error order h hv)
      (PostTaskHandler_frame o id result error order).1
      (PostTaskHandler_frame o id result error order).2

theorem step_length (o : Orchestrator) (c : Call) :
    o.exprs.length ≤ (step o c).1.exprs.length ∧
    (step o c).1.exprs.length ≤ o.exprs.length + 1 := by
  cases c with
  | Submit s =>
    simp only [step]
    cases hp : ParseExpression s with
    | error e => rw [CalculateHandler_error o s e hp]; simp
    | ok dag => rw [CalculateHandler_ok o s dag hp]; simp
  | Claim order =>
    simp only [step]
    rw [(GetTaskHandler_frame o order).2]; omega
  | Report id result error order =>
    simp only [step]
    rw [(PostTaskHandler_frame o id result error order).2]; omega

theorem run_length (calls : List Call) (o : Orchestrator) :
    o.exprs.length ≤ (run o calls).1.exprs.length ∧
    (run o calls).1.exprs.length ≤ o.exprs.length + calls.length := by
  induction calls generalizing o with
  | nil => simp [run]
  | cons c cs ih =>
    simp only [run, List.length_cons]
    have h1 := step_length o c
    have h2 := ih (step o c).1
    omega

/-- The ids in the claim log are the allocation numbers of the expressions. -/
theorem claimLog_ids (calls : List Call) (o : Orchestrator) (h : OrchInv o) (hs : IdSeq o)
    (hv : validRun o calls) :
    ∀ x ∈ claimLog o calls,
      x.2.1 = wrapInt32 (x.1 + 1) ∧ x.1 < (run o calls).1.exprs.length := by
  induction calls generalizing o with
  | nil => simp [claimLog]
  | cons c cs ih =>
    intro x hx
    have ih' := ih (step o c).1 (orchInv_step o c h hv.1) (idSeq_step o c h hs hv.1) hv.2
    simp only [claimLog, List.mem_append] at hx
    simp only [run]
    rcases hx with hx | hx
    · split at hx
      · rename_i order t p tail hresp hq
        split at hx
        · rename_i e he
          simp only [List.mem_singleton] at hx
          subst hx
          refine ⟨hs.2 p e he, ?_⟩
          have h1 := (run_length cs (step o (Call.Claim order)).1).1
          have h2 := (step_length o (Call.Claim order)).1
          have h3 := getElem?_lt_of_some _ _ _ he
          simp only at h1 h2 ⊢
          omega
        · simp at hx
      · simp at hx
    · exact ih' x hx

theorem typ_update_claimNode (nodes : List Node) (q d : Nat) :
    ((update nodes q claimNode)[d]?).map (fun n => n.Typ) = (nodes[d]?).map (fun n => n.Typ) := by
  rw [update_getElem?]
  by_cases hd : d = q
  · subst hd
    cases nodes[d]? <;> simp [claimNode]
  · simp [hd]

theorem ready_update_claimNode (nodes : List Node) (q : Nat) (n : Node) :
    ready (update nodes q claimNode) n = ready nodes n := by
  unfold ready
  congr 1
  match hd : n.Dependencies with
  | [] => rfl
  | [_] => rfl
  | d1 :: d2 :: ds =>
    simp only
    have h1 := typ_update_claimNode nodes q d1
    have h2 := typ_update_claimNode nodes q d2
    cases ha : nodes[d1]? <;> cases hb : nodes[d2]? <;>
      cases ha' : (update nodes q claimNode)[d1]? <;>
      cases hb' : (update nodes q claimNode)[d2]? <;>
      simp_all

theorem no_ready_after_claim (e : Expression) (_h : ExprInv e) (k : Int) (q : Nat)
    (hk : mapGet e.IdMap k = some q)
    (huniq : ∀ id, readyId e.IdMap e.nodes id = true → id = k) (id : Int) :
    readyId e.IdMap (update e.nodes q claimNode) id = false := by
  unfold readyId
  cases hid : mapGet e.IdMap id with
  | none => simp
  | some q' =>
    simp only [Option.some_bind, update_getElem?]
    by_cases hq : q' = q
    · subst hq
      cases hn : e.nodes[q']? with
      | none => simp
      | some n => simp [ready, claimNode]
    · simp only [hq, if_false]
      cases hn : e.nodes[q']? with
      | none => rfl
      | some n =>
        simp only
        rw [ready_update_claimNode]
        by_contra hc
        have hr : readyId e.IdMap e.nodes id = true := by
          simp only [readyId, hid, Option.some_bind, hn]
          simpa using hc
        have := huniq id hr
        subst this
        rw [hk] at hid
        cases hid
        exact hq rfl

/-- Claims on a head expression without a dispatchable node all get the
no-work answer. -/
theorem run_claims_no_ready (orders : List (List Int)) (o : Orchestrator) (h : OrchInv o)
    (p : Nat) (tail : List Nat) (expr : Expression)
    (hq : o.Queue = p :: tail) (he : o.exprs[p]? = some expr)
    (hno : ∀ id, readyId expr.IdMap expr.nodes id = false) :
    (run o (orders.map Call.Claim)).2 =
      List.replicate orders.length (Response.error 404 "No tasks to do") := by
  induction orders generalizing o expr with
  | nil => simp [run]
  | cons order rest ih =>
    simp only [List.map_cons, run, step, List.length_cons, List.replicate_succ]
    have hinv' := orchInv_GetTaskHandler o order h
    rcases GetTaskHandler_spec o order h p tail expr hq he with
      ⟨-, h2⟩ | ⟨id, q, task, d1, d2, ds, dep1, dep2, a1, a2, -, h1, -⟩
    · rw [h2] at hinv' ⊢
      simp only [List.cons.injEq, true_and]
      exact ih _ hinv' _ hq (set_getElem?_self _ _ _ (getElem?_lt_of_some _ _ _ he)) hno
    · rw [hno id] at h1
      cases h1

theorem claims_one_ready (o : Orchestrator) (h : OrchInv o) (e : Expression) (k : Int)
    (order : List Int) (orders : List (List Int))
    (hhead : headExpr o = some e) (hk : readyId e.IdMap e.nodes k = true)
    (huniq : ∀ id, readyId e.IdMap e.nodes id = true → id = k)
    (hord : order.Perm (mapKeys e.IdMap)) :
    ∃ t, t.ID = k ∧
      (run o ((order :: orders).map Call.Claim)).2 =
        Response.task t :: List.replicate orders.length (Response.error 404 "No tasks to do") := by
  cases hq : o.Queue with
  | nil => simp [headExpr, hq] at hhead
  | cons p tail =>
    obtain ⟨expr, he, hexpr⟩ := queue_head_expr o h p tail hq
    rw [headExpr_eq o p tail expr hq he] at hhead
    cases hhead
    have hinv' := orchInv_GetTaskHandler o order h
    simp only [List.map_cons, run, step]
    rcases GetTaskHandler_spec o order h p tail _ hq he with
      ⟨h1, -⟩ | ⟨id, q, task, d1, d2, ds, dep1, dep2, a1, a2, -, h1, h2, -, -, -, -, -, -, -, -,
        -, -, h13⟩
    · have := h1 k (hord.mem_iff.2 (readyId_mem_keys _ _ _ hk))
      rw [this] at hk
      cases hk
    · have hid := huniq id h1
      subst hid
      rw [h13] at hinv' ⊢
      refine ⟨{ ID := id, Arg1 := a1, Arg2 := a2, Operation := task.Value,
                OperationTime := operationTime o.Config task.Value }, rfl, ?_⟩
      simp only [List.cons.injEq, true_and]
      exact run_claims_no_ready orders _ hinv' p tail _ hq
        (set_getElem?_self _ _ _ (getElem?_lt_of_some _ _ _ he))
        (no_ready_after_claim _ hexpr id q h2 huniq)

theorem idSeq_init (cfg : OrchestratorConfig) : IdSeq (NewOrchestrator cfg) := by
  constructor <;> simp [NewOrchestrator, wrapInt32]

theorem wrapInt32_inj (i j : Nat) (hi : i < 4294967296) (hj : j < 4294967296)
    (h : wrapInt32 ((i : Int) + 1) = wrapInt32 ((j : Int) + 1)) : i = j := by
  unfold wrapInt32 at h; omega

/-- C3. Claim exclusivity: in every sequence of Submit, Claim and Report calls
from a fresh orchestrator no node, identified by the expression that owns it
and its local id, is returned by two Claim calls; the same holds with the
expression identified by its id as long as fewer than 2^32 calls were made.
When the head expression has exactly one dispatchable node, the first of N
consecutive Claim calls returns it and the other N-1 return the no-work
response. -/
theorem claim_exclusive (cfg : OrchestratorConfig) :
    (∀ calls : List Call, validRun (NewOrchestrator cfg) calls →
      ((claimLog (NewOrchestrator cfg) calls).map (fun x => (x.1, x.2.2))).Nodup ∧
      (calls.length < 4294967296 →
        ((claimLog (NewOrchestrator cfg) calls).map (fun x => x.2)).Nodup)) ∧
    (∀ (o : Orchestrator) (e : Expression) (k : Int) (order : List Int)
      (orders : List (List Int)), Reachable cfg o → headExpr o = some e →
      readyId e.IdMap e.nodes k = true →
      (∀ id, readyId e.IdMap e.nodes id = true → id = k) →
      order.Perm (mapKeys e.IdMap) →
      ∃ t, t.ID = k ∧
        (run o ((order :: orders).map Call.Claim)).2 =
          Response.task t ::
            List.replicate orders.length (Response.error 404 "No tasks to do")) := by
  refine ⟨fun calls hv => ?_, fun o e k order orders hr hhead hk huniq hord =>
    claims_one_ready o (reachable_inv cfg o hr) e k order orders hhead hk huniq hord⟩
  have hnd := (claimLog_nodup calls _ (orchInv_init cfg) hv).1
  refine ⟨hnd, fun hlen => ?_⟩
  have hids := claimLog_ids calls _ (orchInv_init cfg) (idSeq_init cfg) hv
  have hlen' := (run_length calls (NewOrchestrator cfg)).2
  simp only [NewOrchestrator, List.length_nil, Nat.zero_add] at hlen'
  apply List.Nodup.map_on _ (List.Nodup.of_map _ hnd)
  intro x hx y hy hxy
  obtain ⟨hx1, hx2⟩ := hids x hx
  obtain ⟨hy1, hy2⟩ := hids y hy
  simp only [NewOrchestrator] at hx2 hy2
  have h1 : x.2.1 = y.2.1 := by rw [hxy]
  rw [hx1, hy1] at h1
  have h2 := wrapInt32_inj x.1 y.1 (by omega) (by omega) h1
  exact Prod.ext h2 hxy

/-- C3, witness: in a run with three claims on `2+3` only the first is
answered with a task, and three consecutive claims after the submission give
the task for node 3 and then the no-work response twice. -/
theorem claim_exclusive_witness :
    validRun (NewOrchestrator ⟨8080, 5000, 5000, 10000, 10000⟩)
      [Call.Submit "2+3", Call.Claim [1, 2, 3], Call.Claim [3, 2, 1], Call.Claim [2, 3, 1]] ∧
    ((claimLog (NewOrchestrator ⟨8080, 5000, 5000, 10000, 10000⟩)
      [Call.Submit "2+3", Call.Claim [1, 2, 3], Call.Claim [3, 2, 1],
       Call.Claim [2, 3, 1]]).map (fun x => (x.1, x.2.2))).Nodup ∧
    ∃ t : Task, t.ID = 3 ∧
      (run (CalculateHandler (NewOrchestrator ⟨8080, 5000, 5000, 10000, 10000⟩) "2+3").1
        (([1, 2, 3] :: [[3, 2, 1], [2, 3, 1]]).map Call.Claim)).2 =
        Response.task t ::
          List.replicate [[3, 2, 1], [2, 3, 1]].length (Response.error 404 "No tasks to do") := by
  have hv : validRun (NewOrchestrator ⟨8080, 5000, 5000, 10000, 10000⟩)
      [Call.Submit "2+3", Call.Claim [1, 2, 3], Call.Claim [3, 2, 1], Call.Claim [2, 3, 1]] :=
    ⟨trivial, valid_claim_of _ _ (by decide!), valid_claim_of _ _ (by decide!),
      valid_claim_of _ _ (by decide!), trivial⟩
  refine ⟨hv, ((claim_exclusive ⟨8080, 5000, 5000, 10000, 10000⟩).1 _ hv).1, ?_⟩
  have hkeys : mapKeys (((CalculateHandler (NewOrchestrator ⟨8080, 5000, 5000, 10000, 10000⟩)
      "2+3").1.exprs.get ⟨0, by decide!⟩).IdMap) = [1, 2, 3] := by decide!
  refine (claim_exclusive ⟨8080, 5000, 5000, 10000, 10000⟩).2 _
    ((CalculateHandler (NewOrchestrator ⟨8080, 5000, 5000, 10000, 10000⟩) "2+3").1.exprs.get
      ⟨0, by decide!⟩) 3 [1, 2, 3] [[3, 2, 1], [2, 3, 1]] (reachable_submit _ "2+3")
    (by decide!) (by decide!) ?_ (by decide!)
  intro id hid
  have hmem := readyId_mem_keys _ _ _ hid
  rw [hkeys] at hmem
  simp only [List.mem_cons, List.mem_singleton, List.not_mem_nil, or_false] at hmem
  rcases hmem with rfl | rfl | rfl
  · exact absurd hid (by decide!)
  · exact absurd hid (by decide!)
  · rfl

/-! ## Correctness of the infix-to-postfix pass -/

theorem isOperator_cases (op : Char) (h : isOperator op = true) :
    (op = '+' ∧ prec op = 1) ∨ (op = '-' ∧ prec op = 1) ∨ (op = '*' ∧ prec op = 2) ∨
      (op = '/' ∧ prec op = 2) := by
  simp only [isOperator, Bool.or_eq_true, decide_eq_true_eq] at h
  rcases h with ((h | h) | h) | h <;> subst h <;> simp [prec]

theorem isOperator_priority (op : Char) (h : isOperator op = true) :
    op ≠ '(' ∧ (operatorPriority op).getD 0 = prec op := by
  rcases isOperator_cases op h with ⟨rfl, -⟩ | ⟨rfl, -⟩ | ⟨rfl, -⟩ | ⟨rfl, -⟩ <;> decide

theorem flushNum_curNum (st : Scan) : (flushNum st).curNum = [] := by
  unfold flushNum; split
  · rfl
  · rename_i h; simpa using h

theorem flushNum_of_empty (st : Scan) (h : st.curNum = []) : flushNum st = st := by
  simp [flushNum, h]

theorem flushNum_output_of_empty (st : Scan) (h : st.curNum = []) :
    (flushNum st).output = st.output := by
  rw [flushNum_of_empty st h]

theorem popHigher_pending (p : Nat) (pend stk : List Char) (out : List String)
    (hpend : ∀ op ∈ pend, isOperator op = true ∧ p ≤ prec op)
    (hstk : ∀ op rest, stk = op :: rest → op = '(' ∨ prec op < p ∧ isOperator op = true) :
    popHigher p (pend ++ stk) out = (stk, out ++ pend.map String.singleton) := by
  induction pend generalizing out with
  | nil =>
    simp only [List.nil_append, List.map_nil, List.append_nil]
    cases stk with
    | nil => rfl
    | cons op rest =>
      unfold popHigher
      rcases hstk op rest rfl with h | ⟨h1, h2⟩
      · simp [h]
      · have := (isOperator_priority op h2).2
        rw [this]
        simp only [ne_eq, if_neg (show ¬ (¬ op = '(' ∧ p ≤ prec op) from fun hc => by omega)]
  | cons op pend ih =>
    obtain ⟨h1, h2⟩ := hpend op (List.mem_cons_self _ _)
    obtain ⟨h3, h4⟩ := isOperator_priority op h1
    simp only [List.cons_append]
    unfold popHigher
    rw [h4]
    simp only [ne_eq, h3, not_false_eq_true, h2, and_self, if_true]
    rw [ih _ (fun o ho => hpend o (List.mem_cons_of_mem _ ho))]
    simp

theorem popToOpen_pending (pend stk : List Char) (out : List String)
    (hpend : ∀ op ∈ pend, isOperator op = true) :
    popToOpen (pend ++ '(' :: stk) out = (stk, out ++ pend.map String.singleton) := by
  induction pend generalizing out with
  | nil => simp [popToOpen]
  | cons op pend ih =>
    have h3 := (isOperator_priority op (hpend op (List.mem_cons_self _ _))).1
    simp only [List.cons_append]
    unfold popToOpen
    simp only [h3, if_false]
    rw [ih _ (fun o ho => hpend o (List.mem_cons_of_mem _ ho))]
    simp

theorem drain_pending (pend : List Char) (out : List String)
    (hpend : ∀ op ∈ pend, isOperator op = true) :
    drain pend out = .ok (out ++ pend.map String.singleton) := by
  induction pend generalizing out with
  | nil => simp [drain]
  | cons op pend ih =>
    have h3 := (isOperator_priority op (hpend op (List.mem_cons_self _ _))).1
    unfold drain
    simp only [h3, if_false]
    rw [ih _ (fun o ho => hpend o (List.mem_cons_of_mem _ ho))]
    simp

theorem wf_num (ds : List Char) (k : Nat) (h : (Cst.num ds).wf k = true) : isDigits ds := by
  simp only [Cst.wf, Bool.and_eq_true, decide_eq_true_eq, List.all_eq_true] at h
  exact ⟨h.1, h.2⟩

/-- The scan of the text of a derivation of level `k`, started with no pending
number on a stack whose top does not bind as tight as `k`: the stack grows by
the operators that still wait, all of precedence `k` or more, and the output,
once the last number and these operators are flushed, has grown by the postfix
form. -/
theorem scan_cst (c : Cst) : ∀ (k : Nat) (st : Scan), c.wf k = true → st.curNum = [] →
    (∀ op rest, st.operatorStack = op :: rest → op = '(' ∨ prec op < k ∧ isOperator op = true) →
    ∃ pend : List Char,
      (c.render.foldl scanRune st).operatorStack = pend ++ st.operatorStack ∧
      (c.render.foldl scanRune st).openBrackets = st.openBrackets ∧
      (∀ op ∈ pend, isOperator op = true ∧ k ≤ prec op) ∧
      (flushNum (c.render.foldl scanRune st)).output ++ pend.map String.singleton =
        st.output ++ c.polish := by
  induction c with
  | num ds =>
    intro k st hwf hcur _
    have hd := wf_num ds k hwf
    refine ⟨[], ?_, ?_, by simp, ?_⟩
    · simp [Cst.render, foldl_scanRune_digits ds st (isDigits_unicode hd)]
    · simp [Cst.render, foldl_scanRune_digits ds st (isDigits_unicode hd)]
    · simp [Cst.render, foldl_scanRune_digits ds st (isDigits_unicode hd), flushNum, hcur, hd.1,
        Cst.polish]
  | paren e ih =>
    intro k st hwf hcur _
    simp only [Cst.wf] at hwf
    simp only [Cst.render, List.foldl_cons, List.foldl_append, List.foldl_nil]
    rw [scanRune_open, flushNum_output_of_empty st hcur]
    obtain ⟨pend, h1, h2, h3, h4⟩ := ih 1
      ⟨st.output, '(' :: st.operatorStack, [], st.openBrackets + 1⟩ hwf rfl
      (by intro op rest h; simp only [List.cons.injEq] at h; exact Or.inl h.1.symm)
    generalize List.foldl scanRune _ e.render = S2 at h1 h2 h4 ⊢
    simp only at h1 h2 h4
    rw [scanRune_close, h1,
      popToOpen_pending pend st.operatorStack (flushNum S2).output (fun o ho => (h3 o ho).1)]
    refine ⟨[], by simp, by simp [h2], by simp, ?_⟩
    rw [flushNum_output_of_empty _ rfl]
    simp only [List.map_nil, List.append_nil, Cst.polish]
    exact h4
  | bin op l r ihl ihr =>
    intro k st hwf hcur hstk
    simp only [Cst.wf, Bool.and_eq_true, decide_eq_true_eq] at hwf
    obtain ⟨⟨⟨hop, hk⟩, hl⟩, hr⟩ := hwf
    simp only [Cst.render, List.foldl_append, List.foldl_cons]
    obtain ⟨pend1, h1, h2, h3, h4⟩ := ihl (prec op) st hl hcur (by
      intro o rest h
      rcases hstk o rest h with h' | ⟨h', h''⟩
      · exact Or.inl h'
      · exact Or.inr ⟨by omega, h''⟩)
    generalize List.foldl scanRune st l.render = S1 at h1 h2 h4 ⊢
    rw [scanRune_operator _ op (prec op) (isOperator_cases op hop), h1,
      popHigher_pending (prec op) pend1 st.operatorStack _ h3 (by
        intro o rest h
        rcases hstk o rest h with h' | ⟨h', h''⟩
        · exact Or.inl h'
        · exact Or.inr ⟨by omega, h''⟩), h4, h2]
    obtain ⟨pend2, g1, g2, g3, g4⟩ := ihr (prec op + 1)
      ⟨st.output ++ l.polish, op :: st.operatorStack, [], st.openBrackets⟩
      hr rfl (by
        intro o rest h
        simp only [List.cons.injEq] at h
        obtain ⟨rfl, -⟩ := h
        exact Or.inr ⟨by omega, hop⟩)
    generalize List.foldl scanRune _ r.render = S3 at g1 g2 g4 ⊢
    simp only at g1 g2 g4
    refine ⟨pend2 ++ [op], by rw [g1]; simp, g2, ?_, ?_⟩
    · intro o ho
      rcases List.mem_append.1 ho with ho | ho
      · exact ⟨(g3 o ho).1, by have := (g3 o ho).2; omega⟩
      · simp only [List.mem_singleton] at ho
        subst ho
        exact ⟨hop, hk⟩
    · simp only [List.map_append, List.map_cons, List.map_nil, ← List.append_assoc, g4,
        Cst.polish]

/-- The postfix pass on the text of a derivation gives its postfix form. -/
theorem toPostfix_render (c : Cst) (h : c.wf 1 = true) :
    toPostfix (String.mk c.render) = .ok c.polish := by
  obtain ⟨pend, h1, h2, h3, h4⟩ := scan_cst c 1 ⟨[], NewStack, [], 0⟩ h rfl
    (by intro op rest hc; simp [NewStack] at hc)
  unfold toPostfix
  generalize List.foldl scanRune _ c.render = S at h1 h2 h4
  obtain ⟨f1, f2, -⟩ := flushNum_fields S
  simp only [NewStack, List.append_nil, List.nil_append] at h1 h2 h4
  simp only [f1, f2, h1, h2, ne_eq, not_true_eq_false, if_false]
  rw [drain_pending pend _ (fun o ho => (h3 o ho).1), h4]

/-! ## Correctness of the graph builder -/

theorem readTree_succ (nodes : List Node) (f p : Nat) (t : Tree)
    (h : readTree nodes f p = some t) : readTree nodes (f + 1) p = some t := by
  induction f generalizing p t with
  | zero => simp [readTree] at h
  | succ f ih =>
    rw [readTree] at h ⊢
    cases hn : nodes[p]? with
    | none => simp [hn] at h
    | some n =>
      simp only [hn] at h ⊢
      split at h
      · exact h
      · rename_i l r _ _
        cases hl : readTree nodes f l with
        | none => simp [hl] at h
        | some tl =>
          cases hr : readTree nodes f r with
          | none => simp [hl, hr] at h
          | some tr =>
            simp only [hl, hr] at h
            simp only [ih l tl hl, ih r tr hr]
            exact h
      · cases h

theorem readTree_mono (nodes : List Node) (f f' p : Nat) (t : Tree) (hf : f ≤ f')
    (h : readTree nodes f p = some t) : readTree nodes f' p = some t := by
  induction hf with
  | refl => exact h
  | step _ ih => exact readTree_succ _ _ _ _ ih

theorem readTree_append (nodes ext : List Node) (f p : Nat) (t : Tree)
    (h : readTree nodes f p = some t) : readTree (nodes ++ ext) f p = some t := by
  induction f generalizing p t with
  | zero => simp [readTree] at h
  | succ f ih =>
    rw [readTree] at h ⊢
    cases hn : nodes[p]? with
    | none => simp [hn] at h
    | some n =>
      have hn' : (nodes ++ ext)[p]? = some n := by
        rw [List.getElem?_append_left (getElem?_lt_of_some _ _ _ hn)]; exact hn
      simp only [hn, hn'] at h ⊢
      split at h
      · exact h
      · rename_i l r _ _
        cases hl : readTree nodes f l with
        | none => simp [hl] at h
        | some tl =>
          cases hr : readTree nodes f r with
          | none => simp [hl, hr] at h
          | some tr =>
            simp only [hl, hr] at h
            simp only [ih l tl hl, ih r tr hr]
            exact h
      · cases h

theorem tree_size_pos (t : Tree) : 0 < t.size := by
  cases t <;> simp [Tree.size]

theorem parseFloat_singleton_operator (op : Char) (h : isOperator op = true) :
    ParseFloat (String.singleton op) = none := by
  rcases isOperator_cases op h with ⟨rfl, -⟩ | ⟨rfl, -⟩ | ⟨rfl, -⟩ | ⟨rfl, -⟩ <;> rfl

/-- The graph builder on the postfix form of a derivation, followed by more
tokens: it allocates one node per node of the parse tree, leaves a pointer to
the last of them on the operand stack, and that node reads as the parse tree. -/
theorem build_cst (c : Cst) : ∀ (k : Nat) (st : Build) (rest : List String),
    c.wf k = true → c.literalsParse = true →
    ∃ new : List Node,
      new.length = c.tree.size ∧
      (∃ (lm : List (Nat × List Nat)) (ml : Nat), buildTokens (c.polish ++ rest) st =
        buildTokens rest
          ⟨st.nodes ++ new, (st.nodes.length + c.tree.size - 1) :: st.dagStack, lm, ml⟩) ∧
      readTree (st.nodes ++ new) c.tree.size (st.nodes.length + c.tree.size - 1) = some c.tree := by
  induction c with
  | num ds =>
    intro k st rest _ hlit
    simp only [Cst.literalsParse] at hlit
    refine ⟨[⟨NodeType.Number, String.mk ds, [], 0, NodeStatus.StatusCreated⟩], rfl, ?_, ?_⟩
    · simp only [Cst.polish, List.singleton_append, Cst.tree, Tree.size]
      rw [buildTokens]
      simp only [buildToken, hlit, if_true, Stack.Push, Nat.add_sub_cancel]
      exact ⟨_, _, rfl⟩
    · simp [Cst.tree, Tree.size, readTree]
  | paren e ih =>
    intro k st rest hwf hlit
    simp only [Cst.wf] at hwf
    simp only [Cst.literalsParse] at hlit
    exact ih 1 st rest hwf hlit
  | bin op l r ihl ihr =>
    intro k st rest hwf hlit
    simp only [Cst.wf, Bool.and_eq_true, decide_eq_true_eq] at hwf
    obtain ⟨⟨⟨hop, -⟩, hl⟩, hr⟩ := hwf
    simp only [Cst.literalsParse, Bool.and_eq_true] at hlit
    obtain ⟨new1, hlen1, ⟨lm1, ml1, hb1⟩, ht1⟩ := ihl (prec op) st
      (r.polish ++ [String.singleton op] ++ rest) hl hlit.1
    obtain ⟨new2, hlen2, ⟨lm2, ml2, hb2⟩, ht2⟩ := ihr (prec op + 1)
      ⟨st.nodes ++ new1, (st.nodes.length + l.tree.size - 1) :: st.dagStack, lm1, ml1⟩
      ([String.singleton op] ++ rest) hr hlit.2
    have hpl := tree_size_pos l.tree
    have hpr := tree_size_pos r.tree
    simp only [List.length_append, hlen1] at hb2 ht2
    refine ⟨new1 ++ new2 ++
      [⟨NodeType.Operator, String.singleton op,
        [st.nodes.length + l.tree.size - 1, st.nodes.length + l.tree.size + r.tree.size - 1],
        max (levelOf (st.nodes ++ new1 ++ new2) (st.nodes.length + l.tree.size + r.tree.size - 1))
          (levelOf (st.nodes ++ new1 ++ new2) (st.nodes.length + l.tree.size - 1)) + 1,
        NodeStatus.StatusCreated⟩], ?_, ?_, ?_⟩
    · simp [hlen1, hlen2, Cst.tree, Tree.size]; omega
    · simp only [Cst.polish, List.append_assoc] at hb1 hb2 ⊢
      rw [hb1, hb2]
      simp only [List.singleton_append]
      rw [buildTokens]
      simp only [buildToken, parseFloat_singleton_operator op hop, Option.isSome_none,
        Bool.false_eq_true, if_false, Stack.Pop, Stack.Push, List.length_append, hlen1, hlen2,
        Cst.tree, Tree.size, List.append_assoc]
      have e1 : st.nodes.length + (l.tree.size + r.tree.size) =
          st.nodes.length + (l.tree.size + r.tree.size + 1) - 1 := by omega
      rw [e1]
      exact ⟨_, _, rfl⟩
    · have hroot : (st.nodes ++ (new1 ++ new2 ++
          [⟨NodeType.Operator, String.singleton op,
            [st.nodes.length + l.tree.size - 1, st.nodes.length + l.tree.size + r.tree.size - 1],
            max (levelOf (st.nodes ++ new1 ++ new2)
                (st.nodes.length + l.tree.size + r.tree.size - 1))
              (levelOf (st.nodes ++ new1 ++ new2) (st.nodes.length + l.tree.size - 1)) + 1,
            NodeStatus.StatusCreated⟩]))[st.nodes.length + (Cst.bin op l r).tree.size - 1]? =
          some ⟨NodeType.Operator, String.singleton op,
            [st.nodes.length + l.tree.size - 1, st.nodes.length + l.tree.size + r.tree.size - 1],
            max (levelOf (st.nodes ++ new1 ++ new2)
                (st.nodes.length + l.tree.size + r.tree.size - 1))
              (levelOf (st.nodes ++ new1 ++ new2) (st.nodes.length + l.tree.size - 1)) + 1,
            NodeStatus.StatusCreated⟩ := by
        have e2 : st.nodes.length + (Cst.bin op l r).tree.size - 1 =
            (st.nodes ++ new1 ++ new2).length := by
          simp only [Cst.tree, Tree.size, List.length_append, hlen1, hlen2]; omega
        rw [e2, ← List.append_assoc, ← List.append_assoc]
        exact List.getElem?_concat_length _ _
      have hl' : readTree (st.nodes ++ (new1 ++ new2 ++
          [⟨NodeType.Operator, String.singleton op,
            [st.nodes.length + l.tree.size - 1, st.nodes.length + l.tree.size + r.tree.size - 1],
            max (levelOf (st.nodes ++ new1 ++ new2)
                (st.nodes.length + l.tree.size + r.tree.size - 1))
              (levelOf (st.nodes ++ new1 ++ new2) (st.nodes.length + l.tree.size - 1)) + 1,
            NodeStatus.StatusCreated⟩])) (l.tree.size + r.tree.size)
          (st.nodes.length + l.tree.size - 1) = some l.tree := by
        have := readTree_append (st.nodes ++ new1) (new2 ++
          [⟨NodeType.Operator, String.singleton op,
            [st.nodes.length + l.tree.size - 1, st.nodes.length + l.tree.size + r.tree.size - 1],
            max (levelOf (st.nodes ++ new1 ++ new2)
                (st.nodes.length + l.tree.size + r.tree.size - 1))
              (levelOf (st.nodes ++ new1 ++ new2) (st.nodes.length + l.tree.size - 1)) + 1,
            NodeStatus.StatusCreated⟩]) _ _ _ ht1
        simp only [List.append_assoc] at this ⊢
        exact readTree_mono _ _ _ _ _ (by omega) this
      have hr' : readTree (st.nodes ++ (new1 ++ new2 ++
          [⟨NodeType.Operator, String.singleton op,
            [st.nodes.length + l.tree.size - 1, st.nodes.length + l.tree.size + r.tree.size - 1],
            max (levelOf (st.nodes ++ new1 ++ new2)
                (st.nodes.length + l.tree.size + r.tree.size - 1))
              (levelOf (st.nodes ++ new1 ++ new2) (st.nodes.length + l.tree.size - 1)) + 1,
            NodeStatus.StatusCreated⟩])) (l.tree.size + r.tree.size)
          (st.nodes.length + l.tree.size + r.tree.size - 1) = some r.tree := by
        have := readTree_append (st.nodes ++ new1 ++ new2)
          [⟨NodeType.Operator, String.singleton op,
            [st.nodes.length + l.tree.size - 1, st.nodes.length + l.tree.size + r.tree.size - 1],
            max (levelOf (st.nodes ++ new1 ++ new2)
                (st.nodes.length + l.tree.size + r.tree.size - 1))
              (levelOf (st.nodes ++ new1 ++ new2) (st.nodes.length + l.tree.size - 1)) + 1,
            NodeStatus.StatusCreated⟩] _ _ _ ht2
        simp only [List.append_assoc] at this ⊢
        exact readTree_mono _ _ _ _ _ (by omega) this
      have hsize : (Cst.bin op l r).tree.size = (l.tree.size + r.tree.size) + 1 := rfl
      rw [hsize, readTree, ← hsize, hroot]
      simp only [hl', hr', Cst.tree]

theorem filter_range_unique (n root : Nat) (f : Nat → Bool) (hr : root < n)
    (hf : ∀ p, p < n → (f p = true ↔ p = root)) :
    (List.range n).filter f = [root] := by
  have h1 : (List.range n).filter f = (List.range n).filter (fun p => decide (p = root)) := by
    apply List.filter_congr
    intro p hp
    rw [Bool.eq_iff_iff, hf p (List.mem_range.1 hp)]
    simp
  rw [h1, List.filter_eq,
    List.count_eq_one_of_mem (List.nodup_range n) (List.mem_range.2 hr)]
  rfl

/-- The level map of a finished graph lists the root, alone, under the
maximum level. -/
theorem levelNodes_maxLevel (st : Build) (hinv : BuildInv st) (root : Nat)
    (hs : st.dagStack = [root]) : levelNodes st.levelMap st.maxLevel = [root] := by
  have hr : root < st.nodes.length := hinv.stack_lt root (by simp [hs])
  have hlt : ∀ p, p < st.nodes.length → p ≠ root →
      levelOf st.nodes p < levelOf st.nodes root := by
    intro p hp hne
    rcases hinv.covered p hp with h | ⟨r, hr', hlev⟩
    · simp [hs] at h; exact absurd h hne
    · simp only [hs, List.mem_singleton] at hr'
      subst hr'; exact hlev
  have hmax : st.maxLevel = levelOf st.nodes root := by
    rw [hinv.max_level]
    apply le_antisymm
    · obtain ⟨n, hn, hl⟩ := maxLevelOf_attained st.nodes (List.ne_nil_of_length_pos (by omega))
      obtain ⟨p, hp⟩ := List.mem_iff_getElem?.1 hn
      rw [← hl, ← levelOf_eq_of_getElem? _ _ _ hp]
      by_cases hpr : p = root
      · rw [hpr]
      · exact le_of_lt (hlt p (getElem?_lt_of_some _ _ _ hp) hpr)
    · exact levelOf_le_maxLevelOf st.nodes root
  rw [hinv.level_map, hmax]
  apply filter_range_unique _ _ _ hr
  intro p hp
  simp only [decide_eq_true_eq]
  constructor
  · intro h
    by_contra hne
    have := hlt p hp hne
    omega
  · rintro rfl; rfl

/-- C2 as amended. Compiler correctness: for every input generated by the
grammar `E -> T (('+'|'-') T)*`, `T -> F (('*'|'/') F)*`, `F -> digits | '(' E ')'`
whose literals `strconv.ParseFloat` accepts, `ParseExpression` succeeds, exactly
one node is listed under the maximum level, and that node, read as a tree
through `Dependencies = [left, right]`, is the parse tree of the input. -/
theorem parse_tree (c : Cst) (hwf : c.wf 1 = true) (hlit : c.literalsParse = true) :
    ∃ dag root, ParseExpression (String.mk c.render) = .ok dag ∧
      levelNodes dag.levelMap dag.maxLevel = [root] ∧
      readTree dag.nodes dag.nodes.length root = some c.tree := by
  obtain ⟨new, hlen, ⟨lm, ml, hb⟩, ht⟩ := build_cst c 1 ⟨[], NewStack, [], 0⟩ [] hwf hlit
  simp only [List.append_nil, List.nil_append, List.length_nil, Nat.zero_add, NewStack,
    buildTokens] at hb ht
  have hc : createDAG c.polish = .ok ⟨new, lm, ml⟩ := by
    simp [createDAG, NewStack, hb, Stack.Len]
  obtain ⟨st, root, hinv, hst, hstack, hdag⟩ := createDAG_ok _ _ hc
  simp only [NewStack, hb, Except.ok.injEq] at hst
  subst hst
  simp only [List.cons.injEq, and_true] at hstack
  refine ⟨⟨new, lm, ml⟩, c.tree.size - 1, ?_, ?_, ?_⟩
  · simp [ParseExpression, toPostfix_render c hwf, hc]
  · exact levelNodes_maxLevel _ hinv _ rfl
  · simp only [hlen]
    exact ht

/-- C2, witness: `2+3*4` gives five nodes and maximum level 2, the `*` node
at level 1 over 3 and 4, the `+` node at level 2 over 2 and the `*` node. -/
theorem parse_tree_witness :
    (Cst.bin '+' (Cst.num ['2']) (Cst.bin '*' (Cst.num ['3']) (Cst.num ['4']))).render = "2+3*4".data ∧
    (∃ dag root, ParseExpression "2+3*4" = .ok dag ∧
      levelNodes dag.levelMap dag.maxLevel = [root] ∧
      readTree dag.nodes dag.nodes.length root =
        some (Tree.node "+" (Tree.leaf "2") (Tree.node "*" (Tree.leaf "3") (Tree.leaf "4")))) ∧
    ParseExpression "2+3*4" = .ok
      ⟨[⟨NodeType.Number, "2", [], 0, NodeStatus.StatusCreated⟩,
        ⟨NodeType.Number, "3", [], 0, NodeStatus.StatusCreated⟩,
        ⟨NodeType.Number, "4", [], 0, NodeStatus.StatusCreated⟩,
        ⟨NodeType.Operator, "*", [1, 2], 1, NodeStatus.StatusCreated⟩,
        ⟨NodeType.Operator, "+", [0, 3], 2, NodeStatus.StatusCreated⟩],
       [(0, [0, 1, 2]), (1, [3]), (2, [4])], 2⟩ :=
  ⟨rfl,
   parse_tree (Cst.bin '+' (Cst.num ['2']) (Cst.bin '*' (Cst.num ['3']) (Cst.num ['4'])))
     (by decide) (by decide),
   rfl⟩

theorem parse_unparsable_literal (ds : List Char) (hd : isDigits ds)
    (h : (ParseFloat (String.mk ds)).isSome = false) :
    ParseExpression (String.mk ds) = .error "stack.pop not ok" := by
  have hp : toPostfix (String.mk ds) = .ok [String.mk ds] := by
    unfold toPostfix
    rw [foldl_scanRune_digits _ _ (isDigits_unicode hd)]
    simp [flushNum, NewStack, drain, hd.1]
  simp only [ParseExpression, hp]
  simp [createDAG, buildTokens, buildToken, h, Stack.Pop, NewStack]

/-- C2, counterexample: the grammar generates the literal made of a 1 and 309
zeros; `strconv.ParseFloat` answers it with a range error, `createDAG` takes the
token for an operator, and `ParseExpression` fails. -/
theorem parse_huge_literal_fails :
    (Cst.num ('1' :: List.replicate 309 '0')).wf 1 = true ∧
    ParseExpression (String.mk (Cst.num ('1' :: List.replicate 309 '0')).render) =
      .error "stack.pop not ok" :=
  ⟨by decide!,
   parse_unparsable_literal ('1' :: List.replicate 309 '0')
     (by unfold isDigits; decide!) (by decide!)⟩

/-! ## An expression without operator -/

/-- Claims on a head expression without a dispatchable node leave the queue
and the expression's nodes and result as they are. -/
theorem run_claims_stuck (orders : List (List Int)) (o : Orchestrator) (h : OrchInv o)
    (p : Nat) (tail : List Nat) (expr : Expression)
    (hq : o.Queue = p :: tail) (he : o.exprs[p]? = some expr)
    (hno : ∀ id, readyId expr.IdMap expr.nodes id = false) :
    (run o (orders.map Call.Claim)).1.Queue = p :: tail ∧
    ∃ e', (run o (orders.map Call.Claim)).1.exprs[p]? = some e' ∧ e'.nodes = expr.nodes ∧
      e'.IdMap = expr.IdMap ∧ e'.Result = expr.Result ∧
      (e'.Status = expr.Status ∨ e'.Status = ExpressionStatus.StatusInProgress) := by
  induction orders generalizing o expr with
  | nil => exact ⟨hq, expr, he, rfl, rfl, rfl, Or.inl rfl⟩
  | cons order rest ih =>
    simp only [List.map_cons, run, step]
    have hinv' := orchInv_GetTaskHandler o order h
    rcases GetTaskHandler_spec o order h p tail expr hq he with
      ⟨-, h2⟩ | ⟨id, q, task, d1, d2, ds, dep1, dep2, a1, a2, -, h1, -⟩
    · rw [h2] at hinv' ⊢
      obtain ⟨g1, e', g2, g3, g4, g5, g6⟩ := ih _ hinv' _ hq
        (set_getElem?_self _ _ _ (getElem?_lt_of_some _ _ _ he)) hno
      refine ⟨g1, e', g2, g3, g4, g5, Or.inr ?_⟩
      rcases g6 with g6 | g6 <;> exact g6
    · rw [hno id] at h1
      cases h1

/-- C1, failing input: after the submission of `5` every Claim is answered
with the no-work response, whatever their number and visiting orders, and the
expression stays at the head of the queue, not done and without result. -/
theorem literal_never_completes (cfg : OrchestratorConfig) (orders : List (List Int)) :
    (run (NewOrchestrator cfg) (Call.Submit "5" :: orders.map Call.Claim)).2 =
      Response.calculated 1 ExpressionStatus.StatusInQueue ::
        List.replicate orders.length (Response.error 404 "No tasks to do") ∧
    (run (NewOrchestrator cfg) (Call.Submit "5" :: orders.map Call.Claim)).1.Queue = [0] ∧
    ∃ e, (run (NewOrchestrator cfg) (Call.Submit "5" :: orders.map Call.Claim)).1.exprs[0]? =
        some e ∧
      e.Status ≠ ExpressionStatus.StatusDone ∧ e.Result = 0 := by
  have hparse : ParseExpression "5" =
      .ok ⟨[⟨NodeType.Number, "5", [], 0, NodeStatus.StatusCreated⟩], [(0, [0])], 0⟩ := rfl
  have hinv := reachable_inv cfg _ (reachable_submit cfg "5")
  simp only [run, step]
  rw [CalculateHandler_ok _ _ _ hparse] at hinv ⊢
  simp only [NewOrchestrator, List.nil_append, List.length_nil] at hinv ⊢
  have hno : ∀ id : Int, readyId (idsFrom 0 (levelOrder [(0, [0])] 0 (0 + 1)))
      (List.map markNode [⟨NodeType.Number, "5", [], 0, NodeStatus.StatusCreated⟩]) id = false := by
    intro id
    simp only [levelOrder, levelNodes, mapGet, idsFrom, readyId]
    norm_num
    by_cases hid : 1 = id
    · simp [hid, ready, markNode]
    · simp [hid]
  have h1 := run_claims_no_ready orders _ hinv 0 [] _ rfl rfl hno
  obtain ⟨h2, e', h3, -, -, h4, h5⟩ := run_claims_stuck orders _ hinv 0 [] _ rfl rfl hno
  refine ⟨by rw [h1]; simp [wrapInt32], h2, e', h3, ?_, h4⟩
  rcases h5 with h5 | h5 <;> rw [h5] <;> simp

/-! ## Integers below `2^53` as float64 values -/

theorem round64_intCast (z : ℤ) (h : |z| < 2 ^ 53) : round64 (z : ℚ) = z := by
  unfold round64
  by_cases hz : (z : ℚ) = 0
  · simp [hz]
  · rw [if_neg hz]
    simp only
    have hz' : z ≠ 0 := by exact_mod_cast hz
    have hpos : (0 : ℚ) < |(z : ℚ)| := abs_pos.2 hz
    have hlt : |(z : ℚ)| < (2 : ℚ) ^ (53 : ℤ) := by
      have : ((|z| : ℤ) : ℚ) < ((2 ^ 53 : ℤ) : ℚ) := Int.cast_lt.2 h
      rw [Int.cast_abs] at this
      norm_num at this ⊢
      exact this
    have hlog : Int.log 2 |(z : ℚ)| < 53 := by
      have := (Int.lt_zpow_iff_log_lt (b := 2) (by norm_num) hpos).1 hlt
      exact this
    obtain ⟨k, hk⟩ : ∃ k : ℕ, max (Int.log 2 |(z : ℚ)|) (-1022) - 52 = -(k : ℤ) :=
      ⟨(52 - max (Int.log 2 |(z : ℚ)|) (-1022)).toNat, by omega⟩
    rw [hk]
    have h2 : (2 : ℚ) ^ k ≠ 0 := pow_ne_zero _ (by norm_num)
    have h1 : |(z : ℚ)| / (2 : ℚ) ^ (-(k : ℤ)) = ((|z| * 2 ^ k : ℤ) : ℚ) := by
      rw [zpow_neg, zpow_natCast]
      push_cast
      field_simp
    rw [h1, roundHalfEven_intCast, zpow_neg, zpow_natCast]
    push_cast
    by_cases hneg : (z : ℚ) < 0
    · rw [if_pos hneg, abs_of_neg hneg]
      field_simp
    · rw [if_neg hneg, abs_of_nonneg (not_lt.1 hneg)]
      field_simp

/-- A value rendered with five decimals and read back: an integer below `2^53`
is kept. -/
theorem parseFloat_sprintf5_int (z : ℤ) (h : |z| < 2 ^ 53) :
    ParseFloat (sprintf5 (z : ℚ)) = some (z : ℚ) := by
  have hsome := parseFloat_sprintf5_isSome (z : ℚ) (isFloat64_intCast z h)
  rw [parseFloat_sprintf5] at hsome ⊢
  split at hsome
  · cases hsome
  · rename_i hn
    rw [if_neg hn]
    have h1 : |(z : ℚ)| * 100000 = ((|z| * 100000 : ℤ) : ℚ) := by push_cast; rfl
    have h0 : (0 : ℤ) ≤ |z| * 100000 := by positivity
    have h2 : (((|z| * 100000).toNat : ℕ) : ℚ) = |(z : ℚ)| * 100000 := by
      have : (((|z| * 100000).toNat : ℤ) : ℚ) = ((|z| * 100000 : ℤ) : ℚ) := by
        rw [Int.toNat_of_nonneg h0]
      rw [← h1] at this
      rw [← this]
      norm_cast
    have h3 : (if (z : ℚ) < 0 then -1 else 1) * (|(z : ℚ)| * 100000) / 10 ^ 5 = (z : ℚ) := by
      by_cases hneg : (z : ℚ) < 0
      · rw [if_pos hneg, abs_of_neg hneg]; ring
      · rw [if_neg hneg, abs_of_nonneg (not_lt.1 hneg)]; ring
    rw [h1, roundHalfEven_intCast, h2, h3, round64_intCast z h]

theorem asciiDigit_not_sign (c : Char) (h : asciiDigit c = true) : c ≠ '+' ∧ c ≠ '-' := by
  constructor <;> rintro rfl <;> simp [asciiDigit] at h

/-- A digit literal below `2^53` is read as its value. -/
theorem parseFloat_digits (ds : List Char) (hne : ds ≠ []) (hd : ∀ c ∈ ds, asciiDigit c = true)
    (hv : digitsVal 0 ds < 2 ^ 53) :
    ParseFloat (String.mk ds) = some ((digitsVal 0 ds : ℤ) : ℚ) := by
  unfold ParseFloat
  have hu := parseDecimal_unsigned ds (by
    intro c hc
    cases ds with
    | nil => simp at hc
    | cons d rest =>
      simp only [List.head?_cons, Option.some.injEq] at hc
      subst hc
      exact asciiDigit_not_sign _ (hd _ (List.mem_cons_self _ _)))
  have hs := scanDecimal_digits ds [] ⟨0, 0, false, false⟩ hd
  simp only [List.append_nil, scanDecimal] at hs
  have hemp : ds.isEmpty = false := by cases ds <;> simp_all
  rw [hs] at hu
  simp only [hemp, Bool.false_or, Bool.not_false, if_true, Bool.false_eq_true, if_false] at hu
  simp only [hu, pow_zero, mul_one]
  have hn : ¬ overflowBound ≤ digitsVal 0 ds := by
    rw [overflowBound_eq]
    have hpow : ∀ n : ℕ, 1 ≤ 2 ^ n := fun n => Nat.one_le_two_pow
    have h970 := hpow 970
    generalize (2 : ℕ) ^ 970 = P at h970
    omega
  rw [if_neg hn]
  congr 1
  have hz : |(digitsVal 0 ds : ℤ)| < 2 ^ 53 := by
    rw [abs_of_nonneg (Int.natCast_nonneg _)]
    exact_mod_cast hv
  have := round64_intCast (digitsVal 0 ds : ℤ) hz
  rw [← this]
  congr 1
  push_cast
  simp

/-- What the worker reports for a task over integers whose result is of
magnitude below `2^53`. -/
theorem calculate_int (id : Int) (op : String) (a b z : ℤ) (ot : Int)
    (hop : intOp op a b = some z) (hz : |z| < 2 ^ 53) :
    calculate ⟨id, (a : ℚ), (b : ℚ), op, ot⟩ = ((z : ℚ), "") := by
  unfold intOp at hop
  unfold calculate
  simp only
  split_ifs at hop with h1 h2 h3
  · cases hop
    rw [if_pos h1, ← Int.cast_add, round64_intCast _ hz]
  · cases hop
    rw [if_neg h1, if_pos h2, ← Int.cast_sub, round64_intCast _ hz]
  · cases hop
    rw [if_neg h1, if_neg h2, if_pos h3, ← Int.cast_mul, round64_intCast _ hz]

/-! ## The values of the nodes of a compiled expression -/

theorem opCount_append (xs ys : List Node) : opCount (xs ++ ys) = opCount xs + opCount ys := by
  simp [opCount, List.countP_append]

theorem buildToken_opCount (st st1 : Build) (t : String) (h : buildToken st t = .ok st1) :
    opCount st1.nodes = opCount st.nodes + if (ParseFloat t).isSome then 0 else 1 := by
  unfold buildToken at h
  by_cases hp : (ParseFloat t).isSome = true
  · simp only [hp, if_true, Except.ok.injEq] at h
    subst h
    simp [opCount_append, opCount, hp]
  · simp only [hp, Bool.false_eq_true, if_false] at h
    cases h1 : st.dagStack.Pop with
    | none => simp [h1] at h
    | some x1 =>
      obtain ⟨r, s1⟩ := x1
      simp only [h1] at h
      cases h2 : Stack.Pop s1 with
      | none => simp [h2] at h
      | some x2 =>
        obtain ⟨l, s2⟩ := x2
        simp only [h2, Except.ok.injEq] at h
        subst h
        simp [opCount_append, opCount, hp]

/-- The graph builder allocates one operation per token that is not a
number. -/
theorem buildTokens_opCount (ts : List String) (st st1 : Build) (h : buildTokens ts st = .ok st1) :
    opCount st1.nodes = opCount st.nodes + ts.countP (fun t => !(ParseFloat t).isSome) := by
  induction ts generalizing st with
  | nil =>
    simp only [buildTokens, Except.ok.injEq] at h
    subst h; simp
  | cons t ts ih =>
    unfold buildTokens at h
    cases hb : buildToken st t with
    | error e => simp [hb] at h
    | ok st2 =>
      simp only [hb] at h
      rw [ih st2 h, buildToken_opCount st st2 t hb, List.countP_cons]
      by_cases hp : (ParseFloat t).isSome = true
      · simp [hp]
      · simp [hp]; omega

theorem polish_operators (c : Cst) : ∀ k, c.wf k = true → c.literalsParse = true →
    c.polish.countP (fun t => !(ParseFloat t).isSome) = c.ops := by
  induction c with
  | num ds =>
    intro k _ hlit
    simp only [Cst.literalsParse] at hlit
    have hne := Option.isSome_iff_ne_none.1 hlit
    simp [Cst.polish, Cst.ops, hne]
  | paren e ih =>
    intro k hwf hlit
    simp only [Cst.wf] at hwf
    simp only [Cst.literalsParse] at hlit
    simpa [Cst.polish, Cst.ops] using ih 1 hwf hlit
  | bin op l r ihl ihr =>
    intro k hwf hlit
    simp only [Cst.wf, Bool.and_eq_true, decide_eq_true_eq] at hwf
    obtain ⟨⟨⟨hop, -⟩, hl⟩, hr⟩ := hwf
    simp only [Cst.literalsParse, Bool.and_eq_true] at hlit
    simp only [Cst.polish, Cst.ops, List.countP_append, ihl _ hl hlit.1, ihr _ hr hlit.2]
    simp [parseFloat_singleton_operator op hop]

theorem markNode_fields (n : Node) :
    (markNode n).Typ = n.Typ ∧ (markNode n).Value = n.Value ∧
      (markNode n).Dependencies = n.Dependencies ∧ (markNode n).Level = n.Level := by
  unfold markNode
  split <;> simp

theorem opCount_map_markNode (nodes : List Node) : opCount (nodes.map markNode) = opCount nodes := by
  unfold opCount
  rw [List.countP_map]
  congr 1
  funext n
  simp [(markNode_fields n).1]

theorem self_mem_parts (t : Tree) : t ∈ t.parts := by
  cases t <;> simp [Tree.parts]

theorem parts_node (T : Tree) (op : String) (l r : Tree) (h : Tree.node op l r ∈ T.parts) :
    l ∈ T.parts ∧ r ∈ T.parts := by
  induction T with
  | leaf v => simp [Tree.parts] at h
  | node op1 l1 r1 ihl ihr =>
    simp only [Tree.parts, List.mem_cons, List.mem_append] at h ⊢
    rcases h with h | h | h
    · cases h
      exact ⟨Or.inr (Or.inl (self_mem_parts _)), Or.inr (Or.inr (self_mem_parts _))⟩
    · exact ⟨Or.inr (Or.inl (ihl h).1), Or.inr (Or.inl (ihl h).2)⟩
    · exact ⟨Or.inr (Or.inr (ihr h).1), Or.inr (Or.inr (ihr h).2)⟩

theorem parts_small (T t : Tree) (h : t ∈ T.parts) (hs : T.small = true) : t.small = true := by
  induction T with
  | leaf v =>
    simp only [Tree.parts, List.mem_singleton] at h
    subst h; exact hs
  | node op l r ihl ihr =>
    simp only [Tree.parts, List.mem_cons, List.mem_append] at h
    rcases h with h | h | h
    · subst h; exact hs
    · simp only [Tree.small, Bool.and_eq_true] at hs
      exact ihl h hs.1.1.2
    · simp only [Tree.small, Bool.and_eq_true] at hs
      exact ihr h hs.1.2

/-- In a finished graph every node reads as a part of the tree the root reads
as. -/
theorem readTree_all (st : Build) (hinv : BuildInv st) (root : Nat) (hs : st.dagStack = [root])
    (T : Tree) (F : Nat) (hT : readTree st.nodes F root = some T) :
    ∀ d p, st.nodes.length - p ≤ d → p < st.nodes.length →
      ∃ t, readTree st.nodes F p = some t ∧ t ∈ T.parts := by
  intro d
  induction d with
  | zero => intro p h1 h2; omega
  | succ d ih =>
    intro p h1 h2
    by_cases hpr : p = root
    · subst hpr; exact ⟨T, hT, self_mem_parts T⟩
    · rcases hinv.parent p h2 with hmem | ⟨q, n, hn, hdep⟩
      · simp [hs] at hmem; exact absurd hmem hpr
      · have hq := getElem?_lt_of_some _ _ _ hn
        obtain ⟨-, hb⟩ := hinv.node_ok q n hn
        rcases hb with ⟨-, hd, -, -⟩ | ⟨ht, -, l, r, hd, hl, hr, -⟩
        · rw [hd] at hdep; simp at hdep
        · rw [hd] at hdep
          have hpq : p < q := by
            simp only [List.mem_cons, List.mem_singleton, List.not_mem_nil, or_false] at hdep
            rcases hdep with rfl | rfl <;> assumption
          obtain ⟨tq, htq, hmq⟩ := ih q (by omega) hq
          cases F with
          | zero => simp [readTree] at htq
          | succ f =>
            rw [readTree] at htq
            simp only [hn, ht, hd] at htq
            cases hl1 : readTree st.nodes f l with
            | none => simp [hl1] at htq
            | some tl =>
              cases hr1 : readTree st.nodes f r with
              | none => simp [hl1, hr1] at htq
              | some tr =>
                simp only [hl1, hr1, Option.some.injEq] at htq
                subst htq
                have hparts := parts_node T _ _ _ hmq
                simp only [List.mem_cons, List.mem_singleton, List.not_mem_nil, or_false] at hdep
                rcases hdep with rfl | rfl
                · exact ⟨tl, readTree_succ _ _ _ _ hl1, hparts.1⟩
                · exact ⟨tr, readTree_succ _ _ _ _ hr1, hparts.2⟩

theorem intOp_singleton (op : Char) (a b : ℤ) (hop : isOperator op = true) (hd : op ≠ '/') :
    intOp (String.singleton op) a b =
      some (if op = '+' then a + b else if op = '-' then a - b else a * b) := by
  rcases isOperator_cases op hop with ⟨rfl, -⟩ | ⟨rfl, -⟩ | ⟨rfl, -⟩ | ⟨rfl, -⟩
  · rfl
  · rfl
  · rfl
  · exact absurd rfl hd

/-- The parse tree of a derivation without division and with small values is
small and has the derivation's value. -/
theorem cst_tree_small (c : Cst) : ∀ k, c.wf k = true → c.small = true →
    c.tree.small = true ∧ c.tree.eval = c.eval := by
  induction c with
  | num ds =>
    intro k hwf hs
    simp only [Cst.wf, Bool.and_eq_true, decide_eq_true_eq] at hwf
    simp only [Cst.small, decide_eq_true_eq] at hs
    simp only [Cst.tree, Tree.small, Tree.eval, Cst.eval, Bool.and_eq_true, decide_eq_true_eq]
    exact ⟨⟨⟨hwf.1, hwf.2⟩, hs⟩, trivial⟩
  | paren e ih =>
    intro k hwf hs
    simp only [Cst.wf] at hwf
    simp only [Cst.small] at hs
    simpa [Cst.tree, Cst.eval] using ih 1 hwf hs
  | bin op l r ihl ihr =>
    intro k hwf hs
    simp only [Cst.wf, Bool.and_eq_true, decide_eq_true_eq] at hwf
    obtain ⟨⟨⟨hop, -⟩, hl⟩, hr⟩ := hwf
    simp only [Cst.small, Bool.and_eq_true, decide_eq_true_eq] at hs
    obtain ⟨⟨⟨hd, hsl⟩, hsr⟩, hb⟩ := hs
    obtain ⟨h1, h2⟩ := ihl _ hl hsl
    obtain ⟨h3, h4⟩ := ihr _ hr hsr
    have he : (Cst.bin op l r).tree.eval = (Cst.bin op l r).eval := by
      simp only [Cst.tree, Tree.eval, Cst.eval, h2, h4, intOp_singleton op _ _ hop hd,
        Option.getD_some]
    refine ⟨?_, he⟩
    have he2 := he
    simp only [Cst.tree] at he2
    simp only [Cst.tree, Tree.small, Bool.and_eq_true, decide_eq_true_eq, he2, h1, h3, h2, h4,
      intOp_singleton op _ _ hop hd, Option.isSome_some, and_self, true_and]
    exact hb

theorem small_literalsParse (c : Cst) : ∀ k, c.wf k = true → c.small = true →
    c.literalsParse = true := by
  induction c with
  | num ds =>
    intro k hwf hs
    simp only [Cst.wf, Bool.and_eq_true, decide_eq_true_eq, List.all_eq_true] at hwf
    simp only [Cst.small, decide_eq_true_eq] at hs
    simp [Cst.literalsParse, parseFloat_digits ds hwf.1 hwf.2 hs]
  | paren e ih =>
    intro k hwf hs
    simp only [Cst.wf] at hwf
    simp only [Cst.small] at hs
    simpa [Cst.literalsParse] using ih 1 hwf hs
  | bin op l r ihl ihr =>
    intro k hwf hs
    simp only [Cst.wf, Bool.and_eq_true, decide_eq_true_eq] at hwf
    obtain ⟨⟨⟨hop, -⟩, hl⟩, hr⟩ := hwf
    simp only [Cst.small, Bool.and_eq_true, decide_eq_true_eq] at hs
    obtain ⟨⟨⟨hd, hsl⟩, hsr⟩, hb⟩ := hs
    simp [Cst.literalsParse, ihl _ hl hsl, ihr _ hr hsr]

/-- The values of the nodes of a finished graph whose root reads as a small
tree: every node holds or will hold the value of the tree it reads as. -/
theorem vals_init (st : Build) (hinv : BuildInv st) (root : Nat) (hs : st.dagStack = [root])
    (T : Tree) (hT : readTree st.nodes st.nodes.length root = some T) (hsmall : T.small = true) :
    Vals (st.nodes.map markNode)
      (fun p => ((readTree st.nodes st.nodes.length p).map Tree.eval).getD 0) := by
  intro p n hn
  rw [List.getElem?_map] at hn
  cases hn0 : st.nodes[p]? with
  | none => simp [hn0] at hn
  | some n0 =>
    simp only [hn0, Option.map_some', Option.some.injEq] at hn
    subst hn
    have hp := getElem?_lt_of_some _ _ _ hn0
    obtain ⟨t, ht, hmem⟩ := readTree_all st hinv root hs T _ hT _ p (le_refl _) hp
    have hts := parts_small T t hmem hsmall
    obtain ⟨hf1, hf2, hf3, -⟩ := markNode_fields n0
    obtain ⟨-, hb⟩ := hinv.node_ok p n0 hn0
    simp only [ht, Option.map_some', Option.getD_some, hf1, hf2, hf3]
    obtain ⟨f, hF⟩ : ∃ f, st.nodes.length = f + 1 := ⟨st.nodes.length - 1, by omega⟩
    · rw [hF, readTree] at ht
      rcases hb with ⟨hty, hd, -, -⟩ | ⟨hty, -, l, r, hd, hl, hr, -⟩
      · simp only [hn0, hty, hd, Option.some.injEq] at ht
        subst ht
        simp only [Tree.small, Bool.and_eq_true, decide_eq_true_eq, List.all_eq_true] at hts
        obtain ⟨⟨h1, h2⟩, h3⟩ := hts
        refine ⟨?_, fun _ => ?_, fun hc => ?_⟩
        · simp only [Tree.eval]
          rw [abs_of_nonneg (Int.natCast_nonneg _)]
          exact_mod_cast h3
        · have := parseFloat_digits n0.Value.data h1 h2 h3
          simpa [Tree.eval] using this
        · rw [hty] at hc; cases hc
      · simp only [hn0, hty, hd] at ht
        cases hl1 : readTree st.nodes f l with
        | none => simp [hl1] at ht
        | some tl =>
          cases hr1 : readTree st.nodes f r with
          | none => simp [hl1, hr1] at ht
          | some tr =>
            simp only [hl1, hr1, Option.some.injEq] at ht
            subst ht
            simp only [Tree.small, Bool.and_eq_true, decide_eq_true_eq] at hts
            obtain ⟨⟨⟨h1, -⟩, -⟩, h4⟩ := hts
            have hl2 : readTree st.nodes st.nodes.length l = some tl := by
              rw [hF]; exact readTree_succ _ _ _ _ hl1
            have hr2 : readTree st.nodes st.nodes.length r = some tr := by
              rw [hF]; exact readTree_succ _ _ _ _ hr1
            refine ⟨h4, fun hc => ?_, fun _ => ⟨l, r, hd, ?_⟩⟩
            · rw [hty] at hc; cases hc
            · rw [hl2, hr2]
              simp only [Option.map_some', Option.getD_some, Tree.eval]
              obtain ⟨z, hz⟩ := Option.isSome_iff_exists.1 h1
              rw [hz]; rfl

/-! ## Rounds of a worker that reports what it computed -/

theorem update_claim_report (nodes : List Node) (q : Nat) (s : String) :
    update (update nodes q claimNode) q (reportNode s) = update nodes q (reportNode s) := by
  apply List.ext_getElem?
  intro i
  simp only [update_getElem?]
  by_cases hi : i = q
  · simp only [hi, if_true]
    cases nodes[q]? <;> simp [reportNode, claimNode]
  · simp [hi]

theorem levelOf_update_claimNode (nodes : List Node) (q : Nat) (p : Nat) :
    levelOf (update nodes q claimNode) p = levelOf nodes p := by
  unfold levelOf
  rw [update_getElem?]
  by_cases hp : p = q
  · subst hp
    cases nodes[p]? <;> simp [claimNode]
  · simp [hp]

/-- A report turns one operation into a number. -/
theorem opCount_report (nodes : List Node) (q : Nat) (n : Node) (s : String)
    (hn : nodes[q]? = some n) (hop : n.Typ = NodeType.Operator) :
    opCount (update nodes q (reportNode s)) + 1 = opCount nodes := by
  have hq := getElem?_lt_of_some _ _ _ hn
  have hget : nodes[q] = n := by
    rw [List.getElem?_eq_getElem hq] at hn
    exact Option.some.inj hn
  have hpos : 0 < opCount nodes := by
    unfold opCount
    rw [List.countP_pos_iff]
    exact ⟨n, List.getElem?_mem hn, by simp [hop]⟩
  unfold update
  simp only [hn]
  unfold opCount at hpos ⊢
  rw [List.countP_set _ _ _ _ hq]
  simp only [hget, hop, decide_True, if_true, reportNode]
  simp only [reduceCtorEq, decide_False, Bool.false_eq_true, if_false]
  omega

theorem opCount_zero_iff (nodes : List Node) :
    opCount nodes = 0 ↔ ∀ (p : Nat) (n : Node), nodes[p]? = some n → n.Typ = NodeType.Number := by
  unfold opCount
  rw [List.countP_eq_zero]
  constructor
  · intro h p n hn
    have := h n (List.getElem?_mem hn)
    cases ht : n.Typ with
    | Number => rfl
    | Operator => simp [ht] at this
  · intro h n hn
    obtain ⟨p, hp⟩ := List.mem_iff_getElem?.1 hn
    simp [h p n hp]

theorem root_unique (nodes : List Node) (r1 r2 : Nat)
    (h1 : r1 < nodes.length ∧ ∀ p, p < nodes.length → p ≠ r1 → levelOf nodes p < levelOf nodes r1)
    (h2 : r2 < nodes.length ∧ ∀ p, p < nodes.length → p ≠ r2 → levelOf nodes p < levelOf nodes r2) :
    r1 = r2 := by
  by_contra hne
  have a := h1.2 r2 h2.1 (fun h => hne h.symm)
  have b := h2.2 r1 h1.1 hne
  omega

/-- Once the root is computed, every node is. -/
theorem all_number_of_root (e : Expression) (h : ExprInv e) (v : Nat → ℤ) (root : Nat)
    (hev : EvalInv v root e) (nr : Node) (hnr : e.nodes[root]? = some nr)
    (hnum : nr.Typ = NodeType.Number) :
    ∀ d p, e.nodes.length - p ≤ d → ∀ n, e.nodes[p]? = some n → n.Typ = NodeType.Number := by
  obtain ⟨root1, hr1, hroot1⟩ := h.root
  have hu : root1 = root :=
    root_unique e.nodes root1 root ⟨hr1, fun p hp hne => (hroot1 p hp hne).1⟩ hev.top
  subst hu
  intro d
  induction d with
  | zero =>
    intro p h1 n hn
    have := getElem?_lt_of_some _ _ _ hn
    omega
  | succ d ih =>
    intro p h1 n hn
    have hp := getElem?_lt_of_some _ _ _ hn
    by_cases hpr : p = root1
    · subst hpr
      rw [hnr] at hn
      cases hn
      exact hnum
    · obtain ⟨-, q, n1, hn1, hdep⟩ := hroot1 p hp hpr
      have hq := getElem?_lt_of_some _ _ _ hn1
      rcases h.shape q n1 hn1 with ⟨hd, -⟩ | ⟨l, r, hd, hl, hr, -⟩
      · rw [hd] at hdep; simp at hdep
      · have hpq : p < q := by
          rw [hd] at hdep
          simp only [List.mem_cons, List.mem_singleton, List.not_mem_nil, or_false] at hdep
          rcases hdep with rfl | rfl <;> assumption
        have hnum1 := ih q (by omega) n1 hn1
        obtain ⟨m, hm, hmt⟩ := hev.closed q n1 hn1 hnum1 p hdep
        rw [hn] at hm
        cases hm
        exact hmt

/-- The root is computed exactly when no operation is left. -/
theorem root_number_iff (e : Expression) (h : ExprInv e) (v : Nat → ℤ) (root : Nat)
    (hev : EvalInv v root e) (nr : Node) (hnr : e.nodes[root]? = some nr) :
    nr.Typ = NodeType.Number ↔ opCount e.nodes = 0 := by
  rw [opCount_zero_iff]
  constructor
  · intro hnum p n hn
    exact all_number_of_root e h v root hev nr hnr hnum _ p (le_refl _) n hn
  · intro hall
    exact hall root nr hnr

/-- While an operation is left, one is dispatchable. -/
theorem exists_ready (e : Expression) (h : ExprInv e) (v : Nat → ℤ) (root : Nat)
    (hev : EvalInv v root e) (hk : 0 < opCount e.nodes) :
    ∃ id, id ∈ mapKeys e.IdMap ∧ readyId e.IdMap e.nodes id = true := by
  have hmin : ∀ (d p : Nat) (n : Node), p ≤ d → e.nodes[p]? = some n → n.Typ = NodeType.Operator →
      ∃ (q : Nat) (m : Node), e.nodes[q]? = some m ∧ ready e.nodes m = true := by
    intro d
    induction d with
    | zero =>
      intro p n hp hn hop
      obtain ⟨l, r, hd, -⟩ := (hev.vals p n hn).2.2 hop
      rcases h.shape p n hn with ⟨hd1, -⟩ | ⟨l1, r1, hd1, hl, -, -⟩
      · rw [hd] at hd1; cases hd1
      · omega
    | succ d ih =>
      intro p n hp hn hop
      have hplt := getElem?_lt_of_some _ _ _ hn
      obtain ⟨l, r, hd, -⟩ := (hev.vals p n hn).2.2 hop
      rcases h.shape p n hn with ⟨hd1, -⟩ | ⟨l1, r1, hd1, hl, hr, -⟩
      · rw [hd] at hd1; cases hd1
      · rw [hd] at hd1
        simp only [List.cons.injEq, and_true] at hd1
        obtain ⟨rfl, rfl⟩ := hd1
        obtain ⟨nl, hnl⟩ : ∃ nl, e.nodes[l]? = some nl :=
          ⟨_, List.getElem?_eq_getElem (by omega)⟩
        obtain ⟨nr, hnr⟩ : ∃ nr, e.nodes[r]? = some nr :=
          ⟨_, List.getElem?_eq_getElem (by omega)⟩
        cases htl : nl.Typ with
        | Operator => exact ih l nl (by omega) hnl htl
        | Number =>
          cases htr : nr.Typ with
          | Operator => exact ih r nr (by omega) hnr htr
          | Number =>
            refine ⟨p, n, hn, ?_⟩
            simp [ready, hop, hev.waiting p n hn hop, hd, hnl, hnr, htl, htr]
  unfold opCount at hk
  rw [List.countP_pos_iff] at hk
  obtain ⟨n, hmem, hop⟩ := hk
  obtain ⟨p, hp⟩ := List.mem_iff_getElem?.1 hmem
  obtain ⟨q, m, hm, hready⟩ := hmin p p n (le_refl _) hp (by simpa using hop)
  obtain ⟨id, hid, hmap⟩ := idMap_covers e h q (getElem?_lt_of_some _ _ _ hm)
  exact ⟨id, hid, by simp [readyId, hmap, hm, hready]⟩

/-- The invariant of the rounds after a claim of the node behind `q` and the
report of its value. -/
theorem evalInv_report (e e1 : Expression) (v : Nat → ℤ) (root : Nat) (hev : EvalInv v root e)
    (q : Nat) (task : Node) (htask : e.nodes[q]? = some task)
    (hop : task.Typ = NodeType.Operator)
    (hdeps : ∀ d ∈ task.Dependencies, ∃ m, e.nodes[d]? = some m ∧ m.Typ = NodeType.Number)
    (hnodes : e1.nodes = update e.nodes q (reportNode (sprintf5 (v q : ℚ)))) :
    EvalInv v root e1 ∧ opCount e1.nodes + 1 = opCount e.nodes := by
  have hlen : e1.nodes.length = e.nodes.length := by rw [hnodes]; exact update_length _ _ _
  have hpt : ∀ (i : Nat) (n1 : Node), e1.nodes[i]? = some n1 →
      (i = q ∧ n1 = reportNode (sprintf5 (v q : ℚ)) task) ∨ (i ≠ q ∧ e.nodes[i]? = some n1) := by
    intro i n1 hn1
    rw [hnodes, update_getElem?] at hn1
    by_cases hi : i = q
    · subst hi
      simp only [if_true, htask, Option.map_some', Option.some.injEq] at hn1
      exact Or.inl ⟨rfl, hn1.symm⟩
    · simp only [hi, if_false] at hn1
      exact Or.inr ⟨hi, hn1⟩
  have hnum : ∀ (d : Nat) (m : Node), e.nodes[d]? = some m → m.Typ = NodeType.Number →
      ∃ m1 : Node, e1.nodes[d]? = some m1 ∧ m1.Typ = NodeType.Number := by
    intro d m hm hmt
    rw [hnodes, update_getElem?]
    by_cases hd : d = q
    · subst hd
      rw [htask] at hm; cases hm
      rw [hop] at hmt; cases hmt
    · exact ⟨m, by simp [hd, hm], hmt⟩
  refine ⟨⟨?_, ?_, ?_, ?_⟩, ?_⟩
  · intro i n1 hn1
    rcases hpt i n1 hn1 with ⟨rfl, rfl⟩ | ⟨-, hn⟩
    · obtain ⟨hb, -, -⟩ := hev.vals i task htask
      refine ⟨hb, fun _ => ?_, fun hc => ?_⟩
      · simp only [reportNode]
        exact parseFloat_sprintf5_int (v i) hb
      · simp [reportNode] at hc
    · exact hev.vals i n1 hn
  · intro i n1 hn1 hop1
    rcases hpt i n1 hn1 with ⟨rfl, rfl⟩ | ⟨-, hn⟩
    · simp [reportNode] at hop1
    · exact hev.waiting i n1 hn hop1
  · intro i n1 hn1 hnum1 d hd
    rcases hpt i n1 hn1 with ⟨rfl, rfl⟩ | ⟨-, hn⟩
    · simp only [reportNode] at hd
      obtain ⟨m, hm, hmt⟩ := hdeps d hd
      exact hnum d m hm hmt
    · obtain ⟨m, hm, hmt⟩ := hev.closed i n1 hn hnum1 d hd
      exact hnum d m hm hmt
  · rw [hlen]
    refine ⟨hev.top.1, fun p hp hne => ?_⟩
    rw [hnodes, levelOf_update_reportNode, levelOf_update_reportNode]
    exact hev.top.2 p hp hne
  · rw [hnodes]
    exact opCount_report e.nodes q task _ htask hop

/-- One round on a head expression with `k + 1` operations left: the Claim is
answered with a task, the Report of the computed value is accepted, `k`
operations are left, and the expression is finalized exactly when `k = 0`. -/
theorem workerRound_spec (o : Orchestrator) (h : OrchInv o) (p : Nat) (tail : List Nat)
    (e : Expression) (v : Nat → ℤ) (root k : Nat) (orders : List Int × List Int)
    (hq : o.Queue = p :: tail) (he : o.exprs[p]? = some e) (hev : EvalInv v root e)
    (hk : opCount e.nodes = k + 1)
    (ho1 : orders.1.Perm (mapKeys e.IdMap)) (ho2 : orders.2.Perm (mapKeys e.IdMap)) :
    ∃ o1 e1, workerRound o orders = some o1 ∧ OrchInv o1 ∧ o1.exprs[p]? = some e1 ∧
      e1.IdMap = e.IdMap ∧ EvalInv v root e1 ∧ opCount e1.nodes = k ∧
      (k = 0 → o1.Queue = tail ∧ e1.Status = ExpressionStatus.StatusDone ∧
        e1.Result = (v root : ℚ)) ∧
      (k ≠ 0 → o1.Queue = p :: tail ∧ e1.Status = ExpressionStatus.StatusInQueue) := by
  have hinv : ExprInv e := h.expr_inv _ (List.getElem?_mem he)
  have hplt := getElem?_lt_of_some _ _ _ he
  obtain ⟨id0, hid0, hready0⟩ := exists_ready e hinv v root hev (by omega)
  rcases GetTaskHandler_spec o orders.1 h p tail e hq he with
    ⟨hno, -⟩ | ⟨id, q, task, d1, d2, ds, dep1, dep2, a1, a2, -, -, hmap, htask, hop, -, hdeps,
      hdep1, hdep2, hty1, hty2, hpf1, hpf2, hget⟩
  · rw [hno id0 (ho1.mem_iff.2 hid0)] at hready0
    cases hready0
  · obtain ⟨hb, -, hopv⟩ := hev.vals q task htask
    obtain ⟨l, r, hd, hint⟩ := hopv hop
    rw [hdeps] at hd
    simp only [List.cons.injEq] at hd
    obtain ⟨rfl, rfl, rfl⟩ := hd
    have ha1 : a1 = (v d1 : ℚ) := by
      have := (hev.vals d1 dep1 hdep1).2.1 hty1
      rw [hpf1] at this
      exact Option.some.inj this
    have ha2 : a2 = (v d2 : ℚ) := by
      have := (hev.vals d2 dep2 hdep2).2.1 hty2
      rw [hpf2] at this
      exact Option.some.inj this
    subst ha1 ha2
    have hcalc := calculate_int id task.Value (v d1) (v d2) (v q)
      (operationTime o.Config task.Value) hint hb
    have hinv1 := orchInv_GetTaskHandler o orders.1 h
    rw [hget] at hinv1
    have hw : workerRound o orders =
        some (PostTaskHandler
          { o with exprs := o.exprs.set p ({ e with Status := ExpressionStatus.StatusInProgress,
                                                    nodes := update e.nodes q claimNode }) }
          id (v q : ℚ) "" orders.2).1 := by
      unfold workerRound
      rw [hget]
      simp only [hcalc]
    have hdeps1 : ∀ d ∈ task.Dependencies,
        ∃ m, e.nodes[d]? = some m ∧ m.Typ = NodeType.Number := by
      intro d hdm
      rw [hdeps] at hdm
      simp only [List.mem_cons, List.mem_singleton, List.not_mem_nil, or_false] at hdm
      rcases hdm with rfl | rfl
      · exact ⟨dep1, hdep1, hty1⟩
      · exact ⟨dep2, hdep2, hty2⟩
    have htop1 : root < (update e.nodes q claimNode).length ∧
        ∀ i, i < (update e.nodes q claimNode).length → i ≠ root →
          levelOf (update e.nodes q claimNode) i < levelOf (update e.nodes q claimNode) root := by
      rw [update_length]
      refine ⟨hev.top.1, fun i hi hne => ?_⟩
      rw [levelOf_update_claimNode, levelOf_update_claimNode]
      exact hev.top.2 i hi hne
    obtain ⟨root1, nr, hr1, hlev1, hnr, hcase⟩ := PostTaskHandler_ok_spec
      { o with exprs := o.exprs.set p ({ e with Status := ExpressionStatus.StatusInProgress,
                                                nodes := update e.nodes q claimNode }) }
      id (v q : ℚ) orders.2 hinv1 (isFloat64_intCast _ hb) p tail
      ({ e with Status := ExpressionStatus.StatusInProgress,
                nodes := update e.nodes q claimNode }) q hq
      (set_getElem?_self _ _ _ hplt) hmap ho2
    have hu : root1 = root := root_unique (update e.nodes q claimNode) root1 root ⟨hr1, hlev1⟩ htop1
    subst hu
    simp only [update_claim_report] at hnr hcase
    rcases hcase with ⟨hdone, o1, result, hpost, ho1inv, hres, hqueue, -, hget1⟩ |
      ⟨hnd, o1, hpost, ho1inv, hqueue, -, hget1⟩
    · obtain ⟨hev1, hcnt⟩ := evalInv_report e _ v root1 hev q task htask hop hdeps1
        (rfl : ({ e with nodes := update e.nodes q (reportNode (sprintf5 (v q : ℚ)))
                         Result := result
                         Status := ExpressionStatus.StatusDone } : Expression).nodes = _)
      have hinvE := ho1inv.expr_inv _ (List.getElem?_mem hget1)
      have hnum : nr.Typ = NodeType.Number := (hinvE.done_iff_number root1 nr hnr).1 hdone
      have hzero := (root_number_iff _ hinvE v root1 hev1 nr hnr).1 hnum
      have hval := (hev1.vals root1 nr hnr).2.1 hnum
      rw [hres] at hval
      rw [hpost] at hw
      refine ⟨o1, _, hw, ho1inv, hget1, rfl, hev1, by omega, fun _ => ⟨hqueue, rfl, ?_⟩,
        fun hne => absurd (by omega) hne⟩
      exact Option.some.inj hval
    · obtain ⟨hev1, hcnt⟩ := evalInv_report e _ v root1 hev q task htask hop hdeps1
        (rfl : ({ e with nodes := update e.nodes q (reportNode (sprintf5 (v q : ℚ)))
                         Status := ExpressionStatus.StatusInQueue } : Expression).nodes = _)
      have hinvE := ho1inv.expr_inv _ (List.getElem?_mem hget1)
      rw [hpost] at hw
      refine ⟨o1, _, hw, ho1inv, hget1, rfl, hev1, by omega, fun hk0 => ?_,
        fun _ => ⟨hqueue, rfl⟩⟩
      exfalso
      have hnum := (root_number_iff _ hinvE v root1 hev1 nr hnr).2 (by omega)
      exact hnd ((hinvE.done_iff_number root1 nr hnr).2 hnum)

/-- Rounds on a head expression with `k` operations left, at most `k` of
them: every Claim is answered with a task, and the expression is finalized
with the value of its root by the `k`-th round and not before. -/
theorem workerRounds_spec (sched : List (List Int × List Int)) :
    ∀ (o : Orchestrator) (p : Nat) (tail : List Nat) (e : Expression) (v : Nat → ℤ)
      (root k : Nat), OrchInv o → o.Queue = p :: tail → o.exprs[p]? = some e →
      EvalInv v root e → opCount e.nodes = k → 0 < k → sched.length ≤ k →
      e.Status = ExpressionStatus.StatusInQueue →
      (∀ r ∈ sched, r.1.Perm (mapKeys e.IdMap) ∧ r.2.Perm (mapKeys e.IdMap)) →
      ∃ o1 e1, workerRounds o sched = some o1 ∧ o1.exprs[p]? = some e1 ∧
        (sched.length = k → o1.Queue = tail ∧ e1.Status = ExpressionStatus.StatusDone ∧
          e1.Result = (v root : ℚ)) ∧
        (sched.length < k → o1.Queue = p :: tail ∧
          e1.Status = ExpressionStatus.StatusInQueue) := by
  induction sched with
  | nil =>
    intro o p tail e v root k _ hq he _ _ hk _ hst _
    refine ⟨o, e, rfl, he, fun h0 => ?_, fun _ => ⟨hq, hst⟩⟩
    simp only [List.length_nil] at h0
    omega
  | cons r rs ih =>
    intro o p tail e v root k h hq he hev hcnt hk hlen hst hord
    obtain ⟨k1, rfl⟩ : ∃ k1, k = k1 + 1 := ⟨k - 1, by omega⟩
    obtain ⟨hr1, hr2⟩ := hord r (List.mem_cons_self _ _)
    obtain ⟨o1, e1, hw, hinv1, he1, hid1, hev1, hcnt1, hfin, hnot⟩ :=
      workerRound_spec o h p tail e v root k1 r hq he hev hcnt hr1 hr2
    simp only [List.length_cons] at hlen ⊢
    by_cases hk1 : k1 = 0
    · have hrs : rs = [] := List.eq_nil_of_length_eq_zero (by omega)
      subst hrs
      refine ⟨o1, e1, by simp [workerRounds, hw], he1, fun _ => hfin hk1, fun hlt => ?_⟩
      simp only [List.length_nil] at hlt
      omega
    · obtain ⟨hq1, hst1⟩ := hnot hk1
      obtain ⟨o2, e2, hw2, he2, hfin2, hnot2⟩ := ih o1 p tail e1 v root k1 hinv1 hq1 he1 hev1
        hcnt1 (by omega) (by omega) hst1
        (fun r1 hr => by rw [hid1]; exact hord r1 (List.mem_cons_of_mem _ hr))
      refine ⟨o2, e2, by simp [workerRounds, hw, hw2], he2, fun hl => hfin2 (by omega),
        fun hl => hnot2 (by omega)⟩

/-! ## End-to-end evaluation -/

theorem mapKeys_idsFrom (a : Int) (ps : List Nat) :
    mapKeys (idsFrom a ps) = List.map (fun (i : Nat) => a + 1 + (i : Int)) (List.range ps.length) := by
  induction ps generalizing a with
  | nil => simp [idsFrom, mapKeys]
  | cons p ps ih =>
    have h := ih (a + 1)
    simp only [mapKeys] at h
    simp only [idsFrom, mapKeys, List.map_cons, List.length_cons, List.range_succ_eq_map,
      List.map_map, h]
    simp only [Nat.cast_zero, add_zero, List.cons.injEq, true_and]
    apply List.map_congr_left
    intro i _
    simp only [Function.comp, Nat.succ_eq_add_one, Nat.cast_add, Nat.cast_one]
    ring

/-- The keys of an expression's node map are the local ids 1 to the number of
its nodes. -/
theorem mapKeys_localIds (e : Expression) (h : ExprInv e) :
    mapKeys e.IdMap = localIds e.nodes.length := by
  obtain ⟨ps, hps, hmap⟩ := h.ids
  have hl : ps.length = e.nodes.length := by
    rw [hps.length_eq, List.length_range]
  rw [hmap, mapKeys_idsFrom, hl]
  unfold localIds
  apply List.map_congr_left
  intro i _
  ring

/-- The compilation of a derivation whose literals parse: the final state of
the graph builder. -/
theorem compile_cst (c : Cst) (hwf : c.wf 1 = true) (hlit : c.literalsParse = true) :
    ∃ st, BuildInv st ∧ st.dagStack = [c.tree.size - 1] ∧ st.nodes.length = c.tree.size ∧
      buildTokens c.polish ⟨[], NewStack, [], 0⟩ = .ok st ∧
      ParseExpression (String.mk c.render) = .ok ⟨st.nodes, st.levelMap, st.maxLevel⟩ ∧
      readTree st.nodes st.nodes.length (c.tree.size - 1) = some c.tree := by
  obtain ⟨new, hlen, ⟨lm, ml, hb⟩, ht⟩ := build_cst c 1 ⟨[], NewStack, [], 0⟩ [] hwf hlit
  simp only [List.append_nil, List.nil_append, List.length_nil, Nat.zero_add, NewStack,
    buildTokens] at hb ht
  have hc : createDAG c.polish = .ok ⟨new, lm, ml⟩ := by
    simp [createDAG, NewStack, hb, Stack.Len]
  obtain ⟨st, root, hinv, hst, hstack, hdag⟩ := createDAG_ok _ _ hc
  simp only [NewStack, hb, Except.ok.injEq] at hst
  subst hst
  simp only [List.cons.injEq, and_true] at hstack
  refine ⟨_, hinv, rfl, hlen, hb, ?_, ?_⟩
  · simp [ParseExpression, toPostfix_render c hwf, hc]
  · simp only [hlen]
    exact ht

/-- The invariant of the rounds holds of a freshly prepared expression. -/
theorem evalInv_init (c : Cst) (st : Build) (id : Int) (s : ExpressionStatus)
    (hwf : c.wf 1 = true) (hsmall : c.small = true)
    (hinv : BuildInv st) (hs : st.dagStack = [c.tree.size - 1])
    (hb : buildTokens c.polish ⟨[], NewStack, [], 0⟩ = .ok st)
    (ht : readTree st.nodes st.nodes.length (c.tree.size - 1) = some c.tree) :
    EvalInv (fun p => ((readTree st.nodes st.nodes.length p).map Tree.eval).getD 0)
      (c.tree.size - 1)
      { ID := id
        nodes := st.nodes.map markNode
        IdMap := idsFrom 0 (levelOrder st.levelMap 0 (st.maxLevel + 1))
        Status := s
        Err := none
        Result := 0 } ∧
    opCount (st.nodes.map markNode) = c.ops ∧
    ((readTree st.nodes st.nodes.length (c.tree.size - 1)).map Tree.eval).getD 0 = c.eval := by
  obtain ⟨hts, hte⟩ := cst_tree_small c 1 hwf hsmall
  have hlit := small_literalsParse c 1 hwf hsmall
  refine ⟨⟨vals_init st hinv _ hs c.tree ht hts, ?_, ?_, ?_⟩, ?_, ?_⟩
  · intro p n hn hop
    simp only [List.getElem?_map] at hn
    cases hn0 : st.nodes[p]? with
    | none => simp [hn0] at hn
    | some n0 =>
      simp only [hn0, Option.map_some', Option.some.injEq] at hn
      subst hn
      have hty : n0.Typ ≠ NodeType.Number := by
        rw [← (markNode_fields n0).1, hop]; simp
      simp [markNode, hty]
  · intro p n hn hnum d hd
    simp only [List.getElem?_map] at hn
    cases hn0 : st.nodes[p]? with
    | none => simp [hn0] at hn
    | some n0 =>
      simp only [hn0, Option.map_some', Option.some.injEq] at hn
      subst hn
      obtain ⟨hf1, -, hf3, -⟩ := markNode_fields n0
      rw [hf1] at hnum
      rw [hf3] at hd
      obtain ⟨-, hnb⟩ := hinv.node_ok p n0 hn0
      rcases hnb with ⟨-, hd0, -, -⟩ | ⟨hty, -⟩
      · rw [hd0] at hd; simp at hd
      · rw [hty] at hnum; cases hnum
  · have hr : c.tree.size - 1 < st.nodes.length := hinv.stack_lt _ (by simp [hs])
    simp only [List.length_map]
    refine ⟨hr, fun p hp hne => ?_⟩
    rw [levelOf_map_markNode, levelOf_map_markNode]
    rcases hinv.covered p hp with hm | ⟨r, hr1, hlev⟩
    · simp [hs] at hm; exact absurd hm hne
    · simp only [hs, List.mem_singleton] at hr1
      subst hr1; exact hlev
  · rw [opCount_map_markNode, buildTokens_opCount _ _ _ hb, polish_operators c 1 hwf hlit]
    simp [opCount]
  · rw [ht]
    simpa using hte

/-- End-to-end evaluation of an expression with at least one operator: after
the submission of an expression of the grammar over `+`, `-` and `*` whose
literals and intermediate values are integers of magnitude below `2^53`, to an
orchestrator with an empty queue, every round of a worker - a Claim, then the
Report of what the worker computed for the task - is answered with a task,
whichever visiting orders the handlers take; after as many rounds as the
expression has operators the expression is done, has left the queue and has the
arithmetic value of the expression as its result; after fewer rounds it is
still at the head of the queue. -/
theorem evaluates (cfg : OrchestratorConfig) (o : Orchestrator) (c : Cst)
    (sched : List (List Int × List Int))
    (hr : Reachable cfg o) (hq : o.Queue = [])
    (hwf : c.wf 1 = true) (hsmall : c.small = true) (hops : 0 < c.ops)
    (hlen : sched.length ≤ c.ops)
    (hord : ∀ r ∈ sched, r.1.Perm (localIds c.tree.size) ∧ r.2.Perm (localIds c.tree.size)) :
    ∃ o1 e1, workerRounds (CalculateHandler o (String.mk c.render)).1 sched = some o1 ∧
      o1.exprs[o.exprs.length]? = some e1 ∧
      (sched.length = c.ops → o1.Queue = [] ∧ e1.Status = ExpressionStatus.StatusDone ∧
        e1.Result = (c.eval : ℚ)) ∧
      (sched.length < c.ops → o1.Queue = [o.exprs.length] ∧
        e1.Status = ExpressionStatus.StatusInQueue) := by
  have hlit := small_literalsParse c 1 hwf hsmall
  obtain ⟨st, hinv, hs, hsize, hb, hparse, ht⟩ := compile_cst c hwf hlit
  have hO := orchInv_CalculateHandler o (String.mk c.render) (reachable_inv cfg o hr)
  rw [CalculateHandler_ok o _ _ hparse] at hO ⊢
  simp only [hq, List.nil_append] at hO ⊢
  obtain ⟨hev, hcnt, hval⟩ := evalInv_init c st (wrapInt32 (o.PrevExpressionID + 1))
    ExpressionStatus.StatusInQueue hwf hsmall hinv hs hb ht
  have hget : (o.exprs ++
      [({ ID := wrapInt32 (o.PrevExpressionID + 1)
          nodes := st.nodes.map markNode
          IdMap := idsFrom 0 (levelOrder st.levelMap 0 (st.maxLevel + 1))
          Status := ExpressionStatus.StatusInQueue
          Err := none
          Result := 0 } : Expression)])[o.exprs.length]? = some _ :=
    List.getElem?_concat_length _ _
  have hkeys := mapKeys_localIds _ (hO.expr_inv _ (List.getElem?_mem hget))
  simp only [List.length_map, hsize] at hkeys
  have := workerRounds_spec sched _ o.exprs.length [] _ _ _ c.ops hO rfl hget hev hcnt hops hlen
    rfl (by rw [hkeys]; exact hord)
  rw [hval] at this
  exact this

/-- The evaluation of `2+3`: one round, after which the expression is done with
result 5 and the queue is empty. -/
theorem evaluates_two_plus_three :
    ∃ o1 e1,
      workerRounds (CalculateHandler (NewOrchestrator ⟨8080, 100, 100, 100, 100⟩) "2+3").1
        [([1, 2, 3], [3, 1, 2])] = some o1 ∧
      o1.exprs[0]? = some e1 ∧ o1.Queue = [] ∧ e1.Status = ExpressionStatus.StatusDone ∧
      e1.Result = 5 := by
  obtain ⟨o1, e1, h1, h2, h3, -⟩ := evaluates ⟨8080, 100, 100, 100, 100⟩
    (NewOrchestrator ⟨8080, 100, 100, 100, 100⟩)
    (Cst.bin '+' (Cst.num ['2']) (Cst.num ['3'])) [([1, 2, 3], [3, 1, 2])]
    Reachable.init rfl (by decide) (by decide!) (by decide) (by decide)
    (by
      intro r hr
      simp only [List.mem_singleton] at hr
      subst hr
      exact ⟨List.Perm.refl _, by decide⟩)
  obtain ⟨h4, h5, h6⟩ := h3 rfl
  refine ⟨o1, e1, h1, h2, h4, h5, ?_⟩
  rw [h6]
  decide!

/-! ## The level map of a compiled expression -/

theorem mapKeys_mapSet {κ ν : Type} [DecidableEq κ] (m : List (κ × ν)) (k : κ) (v : ν) :
    mapKeys (mapSet m k v) = if k ∈ mapKeys m then mapKeys m else mapKeys m ++ [k] := by
  induction m with
  | nil => simp [mapSet, mapKeys]
  | cons kv m ih =>
    unfold mapSet
    by_cases h1 : kv.1 = k
    · simp [h1, mapKeys]
    · simp only [h1, if_false]
      have hne : ¬ k = kv.1 := fun h => h1 h.symm
      simp only [mapKeys, List.map_cons, List.mem_cons, hne, false_or] at ih ⊢
      rw [ih]
      split <;> simp

/-- The keys of the level map stay distinct, and each has a node under it. -/
theorem levelAppend_keys (m : List (Nat × List Nat)) (L p : Nat)
    (h : (mapKeys m).Nodup ∧ ∀ k ∈ mapKeys m, levelNodes m k ≠ []) :
    (mapKeys (levelAppend m L p)).Nodup ∧
      ∀ k ∈ mapKeys (levelAppend m L p), levelNodes (levelAppend m L p) k ≠ [] := by
  constructor
  · unfold levelAppend
    rw [mapKeys_mapSet]
    split
    · exact h.1
    · rename_i hk
      exact List.Nodup.append h.1 (List.nodup_singleton L) (by simpa using hk)
  · intro k hk
    rw [levelNodes_levelAppend]
    by_cases hkl : k = L
    · simp [hkl]
    · simp only [hkl, if_false]
      apply h.2
      unfold levelAppend at hk
      rw [mapKeys_mapSet] at hk
      split at hk
      · exact hk
      · simp only [List.mem_append, List.mem_singleton] at hk
        rcases hk with hk | hk
        · exact hk
        · exact absurd hk hkl

theorem buildToken_keys (st st1 : Build) (t : String)
    (h : (mapKeys st.levelMap).Nodup ∧ ∀ k ∈ mapKeys st.levelMap, levelNodes st.levelMap k ≠ [])
    (hb : buildToken st t = .ok st1) :
    (mapKeys st1.levelMap).Nodup ∧
      ∀ k ∈ mapKeys st1.levelMap, levelNodes st1.levelMap k ≠ [] := by
  unfold buildToken at hb
  by_cases hp : (ParseFloat t).isSome = true
  · simp only [hp, if_true, Except.ok.injEq] at hb
    subst hb
    exact levelAppend_keys _ _ _ h
  · simp only [hp, Bool.false_eq_true, if_false] at hb
    cases h1 : st.dagStack.Pop with
    | none => simp [h1] at hb
    | some x1 =>
      obtain ⟨r, s1⟩ := x1
      simp only [h1] at hb
      cases h2 : Stack.Pop s1 with
      | none => simp [h2] at hb
      | some x2 =>
        obtain ⟨l, s2⟩ := x2
        simp only [h2, Except.ok.injEq] at hb
        subst hb
        exact levelAppend_keys _ _ _ h

theorem buildTokens_keys (ts : List String) (st st1 : Build)
    (h : (mapKeys st.levelMap).Nodup ∧ ∀ k ∈ mapKeys st.levelMap, levelNodes st.levelMap k ≠ [])
    (hb : buildTokens ts st = .ok st1) :
    (mapKeys st1.levelMap).Nodup ∧
      ∀ k ∈ mapKeys st1.levelMap, levelNodes st1.levelMap k ≠ [] := by
  induction ts generalizing st with
  | nil =>
    simp only [buildTokens, Except.ok.injEq] at hb
    exact hb ▸ h
  | cons t ts ih =>
    unfold buildTokens at hb
    cases hb1 : buildToken st t with
    | error e => simp [hb1] at hb
    | ok st2 =>
      simp only [hb1] at hb
      exact ih st2 (buildToken_keys st st2 t h hb1) hb

/-- A node is listed under a level of the map exactly when it is a node of that
level. -/
theorem mem_levelNodes_iff (st : Build) (hinv : BuildInv st) (L p : Nat) :
    p ∈ levelNodes st.levelMap L ↔ p < st.nodes.length ∧ levelOf st.nodes p = L := by
  rw [hinv.level_map]
  simp [List.mem_filter]

/-- Below the level of a node every level has a node. -/
theorem level_inhabited (st : Build) (hinv : BuildInv st) :
    ∀ (L p : Nat), p < st.nodes.length → L ≤ levelOf st.nodes p →
      ∃ q, q < st.nodes.length ∧ levelOf st.nodes q = L := by
  intro L p
  induction p using Nat.strong_induction_on with
  | _ p ih =>
    intro hp hL
    by_cases heq : L = levelOf st.nodes p
    · exact ⟨p, hp, heq.symm⟩
    · obtain ⟨n, hn⟩ : ∃ n, st.nodes[p]? = some n := ⟨_, List.getElem?_eq_getElem hp⟩
      obtain ⟨-, hb⟩ := hinv.node_ok p n hn
      have hlev := levelOf_eq_of_getElem? _ _ _ hn
      rcases hb with ⟨-, -, h0, -⟩ | ⟨-, -, l, r, -, hl, hr, hlv⟩
      · omega
      · rcases le_total (levelOf st.nodes r) (levelOf st.nodes l) with hle | hle
        · exact ih l hl (by omega) (by rw [hlev, hlv, max_eq_right hle] at hL heq; omega)
        · exact ih r hr (by omega) (by rw [hlev, hlv, max_eq_left hle] at hL heq; omega)

/-- The states of a successful compilation: the final state of the graph
builder with its invariants. -/
theorem parseExpression_build (s : String) (dag : DAG) (h : ParseExpression s = .ok dag) :
    ∃ st root, BuildInv st ∧ st.dagStack = [root] ∧
      dag = ⟨st.nodes, st.levelMap, st.maxLevel⟩ ∧
      (mapKeys st.levelMap).Nodup ∧ (∀ k ∈ mapKeys st.levelMap, levelNodes st.levelMap k ≠ []) := by
  obtain ⟨poland, -, hc⟩ := parseExpression_createDAG s dag h
  obtain ⟨st, root, hinv, hb, hs, hdag⟩ := createDAG_ok poland dag hc
  have hk := buildTokens_keys poland _ st (by simp [mapKeys]) hb
  exact ⟨st, root, hinv, hs, hdag, hk.1, hk.2⟩

/-- C11. Level invariant: for every input on which `ParseExpression` succeeds,
a node listed under level 0 is a Number with Level 0 and no dependencies, and a
node listed under a level `L > 0` is an Operator with exactly two dependencies,
both nodes of the graph, and Level `max (level of left) (level of right) + 1 = L`;
so the level of each dependency is strictly smaller than the node's. -/
theorem level_invariant (s : String) (dag : DAG) (h : ParseExpression s = .ok dag) :
    ∀ (L p : Nat), p ∈ levelNodes dag.levelMap L →
      ∃ n, dag.nodes[p]? = some n ∧ n.Level = L ∧
        (L = 0 → n.Typ = NodeType.Number ∧ n.Dependencies = []) ∧
        (0 < L → n.Typ = NodeType.Operator ∧
          ∃ (l r : Nat) (nl nr : Node), n.Dependencies = [l, r] ∧
            dag.nodes[l]? = some nl ∧ dag.nodes[r]? = some nr ∧
            L = max nl.Level nr.Level + 1 ∧ nl.Level < L ∧ nr.Level < L) := by
  obtain ⟨st, root, hinv, -, rfl, -, -⟩ := parseExpression_build s dag h
  intro L p hp
  simp only at hp ⊢
  obtain ⟨hlt, hlev⟩ := (mem_levelNodes_iff st hinv L p).1 hp
  obtain ⟨n, hn⟩ : ∃ n, st.nodes[p]? = some n := ⟨_, List.getElem?_eq_getElem hlt⟩
  rw [levelOf_eq_of_getElem? _ _ _ hn] at hlev
  obtain ⟨-, hb⟩ := hinv.node_ok p n hn
  refine ⟨n, hn, hlev, ?_, ?_⟩
  · intro h0
    rcases hb with ⟨ht, hd, -, -⟩ | ⟨-, -, l, r, -, -, -, hlv⟩
    · exact ⟨ht, hd⟩
    · omega
  · intro hpos
    rcases hb with ⟨-, -, h0, -⟩ | ⟨ht, -, l, r, hd, hl, hr, hlv⟩
    · omega
    · obtain ⟨nl, hnl⟩ : ∃ nl, st.nodes[l]? = some nl := ⟨_, List.getElem?_eq_getElem (by omega)⟩
      obtain ⟨nr, hnr⟩ : ∃ nr, st.nodes[r]? = some nr := ⟨_, List.getElem?_eq_getElem (by omega)⟩
      rw [levelOf_eq_of_getElem? _ _ _ hnl, levelOf_eq_of_getElem? _ _ _ hnr] at hlv
      refine ⟨ht, l, r, nl, nr, hd, hnl, hnr, ?_, ?_, ?_⟩
      · rw [← hlev, hlv, max_comm]
      · rw [← hlev, hlv]; have := le_max_right nr.Level nl.Level; omega
      · rw [← hlev, hlv]; have := le_max_left nr.Level nl.Level; omega

/-- C11, witness: the levels of `2+3*4`. -/
theorem level_invariant_witness :
    ParseExpression "2+3*4" = .ok
      ⟨[⟨NodeType.Number, "2", [], 0, NodeStatus.StatusCreated⟩,
        ⟨NodeType.Number, "3", [], 0, NodeStatus.StatusCreated⟩,
        ⟨NodeType.Number, "4", [], 0, NodeStatus.StatusCreated⟩,
        ⟨NodeType.Operator, "*", [1, 2], 1, NodeStatus.StatusCreated⟩,
        ⟨NodeType.Operator, "+", [0, 3], 2, NodeStatus.StatusCreated⟩],
       [(0, [0, 1, 2]), (1, [3]), (2, [4])], 2⟩ ∧
    ∀ (L p : Nat), p ∈ levelNodes [(0, [0, 1, 2]), (1, [3]), (2, [4])] L →
      ∃ n, [(⟨NodeType.Number, "2", [], 0, NodeStatus.StatusCreated⟩ : Node),
        ⟨NodeType.Number, "3", [], 0, NodeStatus.StatusCreated⟩,
        ⟨NodeType.Number, "4", [], 0, NodeStatus.StatusCreated⟩,
        ⟨NodeType.Operator, "*", [1, 2], 1, NodeStatus.StatusCreated⟩,
        ⟨NodeType.Operator, "+", [0, 3], 2, NodeStatus.StatusCreated⟩][p]? = some n ∧
        n.Level = L ∧
        (L = 0 → n.Typ = NodeType.Number ∧ n.Dependencies = []) ∧
        (0 < L → n.Typ = NodeType.Operator ∧
          ∃ (l r : Nat) (nl nr : Node), n.Dependencies = [l, r] ∧
            [(⟨NodeType.Number, "2", [], 0, NodeStatus.StatusCreated⟩ : Node),
              ⟨NodeType.Number, "3", [], 0, NodeStatus.StatusCreated⟩,
              ⟨NodeType.Number, "4", [], 0, NodeStatus.StatusCreated⟩,
              ⟨NodeType.Operator, "*", [1, 2], 1, NodeStatus.StatusCreated⟩,
              ⟨NodeType.Operator, "+", [0, 3], 2, NodeStatus.StatusCreated⟩][l]? = some nl ∧
            [(⟨NodeType.Number, "2", [], 0, NodeStatus.StatusCreated⟩ : Node),
              ⟨NodeType.Number, "3", [], 0, NodeStatus.StatusCreated⟩,
              ⟨NodeType.Number, "4", [], 0, NodeStatus.StatusCreated⟩,
              ⟨NodeType.Operator, "*", [1, 2], 1, NodeStatus.StatusCreated⟩,
              ⟨NodeType.Operator, "+", [0, 3], 2, NodeStatus.StatusCreated⟩][r]? = some nr ∧
            L = max nl.Level nr.Level + 1 ∧ nl.Level < L ∧ nr.Level < L) :=
  ⟨rfl, level_invariant "2+3*4" _ rfl⟩

/-- C12. Level-map shape: for every input on which `ParseExpression` succeeds,
the keys of the level map are exactly `0..maxLevel`, each once and each with a
non-empty node list, so the map has `maxLevel + 1` entries; and exactly one
node is listed under `maxLevel`: the root of the expression, the node allocated
last, of which every other node is a dependency of some node and which is
itself no node's dependency. -/
theorem level_map_shape (s : String) (dag : DAG) (h : ParseExpression s = .ok dag) :
    (mapKeys dag.levelMap).Perm (List.range (dag.maxLevel + 1)) ∧
    dag.levelMap.length = dag.maxLevel + 1 ∧
    (∀ L, L ≤ dag.maxLevel → levelNodes dag.levelMap L ≠ []) ∧
    levelNodes dag.levelMap dag.maxLevel = [dag.nodes.length - 1] ∧
    0 < dag.nodes.length ∧
    (∀ p, p < dag.nodes.length - 1 →
      ∃ (q : Nat) (n : Node), dag.nodes[q]? = some n ∧ p ∈ n.Dependencies) ∧
    (∀ (q : Nat) (n : Node), dag.nodes[q]? = some n → dag.nodes.length - 1 ∉ n.Dependencies) := by
  obtain ⟨st, root, hinv, hs, rfl, hnd, hne⟩ := parseExpression_build s dag h
  simp only
  have hrlt : root < st.nodes.length := hinv.stack_lt root (by simp [hs])
  have hnodep : ∀ (q : Nat) (n : Node), st.nodes[q]? = some n →
      st.nodes.length - 1 ∉ n.Dependencies := by
    intro q n hn hmem
    have hq := getElem?_lt_of_some _ _ _ hn
    obtain ⟨-, hb⟩ := hinv.node_ok q n hn
    rcases hb with ⟨-, hd, -, -⟩ | ⟨-, -, l, r, hd, hl, hr, -⟩
    · rw [hd] at hmem; simp at hmem
    · rw [hd] at hmem
      simp only [List.mem_cons, List.mem_singleton, List.not_mem_nil, or_false] at hmem
      omega
  have hroot : root = st.nodes.length - 1 := by
    rcases hinv.parent (st.nodes.length - 1) (by omega) with hm | ⟨q, n, hn, hmem⟩
    · simp only [hs, List.mem_singleton] at hm
      exact hm.symm
    · exact absurd hmem (hnodep q n hn)
  have hmaxnodes := levelNodes_maxLevel st hinv root hs
  have hmaxlev : levelOf st.nodes root = st.maxLevel :=
    ((mem_levelNodes_iff st hinv st.maxLevel root).1 (by rw [hmaxnodes]; simp)).2
  have hnonempty : ∀ L, L ≤ st.maxLevel → levelNodes st.levelMap L ≠ [] := by
    intro L hL
    obtain ⟨q, hq, hql⟩ := level_inhabited st hinv L root hrlt (by omega)
    exact List.ne_nil_of_mem ((mem_levelNodes_iff st hinv L q).2 ⟨hq, hql⟩)
  have hkeys : ∀ k, k ∈ mapKeys st.levelMap ↔ k ∈ List.range (st.maxLevel + 1) := by
    intro k
    rw [List.mem_range]
    constructor
    · intro hk
      obtain ⟨q, hq⟩ := List.exists_mem_of_ne_nil _ (hne k hk)
      obtain ⟨hqlt, hql⟩ := (mem_levelNodes_iff st hinv k q).1 hq
      have := levelOf_le_maxLevelOf st.nodes q
      rw [← hinv.max_level] at this
      omega
    · intro hk
      by_contra hc
      rw [← mapGet_none_iff] at hc
      exact hnonempty k (by omega) (by simp [levelNodes, hc])
  have hperm : (mapKeys st.levelMap).Perm (List.range (st.maxLevel + 1)) :=
    (List.perm_ext_iff_of_nodup hnd (List.nodup_range _)).2 hkeys
  refine ⟨hperm, ?_, hnonempty, by rw [hmaxnodes, hroot], by omega, ?_, hnodep⟩
  · have := hperm.length_eq
    simpa [mapKeys] using this
  · intro p hp
    rcases hinv.parent p (by omega) with hm | hq
    · simp only [hs, List.mem_singleton] at hm
      omega
    · exact hq

/-- C12, witness: the level map of `(2+3)*4` has the keys 0, 1, 2 and the root
alone under level 2. -/
theorem level_map_shape_witness :
    ParseExpression "(2+3)*4" = .ok
      ⟨[⟨NodeType.Number, "2", [], 0, NodeStatus.StatusCreated⟩,
        ⟨NodeType.Number, "3", [], 0, NodeStatus.StatusCreated⟩,
        ⟨NodeType.Operator, "+", [0, 1], 1, NodeStatus.StatusCreated⟩,
        ⟨NodeType.Number, "4", [], 0, NodeStatus.StatusCreated⟩,
        ⟨NodeType.Operator, "*", [2, 3], 2, NodeStatus.StatusCreated⟩],
       [(0, [0, 1, 3]), (1, [2]), (2, [4])], 2⟩ ∧
    (mapKeys [(0, [0, 1, 3]), (1, [2]), (2, [4])]).Perm (List.range (2 + 1)) ∧
    levelNodes [(0, [0, 1, 3]), (1, [2]), (2, [4])] 2 = [5 - 1] :=
  ⟨rfl, (level_map_shape "(2+3)*4" _ rfl).1, (level_map_shape "(2+3)*4" _ rfl).2.2.2.1⟩

/-! ## The local ids of the nodes -/

/-- The node map `prepareInput` builds, read at an id: the ids count the
visited pointers from `prevID + 1`. -/
theorem mapGet_idsFrom (a : Int) (ps : List Nat) (i : Int) :
    mapGet (idsFrom a ps) i = if a < i then ps[(i - a - 1).toNat]? else none := by
  induction ps generalizing a with
  | nil => simp [idsFrom, mapGet]
  | cons p ps ih =>
    simp only [idsFrom, mapGet, ih]
    by_cases h1 : a + 1 = i
    · subst h1
      simp
    · simp only [h1, if_false]
      by_cases h2 : a + 1 < i
      · have h3 : a < i := by omega
        have h4 : (i - a - 1).toNat = (i - (a + 1) - 1).toNat + 1 := by omega
        simp [h2, h3, h4]
      · have h3 : ¬ a < i := by omega
        simp [h2, h3]

theorem mem_levelOrder (nodes : List Node) (m : List (Nat × List Nat))
    (hm : ∀ L, levelNodes m L =
      (List.range nodes.length).filter (fun p => decide (levelOf nodes p = L)))
    (L k x : Nat) (hx : x ∈ levelOrder m L k) :
    x < nodes.length ∧ L ≤ levelOf nodes x ∧ levelOf nodes x < L + k := by
  have := (levelOrder_perm nodes m hm L k).mem_iff.1 hx
  simpa [List.mem_filter] using this

/-- The order in which `prepareInput` visits the nodes is ascending in the
level. -/
theorem levelOrder_sorted (nodes : List Node) (m : List (Nat × List Nat))
    (hm : ∀ L, levelNodes m L =
      (List.range nodes.length).filter (fun p => decide (levelOf nodes p = L)))
    (L k : Nat) :
    (levelOrder m L k).Pairwise (fun a b => levelOf nodes a ≤ levelOf nodes b) := by
  induction k generalizing L with
  | zero => simp [levelOrder]
  | succ k ih =>
    simp only [levelOrder]
    rw [List.pairwise_append]
    refine ⟨?_, ih (L + 1), ?_⟩
    · rw [hm L]
      apply List.Pairwise.imp_of_mem _ (List.pairwise_of_forall (fun _ _ => trivial))
      intro a b ha hb _
      simp only [List.mem_filter, decide_eq_true_eq] at ha hb
      omega
    · intro a ha b hb
      rw [hm L] at ha
      simp only [List.mem_filter, decide_eq_true_eq] at ha
      have := mem_levelOrder nodes m hm (L + 1) k b hb
      omega

/-- C13. Local node ids: when `prepareInput` succeeds, the keys of the
expression's node map are exactly 1 to N for its N nodes, each node under one
id; the ids ascend with the level (for ids `i < j` the level of node `i` is at
most that of node `j`), the node with id N is the root, of a level above every
other node's, and every dependency of a node of the map is in the map under a
smaller id. -/
theorem local_ids (o o1 : Orchestrator) (s : String) (p : Nat)
    (h : prepareInput o s = (o1, .ok p)) :
    ∃ e, o1.exprs[p]? = some e ∧
      mapKeys e.IdMap = localIds e.nodes.length ∧
      (∀ q, q < e.nodes.length → ∃ id, mapGet e.IdMap id = some q) ∧
      (∀ (i j : Int) (qi qj : Nat) (ni nj : Node),
        mapGet e.IdMap i = some qi → mapGet e.IdMap j = some qj →
        e.nodes[qi]? = some ni → e.nodes[qj]? = some nj → i < j → ni.Level ≤ nj.Level) ∧
      (∃ (qr : Nat) (nr : Node), mapGet e.IdMap (e.nodes.length : Int) = some qr ∧
        e.nodes[qr]? = some nr ∧
        ∀ (q : Nat) (n : Node), e.nodes[q]? = some n → q ≠ qr → n.Level < nr.Level) ∧
      (∀ (j : Int) (qj : Nat) (nj : Node) (d : Nat),
        mapGet e.IdMap j = some qj → e.nodes[qj]? = some nj → d ∈ nj.Dependencies →
        ∃ i, mapGet e.IdMap i = some d ∧ i < j) := by
  cases hp : ParseExpression s with
  | error err => simp [prepareInput, hp] at h
  | ok dag =>
    rw [prepareInput_ok o s dag hp] at h
    simp only [Prod.mk.injEq, Except.ok.injEq] at h
    obtain ⟨rfl, rfl⟩ := h
    obtain ⟨poland, -, hc⟩ := parseExpression_createDAG s dag hp
    have hinvE := exprInv_prepared poland dag (wrapInt32 (o.PrevExpressionID + 1)) hc
    obtain ⟨st, root, hinv, -, hs, rfl⟩ := createDAG_ok poland dag hc
    refine ⟨_, List.getElem?_concat_length _ _, mapKeys_localIds _ hinvE, ?_, ?_, ?_, ?_⟩
    · intro q hq
      obtain ⟨id, -, hid⟩ := idMap_covers _ hinvE q hq
      exact ⟨id, hid⟩
    all_goals simp only [List.length_map]
    · intro i j qi qj ni nj hi hj hni hnj hij
      rw [mapGet_idsFrom] at hi hj
      split at hi
      · split at hj
        · have hsorted := levelOrder_sorted st.nodes st.levelMap hinv.level_map 0 (st.maxLevel + 1)
          rw [List.pairwise_iff_getElem] at hsorted
          obtain ⟨hilt, hieq⟩ := List.getElem?_eq_some_iff.1 hi
          obtain ⟨hjlt, hjeq⟩ := List.getElem?_eq_some_iff.1 hj
          have := hsorted _ _ hilt hjlt (by omega)
          rw [hieq, hjeq, ← levelOf_map_markNode, ← levelOf_map_markNode _ qj,
            levelOf_eq_of_getElem? _ _ _ hni, levelOf_eq_of_getElem? _ _ _ hnj] at this
          exact this
        · cases hj
      · cases hi
    · have hperm := levelOrder_perm_range st hinv
      have hlen : (levelOrder st.levelMap 0 (st.maxLevel + 1)).length = st.nodes.length := by
        rw [hperm.length_eq, List.length_range]
      have hrlt : root < st.nodes.length := hinv.stack_lt root (by simp [hs])
      have hlt : ∀ q, q < st.nodes.length → q ≠ root →
          levelOf st.nodes q < levelOf st.nodes root := by
        intro q hq hne
        rcases hinv.covered q hq with hm | ⟨r, hr', hlev⟩
        · simp [hs] at hm; exact absurd hm hne
        · simp only [hs, List.mem_singleton] at hr'
          subst hr'; exact hlev
      have hlast : (levelOrder st.levelMap 0 (st.maxLevel + 1))[st.nodes.length - 1]? =
          some root := by
        obtain ⟨k, hk, hkeq⟩ := List.getElem_of_mem (hperm.mem_iff.2 (List.mem_range.2 hrlt))
        by_cases hkl : k = st.nodes.length - 1
        · subst hkl
          rw [List.getElem?_eq_getElem hk, hkeq]
        · exfalso
          have hsorted := levelOrder_sorted st.nodes st.levelMap hinv.level_map 0 (st.maxLevel + 1)
          rw [List.pairwise_iff_getElem] at hsorted
          have hl1 : st.nodes.length - 1 < (levelOrder st.levelMap 0 (st.maxLevel + 1)).length := by
            omega
          have := hsorted k (st.nodes.length - 1) hk hl1 (by omega)
          rw [hkeq] at this
          have hx : (levelOrder st.levelMap 0 (st.maxLevel + 1))[st.nodes.length - 1] ∈
              List.range st.nodes.length := hperm.mem_iff.1 (List.getElem_mem _)
          have hne : (levelOrder st.levelMap 0 (st.maxLevel + 1))[st.nodes.length - 1] ≠ root := by
            intro heq
            have hnd : (levelOrder st.levelMap 0 (st.maxLevel + 1)).Nodup :=
              hperm.nodup_iff.2 (List.nodup_range _)
            have := (List.Nodup.getElem_inj_iff hnd).1 (heq.trans hkeq.symm)
            omega
          have := hlt _ (List.mem_range.1 hx) hne
          omega
      obtain ⟨nr, hnr⟩ : ∃ nr, (st.nodes.map markNode)[root]? = some nr :=
        ⟨_, List.getElem?_eq_getElem (by simpa using hrlt)⟩
      refine ⟨root, nr, ?_, hnr, ?_⟩
      · rw [mapGet_idsFrom]
        have h0 : (0 : Int) < (st.nodes.length : Int) := by omega
        have h1 : ((st.nodes.length : Int) - 0 - 1).toNat = st.nodes.length - 1 := by omega
        rw [if_pos h0, h1, hlast]
      · intro q n hn hne
        have hq : q < st.nodes.length := by
          simpa using getElem?_lt_of_some _ _ _ hn
        have := hlt q hq hne
        rw [← levelOf_map_markNode, ← levelOf_map_markNode _ root,
          levelOf_eq_of_getElem? _ _ _ hn, levelOf_eq_of_getElem? _ _ _ hnr] at this
        exact this
    · intro j qj nj d hj hnj hd
      have hperm := levelOrder_perm_range st hinv
      have hsorted := levelOrder_sorted st.nodes st.levelMap hinv.level_map 0 (st.maxLevel + 1)
      rw [List.pairwise_iff_getElem] at hsorted
      rw [mapGet_idsFrom] at hj
      split at hj
      · rename_i hjpos
        obtain ⟨hjlt, hjeq⟩ := List.getElem?_eq_some_iff.1 hj
        have hqj : qj < (st.nodes.map markNode).length := getElem?_lt_of_some _ _ _ hnj
        rcases hinvE.shape qj nj hnj with ⟨hd0, -⟩ | ⟨l, r, hdeps, hl, hr, hlev⟩
        · rw [hd0] at hd; simp at hd
        · simp only [levelOf_map_markNode] at hlev
          have hdlt : d < qj ∧ levelOf st.nodes d < levelOf st.nodes qj := by
            rw [hdeps] at hd
            simp only [List.mem_cons, List.mem_singleton, List.not_mem_nil, or_false] at hd
            have hlq : levelOf st.nodes qj = nj.Level := by
              rw [← levelOf_map_markNode]; exact levelOf_eq_of_getElem? _ _ _ hnj
            have h1 := le_max_left (levelOf st.nodes r) (levelOf st.nodes l)
            have h2 := le_max_right (levelOf st.nodes r) (levelOf st.nodes l)
            rcases hd with rfl | rfl
            · exact ⟨hl, by omega⟩
            · exact ⟨hr, by omega⟩
          simp only [List.length_map] at hqj
          obtain ⟨k, hk, hkeq⟩ := List.getElem_of_mem
            (hperm.mem_iff.2 (List.mem_range.2 (by omega : d < st.nodes.length)))
          have hkj : k < (j - 0 - 1).toNat := by
            by_contra hc
            rcases Nat.lt_or_ge (j - 0 - 1).toNat k with hgt | hge
            · have := hsorted _ _ hjlt hk hgt
              rw [hjeq, hkeq] at this
              omega
            · have hke : k = (j - 0 - 1).toNat := by omega
              subst hke
              rw [hjeq] at hkeq
              omega
          refine ⟨(k : Int) + 1, ?_, by omega⟩
          rw [mapGet_idsFrom]
          have h0 : (0 : Int) < (k : Int) + 1 := by omega
          have h1 : ((k : Int) + 1 - 0 - 1).toNat = k := by omega
          rw [if_pos h0, h1, List.getElem?_eq_getElem hk, hkeq]
      · cases hj

/-- C13, witness: the local ids of `2+3*4`: 2, 3 and 4 get the ids 1, 2 and 3,
the product the id 4 and the sum, the root, the id 5. -/
theorem local_ids_witness :
    prepareInput (NewOrchestrator ⟨8080, 100, 100, 100, 100⟩) "2+3*4" =
      ({ exprs := [{ ID := 1
                     nodes := [⟨NodeType.Number, "2", [], 0, NodeStatus.StatusDone⟩,
                       ⟨NodeType.Number, "3", [], 0, NodeStatus.StatusDone⟩,
                       ⟨NodeType.Number, "4", [], 0, NodeStatus.StatusDone⟩,
                       ⟨NodeType.Operator, "*", [1, 2], 1, NodeStatus.StatusInQueue⟩,
                       ⟨NodeType.Operator, "+", [0, 3], 2, NodeStatus.StatusInQueue⟩]
                     IdMap := [(1, 0), (2, 1), (3, 2), (4, 3), (5, 4)]
                     Status := ExpressionStatus.StatusCreated
                     Err := none
                     Result := 0 }]
         Queue := []
         PrevExpressionID := 1
         DataBase := [(1, 0)]
         Config := ⟨8080, 100, 100, 100, 100⟩ }, .ok 0) ∧
    ∃ e, ([({ ID := 1
              nodes := [⟨NodeType.Number, "2", [], 0, NodeStatus.StatusDone⟩,
                ⟨NodeType.Number, "3", [], 0, NodeStatus.StatusDone⟩,
                ⟨NodeType.Number, "4", [], 0, NodeStatus.StatusDone⟩,
                ⟨NodeType.Operator, "*", [1, 2], 1, NodeStatus.StatusInQueue⟩,
                ⟨NodeType.Operator, "+", [0, 3], 2, NodeStatus.StatusInQueue⟩]
              IdMap := [(1, 0), (2, 1), (3, 2), (4, 3), (5, 4)]
              Status := ExpressionStatus.StatusCreated
              Err := none
              Result := 0 } : Expression)])[0]? = some e ∧
      mapKeys e.IdMap = localIds e.nodes.length := by
  have h : prepareInput (NewOrchestrator ⟨8080, 100, 100, 100, 100⟩) "2+3*4" =
      ({ exprs := [{ ID := 1
                     nodes := [⟨NodeType.Number, "2", [], 0, NodeStatus.StatusDone⟩,
                       ⟨NodeType.Number, "3", [], 0, NodeStatus.StatusDone⟩,
                       ⟨NodeType.Number, "4", [], 0, NodeStatus.StatusDone⟩,
                       ⟨NodeType.Operator, "*", [1, 2], 1, NodeStatus.StatusInQueue⟩,
                       ⟨NodeType.Operator, "+", [0, 3], 2, NodeStatus.StatusInQueue⟩]
                     IdMap := [(1, 0), (2, 1), (3, 2), (4, 3), (5, 4)]
                     Status := ExpressionStatus.StatusCreated
                     Err := none
                     Result := 0 }]
         Queue := []
         PrevExpressionID := 1
         DataBase := [(1, 0)]
         Config := ⟨8080, 100, 100, 100, 100⟩ }, .ok 0) := rfl
  obtain ⟨e, h1, h2, -⟩ := local_ids _ _ "2+3*4" 0 h
  exact ⟨h, e, h1, h2⟩

/-! ## Submission -/

/-- C14. Submit postcondition: for every input that compiles, Submit answers
with the id of the new expression and the status in_queue; the new expression
is allocated behind the expressions there were, which stay as they are, and is
the last element of the queue, after the previous queue; the registry maps the
returned id to it; its Number nodes are Done and its Operator nodes InQueue. -/
theorem submit_postcondition (o : Orchestrator) (s : String) (dag : DAG)
    (h : ParseExpression s = .ok dag) :
    ∃ (id : Int) (e : Expression),
      (CalculateHandler o s).2 = Response.calculated id ExpressionStatus.StatusInQueue ∧
      (CalculateHandler o s).1.exprs = o.exprs ++ [e] ∧
      (CalculateHandler o s).1.Queue = o.Queue ++ [o.exprs.length] ∧
      mapGet (CalculateHandler o s).1.DataBase id = some o.exprs.length ∧
      id = wrapInt32 (o.PrevExpressionID + 1) ∧
      e.ID = id ∧ e.Status = ExpressionStatus.StatusInQueue ∧ e.Err = none ∧
      (∀ n ∈ e.nodes,
        (n.Typ = NodeType.Number → n.Status = NodeStatus.StatusDone) ∧
        (n.Typ = NodeType.Operator → n.Status = NodeStatus.StatusInQueue)) ∧
      (∀ n ∈ mapNodes e, n ∈ e.nodes) := by
  rw [CalculateHandler_ok o s dag h]
  refine ⟨_, _, rfl, rfl, rfl, ?_, rfl, rfl, rfl, rfl, ?_, ?_⟩
  · simp [mapGet_mapSet]
  · intro n hn
    simp only [List.mem_map] at hn
    obtain ⟨m, -, rfl⟩ := hn
    unfold markNode
    by_cases hm : m.Typ = NodeType.Number
    · simp [hm]
    · simp [hm]
  · intro n hn
    simp only [mapNodes, List.mem_filterMap] at hn
    obtain ⟨kv, -, hkv⟩ := hn
    exact List.getElem?_mem hkv

/-- C14, witness: the submission of `2+3` to a fresh orchestrator. -/
theorem submit_postcondition_witness :
    ParseExpression "2+3" = .ok
      ⟨[⟨NodeType.Number, "2", [], 0, NodeStatus.StatusCreated⟩,
        ⟨NodeType.Number, "3", [], 0, NodeStatus.StatusCreated⟩,
        ⟨NodeType.Operator, "+", [0, 1], 1, NodeStatus.StatusCreated⟩],
       [(0, [0, 1]), (1, [2])], 1⟩ ∧
    (CalculateHandler (NewOrchestrator ⟨8080, 100, 100, 100, 100⟩) "2+3").2 =
      Response.calculated 1 ExpressionStatus.StatusInQueue ∧
    (CalculateHandler (NewOrchestrator ⟨8080, 100, 100, 100, 100⟩) "2+3").1.Queue = [0] := by
  have hp : ParseExpression "2+3" = .ok
      ⟨[⟨NodeType.Number, "2", [], 0, NodeStatus.StatusCreated⟩,
        ⟨NodeType.Number, "3", [], 0, NodeStatus.StatusCreated⟩,
        ⟨NodeType.Operator, "+", [0, 1], 1, NodeStatus.StatusCreated⟩],
       [(0, [0, 1]), (1, [2])], 1⟩ := rfl
  obtain ⟨id, e, h1, -, h3, -, h5, -⟩ :=
    submit_postcondition (NewOrchestrator ⟨8080, 100, 100, 100, 100⟩) "2+3" _ hp
  refine ⟨hp, ?_, h3⟩
  rw [h1, h5]
  rfl

/-- C15. Compile failure is atomic: for every input on which `ParseExpression`
returns an error, `prepareInput` returns that error and `CalculateHandler`
answers 422 "Invalid expression", and both leave the orchestrator as it was:
the queue, the registry, the expressions and the id counter. -/
theorem compile_failure_atomic (o : Orchestrator) (s : String) (err : String)
    (h : ParseExpression s = .error err) :
    prepareInput o s = (o, .error err) ∧
    CalculateHandler o s = (o, Response.error 422 "Invalid expression") := by
  constructor
  · simp [prepareInput, h]
  · exact CalculateHandler_error o s err h

/-- C15, witness: `2++3` does not compile, and its submission changes
nothing. -/
theorem compile_failure_atomic_witness :
    ParseExpression "2++3" = .error "stack.pop not ok" ∧
    prepareInput (NewOrchestrator ⟨8080, 100, 100, 100, 100⟩) "2++3" =
      (NewOrchestrator ⟨8080, 100, 100, 100, 100⟩, .error "stack.pop not ok") ∧
    CalculateHandler (NewOrchestrator ⟨8080, 100, 100, 100, 100⟩) "2++3" =
      (NewOrchestrator ⟨8080, 100, 100, 100, 100⟩, Response.error 422 "Invalid expression") :=
  ⟨rfl, compile_failure_atomic (NewOrchestrator ⟨8080, 100, 100, 100, 100⟩) "2++3"
    "stack.pop not ok" rfl⟩

/-! ## The registry and the queue while no id is handed out twice -/

theorem update_set_self {α : Type} (xs : List α) (p : Nat) (x : α) (f : α → α)
    (h : p < xs.length) : update (xs.set p x) p f = xs.set p (f x) := by
  unfold update
  simp [h]

theorem set_self_of_getElem? {α : Type} (xs : List α) (p : Nat) (x : α)
    (h : xs[p]? = some x) : xs.set p x = xs := by
  apply List.ext_getElem?
  intro i
  rw [List.getElem?_set]
  by_cases hi : p = i
  · subst hi
    simp [getElem?_lt_of_some _ _ _ h, h]
  · simp [hi]

/-- The state after `GetTaskHandler` on a non-empty queue: only the head
expression is rewritten, the queue and the registry stay. -/
theorem GetTaskHandler_head (o : Orchestrator) (order : List Int) (p : Nat) (tail : List Nat)
    (expr : Expression) (hq : o.Queue = p :: tail) (he : o.exprs[p]? = some expr) :
    (GetTaskHandler o order).1 =
      { o with exprs := o.exprs.set p ({ expr with Status := ExpressionStatus.StatusInProgress,
                                                   nodes := (claimLoop o.Config expr.IdMap order expr.nodes).1 }) } := by
  simp [GetTaskHandler, hq, he]

theorem setRegistryStatus_exact (o : Orchestrator) (id : Int) (s : ExpressionStatus) (p : Nat)
    (h : mapGet o.DataBase id = some p) (hp : p < o.exprs.length) :
    setRegistryStatus o id s =
      some { o with exprs := update o.exprs p (fun e => { e with Status := s }) } := by
  simp [setRegistryStatus, h, hp]

/-- The state after `PostTaskHandler` when the registry holds the head
expression under its id: only the head expression is rewritten, the registry
and the counter stay, and the queue stays or loses its head. -/
theorem PostTaskHandler_head (o : Orchestrator) (ID : Int) (Result : ℚ) (Error : String)
    (order : List Int) (p : Nat) (tail : List Nat) (expr : Expression)
    (hq : o.Queue = p :: tail) (he : o.exprs[p]? = some expr)
    (hreg : mapGet o.DataBase expr.ID = some p) :
    ∃ E : Expression,
      (PostTaskHandler o ID Result Error order).1.exprs = o.exprs.set p E ∧
      (PostTaskHandler o ID Result Error order).1.DataBase = o.DataBase ∧
      E.ID = expr.ID ∧ E.IdMap = expr.IdMap ∧
      (((PostTaskHandler o ID Result Error order).1.Queue = p :: tail ∧
          (E.Status = expr.Status ∨ E.Status = ExpressionStatus.StatusInQueue)) ∨
        (PostTaskHandler o ID Result Error order).1.Queue = tail) := by
  have hplt : p < o.exprs.length := getElem?_lt_of_some _ _ _ he
  have hself : o.exprs = o.exprs.set p expr := (set_self_of_getElem? _ _ _ he).symm
  have hreg1 : ∀ (E : Expression) (queue : List Nat) (s : ExpressionStatus),
      setRegistryStatus { o with exprs := o.exprs.set p E, Queue := queue } expr.ID s =
        some { o with exprs := o.exprs.set p ({ E with Status := s }), Queue := queue } := by
    intro E queue s
    rw [setRegistryStatus_exact { o with exprs := o.exprs.set p E, Queue := queue } expr.ID s p
      hreg (by simpa using hplt)]
    simp only [update_set_self _ _ _ _ hplt]
  unfold PostTaskHandler
  simp only [hq, he]
  cases hid : (mapGet expr.IdMap ID).bind
      (fun q => if q < expr.nodes.length then some q else none) with
  | none => exact ⟨expr, hself, rfl, rfl, rfl, Or.inl ⟨hq, Or.inl rfl⟩⟩
  | some q =>
    simp only
    by_cases herr : Error = ""
    · simp only [herr, ne_eq, not_true_eq_false, if_false]
      split
      · split
        · exact ⟨_, rfl, rfl, rfl, rfl, Or.inl ⟨rfl, Or.inl rfl⟩⟩
        · split
          · exact ⟨_, rfl, rfl, rfl, rfl, Or.inl ⟨rfl, Or.inl rfl⟩⟩
          · rename_i node hnode result hres
            have := hreg1 ({ expr with
              nodes := update expr.nodes q (reportNode (sprintf5 Result))
              Result := result
              Status := ExpressionStatus.StatusDone }) o.Queue ExpressionStatus.StatusDone
            simp only [hq] at this
            rw [this]
            exact ⟨_, rfl, rfl, rfl, rfl, Or.inr rfl⟩
      · have := hreg1 ({ expr with
          nodes := update expr.nodes q (reportNode (sprintf5 Result))
          Status := ExpressionStatus.StatusInQueue }) o.Queue ExpressionStatus.StatusInQueue
        simp only [hq] at this
        rw [this]
        exact ⟨_, rfl, rfl, rfl, rfl, Or.inl ⟨rfl, Or.inr rfl⟩⟩
    · simp only [herr, ne_eq, not_false_eq_true, if_true]
      have := hreg1 ({ expr with
        nodes := update expr.nodes q (reportNode (sprintf5 Result))
        Status := ExpressionStatus.StatusError
        Err := some (Errorf Error) }) tail ExpressionStatus.StatusError
      rw [this]
      exact ⟨_, rfl, rfl, rfl, rfl, Or.inr rfl⟩

theorem regInv_set (o o1 : Orchestrator) (p : Nat) (tail : List Nat) (expr E : Expression)
    (h : RegInv o) (hq : o.Queue = p :: tail) (he : o.exprs[p]? = some expr)
    (hid : E.ID = expr.ID) (hex : o1.exprs = o.exprs.set p E) (hdb : o1.DataBase = o.DataBase)
    (hqueue : (o1.Queue = p :: tail ∧ ¬ E.terminal) ∨ o1.Queue = tail) : RegInv o1 := by
  have hplt : p < o.exprs.length := getElem?_lt_of_some _ _ _ he
  have hnd : (p :: tail).Nodup := hq ▸ h.queue_nodup
  have hother : ∀ i ∈ tail, ∀ (e : Expression), o1.exprs[i]? = some e → ¬ e.terminal := by
    intro i hi e hie
    have hne : i ≠ p := fun hip => (List.nodup_cons.1 hnd).1 (hip ▸ hi)
    rw [hex] at hie
    rcases set_getElem?_cases _ _ _ _ _ hie with ⟨h1, -⟩ | ⟨-, h1⟩
    · exact absurd h1 hne
    · exact h.queue_live i (by rw [hq]; exact List.mem_cons_of_mem _ hi) e h1
  constructor
  · intro i e hi
    rw [hex] at hi
    rw [hdb]
    rcases set_getElem?_cases _ _ _ _ _ hi with ⟨rfl, rfl⟩ | ⟨-, h1⟩
    · rw [hid]; exact h.exact i expr he
    · exact h.exact i e h1
  · intro id q hm
    rw [hdb] at hm
    obtain ⟨e, he1, hide⟩ := h.keys id q hm
    rw [hex]
    by_cases hqp : q = p
    · subst hqp
      rw [he] at he1
      cases he1
      exact ⟨E, set_getElem?_self _ _ _ hplt, hid.trans hide⟩
    · refine ⟨e, ?_, hide⟩
      rw [List.getElem?_set]
      simp [Ne.symm hqp, he1]
  · rcases hqueue with ⟨h1, -⟩ | h1
    · rw [h1]; exact hnd
    · rw [h1]; exact (List.nodup_cons.1 hnd).2
  · intro i hi e hie
    rcases hqueue with ⟨h1, h2⟩ | h1
    · rw [h1] at hi
      rcases List.mem_cons.1 hi with rfl | hi
      · rw [hex, set_getElem?_self _ _ _ hplt] at hie
        cases hie
        exact h2
      · exact hother i hi e hie
    · rw [h1] at hi
      exact hother i hi e hie

theorem regInv_GetTaskHandler (o : Orchestrator) (order : List Int) (h : OrchInv o)
    (hr : RegInv o) : RegInv (GetTaskHandler o order).1 := by
  cases hq : o.Queue with
  | nil => rw [GetTaskHandler_empty o order hq]; exact hr
  | cons p tail =>
    obtain ⟨expr, he, -⟩ := queue_head_expr o h p tail hq
    rw [GetTaskHandler_head o order p tail expr hq he]
    refine regInv_set o _ p tail expr
      ({ expr with Status := ExpressionStatus.StatusInProgress,
                   nodes := (claimLoop o.Config expr.IdMap order expr.nodes).1 })
      hr hq he rfl rfl rfl (Or.inl ⟨hq, ?_⟩)
    simp [Expression.terminal]

theorem regInv_PostTaskHandler (o : Orchestrator) (ID : Int) (Result : ℚ) (Error : String)
    (order : List Int) (h : OrchInv o) (hr : RegInv o) :
    RegInv (PostTaskHandler o ID Result Error order).1 := by
  cases hq : o.Queue with
  | nil => rw [PostTaskHandler_empty o ID Result Error order hq]; exact hr
  | cons p tail =>
    obtain ⟨expr, he, -⟩ := queue_head_expr o h p tail hq
    obtain ⟨E, hex, hdb, hid, -, hqueue⟩ := PostTaskHandler_head o ID Result Error order p tail
      expr hq he (hr.exact p expr he)
    refine regInv_set o _ p tail expr E hr hq he hid hex hdb ?_
    rcases hqueue with ⟨h1, h2⟩ | h1
    · refine Or.inl ⟨h1, ?_⟩
      have hlive := hr.queue_live p (by rw [hq]; simp) expr he
      rcases h2 with h2 | h2
      · simpa [Expression.terminal, h2] using hlive
      · simp [Expression.terminal, h2]
    · exact Or.inr h1

/-- A submission keeps the registry exact while its id is fresh, which it is
among the first `2^32` expressions. -/
theorem regInv_CalculateHandler (o : Orchestrator) (s : String) (h : OrchInv o) (hs : IdSeq o)
    (hr : RegInv o) (hlen : (CalculateHandler o s).1.exprs.length ≤ 4294967296) :
    RegInv (CalculateHandler o s).1 := by
  cases hp : ParseExpression s with
  | error e => rw [CalculateHandler_error o s e hp]; exact hr
  | ok dag =>
    rw [CalculateHandler_ok o s dag hp] at hlen ⊢
    simp only [List.length_append, List.length_singleton] at hlen
    have hfresh : ∀ (i : Nat) (e : Expression), o.exprs[i]? = some e →
        e.ID ≠ wrapInt32 (o.PrevExpressionID + 1) := by
      intro i e hi heq
      have hilt := getElem?_lt_of_some _ _ _ hi
      rw [hs.2 i e hi, hs.1, wrapInt32_succ] at heq
      have := wrapInt32_inj i o.exprs.length (by omega) (by omega) heq
      omega
    constructor
    · intro i e hi
      simp only at hi ⊢
      rw [mapGet_mapSet, mapGet_mapSet]
      rcases getElem?_append_singleton _ _ _ _ hi with ⟨-, h1⟩ | ⟨rfl, rfl⟩
      · simp only [hfresh i e h1, if_false]
        exact hr.exact i e h1
      · simp
    · intro id q hm
      simp only at hm ⊢
      rw [mapGet_mapSet, mapGet_mapSet] at hm
      by_cases hid : id = wrapInt32 (o.PrevExpressionID + 1)
      · simp only [hid, if_true, Option.some.injEq] at hm
        subst hm
        exact ⟨_, List.getElem?_concat_length _ _, hid.symm⟩
      · simp only [hid, if_false] at hm
        obtain ⟨e, he, hide⟩ := hr.keys id q hm
        refine ⟨e, ?_, hide⟩
        rw [List.getElem?_append_left (getElem?_lt_of_some _ _ _ he)]
        exact he
    · simp only
      refine List.Nodup.append hr.queue_nodup (List.nodup_singleton _) ?_
      intro x hx hx2
      simp only [List.mem_singleton] at hx2
      have := h.queue_lt x hx
      omega
    · intro i hi e hie
      simp only at hi hie
      rcases getElem?_append_singleton _ _ _ _ hie with ⟨hilt, h1⟩ | ⟨rfl, rfl⟩
      · rcases List.mem_append.1 hi with hi | hi
        · exact hr.queue_live i hi e h1
        · simp only [List.mem_singleton] at hi
          omega
      · simp [Expression.terminal]

theorem regInv_step (o : Orchestrator) (c : Call) (h : OrchInv o) (hs : IdSeq o) (hr : RegInv o)
    (hlen : (step o c).1.exprs.length ≤ 4294967296) : RegInv (step o c).1 := by
  cases c with
  | Submit s => exact regInv_CalculateHandler o s h hs hr hlen
  | Claim order => exact regInv_GetTaskHandler o order h hr
  | Report id result error order => exact regInv_PostTaskHandler o id result error order h hr

theorem regInv_init (cfg : OrchestratorConfig) : RegInv (NewOrchestrator cfg) := by
  constructor <;> simp [NewOrchestrator, mapGet]

theorem idSeq_reachable (cfg : OrchestratorConfig) (o : Orchestrator) (h : Reachable cfg o) :
    IdSeq o := by
  induction h with
  | init => exact idSeq_init cfg
  | next o c hr hv ih => exact idSeq_step o c (reachable_inv cfg o hr) ih hv

/-- In a reachable state with at most `2^32` expressions the registry is
exact, and the queue lists unfinished expressions, each once. -/
theorem regInv_reachable (cfg : OrchestratorConfig) (o : Orchestrator) (h : Reachable cfg o)
    (hlen : o.exprs.length ≤ 4294967296) : RegInv o := by
  induction h with
  | init => exact regInv_init cfg
  | next o c hr hv ih =>
    have := (step_length o c).1
    exact regInv_step o c (reachable_inv cfg o hr) (idSeq_reachable cfg o hr) (ih (by omega)) hlen

/-! ## The ids of the expressions -/

theorem returnedIds_cons (r : Response) (rs : List Response) :
    returnedIds (r :: rs) = returnedIds [r] ++ returnedIds rs := by
  cases r <;> simp [returnedIds]

theorem returnedIds_GetTaskHandler (o : Orchestrator) (order : List Int) :
    returnedIds [(GetTaskHandler o order).2] = [] := by
  unfold GetTaskHandler
  split
  · rfl
  · split
    · rfl
    · simp only
      split <;> rfl

theorem returnedIds_PostTaskHandler (o : Orchestrator) (ID : Int) (Result : ℚ) (Error : String)
    (order : List Int) : returnedIds [(PostTaskHandler o ID Result Error order).2] = [] := by
  unfold PostTaskHandler
  dsimp only
  repeat' split
  all_goals rfl

/-- The id a call returns, if it is a successful submission: the counter's next
value. -/
theorem returnedIds_step (o : Orchestrator) (c : Call) :
    returnedIds [(step o c).2] =
      if (step o c).1.exprs.length = o.exprs.length + 1 then [wrapInt32 (o.PrevExpressionID + 1)]
      else [] := by
  cases c with
  | Submit s =>
    simp only [step]
    cases hp : ParseExpression s with
    | error e => simp [CalculateHandler_error o s e hp, returnedIds]
    | ok dag => simp [CalculateHandler_ok o s dag hp, returnedIds]
  | Claim order =>
    simp only [step]
    simp [returnedIds_GetTaskHandler, (GetTaskHandler_frame o order).2]
  | Report id result error order =>
    simp only [step]
    simp [returnedIds_PostTaskHandler, (PostTaskHandler_frame o id result error order).2]

/-- The ids the successful submissions of a run return: the allocation numbers
of the expressions they create, as 32-bit integers. -/
theorem returnedIds_run (calls : List Call) (o : Orchestrator) (h : OrchInv o) (hs : IdSeq o)
    (hv : validRun o calls) :
    returnedIds (run o calls).2 =
      List.map (fun (i : Nat) => wrapInt32 ((i : Int) + 1))
        (List.range' o.exprs.length ((run o calls).1.exprs.length - o.exprs.length)) := by
  induction calls generalizing o with
  | nil => simp [run, returnedIds]
  | cons c cs ih =>
    simp only [run]
    rw [returnedIds_cons, returnedIds_step,
      ih (step o c).1 (orchInv_step o c h hv.1) (idSeq_step o c h hs hv.1) hv.2]
    have h1 := step_length o c
    have h2 := (run_length cs (step o c).1).1
    by_cases hl : (step o c).1.exprs.length = o.exprs.length + 1
    · have h3 : (run (step o c).1 cs).1.exprs.length - o.exprs.length =
          ((run (step o c).1 cs).1.exprs.length - (step o c).1.exprs.length) + 1 := by omega
      rw [if_pos hl, h3, List.range'_succ, List.map_cons, hl, hs.1, wrapInt32_succ]
      rfl
    · have h3 : (step o c).1.exprs.length = o.exprs.length := by omega
      rw [if_neg hl, h3, List.nil_append]

theorem wrapInt32_small (i : Nat) (h : i < 2147483647) : wrapInt32 ((i : Int) + 1) = (i : Int) + 1 := by
  unfold wrapInt32; omega

/-- C16 as amended. Expression ids: in every sequence of calls from a fresh
orchestrator that creates fewer than `2^31` expressions, the successful
submissions return the ids 1, 2, 3, ... in this order, each strictly greater
than every id returned before it; every expression keeps the id it was created
with, and the registry maps that id to it, so no registry entry was
overwritten. -/
theorem expression_ids (cfg : OrchestratorConfig) (calls : List Call)
    (hv : validRun (NewOrchestrator cfg) calls)
    (hn : (run (NewOrchestrator cfg) calls).1.exprs.length < 2147483648) :
    returnedIds (run (NewOrchestrator cfg) calls).2 =
      localIds (run (NewOrchestrator cfg) calls).1.exprs.length ∧
    (returnedIds (run (NewOrchestrator cfg) calls).2).Pairwise (fun a b => a < b) ∧
    ∀ (p : Nat) (e : Expression), (run (NewOrchestrator cfg) calls).1.exprs[p]? = some e →
      e.ID = (p : Int) + 1 ∧
      mapGet (run (NewOrchestrator cfg) calls).1.DataBase ((p : Int) + 1) = some p := by
  have hids := returnedIds_run calls _ (orchInv_init cfg) (idSeq_init cfg) hv
  simp only [NewOrchestrator, List.length_nil, Nat.sub_zero] at hids
  have hreach := reachable_run cfg _ calls Reachable.init hv
  have heq : returnedIds (run (NewOrchestrator cfg) calls).2 =
      localIds (run (NewOrchestrator cfg) calls).1.exprs.length := by
    unfold NewOrchestrator localIds
    rw [hids, ← List.range_eq_range']
    apply List.map_congr_left
    intro i hi
    exact wrapInt32_small i (by have := List.mem_range.1 hi; simp only [NewOrchestrator] at hn; omega)
  refine ⟨heq, ?_, fun p e hp => ?_⟩
  · rw [heq]
    unfold localIds
    rw [List.pairwise_map]
    exact List.Pairwise.imp (fun hab => by omega) (List.pairwise_lt_range _)
  · have hseq := idSeq_reachable cfg _ hreach
    have hreg := regInv_reachable cfg _ hreach (by omega)
    have hplt := getElem?_lt_of_some _ _ _ hp
    have hid : e.ID = (p : Int) + 1 := by
      rw [hseq.2 p e hp]
      exact wrapInt32_small p (by omega)
    refine ⟨hid, ?_⟩
    rw [← hid]
    exact hreg.exact p e hp

/-- C16, witness: two submissions around a claim return 1 and 2. -/
theorem expression_ids_witness :
    returnedIds (run (NewOrchestrator ⟨8080, 100, 100, 100, 100⟩)
      [Call.Submit "2+3", Call.Claim [1, 2, 3], Call.Submit "4*5"]).2 = [1, 2] ∧
    (returnedIds (run (NewOrchestrator ⟨8080, 100, 100, 100, 100⟩)
      [Call.Submit "2+3", Call.Claim [1, 2, 3], Call.Submit "4*5"]).2).Pairwise
        (fun a b => a < b) := by
  have hlen : (run (NewOrchestrator ⟨8080, 100, 100, 100, 100⟩)
      [Call.Submit "2+3", Call.Claim [1, 2, 3], Call.Submit "4*5"]).1.exprs.length = 2 := by
    decide!
  obtain ⟨h1, h2, -⟩ := expression_ids ⟨8080, 100, 100, 100, 100⟩
    [Call.Submit "2+3", Call.Claim [1, 2, 3], Call.Submit "4*5"]
    ⟨trivial, by
      intro e he
      have : e.IdMap = [(1, 0), (2, 1), (3, 2)] := by
        have h0 : headExpr (step (NewOrchestrator ⟨8080, 100, 100, 100, 100⟩)
            (Call.Submit "2+3")).1 = some ⟨1,
              [⟨NodeType.Number, "2", [], 0, NodeStatus.StatusDone⟩,
               ⟨NodeType.Number, "3", [], 0, NodeStatus.StatusDone⟩,
               ⟨NodeType.Operator, "+", [0, 1], 1, NodeStatus.StatusInQueue⟩],
              [(1, 0), (2, 1), (3, 2)], ExpressionStatus.StatusInQueue, none, 0⟩ := by decide!
        rw [h0] at he
        cases he
        rfl
      rw [this]
      exact List.Perm.refl _, trivial, trivial⟩
    (by rw [hlen]; decide)
  rw [hlen] at h1
  exact ⟨h1, h2⟩

/-- A run of submissions of one compiling expression allocates one expression
per submission. -/
theorem run_submits_length (s : String) (dag : DAG) (hp : ParseExpression s = .ok dag) (n : Nat) :
    ∀ o : Orchestrator,
      (run o (List.replicate n (Call.Submit s))).1.exprs.length = o.exprs.length + n := by
  induction n with
  | zero => intro o; simp [run]
  | succ n ih =>
    intro o
    rw [List.replicate_succ]
    simp only [run, step]
    rw [ih, CalculateHandler_ok o s dag hp]
    simp only [List.length_append, List.length_singleton]
    omega

theorem validRun_submits (s : String) (n : Nat) :
    ∀ o : Orchestrator, validRun o (List.replicate n (Call.Submit s)) := by
  induction n with
  | zero => intro o; simp [validRun]
  | succ n ih =>
    intro o
    rw [List.replicate_succ]
    exact ⟨trivial, ih _⟩

/-- The ids that `n` submissions of a compiling expression to a fresh
orchestrator return. -/
theorem returnedIds_submits (cfg : OrchestratorConfig) (s : String) (dag : DAG)
    (hp : ParseExpression s = .ok dag) (n i : Nat) (hi : i < n) :
    (returnedIds (run (NewOrchestrator cfg) (List.replicate n (Call.Submit s))).2)[i]? =
      some (wrapInt32 ((i : Int) + 1)) := by
  rw [returnedIds_run _ _ (orchInv_init cfg) (idSeq_init cfg) (validRun_submits s n _),
    run_submits_length s dag hp n]
  simp only [NewOrchestrator, List.length_nil, Nat.zero_add, Nat.sub_zero]
  rw [List.getElem?_map, ← List.range_eq_range', List.getElem?_range hi]
  rfl

/-- C16, counterexample: of `2^31` submissions of `1+1` to a fresh orchestrator
the last but one returns the id 2147483647 and the last the id -2147483648,
which is not greater. -/
theorem expression_ids_wrap :
    (returnedIds (run (NewOrchestrator ⟨8080, 100, 100, 100, 100⟩)
      (List.replicate 2147483648 (Call.Submit "1+1"))).2)[2147483646]? = some 2147483647 ∧
    (returnedIds (run (NewOrchestrator ⟨8080, 100, 100, 100, 100⟩)
      (List.replicate 2147483648 (Call.Submit "1+1"))).2)[2147483647]? = some (-2147483648) := by
  have hp : ParseExpression "1+1" = .ok
      ⟨[⟨NodeType.Number, "1", [], 0, NodeStatus.StatusCreated⟩,
        ⟨NodeType.Number, "1", [], 0, NodeStatus.StatusCreated⟩,
        ⟨NodeType.Operator, "+", [0, 1], 1, NodeStatus.StatusCreated⟩],
       [(0, [0, 1]), (1, [2])], 1⟩ := rfl
  constructor
  · rw [returnedIds_submits _ "1+1" _ hp 2147483648 2147483646 (by omega)]
    unfold wrapInt32
    norm_num
  · rw [returnedIds_submits _ "1+1" _ hp 2147483648 2147483647 (by omega)]
    unfold wrapInt32
    norm_num

/-! ## Reports with an error, and rejected reports -/

/-- C17, failing input: `2+3` is submitted and claimed, and a report for its
node 3 carries the error `100%`; the list of expressions then shows the
expression with the error `100%!(NOVERB)`, not `100%`: `fmt.Errorf` has read
the reported text as a format. -/
theorem error_message_mangled :
    ExpressionsListHandler (run (NewOrchestrator ⟨8080, 100, 100, 100, 100⟩)
      [Call.Submit "2+3", Call.Claim [1, 2, 3], Call.Report 3 0 "100%" [1, 2, 3]]).1 =
      [{ ID := 1, Status := ExpressionStatus.StatusError, Result := 0,
         Error := "100%!(NOVERB)" }] := by
  decide!

theorem sprintfNoArgs_plain (fuel : Nat) (cs : List Char) (hf : cs.length < fuel)
    (h : '%' ∉ cs) : sprintfNoArgs fuel cs = cs := by
  induction cs generalizing fuel with
  | nil =>
    cases fuel with
    | zero => simp at hf
    | succ f => rfl
  | cons c cs ih =>
    cases fuel with
    | zero => simp at hf
    | succ f =>
      simp only [List.mem_cons, not_or] at h
      have hc : ¬ c = '%' := fun hc => h.1 hc.symm
      simp only [sprintfNoArgs, hc, if_false, List.cons.injEq, true_and]
      exact ih f (by simpa using hf) h.2

/-- A reported error without a percent sign is kept as it is. -/
theorem Errorf_plain (format : String) (h : '%' ∉ format.data) : Errorf format = format := by
  unfold Errorf
  rw [sprintfNoArgs_plain _ _ (by omega) h]

/-- C18. Rejected report is a no-op: a Report received while the queue is
empty, or naming a node id that is not a key of the head expression's node
map, is answered with 404, and the orchestrator is left as it is. -/
theorem rejected_report (o : Orchestrator) (ID : Int) (Result : ℚ) (Error : String)
    (order : List Int)
    (h : o.Queue = [] ∨ ∃ e, headExpr o = some e ∧ mapGet e.IdMap ID = none) :
    ∃ msg, PostTaskHandler o ID Result Error order = (o, Response.error 404 msg) := by
  rcases h with hq | ⟨e, he, hid⟩
  · exact ⟨_, PostTaskHandler_empty o ID Result Error order hq⟩
  · unfold headExpr at he
    cases hq : o.Queue with
    | nil => simp [hq] at he
    | cons p tail =>
      simp only [hq] at he
      exact ⟨_, PostTaskHandler_unknown o ID Result Error order p tail e hq he (by simp [hid])⟩

/-- C18, witness: a report to a fresh orchestrator, and a report for the node
id 7 of `2+3`, which has the ids 1 to 3. -/
theorem rejected_report_witness :
    (∃ msg, PostTaskHandler (NewOrchestrator ⟨8080, 100, 100, 100, 100⟩) 1 5 "" [] =
      (NewOrchestrator ⟨8080, 100, 100, 100, 100⟩, Response.error 404 msg)) ∧
    (∃ msg, PostTaskHandler
      (CalculateHandler (NewOrchestrator ⟨8080, 100, 100, 100, 100⟩) "2+3").1 7 5 "" [1, 2, 3] =
      ((CalculateHandler (NewOrchestrator ⟨8080, 100, 100, 100, 100⟩) "2+3").1,
        Response.error 404 msg)) :=
  ⟨rejected_report (NewOrchestrator ⟨8080, 100, 100, 100, 100⟩) 1 5 "" [] (Or.inl rfl),
   rejected_report (CalculateHandler (NewOrchestrator ⟨8080, 100, 100, 100, 100⟩) "2+3").1 7 5 ""
     [1, 2, 3]
     (Or.inr ⟨⟨1,
        [⟨NodeType.Number, "2", [], 0, NodeStatus.StatusDone⟩,
         ⟨NodeType.Number, "3", [], 0, NodeStatus.StatusDone⟩,
         ⟨NodeType.Operator, "+", [0, 1], 1, NodeStatus.StatusInQueue⟩],
        [(1, 0), (2, 1), (3, 2)], ExpressionStatus.StatusInQueue, none, 0⟩, by decide!, by decide⟩)⟩

/-! ## Expressions that are not the head of the queue -/

/-- A call leaves every expression that is not the head of the queue as it
is, while the registry is exact. -/
theorem step_other (o : Orchestrator) (c : Call) (h : OrchInv o) (hr : RegInv o) (i : Nat)
    (e : Expression) (hi : o.exprs[i]? = some e)
    (hne : ∀ (p : Nat) (tail : List Nat), o.Queue = p :: tail → i ≠ p) :
    (step o c).1.exprs[i]? = some e := by
  have hilt := getElem?_lt_of_some _ _ _ hi
  cases c with
  | Submit s =>
    simp only [step]
    cases hp : ParseExpression s with
    | error err => rw [CalculateHandler_error o s err hp]; exact hi
    | ok dag =>
      rw [CalculateHandler_ok o s dag hp]
      simp only
      rw [List.getElem?_append_left hilt]
      exact hi
  | Claim order =>
    simp only [step]
    cases hq : o.Queue with
    | nil => rw [GetTaskHandler_empty o order hq]; exact hi
    | cons p tail =>
      obtain ⟨expr, he, -⟩ := queue_head_expr o h p tail hq
      rw [GetTaskHandler_head o order p tail expr hq he]
      simp only
      rw [List.getElem?_set]
      simp [Ne.symm (hne p tail hq), hi]
  | Report ID Result Error order =>
    simp only [step]
    cases hq : o.Queue with
    | nil => rw [PostTaskHandler_empty o ID Result Error order hq]; exact hi
    | cons p tail =>
      obtain ⟨expr, he, -⟩ := queue_head_expr o h p tail hq
      obtain ⟨E, hex, -⟩ := PostTaskHandler_head o ID Result Error order p tail expr hq he
        (hr.exact p expr he)
      rw [hex, List.getElem?_set]
      simp [Ne.symm (hne p tail hq), hi]

theorem reachable_handle (cfg : OrchestratorConfig) (o : Orchestrator) (r : Request)
    (hr : Reachable cfg o) (hv : r.valid o) : Reachable cfg (handle o r).1 := by
  cases r with
  | call c => exact Reachable.next o c hr hv
  | List => exact hr
  | Detail url => exact hr

theorem handle_length (o : Orchestrator) (r : Request) :
    o.exprs.length ≤ (handle o r).1.exprs.length := by
  cases r with
  | call c => exact (step_length o c).1
  | List => exact Nat.le_refl _
  | Detail url => exact Nat.le_refl _

theorem serve_length (reqs : List Request) (o : Orchestrator) :
    o.exprs.length ≤ (serve o reqs).1.exprs.length := by
  induction reqs generalizing o with
  | nil => exact Nat.le_refl _
  | cons r rs ih =>
    simp only [serve]
    exact Nat.le_trans (handle_length o r) (ih _)

theorem reachable_serve (cfg : OrchestratorConfig) (reqs : List Request) (o : Orchestrator)
    (hr : Reachable cfg o) (hv : validServe o reqs) : Reachable cfg (serve o reqs).1 := by
  induction reqs generalizing o with
  | nil => exact hr
  | cons r rs ih =>
    simp only [serve]
    exact ih _ (reachable_handle cfg o r hr hv.1) hv.2

/-- A finished expression is not the head of the queue, so a request leaves it
as it is. -/
theorem handle_terminal (cfg : OrchestratorConfig) (o : Orchestrator) (r : Request) (p : Nat)
    (e : Expression) (hr : Reachable cfg o) (hlen : o.exprs.length ≤ 4294967296)
    (he : o.exprs[p]? = some e) (ht : e.terminal) : (handle o r).1.exprs[p]? = some e := by
  cases r with
  | call c =>
    have hreg := regInv_reachable cfg o hr hlen
    refine step_other o c (reachable_inv cfg o hr) hreg p e he ?_
    intro q tail hq hpq
    subst hpq
    exact hreg.queue_live p (by rw [hq]; simp) e he ht
  | List => exact he
  | Detail url => exact he

theorem serve_terminal (cfg : OrchestratorConfig) (reqs : List Request) (o : Orchestrator)
    (p : Nat) (e : Expression) (hr : Reachable cfg o) (hv : validServe o reqs)
    (hlen : (serve o reqs).1.exprs.length ≤ 4294967296)
    (he : o.exprs[p]? = some e) (ht : e.terminal) : (serve o reqs).1.exprs[p]? = some e := by
  induction reqs generalizing o with
  | nil => exact he
  | cons r rs ih =>
    simp only [serve] at hlen ⊢
    have h1 := serve_length rs (handle o r).1
    have h2 := handle_length o r
    exact ih _ (reachable_handle cfg o r hr hv.1) hv.2 hlen
      (handle_terminal cfg o r p e hr (by omega) he ht)

/-- The answer of `GetExpressionByIDHandler` to a path whose id the registry
holds. -/
theorem GetExpressionByIDHandler_ok (o : Orchestrator) (url : String) (id : Int) (p : Nat)
    (e : Expression)
    (hurl : (CutPrefix url.data "/api/v1/expressions/:".data).bind ParseInt32 = some id)
    (hreg : mapGet o.DataBase id = some p) (he : o.exprs[p]? = some e) :
    GetExpressionByIDHandler o url = .ok { ID := e.ID, Status := e.Status, Result := e.Result } := by
  unfold GetExpressionByIDHandler
  cases hc : CutPrefix url.data "/api/v1/expressions/:".data with
  | none => simp [hc] at hurl
  | some stringID =>
    have hurl1 : ParseInt32 stringID = some id := by simpa [hc] using hurl
    simp [hurl1, hreg, he]

/-! ## Runs of submissions -/

theorem run_append (xs ys : List Call) (o : Orchestrator) :
    (run o (xs ++ ys)).1 = (run (run o xs).1 ys).1 := by
  induction xs generalizing o with
  | nil => rfl
  | cons c cs ih =>
    simp only [List.cons_append, run]
    exact ih _

theorem serve_replicate_call (c : Call) (n : Nat) : ∀ o : Orchestrator,
    (serve o (List.replicate n (Request.call c))).1 = (run o (List.replicate n c)).1 := by
  induction n with
  | zero => intro o; rfl
  | succ n ih =>
    intro o
    rw [List.replicate_succ, List.replicate_succ]
    simp only [serve, run, handle]
    exact ih _

/-- A run of submissions of one expression leaves the expressions there were
where they are, and the queue in front of the new ones. -/
theorem run_submits_keeps (s : String) (n : Nat) : ∀ o : Orchestrator,
    (∃ qs, (run o (List.replicate n (Call.Submit s))).1.Queue = o.Queue ++ qs) ∧
    ∀ (i : Nat) (e : Expression), o.exprs[i]? = some e →
      (run o (List.replicate n (Call.Submit s))).1.exprs[i]? = some e := by
  induction n with
  | zero => intro o; exact ⟨⟨[], by simp [run]⟩, fun i e hi => hi⟩
  | succ n ih =>
    intro o
    rw [List.replicate_succ]
    simp only [run, step]
    obtain ⟨⟨qs, hqs⟩, hk⟩ := ih (CalculateHandler o s).1
    cases hp : ParseExpression s with
    | error err =>
      rw [CalculateHandler_error o s err hp] at hqs hk ⊢
      exact ⟨⟨qs, hqs⟩, hk⟩
    | ok dag =>
      rw [CalculateHandler_ok o s dag hp] at hqs hk ⊢
      refine ⟨⟨[o.exprs.length] ++ qs, by rw [hqs]; simp⟩, fun i e hi => hk i e ?_⟩
      simp only
      rw [List.getElem?_append_left (getElem?_lt_of_some _ _ _ hi)]
      exact hi

/-- The last of `n + 1` submissions of a compiling expression to a reachable
state: the expression it allocates, which the registry then holds under the
id the 32-bit counter has reached. -/
theorem run_submits_last (cfg : OrchestratorConfig) (o : Orchestrator) (hr : Reachable cfg o)
    (s : String) (dag : DAG) (hp : ParseExpression s = .ok dag) (n : Nat) :
    (run o (List.replicate (n + 1) (Call.Submit s))).1.exprs[o.exprs.length + n]? =
      some { ID := wrapInt32 ((o.exprs.length : Int) + (n : Int) + 1)
             nodes := dag.nodes.map markNode
             IdMap := idsFrom 0 (levelOrder dag.levelMap 0 (dag.maxLevel + 1))
             Status := ExpressionStatus.StatusInQueue
             Err := none
             Result := 0 } ∧
    mapGet (run o (List.replicate (n + 1) (Call.Submit s))).1.DataBase
      (wrapInt32 ((o.exprs.length : Int) + (n : Int) + 1)) = some (o.exprs.length + n) := by
  have hreach : Reachable cfg (run o (List.replicate n (Call.Submit s))).1 :=
    reachable_run cfg o _ hr (validRun_submits s n o)
  have hseq := idSeq_reachable cfg _ hreach
  have hlen := run_submits_length s dag hp n o
  rw [List.replicate_succ', run_append]
  have hone : ∀ o1 : Orchestrator, (run o1 [Call.Submit s]).1 = (CalculateHandler o1 s).1 :=
    fun o1 => rfl
  rw [hone, CalculateHandler_ok _ s dag hp, hseq.1, wrapInt32_succ, hlen]
  simp only
  constructor
  · rw [← hlen, List.getElem?_concat_length]
    simp only [hlen, Nat.cast_add]
  · rw [mapGet_mapSet]
    simp

/-! ## Finished expressions -/

/-- C19 as amended. Terminal expressions: in a state the orchestrator has
reached, an expression whose status is done or error stays as it is through
every later sequence of Submit, Claim, Report, List and Detail calls after
which at most `2^32` expressions have been created: its status, result and
error do not change, the registry still holds it under its id, and a Detail
query for its id returns the same `{id, status, result}` after the sequence as
before it. -/
theorem terminal_stable (cfg : OrchestratorConfig) (o : Orchestrator) (reqs : List Request)
    (p : Nat) (e : Expression) (hr : Reachable cfg o) (hv : validServe o reqs)
    (hlen : (serve o reqs).1.exprs.length ≤ 4294967296)
    (he : o.exprs[p]? = some e) (ht : e.terminal) :
    (serve o reqs).1.exprs[p]? = some e ∧
    mapGet (serve o reqs).1.DataBase e.ID = some p ∧
    ∀ url : String,
      (CutPrefix url.data "/api/v1/expressions/:".data).bind ParseInt32 = some e.ID →
      GetExpressionByIDHandler o url =
        .ok { ID := e.ID, Status := e.Status, Result := e.Result } ∧
      GetExpressionByIDHandler (serve o reqs).1 url =
        .ok { ID := e.ID, Status := e.Status, Result := e.Result } := by
  have hk := serve_terminal cfg reqs o p e hr hv hlen he ht
  have hreg1 := regInv_reachable cfg _ (reachable_serve cfg reqs o hr hv) hlen
  have hreg0 := regInv_reachable cfg o hr (Nat.le_trans (serve_length reqs o) hlen)
  refine ⟨hk, hreg1.exact p e hk, fun url hurl => ⟨?_, ?_⟩⟩
  · exact GetExpressionByIDHandler_ok o url e.ID p e hurl (hreg0.exact p e he) he
  · exact GetExpressionByIDHandler_ok _ url e.ID p e hurl (hreg1.exact p e hk) hk

/-- C19, witness: `2+3` is submitted, claimed and reported with 5; then `4*5`
is submitted, the list and the details of 1 are asked for and a task is
claimed; the details of the expression 1 are still done with 5. -/
theorem terminal_stable_witness :
    GetExpressionByIDHandler
      (serve (run (NewOrchestrator ⟨8080, 100, 100, 100, 100⟩)
          [Call.Submit "2+3", Call.Claim [1, 2, 3], Call.Report 3 5 "" [1, 2, 3]]).1
        [Request.call (Call.Submit "4*5"), Request.List,
         Request.Detail "/api/v1/expressions/:1", Request.call (Call.Claim [1, 2, 3])]).1
      "/api/v1/expressions/:1" =
    .ok { ID := 1, Status := ExpressionStatus.StatusDone, Result := 5 } := by
  have hf : isFloat64 5 := by simpa using isFloat64_intCast 5 (by norm_num)
  have hr : Reachable ⟨8080, 100, 100, 100, 100⟩
      (run (NewOrchestrator ⟨8080, 100, 100, 100, 100⟩)
        [Call.Submit "2+3", Call.Claim [1, 2, 3], Call.Report 3 5 "" [1, 2, 3]]).1 :=
    reachable_run _ _ _ Reachable.init
      ⟨trivial, valid_claim_of _ _ (by decide!), valid_report_of _ _ _ _ _ hf (by decide!),
        trivial⟩
  have h := terminal_stable ⟨8080, 100, 100, 100, 100⟩ _
    [Request.call (Call.Submit "4*5"), Request.List,
     Request.Detail "/api/v1/expressions/:1", Request.call (Call.Claim [1, 2, 3])] 0
    ((run (NewOrchestrator ⟨8080, 100, 100, 100, 100⟩)
      [Call.Submit "2+3", Call.Claim [1, 2, 3], Call.Report 3 5 "" [1, 2, 3]]).1.exprs.get
        ⟨0, by decide!⟩)
    hr ⟨trivial, trivial, trivial, valid_claim_of _ _ (by decide!), trivial⟩
    (by decide!) (by decide!) (Or.inl (by decide!))
  have h2 := (h.2.2 "/api/v1/expressions/:1" (by decide!)).2
  rw [h2]
  have hid : ((run (NewOrchestrator ⟨8080, 100, 100, 100, 100⟩)
      [Call.Submit "2+3", Call.Claim [1, 2, 3], Call.Report 3 5 "" [1, 2, 3]]).1.exprs.get
        ⟨0, by decide!⟩).ID = 1 := by decide!
  have hst : ((run (NewOrchestrator ⟨8080, 100, 100, 100, 100⟩)
      [Call.Submit "2+3", Call.Claim [1, 2, 3], Call.Report 3 5 "" [1, 2, 3]]).1.exprs.get
        ⟨0, by decide!⟩).Status = ExpressionStatus.StatusDone := by decide!
  have hres : ((run (NewOrchestrator ⟨8080, 100, 100, 100, 100⟩)
      [Call.Submit "2+3", Call.Claim [1, 2, 3], Call.Report 3 5 "" [1, 2, 3]]).1.exprs.get
        ⟨0, by decide!⟩).Result = 5 := by decide!
  rw [hid, hst, hres]

/-- The last of `m = n + 1` submissions, with the pointer and the id spelled
out. -/
theorem run_submits_last_at (cfg : OrchestratorConfig) (o : Orchestrator) (hr : Reachable cfg o)
    (s : String) (dag : DAG) (hp : ParseExpression s = .ok dag) (n m q : Nat) (id : Int)
    (hm : m = n + 1) (hq : q = o.exprs.length + n) (hid : id = wrapInt32 ((q : Int) + 1)) :
    (run o (List.replicate m (Call.Submit s))).1.exprs[q]? =
      some { ID := id
             nodes := dag.nodes.map markNode
             IdMap := idsFrom 0 (levelOrder dag.levelMap 0 (dag.maxLevel + 1))
             Status := ExpressionStatus.StatusInQueue
             Err := none
             Result := 0 } ∧
    mapGet (run o (List.replicate m (Call.Submit s))).1.DataBase id = some q := by
  subst hm hq
  have h := run_submits_last cfg o hr s dag hp n
  have hcast : (((o.exprs.length + n : Nat) : Int) + 1) = (o.exprs.length : Int) + (n : Int) + 1 := by
    push_cast; ring
  rw [hid, hcast]
  exact h

/-- C19, counterexample: `2+3` is submitted, claimed and reported with 5, and
the details of the expression 1 are done with 5; after `2^32` further
submissions of `1+1` the details of 1 are in_queue with 0: the last submission
got the id 1 again and took the registry entry. -/
theorem terminal_overwritten :
    GetExpressionByIDHandler
      (run (NewOrchestrator ⟨8080, 100, 100, 100, 100⟩)
        [Call.Submit "2+3", Call.Claim [1, 2, 3], Call.Report 3 5 "" [1, 2, 3]]).1
      "/api/v1/expressions/:1" =
      .ok { ID := 1, Status := ExpressionStatus.StatusDone, Result := 5 } ∧
    GetExpressionByIDHandler
      (serve (run (NewOrchestrator ⟨8080, 100, 100, 100, 100⟩)
          [Call.Submit "2+3", Call.Claim [1, 2, 3], Call.Report 3 5 "" [1, 2, 3]]).1
        (List.replicate 4294967296 (Request.call (Call.Submit "1+1")))).1
      "/api/v1/expressions/:1" =
      .ok { ID := 1, Status := ExpressionStatus.StatusInQueue, Result := 0 } := by
  have hf : isFloat64 5 := by simpa using isFloat64_intCast 5 (by norm_num)
  have hr : Reachable ⟨8080, 100, 100, 100, 100⟩
      (run (NewOrchestrator ⟨8080, 100, 100, 100, 100⟩)
        [Call.Submit "2+3", Call.Claim [1, 2, 3], Call.Report 3 5 "" [1, 2, 3]]).1 :=
    reachable_run _ _ _ Reachable.init
      ⟨trivial, valid_claim_of _ _ (by decide!), valid_report_of _ _ _ _ _ hf (by decide!),
        trivial⟩
  have hp : ParseExpression "1+1" = .ok
      ⟨[⟨NodeType.Number, "1", [], 0, NodeStatus.StatusCreated⟩,
        ⟨NodeType.Number, "1", [], 0, NodeStatus.StatusCreated⟩,
        ⟨NodeType.Operator, "+", [0, 1], 1, NodeStatus.StatusCreated⟩],
       [(0, [0, 1]), (1, [2])], 1⟩ := rfl
  have hlen : (run (NewOrchestrator ⟨8080, 100, 100, 100, 100⟩)
      [Call.Submit "2+3", Call.Claim [1, 2, 3], Call.Report 3 5 "" [1, 2, 3]]).1.exprs.length =
        1 := by decide!
  constructor
  · have h0 : (run (NewOrchestrator ⟨8080, 100, 100, 100, 100⟩)
        [Call.Submit "2+3", Call.Claim [1, 2, 3], Call.Report 3 5 "" [1, 2, 3]]).1.exprs[0]? =
          some ⟨1,
            [⟨NodeType.Number, "2", [], 0, NodeStatus.StatusDone⟩,
             ⟨NodeType.Number, "3", [], 0, NodeStatus.StatusDone⟩,
             ⟨NodeType.Number, "5.00000", [0, 1], 1, NodeStatus.StatusDone⟩],
            [(1, 0), (2, 1), (3, 2)], ExpressionStatus.StatusDone, none, 5⟩ := by decide!
    exact GetExpressionByIDHandler_ok _ "/api/v1/expressions/:1" 1 0 _ (by decide!) (by decide!) h0
  · rw [serve_replicate_call]
    obtain ⟨h1, h2⟩ := run_submits_last_at ⟨8080, 100, 100, 100, 100⟩ _ hr "1+1" _ hp
      4294967295 4294967296 4294967296 1 (by norm_num) (by rw [hlen])
      (by unfold wrapInt32; norm_num)
    exact GetExpressionByIDHandler_ok _ "/api/v1/expressions/:1" 1 4294967296 _ (by decide!) h2 h1

/-! ## Head-only scheduling -/

/-- C20 as amended. Head-only scheduling: in every state the orchestrator
reaches while at most `2^32` expressions have been created, whose queue is not
empty (so also when it holds at least two expressions), a task that a Claim
returns is a node of the head expression, a Claim and a Report leave every
expression other than the head as it is, with its status, result, error and
nodes, and the queue afterwards is the queue before, with or without its head;
a Submit appends to the queue or leaves it. -/
theorem head_only (cfg : OrchestratorConfig) (o : Orchestrator) (p : Nat) (tail : List Nat)
    (hr : Reachable cfg o) (hlen : o.exprs.length ≤ 4294967296) (hq : o.Queue = p :: tail) :
    (∀ (order : List Int) (t : Task), (GetTaskHandler o order).2 = Response.task t →
      ∃ (head : Expression) (q : Nat) (n : Node), o.exprs[p]? = some head ∧
        mapGet head.IdMap t.ID = some q ∧ head.nodes[q]? = some n ∧ t.Operation = n.Value) ∧
    (∀ (order : List Int) (i : Nat), i ≠ p →
      (GetTaskHandler o order).1.exprs[i]? = o.exprs[i]?) ∧
    (∀ (ID : Int) (Result : ℚ) (Error : String) (order : List Int) (i : Nat), i ≠ p →
      (PostTaskHandler o ID Result Error order).1.exprs[i]? = o.exprs[i]?) ∧
    (∀ order : List Int, (GetTaskHandler o order).1.Queue = p :: tail) ∧
    (∀ (ID : Int) (Result : ℚ) (Error : String) (order : List Int),
      (PostTaskHandler o ID Result Error order).1.Queue = p :: tail ∨
      (PostTaskHandler o ID Result Error order).1.Queue = tail) ∧
    (∀ s : String, (CalculateHandler o s).1.Queue = p :: tail ∨
      (CalculateHandler o s).1.Queue = p :: tail ++ [o.exprs.length]) := by
  have hinv := reachable_inv cfg o hr
  have hreg := regInv_reachable cfg o hr hlen
  obtain ⟨expr, he, -⟩ := queue_head_expr o hinv p tail hq
  refine ⟨?_, ?_, ?_, ?_, ?_, ?_⟩
  · intro order t ht
    rcases GetTaskHandler_spec o order hinv p tail expr hq he with
      ⟨-, h2⟩ | ⟨id, q, task, d1, d2, ds, dep1, dep2, a1, a2, -, -, h2, h3, -, -, -, -, -, -, -,
        -, -, h13⟩
    · rw [h2] at ht
      cases ht
    · rw [h13] at ht
      simp only [Response.task.injEq] at ht
      subst ht
      exact ⟨expr, q, task, he, h2, h3, rfl⟩
  · intro order i hi
    rw [GetTaskHandler_head o order p tail expr hq he]
    simp only
    rw [List.getElem?_set]
    simp [Ne.symm hi]
  · intro ID Result Error order i hi
    obtain ⟨E, hex, -⟩ := PostTaskHandler_head o ID Result Error order p tail expr hq he
      (hreg.exact p expr he)
    rw [hex, List.getElem?_set]
    simp [Ne.symm hi]
  · intro order
    rw [GetTaskHandler_head o order p tail expr hq he]
    exact hq
  · intro ID Result Error order
    obtain ⟨E, -, -, -, -, hqueue⟩ := PostTaskHandler_head o ID Result Error order p tail expr
      hq he (hreg.exact p expr he)
    rcases hqueue with ⟨h1, -⟩ | h1
    · exact Or.inl h1
    · exact Or.inr h1
  · intro s
    cases hp : ParseExpression s with
    | error err => rw [CalculateHandler_error o s err hp]; exact Or.inl hq
    | ok dag =>
      rw [CalculateHandler_ok o s dag hp]
      simp [hq]

/-- C20, witness: with `2+3` and `4*5` in the queue, neither a Claim nor the
Report of 5 for the node 3 of `2+3` touches `4*5`; the Report takes `2+3` from
the queue. -/
theorem head_only_witness :
    (GetTaskHandler (run (NewOrchestrator ⟨8080, 100, 100, 100, 100⟩)
        [Call.Submit "2+3", Call.Submit "4*5"]).1 [1, 2, 3]).1.exprs[1]? =
      (run (NewOrchestrator ⟨8080, 100, 100, 100, 100⟩)
        [Call.Submit "2+3", Call.Submit "4*5"]).1.exprs[1]? ∧
    (PostTaskHandler (run (NewOrchestrator ⟨8080, 100, 100, 100, 100⟩)
        [Call.Submit "2+3", Call.Submit "4*5", Call.Claim [1, 2, 3]]).1 3 5 "" [1, 2, 3]).1.exprs[1]? =
      (run (NewOrchestrator ⟨8080, 100, 100, 100, 100⟩)
        [Call.Submit "2+3", Call.Submit "4*5", Call.Claim [1, 2, 3]]).1.exprs[1]? ∧
    (PostTaskHandler (run (NewOrchestrator ⟨8080, 100, 100, 100, 100⟩)
        [Call.Submit "2+3", Call.Submit "4*5", Call.Claim [1, 2, 3]]).1 3 5 "" [1, 2, 3]).1.Queue =
      [1] := by
  have h1 := head_only ⟨8080, 100, 100, 100, 100⟩
    (run (NewOrchestrator ⟨8080, 100, 100, 100, 100⟩) [Call.Submit "2+3", Call.Submit "4*5"]).1
    0 [1] (reachable_run _ _ _ Reachable.init ⟨trivial, trivial, trivial⟩) (by decide!)
    (by decide!)
  have h2 := head_only ⟨8080, 100, 100, 100, 100⟩
    (run (NewOrchestrator ⟨8080, 100, 100, 100, 100⟩)
      [Call.Submit "2+3", Call.Submit "4*5", Call.Claim [1, 2, 3]]).1
    0 [1] (reachable_run _ _ _ Reachable.init
      ⟨trivial, trivial, valid_claim_of _ _ (by decide!), trivial⟩) (by decide!) (by decide!)
  exact ⟨h1.2.1 [1, 2, 3] 1 (by decide), h2.2.2.1 3 5 "" [1, 2, 3] 1 (by decide), by decide!⟩

/-- The state after `GetTaskHandler` on a non-empty queue, the head's nodes
being as many as before. -/
theorem GetTaskHandler_head_shape (o : Orchestrator) (order : List Int) (h : OrchInv o)
    (p : Nat) (tail : List Nat) (expr : Expression)
    (hq : o.Queue = p :: tail) (he : o.exprs[p]? = some expr) :
    ∃ N : List Node, N.length = expr.nodes.length ∧
      (GetTaskHandler o order).1 =
        { o with exprs := o.exprs.set p ({ expr with Status := ExpressionStatus.StatusInProgress,
                                                     nodes := N }) } := by
  rcases GetTaskHandler_spec o order h p tail expr hq he with
    ⟨-, h2⟩ | ⟨id, q, task, d1, d2, ds, dep1, dep2, a1, a2, -, -, -, -, -, -, -, -, -, -, -,
      -, -, h13⟩
  · exact ⟨expr.nodes, rfl, by rw [h2]⟩
  · exact ⟨update expr.nodes q claimNode, update_length _ _ _, by rw [h13]⟩

/-- A Report with an error when the registry holds another expression under
the id of the head: that other expression gets the status error. -/
theorem PostTaskHandler_error_other (o : Orchestrator) (ID : Int) (Result : ℚ) (Error : String)
    (order : List Int) (p : Nat) (tail : List Nat) (expr : Expression) (q r : Nat)
    (e1 : Expression) (hq : o.Queue = p :: tail) (he : o.exprs[p]? = some expr)
    (hid : mapGet expr.IdMap ID = some q) (hqlt : q < expr.nodes.length) (herr : Error ≠ "")
    (hreg : mapGet o.DataBase expr.ID = some r) (hrp : r ≠ p) (hr : o.exprs[r]? = some e1) :
    (PostTaskHandler o ID Result Error order).1.exprs[r]? =
      some { e1 with Status := ExpressionStatus.StatusError } := by
  have hrlt := getElem?_lt_of_some _ _ _ hr
  have hset : ∀ E : Expression, (o.exprs.set p E)[r]? = some e1 := by
    intro E
    rw [List.getElem?_set]
    simp [Ne.symm hrp, hr]
  unfold PostTaskHandler
  simp only [hq, he, hid, Option.bind_some, hqlt, if_true, ne_eq, herr, not_false_eq_true,
    setRegistryStatus, hreg, List.length_set, hrlt]
  simp only [Option.some_bind, if_pos hqlt, update, hset]
  exact set_getElem?_self _ _ _ (by simpa using hrlt)

/-- The first of `m = n + 1` submissions of a compiling expression to an
orchestrator with an empty queue: the expression it allocates stays where it
is, at the head of the queue. -/
theorem run_submits_first (o : Orchestrator) (s : String) (dag : DAG)
    (hp : ParseExpression s = .ok dag) (n m : Nat) (hm : m = n + 1) (hq : o.Queue = []) :
    (∃ qs, (run o (List.replicate m (Call.Submit s))).1.Queue = o.exprs.length :: qs) ∧
    (run o (List.replicate m (Call.Submit s))).1.exprs[o.exprs.length]? =
      some { ID := wrapInt32 (o.PrevExpressionID + 1)
             nodes := dag.nodes.map markNode
             IdMap := idsFrom 0 (levelOrder dag.levelMap 0 (dag.maxLevel + 1))
             Status := ExpressionStatus.StatusInQueue
             Err := none
             Result := 0 } := by
  subst hm
  rw [List.replicate_succ]
  simp only [run, step]
  obtain ⟨⟨qs, hqs⟩, hk⟩ := run_submits_keeps s n (CalculateHandler o s).1
  have hq1 : (CalculateHandler o s).1.Queue = [o.exprs.length] := by
    rw [CalculateHandler_ok o s dag hp]
    simp [hq]
  have he1 : (CalculateHandler o s).1.exprs[o.exprs.length]? =
      some { ID := wrapInt32 (o.PrevExpressionID + 1)
             nodes := dag.nodes.map markNode
             IdMap := idsFrom 0 (levelOrder dag.levelMap 0 (dag.maxLevel + 1))
             Status := ExpressionStatus.StatusInQueue
             Err := none
             Result := 0 } := by
    rw [CalculateHandler_ok o s dag hp]
    exact List.getElem?_concat_length _ _
  rw [hq1] at hqs
  exact ⟨⟨qs, by simpa using hqs⟩, hk _ _ he1⟩

/-- A Claim and then a Report with an error, when the registry holds under the
id of the head another expression: that expression gets the status error. -/
theorem claim_report_other (cfg : OrchestratorConfig) (o : Orchestrator) (hreach : Reachable cfg o)
    (order1 order2 : List Int) (ID : Int) (Result : ℚ) (Error : String) (p : Nat)
    (tail : List Nat) (expr : Expression) (q r : Nat) (id : Int) (e1 : Expression)
    (hq : o.Queue = p :: tail) (he : o.exprs[p]? = some expr)
    (hid : mapGet expr.IdMap ID = some q) (hqlt : q < expr.nodes.length) (herr : Error ≠ "")
    (hreg : mapGet o.DataBase id = some r) (hide : expr.ID = id) (hrp : r ≠ p)
    (hr : o.exprs[r]? = some e1) :
    (run o [Call.Claim order1, Call.Report ID Result Error order2]).1.exprs[r]? =
      some { e1 with Status := ExpressionStatus.StatusError } := by
  obtain ⟨N, hN, hG⟩ := GetTaskHandler_head_shape o order1 (reachable_inv _ o hreach) p tail expr
    hq he
  have hrun : (run o [Call.Claim order1, Call.Report ID Result Error order2]).1 =
      (PostTaskHandler (GetTaskHandler o order1).1 ID Result Error order2).1 := by
    simp only [run, step]
  have hplt : p < o.exprs.length := getElem?_lt_of_some _ _ _ he
  have hGq : (GetTaskHandler o order1).1.Queue = p :: tail := by rw [hG]; exact hq
  have hGe : (GetTaskHandler o order1).1.exprs[p]? =
      some ({ expr with Status := ExpressionStatus.StatusInProgress, nodes := N }) := by
    rw [hG]
    exact set_getElem?_self _ _ _ hplt
  have hGr : mapGet (GetTaskHandler o order1).1.DataBase expr.ID = some r := by
    rw [hG, hide]
    exact hreg
  have hGl : (GetTaskHandler o order1).1.exprs[r]? = some e1 := by
    rw [hG]
    simp only
    rw [List.getElem?_set]
    simp [Ne.symm hrp, hr]
  rw [hrun]
  exact PostTaskHandler_error_other (GetTaskHandler o order1).1 ID Result Error order2 p tail
    ({ expr with Status := ExpressionStatus.StatusInProgress, nodes := N }) q r e1 hGq hGe hid
    (by rw [← hN] at hqlt; exact hqlt) herr hGr hrp hGl

/-- C20, counterexample: after `2^32 + 1` submissions of `1/0` to a fresh
orchestrator the head of the queue is the first expression, at pointer 0, and
the last expression, at pointer `2^32`, is in the queue with the id 1 of the
first; a Claim and the Report of a division by zero for the node 3 of the head
then set the status of the last expression, which is not the head, to
error. -/
theorem report_changes_other :
    (run (NewOrchestrator ⟨8080, 100, 100, 100, 100⟩)
      (List.replicate 4294967297 (Call.Submit "1/0"))).1.Queue.head? = some 0 ∧
    Option.map Expression.Status
      ((run (NewOrchestrator ⟨8080, 100, 100, 100, 100⟩)
        (List.replicate 4294967297 (Call.Submit "1/0"))).1.exprs[4294967296]?) =
      some ExpressionStatus.StatusInQueue ∧
    Option.map Expression.Status
      ((run (run (NewOrchestrator ⟨8080, 100, 100, 100, 100⟩)
          (List.replicate 4294967297 (Call.Submit "1/0"))).1
        [Call.Claim [1, 2, 3],
         Call.Report 3 0 "division by zero" [1, 2, 3]]).1.exprs[4294967296]?) =
      some ExpressionStatus.StatusError := by
  have hp : ParseExpression "1/0" = .ok
      ⟨[⟨NodeType.Number, "1", [], 0, NodeStatus.StatusCreated⟩,
        ⟨NodeType.Number, "0", [], 0, NodeStatus.StatusCreated⟩,
        ⟨NodeType.Operator, "/", [0, 1], 1, NodeStatus.StatusCreated⟩],
       [(0, [0, 1]), (1, [2])], 1⟩ := rfl
  have hreach : Reachable ⟨8080, 100, 100, 100, 100⟩
      (run (NewOrchestrator ⟨8080, 100, 100, 100, 100⟩)
        (List.replicate 4294967297 (Call.Submit "1/0"))).1 :=
    reachable_run _ _ _ Reachable.init (validRun_submits _ _ _)
  obtain ⟨⟨qs, hq⟩, he⟩ := run_submits_first (NewOrchestrator ⟨8080, 100, 100, 100, 100⟩) "1/0" _
    hp 4294967296 4294967297 (by norm_num) rfl
  obtain ⟨hlast, hreg⟩ := run_submits_last_at ⟨8080, 100, 100, 100, 100⟩ _ Reachable.init "1/0"
    _ hp 4294967296 4294967297 4294967296 1 (by norm_num) (by simp [NewOrchestrator])
    (by unfold wrapInt32; norm_num)
  refine ⟨by rw [hq]; rfl, by rw [hlast]; rfl, ?_⟩
  rw [claim_report_other ⟨8080, 100, 100, 100, 100⟩ _ hreach [1, 2, 3] [1, 2, 3] 3 0
    "division by zero" _ qs _ 2 4294967296 1 _ hq he (by decide) (by decide) (by decide) hreg
    (by decide) (by decide) hlast]
  rfl

/-! ## The list of expressions after a report with an error -/

/-- The state after a Report with an error, when the registry holds the head
expression under its id. -/
theorem PostTaskHandler_error_exact (o : Orchestrator) (ID : Int) (Result : ℚ) (Error : String)
    (order : List Int) (p : Nat) (tail : List Nat) (expr : Expression) (q : Nat)
    (hq : o.Queue = p :: tail) (he : o.exprs[p]? = some expr)
    (hid : mapGet expr.IdMap ID = some q) (hqlt : q < expr.nodes.length) (herr : Error ≠ "")
    (hreg : mapGet o.DataBase expr.ID = some p) :
    (PostTaskHandler o ID Result Error order).1.exprs =
      o.exprs.set p ({ expr with nodes := update expr.nodes q (reportNode (sprintf5 Result)),
                                 Status := ExpressionStatus.StatusError,
                                 Err := some (Errorf Error) }) ∧
    (PostTaskHandler o ID Result Error order).1.DataBase = o.DataBase := by
  have hplt : p < o.exprs.length := getElem?_lt_of_some _ _ _ he
  unfold PostTaskHandler
  simp only [hq, he, hid, Option.some_bind, if_pos hqlt, ne_eq, herr, not_false_eq_true, if_true,
    setRegistryStatus, hreg, List.length_set, hplt, update_set_self _ _ _ _ hplt, and_self]

/-- The entry of the list of expressions for a registered expression. -/
theorem mem_ExpressionsListHandler (o : Orchestrator) (id : Int) (p : Nat) (e : Expression)
    (hreg : mapGet o.DataBase id = some p) (he : o.exprs[p]? = some e) :
    ({ ID := e.ID, Status := e.Status, Result := e.Result,
       Error := match e.Err with
         | some msg => msg
         | none => "" } : ListEntry) ∈ ExpressionsListHandler o := by
  unfold ExpressionsListHandler
  rw [List.mem_filterMap]
  refine ⟨id, ?_, ?_⟩
  swap
  · cases hE : e.Err <;> simp [hreg, he, hE]
  rw [(List.perm_insertionSort _ _).mem_iff]
  by_contra hn
  rw [← mapGet_none_iff, hreg] at hn
  cases hn

/-- Every entry of the list of expressions is the entry of a registered
expression. -/
theorem of_mem_ExpressionsListHandler (o : Orchestrator) (x : ListEntry)
    (hx : x ∈ ExpressionsListHandler o) :
    ∃ (id : Int) (p : Nat) (e : Expression), mapGet o.DataBase id = some p ∧
      o.exprs[p]? = some e ∧
      x = { ID := e.ID, Status := e.Status, Result := e.Result,
            Error := match e.Err with
              | some msg => msg
              | none => "" } := by
  unfold ExpressionsListHandler at hx
  rw [List.mem_filterMap] at hx
  obtain ⟨id, -, hid⟩ := hx
  cases hm : mapGet o.DataBase id with
  | none => simp [hm] at hid
  | some p =>
    cases he : o.exprs[p]? with
    | none => simp [hm, he] at hid
    | some e =>
      simp only [hm, he, Option.some_bind, Option.some.injEq] at hid
      refine ⟨id, p, e, hm, he, ?_⟩
      cases hE : e.Err <;> simp [← hid, hE]

/-- Error texts without a percent sign are preserved: in a state the
orchestrator reaches while at most `2^32` expressions have been created, after
a Report with such a text for a node of the head expression, the list of
expressions has an entry for that expression, and every entry with its id
carries the status error and exactly the reported text. -/
theorem error_message_kept (cfg : OrchestratorConfig) (o : Orchestrator) (ID : Int) (Result : ℚ)
    (Error : String) (order : List Int) (p : Nat) (tail : List Nat) (expr : Expression) (q : Nat)
    (hr : Reachable cfg o) (hlen : o.exprs.length ≤ 4294967296)
    (hq : o.Queue = p :: tail) (he : o.exprs[p]? = some expr)
    (hid : mapGet expr.IdMap ID = some q) (herr : Error ≠ "") (hpc : '%' ∉ Error.data) :
    (∃ x ∈ ExpressionsListHandler (PostTaskHandler o ID Result Error order).1,
      x.ID = expr.ID) ∧
    ∀ x ∈ ExpressionsListHandler (PostTaskHandler o ID Result Error order).1,
      x.ID = expr.ID → x.Status = ExpressionStatus.StatusError ∧ x.Error = Error := by
  have hinv := reachable_inv cfg o hr
  have hreg := regInv_reachable cfg o hr hlen
  have hexpr : ExprInv expr := hinv.expr_inv _ (List.getElem?_mem he)
  have hplt : p < o.exprs.length := getElem?_lt_of_some _ _ _ he
  obtain ⟨hex, hdb⟩ := PostTaskHandler_error_exact o ID Result Error order p tail expr q hq he hid
    (idMap_ptr_lt expr hexpr ID q hid) herr (hreg.exact p expr he)
  have hreg1 := regInv_PostTaskHandler o ID Result Error order hinv hreg
  have hp1 : (PostTaskHandler o ID Result Error order).1.exprs[p]? =
      some ({ expr with nodes := update expr.nodes q (reportNode (sprintf5 Result)),
                        Status := ExpressionStatus.StatusError,
                        Err := some (Errorf Error) }) := by
    rw [hex]
    exact set_getElem?_self _ _ _ hplt
  have hdb1 : mapGet (PostTaskHandler o ID Result Error order).1.DataBase expr.ID = some p := by
    rw [hdb]
    exact hreg.exact p expr he
  constructor
  · exact ⟨_, mem_ExpressionsListHandler _ expr.ID p _ hdb1 hp1, rfl⟩
  · intro x hx hxid
    obtain ⟨id, p1, e1, h1, h2, rfl⟩ := of_mem_ExpressionsListHandler _ x hx
    have h3 := hreg1.exact p1 e1 h2
    simp only at hxid
    rw [hxid, hdb1] at h3
    cases h3
    rw [hp1] at h2
    cases h2
    exact ⟨rfl, Errorf_plain Error hpc⟩

/-! ## The list of expressions -/

theorem setRegistryStatus_db (o o2 : Orchestrator) (id : Int) (s : ExpressionStatus)
    (h : setRegistryStatus o id s = some o2) : o2.DataBase = o.DataBase := by
  unfold setRegistryStatus at h
  split at h
  · cases h
  · split at h
    · simp only [Option.some.injEq] at h
      subst h
      rfl
    · cases h

theorem PostTaskHandler_db (o : Orchestrator) (ID : Int) (Result : ℚ) (Error : String)
    (order : List Int) : (PostTaskHandler o ID Result Error order).1.DataBase = o.DataBase := by
  unfold PostTaskHandler
  dsimp only
  repeat' split
  all_goals first
    | rfl
    | (rename_i h; have := setRegistryStatus_db _ _ _ _ h; simpa using this)

theorem GetTaskHandler_db (o : Orchestrator) (order : List Int) :
    (GetTaskHandler o order).1.DataBase = o.DataBase := by
  unfold GetTaskHandler
  repeat' split
  all_goals rfl

theorem nodup_mapKeys_mapSet {κ ν : Type} [DecidableEq κ] (m : List (κ × ν)) (k : κ) (v : ν)
    (h : (mapKeys m).Nodup) : (mapKeys (mapSet m k v)).Nodup := by
  rw [mapKeys_mapSet]
  split
  · exact h
  · rename_i hk
    exact List.Nodup.append h (List.nodup_singleton k) (by
      intro x hx hx2
      simp only [List.mem_singleton] at hx2
      exact hk (hx2 ▸ hx))

theorem keysInv_init (cfg : OrchestratorConfig) : KeysInv (NewOrchestrator cfg) := by
  constructor <;> simp [NewOrchestrator, mapGet, mapKeys]

theorem keysInv_of_evolves (o o' : Orchestrator) (h : KeysInv o) (hev : Evolves o o')
    (hdb : o'.DataBase = o.DataBase) : KeysInv o' := by
  constructor
  · rw [hdb]; exact h.nodup
  · intro id p hm
    rw [hdb] at hm
    obtain ⟨e, he, hid⟩ := h.keys id p hm
    obtain ⟨e', he', -, hid', -⟩ := hev p e he
    exact ⟨e', he', hid'.trans hid⟩

theorem keysInv_step (o : Orchestrator) (c : Call) (hinv : OrchInv o) (h : KeysInv o)
    (hv : c.valid o) : KeysInv (step o c).1 := by
  cases c with
  | Submit s =>
    simp only [step]
    cases hp : ParseExpression s with
    | error e => rw [CalculateHandler_error o s e hp]; exact h
    | ok dag =>
      rw [CalculateHandler_ok o s dag hp]
      constructor
      · exact nodup_mapKeys_mapSet _ _ _ (nodup_mapKeys_mapSet _ _ _ h.nodup)
      · intro id p hm
        simp only at hm ⊢
        rw [mapGet_mapSet, mapGet_mapSet] at hm
        by_cases hid : id = wrapInt32 (o.PrevExpressionID + 1)
        · simp only [hid, if_true, Option.some.injEq] at hm
          subst hm
          exact ⟨_, List.getElem?_concat_length _ _, hid.symm⟩
        · simp only [hid, if_false] at hm
          obtain ⟨e, he, hide⟩ := h.keys id p hm
          refine ⟨e, ?_, hide⟩
          rw [List.getElem?_append_left (getElem?_lt_of_some _ _ _ he)]
          exact he
  | Claim order =>
    exact keysInv_of_evolves o _ h (evolves_GetTaskHandler o order hinv) (GetTaskHandler_db o order)
  | Report id result error order =>
    exact keysInv_of_evolves o _ h (evolves_PostTaskHandler o id result error order hinv hv)
      (PostTaskHandler_db o id result error order)

/-- In every state the orchestrator reaches the registry holds each expression
under the expression's own id. -/
theorem keysInv_reachable (cfg : OrchestratorConfig) (o : Orchestrator) (h : Reachable cfg o) :
    KeysInv o := by
  induction h with
  | init => exact keysInv_init cfg
  | next o c hr hv ih => exact keysInv_step o c (reachable_inv cfg o hr) ih hv

theorem filterMap_map_of_section {α β : Type} (f : α → Option β) (g : β → α) (l : List α)
    (h : ∀ a ∈ l, ∃ b, f a = some b ∧ g b = a) : (l.filterMap f).map g = l := by
  induction l with
  | nil => rfl
  | cons a l ih =>
    obtain ⟨b, hb, hg⟩ := h a (List.mem_cons_self _ _)
    rw [List.filterMap_cons_some hb, List.map_cons, hg,
      ih (fun x hx => h x (List.mem_cons_of_mem _ hx))]

theorem ExpressionsListHandler_eq (o : Orchestrator) :
    ExpressionsListHandler o =
      ((mapKeys o.DataBase).insertionSort (fun a b => a ≤ b)).filterMap (fun id =>
        ((mapGet o.DataBase id).bind (fun p => o.exprs[p]?)).map listEntry) := by
  unfold ExpressionsListHandler
  congr 1
  funext id
  cases (mapGet o.DataBase id).bind (fun p => o.exprs[p]?) with
  | none => rfl
  | some e => rfl

/-- The ids of the list of expressions are the keys of the registry in
ascending order. -/
theorem ExpressionsListHandler_ids (o : Orchestrator) (h : KeysInv o) :
    (ExpressionsListHandler o).map ListEntry.ID =
      (mapKeys o.DataBase).insertionSort (fun a b => a ≤ b) := by
  rw [ExpressionsListHandler_eq]
  apply filterMap_map_of_section
  intro id hid
  rw [(List.perm_insertionSort _ _).mem_iff] at hid
  cases hm : mapGet o.DataBase id with
  | none =>
    rw [mapGet_none_iff] at hm
    exact absurd hid hm
  | some p =>
    obtain ⟨e, he, hide⟩ := h.keys id p hm
    exact ⟨listEntry e, by simp [he], hide⟩

/-- C21. List: in every state the orchestrator reaches, List returns exactly
one entry per key of the registry, the id of the entry being the key, in
strictly ascending order of id, each entry carrying the id, status, result and
error text of the expression the registry holds under that id, and List leaves
the orchestrator as it is. -/
theorem list_entries (cfg : OrchestratorConfig) (o : Orchestrator) (hr : Reachable cfg o) :
    handle o Request.List = (o, Reply.list (ExpressionsListHandler o)) ∧
    ((ExpressionsListHandler o).map ListEntry.ID).Pairwise (fun a b => a < b) ∧
    ((ExpressionsListHandler o).map ListEntry.ID).Perm (mapKeys o.DataBase) ∧
    ∀ x ∈ ExpressionsListHandler o, ∃ (p : Nat) (e : Expression),
      mapGet o.DataBase x.ID = some p ∧ o.exprs[p]? = some e ∧
      x.ID = e.ID ∧ x.Status = e.Status ∧ x.Result = e.Result ∧
      x.Error = (match e.Err with
        | some msg => msg
        | none => "") := by
  have hk := keysInv_reachable cfg o hr
  have hids := ExpressionsListHandler_ids o hk
  refine ⟨rfl, ?_, ?_, ?_⟩
  · rw [hids]
    have hs : ((mapKeys o.DataBase).insertionSort (fun a b => a ≤ b)).Sorted (fun a b => a ≤ b) :=
      List.sorted_insertionSort _ _
    have hn : ((mapKeys o.DataBase).insertionSort (fun a b => a ≤ b)).Nodup :=
      (List.perm_insertionSort _ _).nodup_iff.2 hk.nodup
    exact (List.Pairwise.and hs hn).imp (fun hab => lt_of_le_of_ne hab.1 hab.2)
  · rw [hids]
    exact List.perm_insertionSort _ _
  · intro x hx
    obtain ⟨id, p, e, h1, h2, rfl⟩ := of_mem_ExpressionsListHandler o x hx
    obtain ⟨e1, h3, h4⟩ := hk.keys id p h1
    rw [h2] at h3
    cases h3
    refine ⟨p, e, ?_, h2, rfl, rfl, rfl, ?_⟩
    · simp only [h4]; exact h1
    · cases e.Err <;> rfl

/-- C21, witness: after the submissions of `2+3` and `4*5` the list has the
ids 1 and 2 in this order. -/
theorem list_entries_witness :
    ((ExpressionsListHandler (run (NewOrchestrator ⟨8080, 100, 100, 100, 100⟩)
      [Call.Submit "2+3", Call.Submit "4*5"]).1).map ListEntry.ID) = [1, 2] ∧
    ((ExpressionsListHandler (run (NewOrchestrator ⟨8080, 100, 100, 100, 100⟩)
      [Call.Submit "2+3", Call.Submit "4*5"]).1).map ListEntry.ID).Pairwise
        (fun a b => a < b) :=
  ⟨by decide!, (list_entries ⟨8080, 100, 100, 100, 100⟩
    (run (NewOrchestrator ⟨8080, 100, 100, 100, 100⟩) [Call.Submit "2+3", Call.Submit "4*5"]).1
    (reachable_run _ _ [Call.Submit "2+3", Call.Submit "4*5"] Reachable.init
      ⟨trivial, trivial, trivial⟩)).2.1⟩

/-! ## The details of an expression -/

/-- C22, failing input: `GET /api/v1/expressions/1`, which the server routes to
`GetExpressionByIDHandler`, is answered with 500 "Failed to cut ID", on a fresh
orchestrator, where the repository's test expects 404, and after `2+3` was
submitted and got the id 1, where the claim expects its details: the handler
cuts the prefix `/api/v1/expressions/:`, with a colon. -/
theorem detail_plain_path_fails :
    GetExpressionByIDHandler (NewOrchestrator ⟨8090, 100, 100, 200, 200⟩)
      "/api/v1/expressions/1" = .error (500, "Failed to cut ID") ∧
    (CalculateHandler (NewOrchestrator ⟨8090, 100, 100, 200, 200⟩) "2+3").2 =
      Response.calculated 1 ExpressionStatus.StatusInQueue ∧
    GetExpressionByIDHandler (CalculateHandler (NewOrchestrator ⟨8090, 100, 100, 200, 200⟩) "2+3").1
      "/api/v1/expressions/1" = .error (500, "Failed to cut ID") :=
  ⟨rfl, by decide!, rfl⟩

theorem GetExpressionByIDHandler_missing (o : Orchestrator) (url : String) (id : Int)
    (hurl : (CutPrefix url.data "/api/v1/expressions/:".data).bind ParseInt32 = some id)
    (hreg : mapGet o.DataBase id = none) :
    GetExpressionByIDHandler o url = .error (404, "Failed to find expression") := by
  unfold GetExpressionByIDHandler
  cases hc : CutPrefix url.data "/api/v1/expressions/:".data with
  | none => simp [hc] at hurl
  | some stringID =>
    have hurl1 : ParseInt32 stringID = some id := by simpa [hc] using hurl
    simp [hurl1, hreg]

/-- The details of an expression under a path with the colon: in every state
the orchestrator reaches, a GET whose path is `/api/v1/expressions/:` followed
by a decimal integer in the range of `int32` is answered with 404 when the
integer is not a key of the registry, and with the id, status and result of
the expression the registry holds under it when it is; a path without the
colon is answered with 500. -/
theorem detail_colon_path (cfg : OrchestratorConfig) (o : Orchestrator) (hr : Reachable cfg o)
    (url : String) :
    (CutPrefix url.data "/api/v1/expressions/:".data = none →
      GetExpressionByIDHandler o url = .error (500, "Failed to cut ID")) ∧
    ∀ id : Int, (CutPrefix url.data "/api/v1/expressions/:".data).bind ParseInt32 = some id →
      (id ∉ mapKeys o.DataBase →
        GetExpressionByIDHandler o url = .error (404, "Failed to find expression")) ∧
      (id ∈ mapKeys o.DataBase →
        ∃ (p : Nat) (e : Expression), mapGet o.DataBase id = some p ∧ o.exprs[p]? = some e ∧
          e.ID = id ∧
          GetExpressionByIDHandler o url =
            .ok { ID := id, Status := e.Status, Result := e.Result }) := by
  constructor
  · intro hc
    simp [GetExpressionByIDHandler, hc]
  · intro id hurl
    constructor
    · intro hid
      exact GetExpressionByIDHandler_missing o url id hurl ((mapGet_none_iff _ _).2 hid)
    · intro hid
      cases hm : mapGet o.DataBase id with
      | none => exact absurd hid ((mapGet_none_iff _ _).1 hm)
      | some p =>
        obtain ⟨e, he, hide⟩ := (keysInv_reachable cfg o hr).keys id p hm
        refine ⟨p, e, rfl, he, hide, ?_⟩
        rw [GetExpressionByIDHandler_ok o url id p e hurl hm he, hide]

/-! ## The arithmetic of the worker -/

theorem float64Of_finite (x : ℚ) (h : |x| < (overflowBound : ℚ)) :
    float64Of x = some (round64 x) := by
  unfold float64Of
  rw [if_neg (not_le.2 h)]

theorem unknown_operation_ne (op : String) : "unknown operation: " ++ op ≠ "" := by
  intro h
  have h1 := congrArg String.length h
  rw [String.length_append] at h1
  have h2 : "unknown operation: ".length = 19 := by decide
  have h3 : "".length = 0 := rfl
  omega

/-- The worker's answer is the pair `calculate` computes, unless the result is
an infinity. -/
theorem workerAnswer_calculate (t : Task) (r : ℚ) (e : String)
    (h : workerAnswer t = some (r, e)) : calculate t = (r, e) := by
  unfold workerAnswer at h
  unfold calculate
  unfold float64Of at h
  split_ifs at h ⊢ <;> simp_all

/-- C23 as amended. Worker arithmetic: for every task the worker posts the
float64 result of `arg1 op arg2` with no error when the operation is `+`, `-`,
`*`, or `/` with `arg2` other than 0, provided the result is finite; it posts
nothing when that result is an infinity; and it posts an error exactly when
the operation is `/` with `arg2 = 0` ("division by zero") or is not one of the
four symbols ("unknown operation: " and the symbol). -/
theorem worker_arithmetic (t : Task) :
    (t.Operation = "+" → |t.Arg1 + t.Arg2| < (overflowBound : ℚ) →
      workerAnswer t = some (round64 (t.Arg1 + t.Arg2), "")) ∧
    (t.Operation = "-" → |t.Arg1 - t.Arg2| < (overflowBound : ℚ) →
      workerAnswer t = some (round64 (t.Arg1 - t.Arg2), "")) ∧
    (t.Operation = "*" → |t.Arg1 * t.Arg2| < (overflowBound : ℚ) →
      workerAnswer t = some (round64 (t.Arg1 * t.Arg2), "")) ∧
    (t.Operation = "/" → t.Arg2 ≠ 0 → |t.Arg1 / t.Arg2| < (overflowBound : ℚ) →
      workerAnswer t = some (round64 (t.Arg1 / t.Arg2), "")) ∧
    (t.Operation = "/" → t.Arg2 = 0 → workerAnswer t = some (0, "division by zero")) ∧
    (t.Operation ≠ "+" → t.Operation ≠ "-" → t.Operation ≠ "*" → t.Operation ≠ "/" →
      workerAnswer t = some (0, "unknown operation: " ++ t.Operation)) ∧
    (∀ (r : ℚ) (e : String), workerAnswer t = some (r, e) →
      (e ≠ "" ↔ (t.Operation = "/" ∧ t.Arg2 = 0) ∨
        (t.Operation ≠ "+" ∧ t.Operation ≠ "-" ∧ t.Operation ≠ "*" ∧ t.Operation ≠ "/"))) ∧
    (workerAnswer t = none →
      (t.Operation = "+" ∧ (overflowBound : ℚ) ≤ |t.Arg1 + t.Arg2|) ∨
      (t.Operation = "-" ∧ (overflowBound : ℚ) ≤ |t.Arg1 - t.Arg2|) ∨
      (t.Operation = "*" ∧ (overflowBound : ℚ) ≤ |t.Arg1 * t.Arg2|) ∨
      (t.Operation = "/" ∧ t.Arg2 ≠ 0 ∧ (overflowBound : ℚ) ≤ |t.Arg1 / t.Arg2|)) := by
  have hne := unknown_operation_ne t.Operation
  have h12 : ("+" : String) ≠ "-" := by decide
  have h13 : ("+" : String) ≠ "*" := by decide
  have h14 : ("+" : String) ≠ "/" := by decide
  have h23 : ("-" : String) ≠ "*" := by decide
  have h24 : ("-" : String) ≠ "/" := by decide
  have h34 : ("*" : String) ≠ "/" := by decide
  have hdz : ("division by zero" : String) ≠ "" := by decide
  refine ⟨?_, ?_, ?_, ?_, ?_, ?_, ?_, ?_⟩
  · intro h hb
    simp [workerAnswer, h, float64Of_finite _ hb]
  · intro h hb
    simp [workerAnswer, h, h12.symm, float64Of_finite _ hb]
  · intro h hb
    simp [workerAnswer, h, h13.symm, h23.symm, float64Of_finite _ hb]
  · intro h h0 hb
    simp [workerAnswer, h, h14.symm, h24.symm, h34.symm, h0, float64Of_finite _ hb]
  · intro h h0
    simp [workerAnswer, h, h14.symm, h24.symm, h34.symm, h0]
  · intro h1 h2 h3 h4
    simp [workerAnswer, h1, h2, h3, h4]
  · intro r e h
    unfold workerAnswer float64Of at h
    split_ifs at h with c1 b1 c2 b2 c3 b3 c4 z b4 <;>
      simp only [Option.some.injEq, Prod.mk.injEq, reduceCtorEq] at h
    all_goals obtain ⟨-, rfl⟩ := h
    all_goals simp_all
  · intro h
    unfold workerAnswer float64Of at h
    split_ifs at h with c1 b1 c2 b2 c3 b3 c4 z b4 <;>
      simp only [reduceCtorEq] at h
    all_goals simp_all

/-- C23, witness: the tasks of the repository's test, `arg1 = id`, `arg2 = 2`
and `+`, are answered with `id + 2`; here for the ids 1 and 5. -/
theorem worker_arithmetic_witness :
    workerAnswer ⟨1, 1, 2, "+", 50000000⟩ = some (3, "") ∧
    workerAnswer ⟨5, 5, 2, "+", 50000000⟩ = some (7, "") := by
  have hb : ∀ z : ℤ, |z| < 2 ^ 53 → |(z : ℚ)| < (overflowBound : ℚ) := by
    intro z hz
    have h1 : |(z : ℚ)| < 2 ^ 53 := by exact_mod_cast hz
    have h2 : ((2 : ℚ) ^ 53) ≤ (overflowBound : ℚ) := by
      norm_num [overflowBound]
    exact lt_of_lt_of_le h1 h2
  have h3 := round64_intCast 3 (by norm_num)
  have h7 := round64_intCast 7 (by norm_num)
  constructor
  · have h := (worker_arithmetic ⟨1, 1, 2, "+", 50000000⟩).1 rfl (by
      have := hb 3 (by norm_num)
      norm_num at this ⊢
      exact this)
    rw [h]
    norm_num at h3 ⊢
    exact h3
  · have h := (worker_arithmetic ⟨5, 5, 2, "+", 50000000⟩).1 rfl (by
      have := hb 7 (by norm_num)
      norm_num at this ⊢
      exact this)
    rw [h]
    norm_num at h7 ⊢
    exact h7

/-- C23, counterexample: for the task `2^1023 + 2^1023`, whose operands are
finite float64 values, the sum is an infinity, `json.Marshal` refuses it, and
the worker posts nothing: neither a result nor an error. -/
theorem worker_overflow_silent :
    isFloat64 (2 ^ 1023) ∧ workerAnswer ⟨1, 2 ^ 1023, 2 ^ 1023, "+", 100000000⟩ = none := by
  constructor
  · refine ⟨2 ^ 52, 971, by norm_num, by norm_num, by norm_num, ?_⟩
    rw [show (971 : ℤ) = ((971 : ℕ) : ℤ) from rfl, zpow_natCast]
    norm_num
  · have h : (overflowBound : ℚ) ≤ |(2 : ℚ) ^ 1023 + 2 ^ 1023| := by
      rw [abs_of_pos (by positivity)]
      norm_num [overflowBound]
    simp [workerAnswer, float64Of, h]

/-! ## Requests whose body does not decode -/

/-- C24, failing input: a `POST /api/v1/calculate` with the content type
`application/json` whose body does not decode ends in a panic of the handler,
not in a 4xx response; the orchestrator is left as it is. -/
theorem calculate_decode_failure_panics (o : Orchestrator) :
    CalculateRequest o ⟨"POST", "application/json", none⟩ = (o, Response.panic) := by
  simp [CalculateRequest]

/-- A `POST /internal/task` with the content type `application/json` whose body
does not decode is answered with 400 "Invalid JSON", and the orchestrator is
left as it is. -/
theorem report_decode_failure (o : Orchestrator) (order : List Int) :
    PostTaskRequest o ⟨"POST", "application/json", none⟩ order =
      (o, Response.error 400 "Invalid JSON") := by
  simp [PostTaskRequest]

/-! ## The numeric round trip through a node -/

theorem parseFloat_sprintf5_round5 (r : ℚ) (h : isFloat64 r) :
    ParseFloat (sprintf5 r) = some (round5 r) := by
  have hsome := parseFloat_sprintf5_isSome r h
  rw [parseFloat_sprintf5] at hsome ⊢
  split at hsome
  · cases hsome
  · rename_i hn
    rw [if_neg hn]
    rfl

theorem round5_intCast (z : ℤ) (h : |z| < 2 ^ 53) : round5 (z : ℚ) = z := by
  have h1 := parseFloat_sprintf5_round5 (z : ℚ) (isFloat64_intCast z h)
  rw [parseFloat_sprintf5_int z h] at h1
  exact (Option.some.inj h1).symm

/-- C25 as amended. Numeric round trip: for every finite result `r` reported
without error for a node of the head expression, the 5-decimal string that
Report writes into the node parses back to `r` rounded to five decimals (the
float64 nearest to that decimal), which is `r` itself for an integer below
`2^53` in magnitude; the operand that the next Claim returns for a node
depending on that node is this value, and so is the result of the expression
when the node is its top node, which the report then finalizes. -/
theorem numeric_round_trip (cfg : OrchestratorConfig) (o : Orchestrator) (ID : Int) (r : ℚ)
    (order : List Int) (p : Nat) (tail : List Nat) (expr : Expression) (q : Nat)
    (hr : Reachable cfg o) (hv : (Call.Report ID r "" order).valid o)
    (hq : o.Queue = p :: tail) (he : o.exprs[p]? = some expr)
    (hid : mapGet expr.IdMap ID = some q) :
    ParseFloat (sprintf5 r) = some (round5 r) ∧
    (∀ z : ℤ, |z| < 2 ^ 53 → r = z → round5 r = r) ∧
    ∃ (o' : Orchestrator) (expr' : Expression) (n' : Node),
      PostTaskHandler o ID r "" order = (o', Response.ok) ∧
      o'.exprs[p]? = some expr' ∧ expr'.IdMap = expr.IdMap ∧
      expr'.nodes[q]? = some n' ∧ n'.Value = sprintf5 r ∧
      ParseFloat n'.Value = some (round5 r) ∧
      (∀ (order2 : List Int) (t : Task),
        o'.Queue = p :: tail → (GetTaskHandler o' order2).2 = Response.task t →
        ∃ (k : Nat) (task : Node) (d1 d2 : Nat) (ds : List Nat),
          mapGet expr'.IdMap t.ID = some k ∧ expr'.nodes[k]? = some task ∧
          task.Dependencies = d1 :: d2 :: ds ∧
          (d1 = q → t.Arg1 = round5 r) ∧ (d2 = q → t.Arg2 = round5 r)) ∧
      ((∀ p', p' < expr.nodes.length → p' ≠ q →
          levelOf expr.nodes p' < levelOf expr.nodes q) →
        expr'.Status = ExpressionStatus.StatusDone ∧ expr'.Result = round5 r ∧
        o'.Queue = tail) := by
  have hinv := reachable_inv cfg o hr
  have hexpr : ExprInv expr := hinv.expr_inv _ (List.getElem?_mem he)
  have hqlt : q < expr.nodes.length := idMap_ptr_lt expr hexpr ID q hid
  have hp5 := parseFloat_sprintf5_round5 r hv.1
  obtain ⟨n, hn⟩ : ∃ n, expr.nodes[q]? = some n := ⟨_, List.getElem?_eq_getElem hqlt⟩
  have hnq : (update expr.nodes q (reportNode (sprintf5 r)))[q]? =
      some (reportNode (sprintf5 r) n) := by
    rw [update_getElem?, if_pos rfl, hn]
    rfl
  have hclaim : ∀ (o' : Orchestrator) (expr' : Expression), OrchInv o' →
      o'.exprs[p]? = some expr' →
      expr'.nodes = update expr.nodes q (reportNode (sprintf5 r)) →
      ∀ (order2 : List Int) (t : Task),
        o'.Queue = p :: tail → (GetTaskHandler o' order2).2 = Response.task t →
        ∃ (k : Nat) (task : Node) (d1 d2 : Nat) (ds : List Nat),
          mapGet expr'.IdMap t.ID = some k ∧ expr'.nodes[k]? = some task ∧
          task.Dependencies = d1 :: d2 :: ds ∧
          (d1 = q → t.Arg1 = round5 r) ∧ (d2 = q → t.Arg2 = round5 r) := by
    intro o' expr' ho' hget hnodes order2 t hq' ht
    rcases GetTaskHandler_spec o' order2 ho' p tail expr' hq' hget with
      ⟨-, h2⟩ | ⟨id, k, task, d1, d2, ds, dep1, dep2, a1, a2, -, -, h2, h3, -, -, h6, h7, h8, -,
        -, h11, h12, h13⟩
    · rw [h2] at ht
      cases ht
    · rw [h13] at ht
      simp only [Response.task.injEq] at ht
      subst ht
      refine ⟨k, task, d1, d2, ds, h2, h3, h6, ?_, ?_⟩
      · intro hd
        rw [hd, hnodes, hnq] at h7
        cases h7
        simp only [reportNode] at h11
        rw [hp5] at h11
        exact (Option.some.inj h11).symm
      · intro hd
        rw [hd, hnodes, hnq] at h8
        cases h8
        simp only [reportNode] at h12
        rw [hp5] at h12
        exact (Option.some.inj h12).symm
  refine ⟨hp5, ?_, ?_⟩
  · intro z hz hrz
    rw [hrz]
    exact round5_intCast z hz
  obtain ⟨root, nr, hrlt, hroot, hnr, hcase⟩ := PostTaskHandler_ok_spec o ID r order hinv hv.1
    p tail expr q hq he hid (hv.2 expr (headExpr_eq o p tail expr hq he))
  have htop : (∀ p', p' < expr.nodes.length → p' ≠ q →
      levelOf expr.nodes p' < levelOf expr.nodes q) → root = q := by
    intro hqtop
    by_contra hne
    have h1 := hroot q hqlt (fun h => hne h.symm)
    have h2 := hqtop root hrlt hne
    omega
  rcases hcase with ⟨hdone, o', result, hpost, ho', hres, hqueue, -, hget⟩ |
    ⟨hdone, o', hpost, ho', hqueue, -, hget⟩
  · refine ⟨o', _, reportNode (sprintf5 r) n, hpost, hget, rfl, hnq, rfl, hp5,
      hclaim o' _ ho' hget rfl, fun hqtop => ⟨rfl, ?_, hqueue⟩⟩
    have := htop hqtop
    subst this
    rw [hnq] at hnr
    cases hnr
    simp only [reportNode] at hres
    rw [hp5] at hres
    exact (Option.some.inj hres).symm
  · refine ⟨o', _, reportNode (sprintf5 r) n, hpost, hget, rfl, hnq, rfl, hp5,
      hclaim o' _ ho' hget rfl, fun hqtop => absurd ?_ hdone⟩
    have := htop hqtop
    subst this
    rw [hnq] at hnr
    cases hnr
    rfl

/-- C25, witness: the report of 5 for node 3 of `2+3`, which a Claim has handed
out: the string written parses back to 5. -/
theorem numeric_round_trip_witness : ParseFloat (sprintf5 5) = some 5 := by
  have hf : isFloat64 5 := by simpa using isFloat64_intCast 5 (by norm_num)
  obtain ⟨h1, h2, -⟩ := numeric_round_trip ⟨8080, 100, 100, 100, 100⟩
    (run (NewOrchestrator ⟨8080, 100, 100, 100, 100⟩) [Call.Submit "2+3", Call.Claim [1, 2, 3]]).1
    3 5 [1, 2, 3] 0 []
    ((run (NewOrchestrator ⟨8080, 100, 100, 100, 100⟩)
      [Call.Submit "2+3", Call.Claim [1, 2, 3]]).1.exprs.get ⟨0, by decide!⟩) 2
    (reachable_run _ _ [Call.Submit "2+3", Call.Claim [1, 2, 3]] Reachable.init
      ⟨trivial, valid_claim_of _ _ (by decide!), trivial⟩)
    (valid_report_of _ _ _ _ _ hf (by decide!)) (by decide!) (by decide!) (by decide!)
  rw [h1, h2 5 (by norm_num) (by norm_num)]

/-- C25, counterexample: `1/1048576` is submitted and claimed, and the worker
reports the quotient `2^-20`, a finite float64; Report writes the string
`0.00000`, which parses back to 0, and the expression is done with the result
0. -/
theorem round_trip_loses_digits :
    isFloat64 (1 / 1048576) ∧
    sprintf5 (1 / 1048576) = "0.00000" ∧
    ParseFloat (sprintf5 (1 / 1048576)) = some 0 ∧
    ((run (NewOrchestrator ⟨8080, 100, 100, 100, 100⟩)
        [Call.Submit "1/1048576", Call.Claim [1, 2, 3],
         Call.Report 3 (1 / 1048576) "" [1, 2, 3]]).1.exprs[0]?).map
      (fun e => (e.Status, e.Result)) = some (ExpressionStatus.StatusDone, 0) := by
  refine ⟨⟨1, -20, by norm_num, by norm_num, by norm_num, ?_⟩, by decide!, by decide!, by decide!⟩
  norm_num [zpow_neg]

/-! ## The states of a node -/

theorem nodes_after_write (xs : List Expression) (p j i : Nat) (E e : Expression)
    (s : ExpressionStatus) (he : xs[i]? = some e) :
    ∃ e', (update (xs.set p E) j (fun e => { e with Status := s }))[i]? = some e' ∧
      e'.nodes = if i = p then E.nodes else e.nodes := by
  have hilt := getElem?_lt_of_some _ _ _ he
  have h1 : ∃ e1, (xs.set p E)[i]? = some e1 ∧ e1.nodes = if i = p then E.nodes else e.nodes := by
    rw [List.getElem?_set]
    by_cases hpi : p = i
    · subst hpi
      exact ⟨E, by simp [hilt], by simp⟩
    · exact ⟨e, by simp [hpi, he], by simp [Ne.symm hpi]⟩
  obtain ⟨e1, h1, h2⟩ := h1
  rw [update_getElem?]
  by_cases hij : i = j
  · rw [if_pos hij, h1]
    exact ⟨_, rfl, h2⟩
  · rw [if_neg hij, h1]
    exact ⟨_, rfl, h2⟩

/-- What a call does to the nodes of an expression: nothing, or it is a Claim,
the expression is the head of the queue and one of its operations that waits in
the queue is marked, or it is a Report, the expression is the head of the queue
and the node under the reported id is rewritten. -/
theorem step_nodes (o : Orchestrator) (c : Call) (hinv : OrchInv o) (hv : c.valid o) (i : Nat)
    (e : Expression) (he : o.exprs[i]? = some e) :
    ∃ e', (step o c).1.exprs[i]? = some e' ∧
      (e'.nodes = e.nodes ∨
       (∃ (order : List Int) (q : Nat) (task : Node), c = Call.Claim order ∧
          e.nodes[q]? = some task ∧ task.Typ = NodeType.Operator ∧
          task.Status = NodeStatus.StatusInQueue ∧ e'.nodes = update e.nodes q claimNode) ∨
       (∃ (id : Int) (r : ℚ) (err : String) (order : List Int) (q : Nat),
          c = Call.Report id r err order ∧ headExpr o = some e ∧ mapGet e.IdMap id = some q ∧
          e'.nodes = update e.nodes q (reportNode (sprintf5 r)))) := by
  have hilt := getElem?_lt_of_some _ _ _ he
  cases c with
  | Submit s =>
    simp only [step]
    cases hp : ParseExpression s with
    | error err => rw [CalculateHandler_error o s err hp]; exact ⟨e, he, Or.inl rfl⟩
    | ok dag =>
      rw [CalculateHandler_ok o s dag hp]
      refine ⟨e, ?_, Or.inl rfl⟩
      simp only
      rw [List.getElem?_append_left hilt]
      exact he
  | Claim order =>
    simp only [step]
    cases hq : o.Queue with
    | nil => rw [GetTaskHandler_empty o order hq]; exact ⟨e, he, Or.inl rfl⟩
    | cons p tail =>
      obtain ⟨expr, hexpr, -⟩ := queue_head_expr o hinv p tail hq
      rcases GetTaskHandler_spec o order hinv p tail expr hq hexpr with
        ⟨-, h2⟩ | ⟨id, q, task, d1, d2, ds, dep1, dep2, a1, a2, -, -, -, h3, h4, h5, -, -, -, -,
          -, -, -, h13⟩
      · rw [h2]
        simp only [List.getElem?_set]
        by_cases hpi : p = i
        · subst hpi
          rw [hexpr] at he
          cases he
          exact ⟨{ e with Status := ExpressionStatus.StatusInProgress }, by simp [hilt],
            Or.inl rfl⟩
        · exact ⟨e, by simp [hpi, he], Or.inl rfl⟩
      · rw [h13]
        simp only [List.getElem?_set]
        by_cases hpi : p = i
        · subst hpi
          rw [hexpr] at he
          cases he
          exact ⟨{ e with Status := ExpressionStatus.StatusInProgress,
                          nodes := update e.nodes q claimNode }, by simp [hilt],
            Or.inr (Or.inl ⟨order, q, task, rfl, h3, h4, h5, rfl⟩)⟩
        · exact ⟨e, by simp [hpi, he], Or.inl rfl⟩
  | Report ID Result Error order =>
    simp only [step]
    cases hq : o.Queue with
    | nil => rw [PostTaskHandler_empty o ID Result Error order hq]; exact ⟨e, he, Or.inl rfl⟩
    | cons p tail =>
      obtain ⟨expr, hexpr, -⟩ := queue_head_expr o hinv p tail hq
      cases hid : mapGet expr.IdMap ID with
      | none =>
        rw [PostTaskHandler_unknown o ID Result Error order p tail expr hq hexpr (by simp [hid])]
        exact ⟨e, he, Or.inl rfl⟩
      | some q =>
        have hshape : ∃ (E : Expression) (j : Nat) (s : ExpressionStatus),
            E.nodes = update expr.nodes q (reportNode (sprintf5 Result)) ∧
            (PostTaskHandler o ID Result Error order).1.exprs =
              update (o.exprs.set p E) j (fun e => { e with Status := s }) := by
          by_cases herr : Error = ""
          · subst herr
            obtain ⟨root, nr, -, -, -, hcase⟩ := PostTaskHandler_ok_spec o ID Result order hinv
              hv.1 p tail expr q hq hexpr hid (hv.2 expr (headExpr_eq o p tail expr hq hexpr))
            rcases hcase with ⟨-, o', result, hpost, -, -, -, ⟨j, hj⟩, -⟩ |
              ⟨-, o', hpost, -, -, ⟨j, hj⟩, -⟩
            · rw [hpost]
              exact ⟨_, j, _, rfl, hj⟩
            · rw [hpost]
              exact ⟨_, j, _, rfl, hj⟩
          · obtain ⟨o', hpost, -, -, ⟨j, hj⟩, -⟩ := PostTaskHandler_error_spec o ID Result Error
              order hinv hv.1 p tail expr q hq hexpr hid herr
            rw [hpost]
            exact ⟨_, j, _, rfl, hj⟩
        obtain ⟨E, j, s, hE, hex⟩ := hshape
        obtain ⟨e', he', hn'⟩ := nodes_after_write o.exprs p j i E e s he
        rw [hex]
        refine ⟨e', he', ?_⟩
        by_cases hip : i = p
        · subst hip
          rw [hexpr] at he
          cases he
          rw [if_pos rfl, hE] at hn'
          exact Or.inr (Or.inr ⟨ID, Result, Error, order, q, rfl,
            headExpr_eq o i tail e hq hexpr, hid, hn'⟩)
        · rw [if_neg hip] at hn'
          exact Or.inl hn'

/-- One call in a reachable state, a Report naming a node that is with a
worker: each node stays as it is, or goes from InQueue to AtWorker in a Claim,
or from AtWorker to Done in a Report. -/
theorem node_step (cfg : OrchestratorConfig) (o : Orchestrator) (hr : Reachable cfg o) (c : Call)
    (i : Nat) (e : Expression) (hv : c.valid o) (hc : c.claimed o) (he : o.exprs[i]? = some e) :
    ∃ e', (step o c).1.exprs[i]? = some e' ∧
      ∀ (q : Nat) (n : Node), e.nodes[q]? = some n →
        ∃ n', e'.nodes[q]? = some n' ∧
          (n' = n ∨
           ((∃ order, c = Call.Claim order) ∧ n.Status = NodeStatus.StatusInQueue ∧
             n' = { n with Status := NodeStatus.StatusAtWorker }) ∨
           ((∃ (id : Int) (r : ℚ) (err : String) (order : List Int),
               c = Call.Report id r err order) ∧
             n.Status = NodeStatus.StatusAtWorker ∧ n'.Status = NodeStatus.StatusDone)) ∧
          (n.Typ = NodeType.Number → n' = n) ∧
          (n.Status = NodeStatus.StatusDone → n' = n) := by
  have hinv := reachable_inv cfg o hr
  have hexpr : ExprInv e := hinv.expr_inv _ (List.getElem?_mem he)
  obtain ⟨e', he', hcase⟩ := step_nodes o c hinv hv i e he
  refine ⟨e', he', fun q n hn => ?_⟩
  have hdone := hexpr.done_iff_number q n hn
  rcases hcase with hsame | ⟨order, q0, task, rfl, h1, h2, h3, h4⟩ |
    ⟨id, r, err, order, q0, rfl, h1, h2, h3⟩
  · exact ⟨n, by rw [hsame]; exact hn, Or.inl rfl, fun _ => rfl, fun _ => rfl⟩
  · by_cases hq : q = q0
    · subst hq
      rw [hn] at h1
      cases h1
      refine ⟨claimNode n, by rw [h4, update_getElem?, if_pos rfl, hn]; rfl,
        Or.inr (Or.inl ⟨⟨order, rfl⟩, h3, rfl⟩), fun hnum => ?_, fun hd => ?_⟩
      · rw [hnum] at h2
        cases h2
      · rw [hd] at h3
        cases h3
    · exact ⟨n, by rw [h4, update_getElem?, if_neg hq]; exact hn, Or.inl rfl, fun _ => rfl,
        fun _ => rfl⟩
  · by_cases hq : q = q0
    · subst hq
      have hw : n.Status = NodeStatus.StatusAtWorker := hc e q n h1 h2 hn
      refine ⟨reportNode (sprintf5 r) n, by rw [h3, update_getElem?, if_pos rfl, hn]; rfl,
        Or.inr (Or.inr ⟨⟨id, r, err, order, rfl⟩, hw, rfl⟩), fun hnum => ?_, fun hd => ?_⟩
      · have := hdone.2 hnum
        rw [hw] at this
        cases this
      · rw [hw] at hd
        cases hd
    · exact ⟨n, by rw [h3, update_getElem?, if_neg hq]; exact hn, Or.inl rfl, fun _ => rfl,
        fun _ => rfl⟩

theorem done_stable (cfg : OrchestratorConfig) (calls : List Call) (o : Orchestrator)
    (hr : Reachable cfg o) (i : Nat) (e : Expression) (q : Nat) (n : Node)
    (hv : validRun o calls) (hc : claimedRun o calls) (he : o.exprs[i]? = some e)
    (hn : e.nodes[q]? = some n) (hd : n.Status = NodeStatus.StatusDone) :
    ∃ e', (run o calls).1.exprs[i]? = some e' ∧ e'.nodes[q]? = some n := by
  induction calls generalizing o e with
  | nil => exact ⟨e, he, hn⟩
  | cons c cs ih =>
    obtain ⟨e1, he1, hstep⟩ := node_step cfg o hr c i e hv.1 hc.1 he
    obtain ⟨n1, hn1, -, -, hkeep⟩ := hstep q n hn
    rw [hkeep hd] at hn1
    simp only [run]
    exact ih (step o c).1 (Reachable.next o c hr hv.1) e1 hv.2 hc.2 he1 hn1

/-- C26 as amended. Node state machine: in every sequence of Submit, Claim and
Report calls in which every Report names a node that is with a worker
(AtWorker) when it is received, every change of a node's status after
compilation is either InQueue to AtWorker, made by a Claim, which changes
nothing else of the node, or AtWorker to Done, made by a Report; Number leaves
never change at all, and once a node is Done no later call changes its value,
kind or status. -/
theorem node_state_machine (cfg : OrchestratorConfig) (o : Orchestrator) (hr : Reachable cfg o) :
    (∀ (c : Call) (i : Nat) (e : Expression), c.valid o → c.claimed o → o.exprs[i]? = some e →
      ∃ e', (step o c).1.exprs[i]? = some e' ∧
        ∀ (q : Nat) (n : Node), e.nodes[q]? = some n →
          ∃ n', e'.nodes[q]? = some n' ∧
            (n' = n ∨
             ((∃ order, c = Call.Claim order) ∧ n.Status = NodeStatus.StatusInQueue ∧
               n' = { n with Status := NodeStatus.StatusAtWorker }) ∨
             ((∃ (id : Int) (r : ℚ) (err : String) (order : List Int),
                 c = Call.Report id r err order) ∧
               n.Status = NodeStatus.StatusAtWorker ∧ n'.Status = NodeStatus.StatusDone)) ∧
            (n.Typ = NodeType.Number → n' = n)) ∧
    (∀ (calls : List Call) (i : Nat) (e : Expression) (q : Nat) (n : Node),
      validRun o calls → claimedRun o calls → o.exprs[i]? = some e → e.nodes[q]? = some n →
      n.Status = NodeStatus.StatusDone →
      ∃ e', (run o calls).1.exprs[i]? = some e' ∧ e'.nodes[q]? = some n) := by
  constructor
  · intro c i e hv hc he
    obtain ⟨e', he', hstep⟩ := node_step cfg o hr c i e hv hc he
    refine ⟨e', he', fun q n hn => ?_⟩
    obtain ⟨n', h1, h2, h3, -⟩ := hstep q n hn
    exact ⟨n', h1, h2, h3⟩
  · intro calls i e q n hv hc he hn hd
    exact done_stable cfg calls o hr i e q n hv hc he hn hd

/-- C26, witness: after `2+3` is submitted, the leaf `2` is the same node after
a Claim and the Report of 5 for the node 3 that the Claim has handed out. -/
theorem node_state_machine_witness :
    ∃ e', (run (CalculateHandler (NewOrchestrator ⟨8080, 100, 100, 100, 100⟩) "2+3").1
        [Call.Claim [1, 2, 3], Call.Report 3 5 "" [1, 2, 3]]).1.exprs[0]? = some e' ∧
      e'.nodes[0]? = some ⟨NodeType.Number, "2", [], 0, NodeStatus.StatusDone⟩ := by
  have hf : isFloat64 5 := by simpa using isFloat64_intCast 5 (by norm_num)
  have hhead : headExpr (step (CalculateHandler (NewOrchestrator ⟨8080, 100, 100, 100, 100⟩)
      "2+3").1 (Call.Claim [1, 2, 3])).1 = some ⟨1,
        [⟨NodeType.Number, "2", [], 0, NodeStatus.StatusDone⟩,
         ⟨NodeType.Number, "3", [], 0, NodeStatus.StatusDone⟩,
         ⟨NodeType.Operator, "+", [0, 1], 1, NodeStatus.StatusAtWorker⟩],
        [(1, 0), (2, 1), (3, 2)], ExpressionStatus.StatusInProgress, none, 0⟩ := by decide!
  exact (node_state_machine ⟨8080, 100, 100, 100, 100⟩
    (CalculateHandler (NewOrchestrator ⟨8080, 100, 100, 100, 100⟩) "2+3").1
    (reachable_submit ⟨8080, 100, 100, 100, 100⟩ "2+3")).2
    [Call.Claim [1, 2, 3], Call.Report 3 5 "" [1, 2, 3]] 0
    ((CalculateHandler (NewOrchestrator ⟨8080, 100, 100, 100, 100⟩) "2+3").1.exprs.get
      ⟨0, by decide!⟩) 0 ⟨NodeType.Number, "2", [], 0, NodeStatus.StatusDone⟩
    ⟨valid_claim_of _ _ (by decide!), valid_report_of _ _ _ _ _ hf (by decide!), trivial⟩
    ⟨trivial, by
      intro e q n h1 h2 h3
      rw [hhead] at h1
      cases h1
      have h4 : mapGet [((1 : Int), 0), (2, 1), (3, 2)] 3 = some 2 := by decide
      simp only at h2 h3
      rw [h4] at h2
      cases h2
      simp only [List.getElem?_cons_succ, List.getElem?_cons_zero, Option.some.injEq] at h3
      subst h3
      rfl, trivial⟩
    (by decide!) (by decide!) rfl

/-- C26, counterexample: after `2+3` is submitted, a Report of 7 for the node
id 1 rewrites the Number leaf `2`, which is Done, to `7.00000`, and a Report of
5 for the node id 3, which no Claim has handed out, takes the operation from
InQueue to Done. -/
theorem report_rewrites_leaf :
    ((CalculateHandler (NewOrchestrator ⟨8080, 100, 100, 100, 100⟩) "2+3").1.exprs[0]?).map
        (fun e => e.nodes) =
      some [⟨NodeType.Number, "2", [], 0, NodeStatus.StatusDone⟩,
            ⟨NodeType.Number, "3", [], 0, NodeStatus.StatusDone⟩,
            ⟨NodeType.Operator, "+", [0, 1], 1, NodeStatus.StatusInQueue⟩] ∧
    ((run (NewOrchestrator ⟨8080, 100, 100, 100, 100⟩)
        [Call.Submit "2+3", Call.Report 1 7 "" [1, 2, 3]]).1.exprs[0]?).map
        (fun e => e.nodes) =
      some [⟨NodeType.Number, "7.00000", [], 0, NodeStatus.StatusDone⟩,
            ⟨NodeType.Number, "3", [], 0, NodeStatus.StatusDone⟩,
            ⟨NodeType.Operator, "+", [0, 1], 1, NodeStatus.StatusInQueue⟩] ∧
    ((run (NewOrchestrator ⟨8080, 100, 100, 100, 100⟩)
        [Call.Submit "2+3", Call.Report 3 5 "" [1, 2, 3]]).1.exprs[0]?).map
        (fun e => e.nodes) =
      some [⟨NodeType.Number, "2", [], 0, NodeStatus.StatusDone⟩,
            ⟨NodeType.Number, "3", [], 0, NodeStatus.StatusDone⟩,
            ⟨NodeType.Number, "5.00000", [0, 1], 1, NodeStatus.StatusDone⟩] := by
  refine ⟨by decide!, by decide!, by decide!⟩

/-! ## The inputs that compile -/

/-- C27 as amended. The inputs that are accepted: `ParseExpression` succeeds on
an input exactly when its parentheses are properly nested and the token list
that `toPostfix` emits for it is arity-correct, that is, read as a postfix
expression every operator finds two operands and one value is left; the order
of operands and operators in the input is not checked otherwise. The
juxtaposition `2(3+4)` is rejected, the postfix input `2 3+` and the prefix
input `+2 3` are accepted. -/
theorem accepted_inputs (s : String) :
    ((∃ dag, ParseExpression s = .ok dag) ↔
      properlyNested s = true ∧ ∃ poland, toPostfix s = .ok poland ∧ arityOk poland = true) ∧
    ParseExpression "2(3+4)" = .error "invalid expression: expected 1 root node, got 2" ∧
    (∃ dag, ParseExpression "2 3+" = .ok dag) ∧ (∃ dag, ParseExpression "+2 3" = .ok dag) := by
  refine ⟨⟨?_, ?_⟩, rfl, ⟨_, rfl⟩, ⟨_, rfl⟩⟩
  · rintro ⟨dag, h⟩
    unfold ParseExpression at h
    cases hp : toPostfix s with
    | error e => simp [hp] at h
    | ok poland =>
      simp only [hp] at h
      exact ⟨(toPostfix_ok_iff s).1 ⟨poland, hp⟩, poland, rfl, (createDAG_ok_iff poland).1 ⟨dag, h⟩⟩
  · rintro ⟨-, poland, hp, ha⟩
    obtain ⟨dag, hd⟩ := (createDAG_ok_iff poland).2 ha
    exact ⟨dag, by simp [ParseExpression, hp, hd]⟩

/-- C27, witness: `2+3*4` has no parentheses, its postfix form is
`2 3 4 * +`, and it compiles. -/
theorem accepted_inputs_witness :
    properlyNested "2+3*4" = true ∧ toPostfix "2+3*4" = .ok ["2", "3", "4", "*", "+"] ∧
    arityOk ["2", "3", "4", "*", "+"] = true ∧ ∃ dag, ParseExpression "2+3*4" = .ok dag :=
  ⟨by decide, rfl, by decide!,
    (accepted_inputs "2+3*4").1.2 ⟨by decide, ["2", "3", "4", "*", "+"], rfl, by decide!⟩⟩

/-- C27, counterexample: the postfix input `2 3+` and the prefix input `+2 3`
are accepted, and compile to the graph of `2+3`. -/
theorem postfix_order_accepted :
    ParseExpression "2+3" = .ok
      ⟨[⟨NodeType.Number, "2", [], 0, NodeStatus.StatusCreated⟩,
        ⟨NodeType.Number, "3", [], 0, NodeStatus.StatusCreated⟩,
        ⟨NodeType.Operator, "+", [0, 1], 1, NodeStatus.StatusCreated⟩],
       [(0, [0, 1]), (1, [2])], 1⟩ ∧
    ParseExpression "2 3+" = ParseExpression "2+3" ∧
    ParseExpression "+2 3" = ParseExpression "2+3" :=
  ⟨rfl, rfl, rfl⟩

/-! ## The values of the nodes -/

theorem popToOpen_tokens (s : Stack Char) (out : List String)
    (hs : ∀ op ∈ s, op = '(' ∨ isOperator op = true) (ho : ∀ t ∈ out, isToken t) :
    (∀ op ∈ (popToOpen s out).1, op = '(' ∨ isOperator op = true) ∧
    ∀ t ∈ (popToOpen s out).2, isToken t := by
  induction s generalizing out with
  | nil => exact ⟨by simp [popToOpen], by simpa [popToOpen] using ho⟩
  | cons op rest ih =>
    unfold popToOpen
    have hrest : ∀ x ∈ rest, x = '(' ∨ isOperator x = true :=
      fun x hx => hs x (List.mem_cons_of_mem _ hx)
    by_cases h : op = '('
    · simp only [h, if_true]
      exact ⟨hrest, ho⟩
    · simp only [h, if_false]
      refine ih _ hrest ?_
      intro t ht
      rcases List.mem_append.1 ht with ht | ht
      · exact ho t ht
      · simp only [List.mem_singleton] at ht
        rcases hs op (List.mem_cons_self _ _) with h1 | h1
        · exact absurd h1 h
        · exact Or.inl ⟨op, h1, ht⟩

theorem popHigher_tokens (priority : Nat) (s : Stack Char) (out : List String)
    (hs : ∀ op ∈ s, op = '(' ∨ isOperator op = true) (ho : ∀ t ∈ out, isToken t) :
    (∀ op ∈ (popHigher priority s out).1, op = '(' ∨ isOperator op = true) ∧
    ∀ t ∈ (popHigher priority s out).2, isToken t := by
  induction s generalizing out with
  | nil => exact ⟨by simp [popHigher], by simpa [popHigher] using ho⟩
  | cons op rest ih =>
    unfold popHigher
    have hrest : ∀ x ∈ rest, x = '(' ∨ isOperator x = true :=
      fun x hx => hs x (List.mem_cons_of_mem _ hx)
    split
    · rename_i h
      refine ih _ hrest ?_
      intro t ht
      rcases List.mem_append.1 ht with ht | ht
      · exact ho t ht
      · simp only [List.mem_singleton] at ht
        rcases hs op (List.mem_cons_self _ _) with h1 | h1
        · exact absurd h1 h.1
        · exact Or.inl ⟨op, h1, ht⟩
    · exact ⟨hs, ho⟩

theorem drain_tokens (s : Stack Char) (out r : List String)
    (hs : ∀ op ∈ s, op = '(' ∨ isOperator op = true) (ho : ∀ t ∈ out, isToken t)
    (h : drain s out = .ok r) : ∀ t ∈ r, isToken t := by
  induction s generalizing out with
  | nil =>
    simp only [drain, Except.ok.injEq] at h
    exact h ▸ ho
  | cons op rest ih =>
    unfold drain at h
    by_cases hop : op = '('
    · simp [hop] at h
    · simp only [hop, if_false] at h
      refine ih _ (fun x hx => hs x (List.mem_cons_of_mem _ hx)) ?_ h
      intro t ht
      rcases List.mem_append.1 ht with ht | ht
      · exact ho t ht
      · simp only [List.mem_singleton] at ht
        rcases hs op (List.mem_cons_self _ _) with h1 | h1
        · exact absurd h1 hop
        · exact Or.inl ⟨op, h1, ht⟩

theorem scanInv_flushNum (st : Scan) (h : ScanInv st) : ScanInv (flushNum st) := by
  unfold flushNum
  split
  · rename_i hne
    refine ⟨?_, h.stack, Or.inl rfl⟩
    intro t ht
    rcases List.mem_append.1 ht with ht | ht
    · exact h.output t ht
    · simp only [List.mem_singleton] at ht
      rcases h.curNum with h1 | h1
      · exact absurd h1 hne
      · exact Or.inr (by rw [ht]; exact h1)
  · exact h

theorem isOperator_of_priority (n : Char) (p : Nat) (h : operatorPriority n = some p)
    (h1 : n ≠ '(') (h2 : n ≠ ')') : isOperator n = true := by
  unfold operatorPriority at h
  unfold isOperator
  split_ifs at h <;> simp_all

theorem scanInv_scanRune (st : Scan) (n : Char) (h : ScanInv st) : ScanInv (scanRune st n) := by
  unfold scanRune
  split
  · rename_i hd
    refine ⟨h.output, h.stack, Or.inr ?_⟩
    simp only [Bool.or_eq_true, Bool.and_eq_true, decide_eq_true_eq] at hd
    rcases h.curNum with h0 | ⟨c, rest, hc, hcd, hrest⟩
    · rcases hd with hd | ⟨hne, -⟩
      · have hn : ¬ n = '.' := by
          intro hdot
          rw [hdot] at hd
          revert hd
          decide
        exact ⟨n, [], by simp [h0, hn], hd, by simp⟩
      · exact absurd h0 hne
    · refine ⟨c, rest ++ [if n = '.' then ',' else n], by simp [hc], hcd, ?_⟩
      intro d hd'
      rcases List.mem_append.1 hd' with hd' | hd'
      · exact hrest d hd'
      · simp only [List.mem_singleton] at hd'
        by_cases hdot : n = '.'
        · simp only [hdot, if_true] at hd'
          exact Or.inr hd'
        · simp only [hdot, if_false] at hd'
          rcases hd with hd | ⟨-, hsep | hsep⟩
          · exact Or.inl (hd' ▸ hd)
          · exact absurd hsep hdot
          · exact Or.inr (hd' ▸ hsep)
  · have hf := scanInv_flushNum st h
    simp only
    split
    · exact hf
    · rename_i priority hp
      by_cases ho : n = '('
      · simp only [ho, if_true]
        refine ⟨hf.output, ?_, hf.curNum⟩
        intro op hop
        simp only [Stack.Push, List.mem_cons] at hop
        rcases hop with hop | hop
        · exact Or.inl hop
        · exact hf.stack op hop
      · simp only [ho, if_false]
        by_cases hcl : n = ')'
        · simp only [hcl, if_true]
          obtain ⟨h1, h2⟩ := popToOpen_tokens _ _ hf.stack hf.output
          exact ⟨h2, h1, hf.curNum⟩
        · simp only [hcl, if_false]
          obtain ⟨h1, h2⟩ := popHigher_tokens priority _ _ hf.stack hf.output
          refine ⟨h2, ?_, hf.curNum⟩
          intro op hop
          simp only [Stack.Push, List.mem_cons] at hop
          rcases hop with hop | hop
          · exact Or.inr (hop ▸ isOperator_of_priority n priority hp ho hcl)
          · exact h1 op hop

theorem scanInv_foldl (cs : List Char) (st : Scan) (h : ScanInv st) :
    ScanInv (cs.foldl scanRune st) := by
  induction cs generalizing st with
  | nil => exact h
  | cons c cs ih => exact ih _ (scanInv_scanRune st c h)

/-- Every token `toPostfix` emits is an operator character or a number
token. -/
theorem toPostfix_tokens (s : String) (poland : List String) (h : toPostfix s = .ok poland) :
    ∀ t ∈ poland, isToken t := by
  unfold toPostfix at h
  have hinv : ScanInv (flushNum (s.data.foldl scanRune ⟨[], NewStack, [], 0⟩)) :=
    scanInv_flushNum _ (scanInv_foldl _ _ ⟨by simp, by simp [NewStack], Or.inl rfl⟩)
  simp only at h
  split at h
  · cases h
  · exact drain_tokens _ _ _ hinv.stack hinv.output h

theorem buildToken_values (Q : String → Prop) (st st1 : Build) (t : String)
    (h : buildToken st t = .ok st1) (hq : Q t) (hst : ∀ n ∈ st.nodes, Q n.Value) :
    ∀ n ∈ st1.nodes, Q n.Value := by
  unfold buildToken at h
  split at h
  · simp only [Except.ok.injEq] at h
    subst h
    intro n hn
    rcases List.mem_append.1 hn with hn | hn
    · exact hst n hn
    · simp only [List.mem_singleton] at hn
      rw [hn]
      exact hq
  · split at h
    · cases h
    · split at h
      · cases h
      · simp only [Except.ok.injEq] at h
        subst h
        intro n hn
        rcases List.mem_append.1 hn with hn | hn
        · exact hst n hn
        · simp only [List.mem_singleton] at hn
          rw [hn]
          exact hq

theorem buildTokens_values (Q : String → Prop) (ts : List String) (st st1 : Build)
    (h : buildTokens ts st = .ok st1) (hq : ∀ t ∈ ts, Q t) (hst : ∀ n ∈ st.nodes, Q n.Value) :
    ∀ n ∈ st1.nodes, Q n.Value := by
  induction ts generalizing st with
  | nil =>
    simp only [buildTokens, Except.ok.injEq] at h
    exact h ▸ hst
  | cons t ts ih =>
    unfold buildTokens at h
    cases hb : buildToken st t with
    | error e => simp [hb] at h
    | ok st2 =>
      simp only [hb] at h
      exact ih st2 h (fun x hx => hq x (List.mem_cons_of_mem _ hx))
        (buildToken_values Q st st2 t hb (hq t (List.mem_cons_self _ _)) hst)

/-- C28 as amended. Node values: for every input on which `ParseExpression`
succeeds, the value of every Number node is a number token that parses as a
number, and the value of every Operator node is a token that does not parse as
a number: one of the four operator symbols `+`, `-`, `*`, `/`, or a number
token (a digit followed by digits and commas) that `strconv.ParseFloat`
rejects. -/
theorem node_values (s : String) (dag : DAG) (h : ParseExpression s = .ok dag) :
    ∀ n ∈ dag.nodes,
      (n.Typ = NodeType.Number →
        (ParseFloat n.Value).isSome = true ∧ isNumToken n.Value.data) ∧
      (n.Typ = NodeType.Operator → ParseFloat n.Value = none ∧
        (n.Value = "+" ∨ n.Value = "-" ∨ n.Value = "*" ∨ n.Value = "/" ∨
          isNumToken n.Value.data)) := by
  obtain ⟨poland, hp, hc⟩ := parseExpression_createDAG s dag h
  obtain ⟨st, root, hinv, hst, -, hdag⟩ := createDAG_ok poland dag hc
  have htok := buildTokens_values isToken poland _ st hst (toPostfix_tokens s poland hp)
    (by simp)
  have hsym : ∀ t : String, (∃ op : Char, isOperator op = true ∧ t = String.singleton op) →
      (t = "+" ∨ t = "-" ∨ t = "*" ∨ t = "/") ∧ ParseFloat t = none := by
    rintro t ⟨op, hop, rfl⟩
    rcases isOperator_cases op hop with ⟨rfl, -⟩ | ⟨rfl, -⟩ | ⟨rfl, -⟩ | ⟨rfl, -⟩
    · exact ⟨Or.inl rfl, parseFloat_operator.1⟩
    · exact ⟨Or.inr (Or.inl rfl), parseFloat_operator.2.1⟩
    · exact ⟨Or.inr (Or.inr (Or.inl rfl)), parseFloat_operator.2.2.1⟩
    · exact ⟨Or.inr (Or.inr (Or.inr rfl)), parseFloat_operator.2.2.2⟩
  intro n hn
  rw [hdag] at hn
  simp only at hn
  obtain ⟨p, hp'⟩ := List.getElem?_of_mem hn
  obtain ⟨-, hbuilt⟩ := hinv.node_ok p n hp'
  have ht := htok n hn
  constructor
  · intro hnum
    rcases hbuilt with ⟨-, -, -, hsome⟩ | ⟨hop, -⟩
    · refine ⟨hsome, ?_⟩
      rcases ht with ht | ht
      · rw [(hsym _ ht).2] at hsome
        cases hsome
      · exact ht
    · rw [hnum] at hop
      cases hop
  · intro hop
    rcases hbuilt with ⟨hnum, -⟩ | ⟨-, hnone, -⟩
    · rw [hop] at hnum
      cases hnum
    · refine ⟨hnone, ?_⟩
      rcases ht with ht | ht
      · rcases (hsym _ ht).1 with h1 | h1 | h1 | h1
        · exact Or.inl h1
        · exact Or.inr (Or.inl h1)
        · exact Or.inr (Or.inr (Or.inl h1))
        · exact Or.inr (Or.inr (Or.inr (Or.inl h1)))
      · exact Or.inr (Or.inr (Or.inr (Or.inr ht)))

/-- C28, witness: the nodes of `2+3`: the leaf `2` parses as a number and the
operation is `+`. -/
theorem node_values_witness :
    (ParseFloat "2").isSome = true ∧ ParseFloat "+" = none := by
  have hp : ParseExpression "2+3" = .ok
      ⟨[⟨NodeType.Number, "2", [], 0, NodeStatus.StatusCreated⟩,
        ⟨NodeType.Number, "3", [], 0, NodeStatus.StatusCreated⟩,
        ⟨NodeType.Operator, "+", [0, 1], 1, NodeStatus.StatusCreated⟩],
       [(0, [0, 1]), (1, [2])], 1⟩ := rfl
  have h := node_values "2+3" _ hp
  exact ⟨((h ⟨NodeType.Number, "2", [], 0, NodeStatus.StatusCreated⟩ (by simp)).1 rfl).1,
    ((h ⟨NodeType.Operator, "+", [0, 1], 1, NodeStatus.StatusCreated⟩ (by simp)).2 rfl).1⟩

/-- C28, counterexample: the input `1 2 d`, where `d` is the Devanagari digit
three (U+0969), a digit for `unicode.IsDigit` that `strconv.ParseFloat` does
not read, compiles, and its one Operator node has the value `d`, which is none
of the four operator symbols; the task a Claim hands out for it carries the
operation `d`. -/
theorem operator_node_with_number_token :
    ParseExpression (String.mk ['1', ' ', '2', ' ', Char.ofNat 0x969]) = .ok
      ⟨[⟨NodeType.Number, "1", [], 0, NodeStatus.StatusCreated⟩,
        ⟨NodeType.Number, "2", [], 0, NodeStatus.StatusCreated⟩,
        ⟨NodeType.Operator, String.mk [Char.ofNat 0x969], [0, 1], 1, NodeStatus.StatusCreated⟩],
       [(0, [0, 1]), (1, [2])], 1⟩ ∧
    String.mk [Char.ofNat 0x969] ≠ "+" ∧ String.mk [Char.ofNat 0x969] ≠ "-" ∧
    String.mk [Char.ofNat 0x969] ≠ "*" ∧ String.mk [Char.ofNat 0x969] ≠ "/" ∧
    (match (GetTaskHandler (CalculateHandler (NewOrchestrator ⟨8080, 100, 100, 100, 100⟩)
        (String.mk ['1', ' ', '2', ' ', Char.ofNat 0x969])).1 [1, 2, 3]).2 with
      | Response.task t => some (t.ID, t.Operation)
      | _ => none) = some (3, String.mk [Char.ofNat 0x969]) := by
  refine ⟨rfl, by decide, by decide, by decide, by decide, ?_⟩
  decide!

/-! ## The parser never faults -/

theorem popToOpenC_eq (k : Nat) (s : Stack Char) (out : List String) (h : s.length < k) :
    popToOpenC k s out = Outcome.done (popToOpen s out) := by
  induction s generalizing k out with
  | nil =>
    cases k with
    | zero => simp at h
    | succ k => simp [popToOpenC, popToOpen, Stack.IsEmpty]
  | cons op rest ih =>
    cases k with
    | zero => simp at h
    | succ k =>
      simp only [popToOpenC, popToOpen, Stack.IsEmpty, List.isEmpty_cons, Bool.false_eq_true,
        if_false, Stack.Pop]
      by_cases hop : op = '('
      · simp [hop]
      · simp only [hop, if_false]
        exact ih k _ (by simpa using h)

theorem popHigherC_eq (priority k : Nat) (s : Stack Char) (out : List String)
    (h : s.length < k) : popHigherC priority k s out = Outcome.done (popHigher priority s out) := by
  induction s generalizing k out with
  | nil =>
    cases k with
    | zero => simp at h
    | succ k => simp [popHigherC, popHigher, Stack.IsEmpty]
  | cons op rest ih =>
    cases k with
    | zero => simp at h
    | succ k =>
      simp only [popHigherC, popHigher, Stack.IsEmpty, List.isEmpty_cons, Bool.false_eq_true,
        if_false, Stack.Peek, Stack.Pop]
      split
      · exact ih k _ (by simpa using h)
      · rfl

theorem drainC_eq (k : Nat) (s : Stack Char) (out : List String) (h : s.length < k) :
    drainC k s out = Outcome.done (drain s out) := by
  induction s generalizing k out with
  | nil =>
    cases k with
    | zero => simp at h
    | succ k => simp [drainC, drain, Stack.IsEmpty]
  | cons op rest ih =>
    cases k with
    | zero => simp at h
    | succ k =>
      simp only [drainC, drain, Stack.IsEmpty, List.isEmpty_cons, Bool.false_eq_true,
        if_false, Stack.Pop]
      by_cases hop : op = '('
      · simp [hop]
      · simp only [hop, if_false]
        exact ih k _ (by simpa using h)

theorem scanRuneC_eq (st : Scan) (n : Char) : scanRuneC st n = Outcome.done (scanRune st n) := by
  unfold scanRuneC scanRune
  by_cases hd : (unicodeIsDigit n ||
      (decide (st.curNum ≠ []) && (decide (n = '.') || decide (n = ',')))) = true
  · rw [if_pos hd, if_pos hd]
  · rw [if_neg hd, if_neg hd]
    cases hp : operatorPriority n with
    | none => rfl
    | some priority =>
      simp only
      by_cases ho : n = '('
      · rw [if_pos ho, if_pos ho]
      · rw [if_neg ho, if_neg ho]
        by_cases hc : n = ')'
        · rw [if_pos hc, if_pos hc, popToOpenC_eq _ _ _ (by simp [Stack.Len])]
          rfl
        · rw [if_neg hc, if_neg hc, popHigherC_eq _ _ _ _ (by simp [Stack.Len])]
          rfl

theorem scanC_eq (cs : List Char) (st : Scan) :
    scanC cs st = Outcome.done (cs.foldl scanRune st) := by
  induction cs generalizing st with
  | nil => rfl
  | cons c cs ih =>
    simp only [scanC, scanRuneC_eq, Outcome.bind, List.foldl_cons]
    exact ih _

/-- The scan of `toPostfix` returns, without a fault. -/
theorem toPostfixC_eq (s : String) : toPostfixC s = Outcome.done (toPostfix s) := by
  unfold toPostfixC toPostfix
  simp only [scanC_eq, Outcome.bind]
  split
  · rfl
  · exact drainC_eq _ _ _ (by simp [Stack.Len])

theorem buildTokenC_eq (st : Build) (t : String) (h : ∀ p ∈ st.dagStack, p < st.nodes.length) :
    buildTokenC st t = Outcome.done (buildToken st t) := by
  unfold buildTokenC buildToken
  split
  · rfl
  · match hs : st.dagStack with
    | [] => simp [Stack.Pop]
    | [r] => simp [Stack.Pop]
    | r :: l :: rest =>
      have hr : r < st.nodes.length := h r (by rw [hs]; simp)
      have hl : l < st.nodes.length := h l (by rw [hs]; simp)
      simp only [Stack.Pop, levelC, levelOf, List.getElem?_eq_getElem hr,
        List.getElem?_eq_getElem hl, Outcome.bind]

theorem buildTokensC_eq (ts : List String) (st : Build) (h : BuildInv st) :
    buildTokensC ts st = Outcome.done (buildTokens ts st) := by
  induction ts generalizing st with
  | nil => rfl
  | cons t ts ih =>
    simp only [buildTokensC, buildTokens, buildTokenC_eq st t h.stack_lt, Outcome.bind]
    cases hb : buildToken st t with
    | error e => rfl
    | ok st1 => exact ih st1 (buildToken_inv st st1 t h hb)

theorem createDAGC_eq (poland : List String) :
    createDAGC poland = Outcome.done (createDAG poland) := by
  unfold createDAGC createDAG
  rw [buildTokensC_eq _ _ buildInv_init]
  simp only [Outcome.bind]
  cases buildTokens poland ⟨[], NewStack, [], 0⟩ with
  | error e => rfl
  | ok st =>
    simp only
    split <;> rfl

/-- C29. `ParseExpression` is total: for every input string the run of the
parser with its stack operations spelled out returns, a level map or an error:
it does not fault (no `Stack.Peek` on an empty stack, no popped value used
from an empty stack, no read through a missing pointer) and no loop uses up
its bound; what it returns is the result of `ParseExpression`. -/
theorem parse_total (s : String) :
    ParseExpressionC s = Outcome.done (ParseExpression s) ∧
    ((∃ dag, ParseExpression s = .ok dag) ∨ ∃ e, ParseExpression s = .error e) := by
  constructor
  · unfold ParseExpressionC ParseExpression
    rw [toPostfixC_eq]
    simp only [Outcome.bind]
    cases toPostfix s with
    | error e => rfl
    | ok poland => exact createDAGC_eq poland
  · cases ParseExpression s with
    | error e => exact Or.inr ⟨e, rfl⟩
    | ok dag => exact Or.inl ⟨dag, rfl⟩

/-- The run of the parser on the empty string, a stray operator, unmatched
brackets and characters that are neither digits nor operators: each returns an
error. -/
theorem parse_total_examples :
    ParseExpressionC "" =
      Outcome.done (.error "invalid expression: expected 1 root node, got 0") ∧
    ParseExpressionC "+" = Outcome.done (.error "stack.pop not ok") ∧
    ParseExpressionC ")" = Outcome.done (.error "brackets aren't balanced") ∧
    ParseExpressionC "(2" = Outcome.done (.error "brackets aren't balanced") ∧
    ParseExpressionC ")(" = Outcome.done (.error "mismatched brackets") ∧
    ParseExpressionC "a?b" =
      Outcome.done (.error "invalid expression: expected 1 root node, got 0") :=
  ⟨rfl, rfl, rfl, rfl, rfl, rfl⟩

/-! ## Lock order -/

/-- Every run of `GetTaskHandler` keeps the order queue, then expression. -/
theorem GetTaskHandler_queue_first (o : Orchestrator) :
    queueFirst (GetTaskHandlerLocks o) [] = true := by
  unfold GetTaskHandlerLocks
  split
  · rfl
  · split
    · rfl
    · simp [queueFirst, Mutex.isExpression]

/-- A run of `PostTaskHandler` that reports an error for a node of the head
expression locks the queue while it holds the expression. -/
theorem PostTaskHandler_error_inverts (o : Orchestrator) (ID : Int) (Result : ℚ)
    (Error : String) (order : List Int) (p : Nat) (tail : List Nat) (expr : Expression) (q : Nat)
    (hq : o.Queue = p :: tail) (he : o.exprs[p]? = some expr)
    (hid : mapGet expr.IdMap ID = some q) (hqlt : q < expr.nodes.length) (herr : Error ≠ "") :
    queueFirst (PostTaskHandlerLocks o ID Result Error order) [] = false := by
  unfold PostTaskHandlerLocks
  simp [hq, he, hid, hqlt, herr, queueFirst, Mutex.isExpression]

/-- C30, on the code: after `2+3` is submitted and its task claimed, a run of
`GetTaskHandler` locks the queue, then the expression; a run of
`PostTaskHandler` for the result 5 of the task 3 locks the expression and,
holding it, locks the queue (handlers.go:278, 379), against the order queue,
then expression; and let the run of `PostTaskHandler` go on until it holds the
expression and waits for the queue, then the run of `GetTaskHandler` lock the
queue: each waits for the mutex the other holds. -/
theorem lock_order_inverted :
    GetTaskHandlerLocks
        (run (NewOrchestrator ⟨8080, 100, 100, 100, 100⟩)
          [Call.Submit "2+3", Call.Claim [1, 2, 3]]).1 =
      [LockOp.Lock Mutex.queue, LockOp.Lock (Mutex.expression 0),
       LockOp.Unlock (Mutex.expression 0), LockOp.Unlock Mutex.queue] ∧
    PostTaskHandlerLocks
        (run (NewOrchestrator ⟨8080, 100, 100, 100, 100⟩)
          [Call.Submit "2+3", Call.Claim [1, 2, 3]]).1 3 5 "" [1, 2, 3] =
      [LockOp.Lock Mutex.queue, LockOp.Unlock Mutex.queue, LockOp.Lock (Mutex.expression 0),
       LockOp.Lock Mutex.dataBase, LockOp.Unlock Mutex.dataBase,
       LockOp.Lock Mutex.queue, LockOp.Unlock Mutex.queue,
       LockOp.Unlock (Mutex.expression 0)] ∧
    queueFirst
        (PostTaskHandlerLocks
          (run (NewOrchestrator ⟨8080, 100, 100, 100, 100⟩)
            [Call.Submit "2+3", Call.Claim [1, 2, 3]]).1 3 5 "" [1, 2, 3]) [] = false ∧
    interleave [true, true, true, true, true, false]
        ⟨GetTaskHandlerLocks
          (run (NewOrchestrator ⟨8080, 100, 100, 100, 100⟩)
            [Call.Submit "2+3", Call.Claim [1, 2, 3]]).1, [],
         PostTaskHandlerLocks
          (run (NewOrchestrator ⟨8080, 100, 100, 100, 100⟩)
            [Call.Submit "2+3", Call.Claim [1, 2, 3]]).1 3 5 "" [1, 2, 3], []⟩ =
      some ⟨[LockOp.Lock (Mutex.expression 0), LockOp.Unlock (Mutex.expression 0),
             LockOp.Unlock Mutex.queue], [Mutex.queue],
            [LockOp.Lock Mutex.queue, LockOp.Unlock Mutex.queue,
             LockOp.Unlock (Mutex.expression 0)], [Mutex.expression 0]⟩ ∧
    deadlocked
      ⟨[LockOp.Lock (Mutex.expression 0), LockOp.Unlock (Mutex.expression 0),
        LockOp.Unlock Mutex.queue], [Mutex.queue],
       [LockOp.Lock Mutex.queue, LockOp.Unlock Mutex.queue,
        LockOp.Unlock (Mutex.expression 0)], [Mutex.expression 0]⟩ = true := by
  have h1 : GetTaskHandlerLocks
        (run (NewOrchestrator ⟨8080, 100, 100, 100, 100⟩)
          [Call.Submit "2+3", Call.Claim [1, 2, 3]]).1 =
      [LockOp.Lock Mutex.queue, LockOp.Lock (Mutex.expression 0),
       LockOp.Unlock (Mutex.expression 0), LockOp.Unlock Mutex.queue] := by decide!
  have h2 : PostTaskHandlerLocks
        (run (NewOrchestrator ⟨8080, 100, 100, 100, 100⟩)
          [Call.Submit "2+3", Call.Claim [1, 2, 3]]).1 3 5 "" [1, 2, 3] =
      [LockOp.Lock Mutex.queue, LockOp.Unlock Mutex.queue, LockOp.Lock (Mutex.expression 0),
       LockOp.Lock Mutex.dataBase, LockOp.Unlock Mutex.dataBase,
       LockOp.Lock Mutex.queue, LockOp.Unlock Mutex.queue,
       LockOp.Unlock (Mutex.expression 0)] := by decide!
  refine ⟨h1, h2, ?_, ?_, by decide⟩
  · rw [h2]; decide
  · rw [h1, h2]; decide

end Calc
